import Mathlib

/-!
# The drizzle resampling engine (`src/cdrizzlebox.c`)

A shallow embedding of the flux updater `update_data`, the geometry
primitives `sgarea`, `boxer`, `over` and the kernel drivers, with theorems
about them.

## Conventions of the embedding

* C `double` and `float` values are modelled by `Dbl`: an exact rational, or
  one of the IEEE special values `+inf`, `-inf`, `NaN`.  Finite arithmetic is
  exact (no rounding, no overflow); the special values follow IEEE 754:
  `x / 0` is `+inf` or `-inf` for `x ≠ 0` and `NaN` for `x = 0`,
  `inf - inf` and `0 * inf` are `NaN`, every comparison with `NaN` is false.
  Zero is unsigned (it behaves as `+0`).
* `integer_t` and `int` are modelled by `Int`; the image sizes involved are
  far below `2^31`, so no wrap-around is modelled for pixel indices and
  counters.  The context word is a 32-bit word (`Nat` below `2^32`).
* `assert` is compiled out (the extension is built with `NDEBUG`), so the
  functions below give the value the C function computes; the condition of
  the assertion in `sgarea` is the separate definition `sgarea_assert_ok`.
* A C function returning `int` and writing through `p` is a function to
  `Int × driz_param_t`.
-/

/-- A C floating-point value in exact arithmetic: a rational or an IEEE
special value. -/
inductive Dbl where
  | fin (q : ℚ)
  | pinf
  | ninf
  | nan
  deriving DecidableEq

namespace Dbl

/-- Unary minus. -/
def neg : Dbl → Dbl
  | fin q => fin (-q)
  | pinf => ninf
  | ninf => pinf
  | nan => nan

/-- IEEE addition, exact on finite values. -/
def add : Dbl → Dbl → Dbl
  | fin a, fin b => fin (a + b)
  | fin _, pinf => pinf
  | fin _, ninf => ninf
  | pinf, fin _ => pinf
  | pinf, pinf => pinf
  | ninf, fin _ => ninf
  | ninf, ninf => ninf
  | _, _ => nan

/-- IEEE subtraction. -/
def sub (a b : Dbl) : Dbl := add a (neg b)

/-- The infinity carrying the sign of a rational, `NaN` for zero. -/
def signedInf (q : ℚ) : Dbl :=
  if 0 < q then pinf else if q < 0 then ninf else nan

/-- IEEE multiplication, exact on finite values. -/
def mul : Dbl → Dbl → Dbl
  | fin a, fin b => fin (a * b)
  | fin a, pinf => signedInf a
  | fin a, ninf => signedInf (-a)
  | pinf, fin b => signedInf b
  | ninf, fin b => signedInf (-b)
  | pinf, pinf => pinf
  | pinf, ninf => ninf
  | ninf, pinf => ninf
  | ninf, ninf => pinf
  | _, _ => nan

/-- IEEE division, exact on finite values; the zero divisor is `+0`. -/
def div : Dbl → Dbl → Dbl
  | fin a, fin b => if b = 0 then signedInf a else fin (a / b)
  | fin _, pinf => fin 0
  | fin _, ninf => fin 0
  | pinf, fin b => if 0 ≤ b then pinf else ninf
  | ninf, fin b => if 0 ≤ b then ninf else pinf
  | _, _ => nan

/-- C `a < b`. -/
def lt : Dbl → Dbl → Bool
  | fin a, fin b => decide (a < b)
  | fin _, pinf => true
  | ninf, fin _ => true
  | ninf, pinf => true
  | _, _ => false

/-- C `a <= b`. -/
def le : Dbl → Dbl → Bool
  | fin a, fin b => decide (a ≤ b)
  | fin _, pinf => true
  | ninf, fin _ => true
  | ninf, pinf => true
  | pinf, pinf => true
  | ninf, ninf => true
  | _, _ => false

/-- C `a > b`. -/
def gt (a b : Dbl) : Bool := lt b a

/-- C `a >= b`. -/
def ge (a b : Dbl) : Bool := le b a

/-- C `a == b` (false when either side is `NaN`). -/
def feq : Dbl → Dbl → Bool
  | fin a, fin b => decide (a = b)
  | pinf, pinf => true
  | ninf, ninf => true
  | _, _ => false

/-- Whether the value is finite (`isfinite`). -/
def isFinite : Dbl → Bool
  | fin _ => true
  | _ => false

/-- The conversion `(double) i` of an integer. -/
def ofInt (i : Int) : Dbl := fin (i : ℚ)

instance : Neg Dbl := ⟨neg⟩
instance : Add Dbl := ⟨add⟩
instance : Sub Dbl := ⟨sub⟩
instance : Mul Dbl := ⟨mul⟩
instance : Div Dbl := ⟨div⟩
instance : Inhabited Dbl := ⟨fin 0⟩

end Dbl

/-- Modelled from the spec: the `MAX(a, b)` macro of `cdrizzleutil.h` (not
under `src/`), the usual `a > b ? a : b`. -/
def MAX (a b : Dbl) : Dbl := if Dbl.gt a b then a else b

/-- Modelled from the spec: the `MIN(a, b)` macro of `cdrizzleutil.h` (not
under `src/`), the usual `a < b ? a : b`. -/
def MIN (a b : Dbl) : Dbl := if Dbl.lt a b then a else b

/-- A two-dimensional image plane: `nx` columns, `ny` rows and the pixel
values, addressed `(x, y)` as by `get_pixel(image, x, y)`. -/
structure Plane where
  nx : Nat
  ny : Nat
  val : Int → Int → Dbl

/-- Modelled from the spec: `oob_pixel` of `cdrizzleutil.h` (not under
`src/`): the pixel `(x, y)` lies outside the plane. -/
def oob_pixel (img : Plane) (x y : Int) : Bool :=
  decide (x < 0) || decide ((img.nx : Int) ≤ x) || decide (y < 0) || decide ((img.ny : Int) ≤ y)

/-- Modelled from the spec: `get_pixel` of `cdrizzleutil.h` (not under
`src/`). -/
def get_pixel (img : Plane) (x y : Int) : Dbl := img.val x y

/-- Modelled from the spec: `set_pixel` of `cdrizzleutil.h` (not under
`src/`): store one pixel, every other pixel keeps its value. -/
def set_pixel (img : Plane) (x y : Int) (v : Dbl) : Plane :=
  { img with val := fun a b => if a = x ∧ b = y then v else img.val a b }

/-- A context plane: 32-bit words addressed `(x, y)`. -/
structure CtxPlane where
  nx : Nat
  ny : Nat
  word : Int → Int → Nat

/-- Modelled from the spec: `set_bit` of `cdrizzleutil.h` (not under `src/`):
OR the bit value into the context word at `(x, y)`. -/
def set_bit (img : CtxPlane) (x y : Int) (bv : Nat) : CtxPlane :=
  { img with word := fun a b => if a = x ∧ b = y then img.word a b ||| bv else img.word a b }

/-- The parameter bundle `struct driz_param_t` (the fields the engine uses).
`pixmap x y` is the pair stored for source pixel `(x, y)`; `error` is the
message held by the error sink, `none` when it is not set. -/
structure driz_param_t where
  kernel : Nat
  pixel_fraction : Dbl
  scale : Dbl
  weight_scale : Dbl
  uuid : Int
  xmin : Int
  xmax : Int
  ymin : Int
  ymax : Int
  data : Plane
  weights : Option Plane
  pixmap : Int → Int → Dbl × Dbl
  output_data : Plane
  output_counts : Plane
  output_context : Option CtxPlane
  nmiss : Int
  nskip : Int
  error : Option String

/-- Modelled from the spec: `driz_error_format_message` with the format
`"OOB in output_data[%d,%d]"`. -/
def oob_data_message (ii jj : Int) : String :=
  "OOB in output_data[" ++ toString ii ++ "," ++ toString jj ++ "]"

/-- Modelled from the spec: `driz_error_format_message` with the format
`"OOB in output_counts[%d,%d]"`. -/
def oob_counts_message (ii jj : Int) : String :=
  "OOB in output_counts[" ++ toString ii ++ "," ++ toString jj ++ "]"

/-- `update_data` (cdrizzlebox.c, lines 25-65): merge the contribution
`(d, dow)` into the running weighted mean at `(ii, jj)`; `vc` is the previous
value of the counts.  Returns the C return value and the updated bundle. -/
def update_data (p : driz_param_t) (ii jj : Int) (d vc dow : Dbl) : Int × driz_param_t :=
  if Dbl.feq dow (Dbl.fin 0) then (0, p)
  else
    let vc_plus_dow := vc + dow
    if Dbl.feq vc (Dbl.fin 0) then
      if oob_pixel p.output_data ii jj then
        (1, { p with error := some (oob_data_message ii jj) })
      else
        let p1 := { p with output_data := set_pixel p.output_data ii jj d }
        if oob_pixel p1.output_counts ii jj then
          (1, { p1 with error := some (oob_counts_message ii jj) })
        else
          (0, { p1 with output_counts := set_pixel p1.output_counts ii jj vc_plus_dow })
    else
      if oob_pixel p.output_data ii jj then
        (1, { p with error := some (oob_data_message ii jj) })
      else
        let value := (get_pixel p.output_data ii jj * vc + dow * d) / vc_plus_dow
        let p1 := { p with output_data := set_pixel p.output_data ii jj value }
        if oob_pixel p1.output_counts ii jj then
          (1, { p1 with error := some (oob_counts_message ii jj) })
        else
          (0, { p1 with output_counts := set_pixel p1.output_counts ii jj vc_plus_dow })

/-- `compute_bit_value` (cdrizzlebox.c, lines 73-83): the bit of the context
word that stands for input image `uuid`.  The C division truncates; the
shifted `1` is kept as a 32-bit word. -/
def compute_bit_value (uuid : Int) : Nat :=
  let np := Int.tdiv (uuid - 1) 32 + 1
  let bit_no := uuid - 1 - 32 * (np - 1)
  (1 <<< bit_no.toNat) % 2 ^ 32

/-- `sgarea` (cdrizzlebox.c, lines 90-160): the signed area under one edge of
the polygon inside the unit square at the origin. -/
def sgarea (x1 y1 x2 y2 : Dbl) (sgn_dx : Int) (slope inv_slope : Dbl) : Dbl :=
  if Dbl.feq inv_slope (Dbl.fin 0) then Dbl.fin 0
  else
    let xlo := if sgn_dx < 0 then x2 else x1
    let xhi := if sgn_dx < 0 then x1 else x2
    if Dbl.ge xlo (Dbl.fin 1) || Dbl.le xhi (Dbl.fin 0) then Dbl.fin 0
    else
      let xlo := MAX xlo (Dbl.fin 0)
      let xhi := MIN xhi (Dbl.fin 1)
      let c := y1 - slope * x1
      let ylo := slope * xlo + c
      let yhi := slope * xhi + c
      if Dbl.le ylo (Dbl.fin 0) && Dbl.le yhi (Dbl.fin 0) then Dbl.fin 0
      else if Dbl.ge ylo (Dbl.fin 1) && Dbl.ge yhi (Dbl.fin 1) then
        Dbl.ofInt sgn_dx * (xhi - xlo)
      else
        let lo_below := Dbl.lt ylo (Dbl.fin 0)
        let xlo := if lo_below then (-c) * inv_slope else xlo
        let ylo := if lo_below then Dbl.fin 0 else ylo
        let hi_below := Dbl.lt yhi (Dbl.fin 0)
        let xhi := if hi_below then (-c) * inv_slope else xhi
        let yhi := if hi_below then Dbl.fin 0 else yhi
        if Dbl.le ylo (Dbl.fin 1) then
          if Dbl.le yhi (Dbl.fin 1) then
            Dbl.ofInt sgn_dx * Dbl.fin (1 / 2) * (xhi - xlo) * (yhi + ylo)
          else
            let xtop := (Dbl.fin 1 - c) * inv_slope
            Dbl.ofInt sgn_dx * (Dbl.fin (1 / 2) * (xtop - xlo) * (Dbl.fin 1 + ylo) + xhi - xtop)
        else
          let xtop := (Dbl.fin 1 - c) * inv_slope
          Dbl.ofInt sgn_dx * (Dbl.fin (1 / 2) * (xhi - xtop) * (Dbl.fin 1 + yhi) + xtop - xlo)

/-- The condition of `assert(slope != 0.0)` in `sgarea` (line 115): true when
the assertion is not reached or holds when reached. -/
def sgarea_assert_ok (x1 x2 : Dbl) (sgn_dx : Int) (slope inv_slope : Dbl) : Bool :=
  if Dbl.feq inv_slope (Dbl.fin 0) then true
  else
    let xlo := if sgn_dx < 0 then x2 else x1
    let xhi := if sgn_dx < 0 then x1 else x2
    if Dbl.ge xlo (Dbl.fin 1) || Dbl.le xhi (Dbl.fin 0) then true
    else !Dbl.feq slope (Dbl.fin 0)

/-- `boxer` (cdrizzlebox.c, lines 172-204): the area common to the clockwise
quadrilateral `x, y` and the unit cell centred at `(is, js)`, as the sum of
`sgarea` over the four edges. -/
def boxer (is js : Dbl) (x y : Fin 4 → Dbl) (sgn_dx : Fin 4 → Int)
    (slope inv_slope : Fin 4 → Dbl) : Dbl :=
  let is := is - Dbl.fin (1 / 2)
  let js := js - Dbl.fin (1 / 2)
  let px : Fin 4 → Dbl := fun i => x i - is
  let py : Fin 4 → Dbl := fun i => y i - js
  List.foldl
    (fun sum i => sum + sgarea (px i) (py i) (px (i + 1)) (py (i + 1))
      (sgn_dx i) (slope i) (inv_slope i))
    (Dbl.fin 0) [0, 1, 2, 3]

/-- `over` (cdrizzlebox.c, lines 220-234): the overlap of the rectangle
`[xmin, xmax] × [ymin, ymax]` with the unit cell centred at `(i, j)`. -/
def over (i j : Int) (xmin xmax ymin ymax : Dbl) : Dbl :=
  let dx := MIN xmax (Dbl.ofInt i + Dbl.fin (1 / 2)) - MAX xmin (Dbl.ofInt i - Dbl.fin (1 / 2))
  let dy := MIN ymax (Dbl.ofInt j + Dbl.fin (1 / 2)) - MAX ymin (Dbl.ofInt j - Dbl.fin (1 / 2))
  if Dbl.gt dx (Dbl.fin 0) && Dbl.gt dy (Dbl.fin 0) then dx * dy else Dbl.fin 0

/-- Modelled from the spec: `fortran_round` of `cdrizzleutil.h` (not under
`src/`): round half away from zero.  The conversion of a non-finite value to
`int` is undefined in C; the model gives 0 there. -/
def fortran_round (x : Dbl) : Int :=
  match x with
  | Dbl.fin q => if 0 ≤ q then Int.floor (q + 1 / 2) else -Int.floor (1 / 2 - q)
  | _ => 0

/-- Modelled from the spec: `min_doubles(a, 4)` of `cdrizzleutil.h` (not under
`src/`): the smallest of the four values, scanning left to right. -/
def min_doubles (a : Fin 4 → Dbl) : Dbl :=
  List.foldl (fun m i => if Dbl.lt (a i) m then a i else m) (a 0) [1, 2, 3]

/-- Modelled from the spec: `max_doubles(a, 4)` of `cdrizzleutil.h` (not under
`src/`): the largest of the four values, scanning left to right. -/
def max_doubles (a : Fin 4 → Dbl) : Dbl :=
  List.foldl (fun m i => if Dbl.gt (a i) m then a i else m) (a 0) [1, 2, 3]

/-- Modelled from the spec: `map_pixel` of `cdrizzlemap.c` (not under `src/`):
`none` when a component of the pixmap entry is not finite (the C function
returns non-zero), otherwise the mapped position. -/
def map_pixel (pixmap : Int → Int → Dbl × Dbl) (i j : Int) : Option (Dbl × Dbl) :=
  let xy := pixmap i j
  if xy.1.isFinite && xy.2.isFinite then some xy else none

/-- Modelled from the spec: `get_dimensions` of `cdrizzleutil.h` (not under
`src/`): `osize[0]` is the number of columns, `osize[1]` the number of rows. -/
def get_dimensions (img : Plane) : Int × Int := ((img.nx : Int), (img.ny : Int))

/-- One answer of `get_scanline_limits`: the status code and the limits
`[x1, x2]` it wrote. -/
structure ScanLine where
  status : Int
  x1 : Int
  x2 : Int

/-- What `init_image_scanner` leaves behind: its return value, the state of
the error sink after the call, the row range it wrote, and, for each row of
that range, the answer `get_scanline_limits` gives when asked in turn. -/
structure Scanner where
  ret : Int
  error : Option String
  ymin : Int
  ymax : Int
  rows : Int → ScanLine

/-- Modelled from the spec: the collaborators of the engine that are not under
`src/`, taken as parameters: the scanner (`init_image_scanner`,
`get_scanline_limits`), `interpolate_point` (`none` when the point is
unmappable), the table filled by `create_lanczos_lut` for a kernel order,
whether its allocation fails, and `exp` and `M_PI` of the C library. -/
structure Extern where
  init_image_scanner : driz_param_t → Scanner
  interpolate_point : driz_param_t → Dbl → Dbl → Option (Dbl × Dbl)
  lanczos_lut : Int → Int → Dbl
  malloc_fails : Bool
  exp : Dbl → Dbl
  pi : Dbl

/-- The outcome of a loop body or of a loop: go on, `break`, or `return`. -/
inductive Ctl (σ : Type) where
  | next (s : σ)
  | brk (s : σ)
  | ret (code : Int) (s : σ)

/-- Run `body` at `i, i+1, ...` for `n` iterations unless it breaks or
returns. -/
def loopFrom {σ : Type} (body : Int → σ → Ctl σ) : Nat → Int → σ → Ctl σ
  | 0, _, s => Ctl.next s
  | n + 1, i, s =>
    match body i s with
    | Ctl.next s1 => loopFrom body n (i + 1) s1
    | Ctl.brk s1 => Ctl.next s1
    | Ctl.ret c s1 => Ctl.ret c s1

/-- The C loop `for (i = lo; i <= hi; ++i) body`. -/
def forLoop {σ : Type} (lo hi : Int) (body : Int → σ → Ctl σ) (s : σ) : Ctl σ :=
  loopFrom body (hi + 1 - lo).toNat lo s

/-- The weight `w` of source pixel `(i, j)`: the weights plane times
`weight_scale`, or 1 without a weights plane. -/
def pixel_weight (p : driz_param_t) (i j : Int) : Dbl :=
  match p.weights with
  | some wts => get_pixel wts i j * p.weight_scale
  | none => Dbl.fin 1

/-- The context update shared by the drivers: when a context plane is present
and `dow > 0`, set the bit at `(ii, jj)`. -/
def update_context (p : driz_param_t) (ii jj : Int) (bv : Nat) (dow : Dbl) : driz_param_t :=
  match p.output_context with
  | some ctx => if Dbl.gt dow (Dbl.fin 0) then { p with output_context := some (set_bit ctx ii jj bv) } else p
  | none => p

/-- The prologue shared by the drivers after `init_image_scanner` succeeded
(for example lines 256-257): the initial `nskip` and `nmiss`. -/
def init_counters (p : driz_param_t) (s : Scanner) : driz_param_t :=
  let p1 := { p with error := s.error, nskip := (p.ymax - p.ymin) - (s.ymax - s.ymin) }
  { p1 with nmiss := p1.nskip * (p1.xmax - p1.xmin) }

/-- The scanner policy at the head of the row loop shared by the drivers (for
example lines 263-278): on status 1 account for the remaining rows and
break, on status 2 or 3 skip the row, otherwise run `row` on the limits. -/
def scan_row (s : Scanner) (row : Int → Int → Int → driz_param_t → Ctl driz_param_t)
    (j : Int) (p : driz_param_t) : Ctl driz_param_t :=
  let sl := s.rows j
  if sl.status = 1 then
    let p1 := { p with nskip := p.nskip + (s.ymax + 1 - j) }
    Ctl.brk { p1 with nmiss := p1.nmiss + (s.ymax + 1 - j) * (p1.xmax - p1.xmin) }
  else if sl.status = 2 ∨ sl.status = 3 then
    let p1 := { p with nmiss := p.nmiss + (p.xmax - p.xmin) }
    Ctl.next { p1 with nskip := p1.nskip + 1 }
  else
    let p1 := { p with nmiss := p.nmiss + ((p.xmax - p.xmin) - (sl.x2 + 1 - sl.x1)) }
    row j sl.x1 sl.x2 p1

/-- The result of a driver from the outcome of its row loop. -/
def driver_result (r : Ctl driz_param_t) : Int × driz_param_t :=
  match r with
  | Ctl.ret c p => (c, p)
  | Ctl.next p => (0, p)
  | Ctl.brk p => (0, p)

/-- C `fabs`. -/
def Dbl.abs : Dbl → Dbl
  | Dbl.fin q => Dbl.fin |q|
  | Dbl.pinf => Dbl.pinf
  | Dbl.ninf => Dbl.pinf
  | Dbl.nan => Dbl.nan

/-- Modelled from the spec: the `CLAMP_ABOVE(x, low)` macro of
`cdrizzleutil.h` (not under `src/`): `x` when `x >= low`, else `low`. -/
def CLAMP_ABOVE (x low : Dbl) : Dbl := if Dbl.ge x low then x else low

/-- The end of the per-pixel body of the drivers that count hits: a `return`
of the footprint loops is passed on, otherwise `nmiss` is incremented when
`nhit == 0`. -/
def count_miss (r : Ctl (driz_param_t × Int)) : Ctl driz_param_t :=
  match r with
  | Ctl.ret c st => Ctl.ret c st.1
  | Ctl.next st => Ctl.next (if st.2 = 0 then { st.1 with nmiss := st.1.nmiss + 1 } else st.1)
  | Ctl.brk st => Ctl.next (if st.2 = 0 then { st.1 with nmiss := st.1.nmiss + 1 } else st.1)

/-- The tail of the footprint loop body shared by the drivers: set the
context bit, call `update_data`, and `return 1` when it fails. -/
def contribute (st : driz_param_t × Int) (nhit : Int) (ii jj : Int) (bv : Nat)
    (d vc dow : Dbl) : Ctl (driz_param_t × Int) :=
  let p1 := update_context st.1 ii jj bv dow
  let r := update_data p1 ii jj d vc dow
  if r.1 ≠ 0 then Ctl.ret 1 (r.2, nhit) else Ctl.next (r.2, nhit)

/-- The body of the column loop of `do_kernel_point` (lines 280-320) for
source pixel `(i, j)`. -/
def point_pixel (scale2 : Dbl) (bv : Nat) (osize : Int × Int) (j i : Int)
    (p : driz_param_t) : Ctl driz_param_t :=
  match map_pixel p.pixmap i j with
  | none => Ctl.next { p with nmiss := p.nmiss + 1 }
  | some (ox, oy) =>
    let ii := fortran_round ox
    let jj := fortran_round oy
    if ii < 0 ∨ ii ≥ osize.1 ∨ jj < 0 ∨ jj ≥ osize.2 then
      Ctl.next { p with nmiss := p.nmiss + 1 }
    else
      let vc := get_pixel p.output_counts ii jj
      let d := get_pixel p.data i j * scale2
      let dow := pixel_weight p i j
      let p1 := update_context p ii jj bv dow
      let r := update_data p1 ii jj d vc dow
      if r.1 ≠ 0 then Ctl.ret 1 r.2 else Ctl.next r.2

/-- `do_kernel_point` (cdrizzlebox.c, lines 242-324). -/
def do_kernel_point (E : Extern) (p : driz_param_t) : Int × driz_param_t :=
  let scale2 := p.scale * p.scale
  let bv := compute_bit_value p.uuid
  let s := E.init_image_scanner p
  if s.ret ≠ 0 then (1, { p with error := s.error })
  else
    let p1 := init_counters p s
    let osize := get_dimensions p1.output_data
    driver_result (forLoop s.ymin s.ymax
      (scan_row s (fun j xmin xmax q => forLoop xmin xmax (point_pixel scale2 bv osize j) q)) p1)

/-- The body of the column loop of `do_kernel_gaussian` (lines 385-450). -/
def gaussian_pixel (E : Extern) (pfo gaussian_efac gaussian_es scale2 : Dbl) (bv : Nat)
    (osize : Int × Int) (j i : Int) (p : driz_param_t) : Ctl driz_param_t :=
  count_miss
    (match map_pixel p.pixmap i j with
    | none => Ctl.next (p, 0)
    | some (ox, oy) =>
      let xxi := ox - pfo
      let xxa := ox + pfo
      let yyi := oy - pfo
      let yya := oy + pfo
      let nxi := max (fortran_round xxi) 0
      let nxa := min (fortran_round xxa) (osize.1 - 1)
      let nyi := max (fortran_round yyi) 0
      let nya := min (fortran_round yya) (osize.2 - 1)
      let d := get_pixel p.data i j * scale2
      let w := pixel_weight p i j
      forLoop nyi nya (fun jj st =>
        let ddy := oy - Dbl.ofInt jj
        forLoop nxi nxa (fun ii st1 =>
          let ddx := ox - Dbl.ofInt ii
          let r2 := ddx * ddx + ddy * ddy
          let dover := gaussian_es * E.exp ((-r2) * gaussian_efac)
          let nhit := st1.2 + 1
          let vc := get_pixel st1.1.output_counts ii jj
          let dow := dover * w
          contribute st1 nhit ii jj bv d vc dow) st) (p, 0))

/-- `do_kernel_gaussian` (cdrizzlebox.c, lines 333-454). -/
def do_kernel_gaussian (E : Extern) (p : driz_param_t) : Int × driz_param_t :=
  let nsig := Dbl.fin (5 / 2)
  let pfo0 := nsig * p.pixel_fraction / Dbl.fin (23548 / 10000) / p.scale
  let pfo := CLAMP_ABOVE pfo0 (Dbl.fin (12 / 10) / p.scale)
  let ac := Dbl.fin 1 / (p.pixel_fraction * p.pixel_fraction)
  let scale2 := p.scale * p.scale
  let bv := compute_bit_value p.uuid
  let gaussian_efac := (Dbl.fin (23548 / 10000) * Dbl.fin (23548 / 10000)) * scale2 * ac / Dbl.fin 2
  let gaussian_es := gaussian_efac / E.pi
  let s := E.init_image_scanner p
  if s.ret ≠ 0 then (1, { p with error := s.error })
  else
    let p1 := init_counters p s
    let osize := get_dimensions p1.output_data
    driver_result (forLoop s.ymin s.ymax
      (scan_row s (fun j xmin xmax q =>
        forLoop xmin xmax (gaussian_pixel E pfo gaussian_efac gaussian_es scale2 bv osize j) q)) p1)

/-- The body of the column loop of `do_kernel_lanczos` (lines 522-587);
`lut` is the table filled by `create_lanczos_lut`, `sdp` is `lanczos.sdp`. -/
def lanczos_pixel (lut : Int → Dbl) (sdp pfo scale2 : Dbl) (bv : Nat)
    (osize : Int × Int) (j i : Int) (p : driz_param_t) : Ctl driz_param_t :=
  let dx := Dbl.fin 1
  let dy := Dbl.fin 1
  count_miss
    (match map_pixel p.pixmap i j with
    | none => Ctl.next (p, 0)
    | some (xx, yy) =>
      let xxi := xx - dx - pfo
      let xxa := xx - dx + pfo
      let yyi := yy - dy - pfo
      let yya := yy - dy + pfo
      let nxi := max (fortran_round xxi) 0
      let nxa := min (fortran_round xxa) (osize.1 - 1)
      let nyi := max (fortran_round yyi) 0
      let nya := min (fortran_round yya) (osize.2 - 1)
      let d := get_pixel p.data i j * scale2
      let w := pixel_weight p i j
      forLoop nyi nya (fun jj st =>
        forLoop nxi nxa (fun ii st1 =>
          let ix := fortran_round (Dbl.abs (xx - Dbl.ofInt ii) * sdp) + 1
          let iy := fortran_round (Dbl.abs (yy - Dbl.ofInt jj) * sdp) + 1
          let dover := lut ix * lut iy
          let nhit := st1.2 + 1
          let vc := get_pixel st1.1.output_counts ii jj
          let dow := dover * w
          contribute st1 nhit ii jj bv d vc dow) st) (p, 0))

/-- The enum value `kernel_lanczos2` of `cdrizzleutil.h` (not under `src/`),
as the spec lists it. -/
def kernel_lanczos2 : Nat := 4

/-- `do_kernel_lanczos` (cdrizzlebox.c, lines 463-594). -/
def do_kernel_lanczos (E : Extern) (p : driz_param_t) : Int × driz_param_t :=
  let del := Dbl.fin (1 / 100)
  let scale2 := p.scale * p.scale
  let kernel_order : Int := if p.kernel = kernel_lanczos2 then 2 else 3
  let pfo := Dbl.ofInt kernel_order * p.pixel_fraction / p.scale
  let bv := compute_bit_value p.uuid
  if E.malloc_fails then (1, { p with error := some "Out of memory" })
  else
    let lut := E.lanczos_lut kernel_order
    let sdp := p.scale / del / p.pixel_fraction
    let s := E.init_image_scanner p
    if s.ret ≠ 0 then (1, { p with error := s.error })
    else
      let p1 := init_counters p s
      let osize := get_dimensions p1.output_data
      driver_result (forLoop s.ymin s.ymax
        (scan_row s (fun j xmin xmax q =>
          forLoop xmin xmax (lanczos_pixel lut sdp pfo scale2 bv osize j) q)) p1)

/-- The body of the column loop of `do_kernel_turbo` (lines 648-719). -/
def turbo_pixel (pfo scale2 ac : Dbl) (bv : Nat) (osize : Int × Int) (j i : Int)
    (p : driz_param_t) : Ctl driz_param_t :=
  count_miss
    (match map_pixel p.pixmap i j with
    | none => Ctl.next (p, 0)
    | some (ox, oy) =>
      let xxi := ox - pfo
      let xxa := ox + pfo
      let yyi := oy - pfo
      let yya := oy + pfo
      let nxi := fortran_round xxi
      let nxa := fortran_round xxa
      let nyi := fortran_round yyi
      let nya := fortran_round yya
      let iis := max nxi 0
      let iie := min nxa (osize.1 - 1)
      let jjs := max nyi 0
      let jje := min nya (osize.2 - 1)
      let d := get_pixel p.data i j * scale2
      let w := pixel_weight p i j
      forLoop jjs jje (fun jj st =>
        forLoop iis iie (fun ii st1 =>
          let dover := over ii jj xxi xxa yyi yya
          if Dbl.gt dover (Dbl.fin 0) then
            let dover1 := dover * (scale2 * ac)
            let nhit := st1.2 + 1
            let vc := get_pixel st1.1.output_counts ii jj
            let dow := dover1 * w
            contribute st1 nhit ii jj bv d vc dow
          else Ctl.next st1) st) (p, 0))

/-- `do_kernel_turbo` (cdrizzlebox.c, lines 604-724). -/
def do_kernel_turbo (E : Extern) (p : driz_param_t) : Int × driz_param_t :=
  let bv := compute_bit_value p.uuid
  let ac := Dbl.fin 1 / (p.pixel_fraction * p.pixel_fraction)
  let pfo := p.pixel_fraction / p.scale / Dbl.fin 2
  let scale2 := p.scale * p.scale
  let s := E.init_image_scanner p
  if s.ret ≠ 0 then (1, { p with error := s.error })
  else
    let p1 := init_counters p s
    let osize := get_dimensions p1.output_data
    driver_result (forLoop s.ymin s.ymax
      (scan_row s (fun j xmin xmax q =>
        forLoop xmin xmax (turbo_pixel pfo scale2 ac bv osize j) q)) p1)

/-- The four calls of `interpolate_point` on the corners of the shrunken
source pixel (lines 793-798): `none` as soon as one corner is unmappable. -/
def interpolate_corners (E : Extern) (p : driz_param_t) (xin yin : Fin 4 → Dbl) :
    Option ((Fin 4 → Dbl) × (Fin 4 → Dbl)) :=
  match E.interpolate_point p (xin 0) (yin 0), E.interpolate_point p (xin 1) (yin 1),
    E.interpolate_point p (xin 2) (yin 2), E.interpolate_point p (xin 3) (yin 3) with
  | some a, some b, some c, some d => some (![a.1, b.1, c.1, d.1], ![a.2, b.2, c.2, d.2])
  | _, _, _, _ => none

/-- The signed half cross product of the diagonals (lines 804-805), the value
of `jaco` before its sign is fixed. -/
def signed_jaco (xout yout : Fin 4 → Dbl) : Dbl :=
  Dbl.fin (1 / 2) * ((xout 1 - xout 3) * (yout 0 - yout 2) - (xout 0 - xout 2) * (yout 1 - yout 3))

/-- The corners after the conditional swap of vertices 1 and 3 (lines
807-816). -/
def swap13 (swap : Bool) (a : Fin 4 → Dbl) : Fin 4 → Dbl :=
  if swap then ![a 0, a 3, a 2, a 1] else a

/-- The per-edge `sgn_dx` of the square kernel (lines 836-841). -/
def edge_sgn_dx (xout : Fin 4 → Dbl) (k : Fin 4) : Int :=
  if Dbl.ge (xout (k + 1) - xout k) (Dbl.fin 0) then 1 else -1

/-- The per-edge `slope = dy / dx` of the square kernel (line 842). -/
def edge_slope (xout yout : Fin 4 → Dbl) (k : Fin 4) : Dbl :=
  (yout (k + 1) - yout k) / (xout (k + 1) - xout k)

/-- The per-edge `inv_slope = dx / dy` of the square kernel (line 843). -/
def edge_inv_slope (xout yout : Fin 4 → Dbl) (k : Fin 4) : Dbl :=
  (xout (k + 1) - xout k) / (yout (k + 1) - yout k)

/-- The footprint loops of `do_kernel_square` (lines 846-879) for one source
pixel with mapped corners `xout, yout` (after the swap), area `jaco`, flux
`d` and weight `w`. -/
def square_footprint (xout yout : Fin 4 → Dbl) (jaco d w : Dbl) (bv : Nat)
    (osize : Int × Int) (p : driz_param_t) : Ctl (driz_param_t × Int) :=
  let sgn_dx := edge_sgn_dx xout
  let slope := edge_slope xout yout
  let inv_slope := edge_inv_slope xout yout
  let min_jj := max (fortran_round (min_doubles yout)) 0
  let max_jj := min (fortran_round (max_doubles yout)) (osize.2 - 1)
  let min_ii := max (fortran_round (min_doubles xout)) 0
  let max_ii := min (fortran_round (max_doubles xout)) (osize.1 - 1)
  forLoop min_ii max_ii (fun ii st =>
    forLoop min_jj max_jj (fun jj st1 =>
      let dover := boxer (Dbl.ofInt ii) (Dbl.ofInt jj) xout yout sgn_dx slope inv_slope
      if Dbl.gt dover (Dbl.fin 0) then
        let vc := get_pixel st1.1.output_counts ii jj
        let dover1 := dover / jaco
        let dow := dover1 * w
        let nhit := st1.2 + 1
        contribute st1 nhit ii jj bv d vc dow
      else Ctl.next st1) st) (p, 0)

/-- The ordinates `yin` of the corners of the shrunken source pixel of row `j`
(lines 784-785). -/
def corner_yin (dh : Dbl) (j : Int) : Fin 4 → Dbl :=
  ![Dbl.ofInt j + dh, Dbl.ofInt j + dh, Dbl.ofInt j - dh, Dbl.ofInt j - dh]

/-- The abscissae `xin` of the corners of the shrunken source pixel of column
`i` (lines 790-791). -/
def corner_xin (dh : Dbl) (i : Int) : Fin 4 → Dbl :=
  ![Dbl.ofInt i - dh, Dbl.ofInt i + dh, Dbl.ofInt i + dh, Dbl.ofInt i - dh]

/-- The body of the column loop of `do_kernel_square` (lines 787-886); `yin`
was set by the row loop. -/
def square_pixel (E : Extern) (dh scale2 : Dbl) (bv : Nat) (osize : Int × Int)
    (j i : Int) (p : driz_param_t) : Ctl driz_param_t :=
  let yin := corner_yin dh j
  let xin := corner_xin dh i
  count_miss
    (match interpolate_corners E p xin yin with
    | none => Ctl.next (p, 0)
    | some (xout0, yout0) =>
      let jaco0 := signed_jaco xout0 yout0
      let swap := Dbl.lt jaco0 (Dbl.fin 0)
      let jaco := if swap then jaco0 * Dbl.fin (-1) else jaco0
      let xout := swap13 swap xout0
      let yout := swap13 swap yout0
      let d := get_pixel p.data i j * scale2
      let w := pixel_weight p i j
      square_footprint xout yout jaco d w bv osize p)

/-- `do_kernel_square` (cdrizzlebox.c, lines 735-891). -/
def do_kernel_square (E : Extern) (p : driz_param_t) : Int × driz_param_t :=
  let dh := Dbl.fin (1 / 2) * p.pixel_fraction
  let bv := compute_bit_value p.uuid
  let scale2 := p.scale * p.scale
  let s := E.init_image_scanner p
  if s.ret ≠ 0 then (1, { p with error := s.error })
  else
    let p1 := init_counters p s
    let osize := get_dimensions p1.output_data
    driver_result (forLoop s.ymin s.ymax
      (scan_row s (fun j xmin xmax q =>
        forLoop xmin xmax (square_pixel E dh scale2 bv osize j) q)) p1)

/-- The enum bound `kernel_LAST` of `cdrizzleutil.h` (not under `src/`): the
six kernel tags are 0..5. -/
def kernel_LAST : Nat := 6

/-- `kernel_handler_map` (cdrizzlebox.c, lines 900-902). -/
def kernel_handler_map (E : Extern) : List (driz_param_t → Int × driz_param_t) :=
  [do_kernel_square E, do_kernel_gaussian E, do_kernel_point E,
   do_kernel_turbo E, do_kernel_lanczos E, do_kernel_lanczos E]

/-- `dobox` (cdrizzlebox.c, lines 910-930): run the driver of the kernel tag;
the return value is whether the error sink is set. -/
def dobox (E : Extern) (p : driz_param_t) : Int × driz_param_t :=
  let kernel_handler := if p.kernel < kernel_LAST then (kernel_handler_map E)[p.kernel]? else none
  let p1 := match kernel_handler with
    | some h => (h p).2
    | none => p
  let p2 := if kernel_handler.isNone then { p1 with error := some "Invalid kernel type" } else p1
  (if p2.error.isSome then 1 else 0, p2)

/-- The calls a driver makes for one destination pixel `(ii, jj)`: each
contribution `(d, dow)` of the list is merged by `update_data`, which is
passed as `vc` the counts currently stored at the pixel (as in
`vc = get_pixel(p->output_counts, ii, jj)`). -/
def update_seq (p : driz_param_t) (ii jj : Int) : List (Dbl × Dbl) → driz_param_t
  | [] => p
  | c :: cs =>
    update_seq (update_data p ii jj c.1 (get_pixel p.output_counts ii jj) c.2).2 ii jj cs

/-- A plane of zeros. -/
def zero_plane (nx ny : Nat) : Plane := { nx := nx, ny := ny, val := fun _ _ => Dbl.fin 0 }

/-- A concrete bundle used to instantiate theorems: the 3×3 source image
`1..9`, the identity pixmap, unit scale and pixel fraction, no weights, no
context, zeroed 3×3 outputs. -/
def demo_param : driz_param_t :=
  { kernel := 2, pixel_fraction := Dbl.fin 1, scale := Dbl.fin 1, weight_scale := Dbl.fin 1,
    uuid := 1, xmin := 0, xmax := 2, ymin := 0, ymax := 2,
    data := { nx := 3, ny := 3, val := fun x y => Dbl.fin (3 * y + x + 1) },
    weights := none,
    pixmap := fun x y => (Dbl.fin x, Dbl.fin y),
    output_data := zero_plane 3 3, output_counts := zero_plane 3 3,
    output_context := none, nmiss := 0, nskip := 0, error := none }

/-- The reference definition of `boxer` in the words of the spec: the sum of
`sgarea` over the four edges `k → (k+1) mod 4`, each vertex translated by
`− i + 0.5`, `− j + 0.5`. -/
def boxer_spec (i j : Dbl) (x y : Fin 4 → Dbl) (sgn_dx : Fin 4 → Int)
    (slope inv_slope : Fin 4 → Dbl) : Dbl :=
  let term : Fin 4 → Dbl := fun k =>
    sgarea (x k - i + Dbl.fin (1 / 2)) (y k - j + Dbl.fin (1 / 2))
      (x (k + 1) - i + Dbl.fin (1 / 2)) (y (k + 1) - j + Dbl.fin (1 / 2))
      (sgn_dx k) (slope k) (inv_slope k)
  term 0 + term 1 + term 2 + term 3

/-- The value of `sgarea` on finite arguments, as a rational: the same
statements as the C function, in rational arithmetic (see `sgarea_fin`). -/
def sgareaQ (x1 y1 x2 : ℚ) (sgn_dx : Int) (slope inv_slope : ℚ) : ℚ :=
  if inv_slope = 0 then 0
  else
    let xlo0 := if sgn_dx < 0 then x2 else x1
    let xhi0 := if sgn_dx < 0 then x1 else x2
    if 1 ≤ xlo0 ∨ xhi0 ≤ 0 then 0
    else
      let xlo := max xlo0 0
      let xhi := min xhi0 1
      let c := y1 - slope * x1
      let ylo := slope * xlo + c
      let yhi := slope * xhi + c
      if ylo ≤ 0 ∧ yhi ≤ 0 then 0
      else if 1 ≤ ylo ∧ 1 ≤ yhi then (sgn_dx : ℚ) * (xhi - xlo)
      else
        let xlo1 := if ylo < 0 then (-c) * inv_slope else xlo
        let ylo1 := if ylo < 0 then 0 else ylo
        let xhi1 := if yhi < 0 then (-c) * inv_slope else xhi
        let yhi1 := if yhi < 0 then 0 else yhi
        if ylo1 ≤ 1 then
          if yhi1 ≤ 1 then (sgn_dx : ℚ) * (1 / 2) * (xhi1 - xlo1) * (yhi1 + ylo1)
          else
            (sgn_dx : ℚ) * (1 / 2 * ((1 - c) * inv_slope - xlo1) * (1 + ylo1) + xhi1
              - (1 - c) * inv_slope)
        else
          (sgn_dx : ℚ) * (1 / 2 * (xhi1 - (1 - c) * inv_slope) * (1 + yhi1) + (1 - c) * inv_slope
            - xlo1)

/-- Clip a coordinate to `[0, 1]`. -/
def clip01 (x : ℚ) : ℚ := min (max x 0) 1

/-- The case table of the spec for `sgarea` (section 4.1), read top to
bottom: `(xlo, xhi)` are the x-ordered endpoints, `c = y1 − slope·x1`, x is
clipped to `[0, 1]`, a negative `ylo` (resp. `yhi`) is lifted to 0 with
`xlo` (resp. `xhi`) `:= −c/slope`, and `xtop = (1 − c)/slope`. -/
def sgarea_table (x1 y1 x2 : ℚ) (sgn_dx : Int) (slope inv_slope : ℚ) : ℚ :=
  if inv_slope = 0 then 0
  else
    let xlo0 := min x1 x2
    let xhi0 := max x1 x2
    let c := y1 - slope * x1
    if xhi0 ≤ 0 ∨ 1 ≤ xlo0 then 0
    else
      let xlo := clip01 xlo0
      let xhi := clip01 xhi0
      let ylo := slope * xlo + c
      let yhi := slope * xhi + c
      if ylo ≤ 0 ∧ yhi ≤ 0 then 0
      else if 1 ≤ ylo ∧ 1 ≤ yhi then (sgn_dx : ℚ) * (xhi - xlo)
      else
        let xlo1 := if ylo < 0 then -c / slope else xlo
        let ylo1 := if ylo < 0 then 0 else ylo
        let xhi1 := if yhi < 0 then -c / slope else xhi
        let yhi1 := if yhi < 0 then 0 else yhi
        let xtop := (1 - c) / slope
        if ylo1 ≤ 1 ∧ yhi1 ≤ 1 then (sgn_dx : ℚ) * (1 / 2 * (xhi1 - xlo1) * (yhi1 + ylo1))
        else if ylo1 ≤ 1 ∧ 1 < yhi1 then
          (sgn_dx : ℚ) * (1 / 2 * (xtop - xlo1) * (1 + ylo1) + (xhi1 - xtop))
        else (sgn_dx : ℚ) * (1 / 2 * (xhi1 - xtop) * (1 + yhi1) + (xtop - xlo1))

/-- The value of `sgarea` for the edge `(x1, y1) → (x2, y2)` with the
per-edge quantities `do_kernel_square` precomputes, as a rational, for an
edge whose end points differ: the sign of `dx`, `slope = dy/dx`, and
`inv_slope = dx/dy`, which is infinite (here any non-zero value, it is not
used) for a horizontal edge (see `sgarea_edge`). -/
def edge_areaQ (x1 y1 x2 y2 : ℚ) : ℚ :=
  sgareaQ x1 y1 x2 (if x1 ≤ x2 then 1 else -1) ((y2 - y1) / (x2 - x1))
    (if y2 = y1 then 1 else (x2 - x1) / (y2 - y1))

/-- The value of `boxer` on the cell centred at `(i, j)` for a quadrilateral
with rational vertices and no edge of length zero (see `boxer_fin`). -/
def boxerQ (i j : ℚ) (x y : Fin 4 → ℚ) : ℚ :=
  edge_areaQ (x 0 - (i - 1 / 2)) (y 0 - (j - 1 / 2)) (x 1 - (i - 1 / 2)) (y 1 - (j - 1 / 2)) +
  edge_areaQ (x 1 - (i - 1 / 2)) (y 1 - (j - 1 / 2)) (x 2 - (i - 1 / 2)) (y 2 - (j - 1 / 2)) +
  edge_areaQ (x 2 - (i - 1 / 2)) (y 2 - (j - 1 / 2)) (x 3 - (i - 1 / 2)) (y 3 - (j - 1 / 2)) +
  edge_areaQ (x 3 - (i - 1 / 2)) (y 3 - (j - 1 / 2)) (x 0 - (i - 1 / 2)) (y 0 - (j - 1 / 2))

/-- A quadrilateral with rational vertices as the arrays of doubles the C
code works on. -/
def quad (x : Fin 4 → ℚ) : Fin 4 → Dbl := fun k => Dbl.fin (x k)

/-- The unsigned part of `sgareaQ`: the area under the line `y = slope·x + c`
over `[xlo0, xhi0]` inside the unit square, as the C statements compute it
(see `sgareaQ_eq_strip`). -/
def strip_area (xlo0 xhi0 c slope inv_slope : ℚ) : ℚ :=
  if inv_slope = 0 then 0
  else if 1 ≤ xlo0 ∨ xhi0 ≤ 0 then 0
  else
    let xlo := max xlo0 0
    let xhi := min xhi0 1
    let ylo := slope * xlo + c
    let yhi := slope * xhi + c
    if ylo ≤ 0 ∧ yhi ≤ 0 then 0
    else if 1 ≤ ylo ∧ 1 ≤ yhi then xhi - xlo
    else
      let xlo1 := if ylo < 0 then (-c) * inv_slope else xlo
      let ylo1 := if ylo < 0 then 0 else ylo
      let xhi1 := if yhi < 0 then (-c) * inv_slope else xhi
      let yhi1 := if yhi < 0 then 0 else yhi
      if ylo1 ≤ 1 then
        if yhi1 ≤ 1 then 1 / 2 * (xhi1 - xlo1) * (yhi1 + ylo1)
        else 1 / 2 * ((1 - c) * inv_slope - xlo1) * (1 + ylo1) + xhi1 - (1 - c) * inv_slope
      else 1 / 2 * (xhi1 - (1 - c) * inv_slope) * (1 + yhi1) + (1 - c) * inv_slope - xlo1

/-- The shoelace (trapezoid) signed area `½·Σ (x_{k+1} − x_k)(y_k + y_{k+1})`
of a quadrilateral. -/
def shoelace (x y : Fin 4 → ℚ) : ℚ :=
  1 / 2 * ((x 1 - x 0) * (y 0 + y 1) + (x 2 - x 1) * (y 1 + y 2) + (x 3 - x 2) * (y 2 + y 3)
    + (x 0 - x 3) * (y 3 + y 0))

/-- Clockwise traversal of a convex quadrilateral: at every vertex the path
turns right (the cross product of consecutive edges is negative). -/
def clockwise (x y : Fin 4 → ℚ) : Prop :=
  ∀ k : Fin 4, (x (k + 1) - x k) * (y (k + 2) - y (k + 1))
    - (y (k + 1) - y k) * (x (k + 2) - x (k + 1)) < 0

/-- A closed quadrilateral with a repeated vertex (vertices 2 and 3 coincide),
inside the cell centred at the origin: abscissae. -/
def degenerate_x : Fin 4 → ℚ := ![-1 / 4, 1 / 4, 1 / 4, 1 / 4]

/-- The ordinates of the quadrilateral with a repeated vertex. -/
def degenerate_y : Fin 4 → ℚ := ![1 / 4, 1 / 4, -1 / 4, -1 / 4]

/-- The corners of source pixel `i` under the identity map with
`pixel_fraction = 1`: abscissae, in the order of `corner_xin`. -/
def unit_pixel_x (i : Int) : Fin 4 → ℚ :=
  ![(i : ℚ) - 1 / 2, (i : ℚ) + 1 / 2, (i : ℚ) + 1 / 2, (i : ℚ) - 1 / 2]

/-- The corners of source pixel `j` under the identity map with
`pixel_fraction = 1`: ordinates, in the order of `corner_yin`. -/
def unit_pixel_y (j : Int) : Fin 4 → ℚ :=
  ![(j : ℚ) + 1 / 2, (j : ℚ) + 1 / 2, (j : ℚ) - 1 / 2, (j : ℚ) - 1 / 2]

/-- Whether the row loop of a driver has met status 1 (and left the loop) at
some row of `[ymin, j]`. -/
def scan_stopped (s : Scanner) (j : Int) : Bool :=
  (List.range (j + 1 - s.ymin).toNat).any fun n => decide ((s.rows (s.ymin + (n : Int))).status = 1)

/-- Whether a driver runs its column loop on source row `j`: the scanner was
initialised, `j` is in its row range, the loop was not left at or before `j`,
and the status of row `j` is not 2 or 3. -/
def row_processed (s : Scanner) (j : Int) : Bool :=
  decide (s.ret = 0) && decide (s.ymin ≤ j) && decide (j ≤ s.ymax) && !scan_stopped s j &&
    decide ((s.rows j).status ≠ 2) && decide ((s.rows j).status ≠ 3)

/-- Whether a driver visits source pixel `(i, j)` in its column loop. -/
def processed (s : Scanner) (i j : Int) : Bool :=
  row_processed s j && decide ((s.rows j).x1 ≤ i) && decide (i ≤ (s.rows j).x2)

/-- The state of a run of the square kernel under the identity map in which
exactly the source pixels of `P` have been processed: those destination
pixels hold counts 1 and the source value, all others are still zero. -/
def SquareInv (p0 : driz_param_t) (P : Int → Int → Prop) (q : driz_param_t) : Prop :=
  q.data = p0.data ∧ q.weights = none ∧
  q.output_data.nx = p0.output_data.nx ∧ q.output_data.ny = p0.output_data.ny ∧
  q.output_counts.nx = p0.output_counts.nx ∧ q.output_counts.ny = p0.output_counts.ny ∧
  (∀ x y, P x y → q.output_counts.val x y = Dbl.fin 1 ∧ q.output_data.val x y = p0.data.val x y) ∧
  (∀ x y, ¬ P x y → q.output_counts.val x y = Dbl.fin 0 ∧ q.output_data.val x y = Dbl.fin 0)

/-- The sum `Σ_x Σ_y f x y` over the pixels `0 ≤ x < nx`, `0 ≤ y < ny`. -/
def plane_sum (nx ny : Nat) (f : Int → Int → Dbl) : Dbl :=
  (List.range nx).foldl
    (fun acc x => acc + (List.range ny).foldl (fun acc1 y => acc1 + f (x : Int) (y : Int)) (Dbl.fin 0))
    (Dbl.fin 0)

/-- Concrete collaborators used to instantiate theorems: a scanner that admits
every pixel of the 3×3 source image, `interpolate_point` of the identity
pixmap, a constant table, `exp` and `M_PI` replaced by rationals. -/
def demo_env : Extern :=
  { init_image_scanner := fun _ =>
      { ret := 0, error := none, ymin := 0, ymax := 2,
        rows := fun _ => { status := 0, x1 := 0, x2 := 2 } },
    interpolate_point := fun _ x y => if x.isFinite && y.isFinite then some (x, y) else none,
    lanczos_lut := fun _ _ => Dbl.fin 0,
    malloc_fails := false,
    exp := fun _ => Dbl.fin 1,
    pi := Dbl.fin (355 / 113) }

/-- A square rotated by 45° inside the cell centred at the origin, traversed
clockwise from its top vertex: abscissae. -/
def diamond_x : Fin 4 → ℚ := ![0, 1 / 2, 0, -1 / 2]

/-- The ordinates of the rotated square `diamond_x`. -/
def diamond_y : Fin 4 → ℚ := ![1 / 2, 0, -1 / 2, 0]

/-- The state carried by the outcome of a loop body or loop. -/
def Ctl.state {σ : Type} : Ctl σ → σ
  | Ctl.next s => s
  | Ctl.brk s => s
  | Ctl.ret _ s => s

/-- The invariant of a run for the counts plane: the weights the drivers read
are those of the initial bundle `p`, the counts plane keeps its shape, and no
pixel inside it holds less than it did in `p`. -/
def CountsInv (p q : driz_param_t) : Prop :=
  q.weights = p.weights ∧ q.weight_scale = p.weight_scale ∧
  q.output_counts.nx = p.output_counts.nx ∧ q.output_counts.ny = p.output_counts.ny ∧
  ∀ x y, oob_pixel p.output_counts x y = false →
    Dbl.le (p.output_counts.val x y) (q.output_counts.val x y) = true

/-- Concrete collaborators for a 1×1 source image: the scanner admits the one
pixel. -/
def single_env : Extern :=
  { init_image_scanner := fun _ =>
      { ret := 0, error := none, ymin := 0, ymax := 0,
        rows := fun _ => { status := 0, x1 := 0, x2 := 0 } },
    interpolate_point := fun _ x y => if x.isFinite && y.isFinite then some (x, y) else none,
    lanczos_lut := fun _ _ => Dbl.fin 0,
    malloc_fails := false,
    exp := fun _ => Dbl.fin 1,
    pi := Dbl.fin (355 / 113) }

/-- A 1×1 run with a negative weight: data 7, weight `-1`, `weight_scale = 1`,
identity pixmap, zeroed 1×1 outputs. -/
def neg_weight_param : driz_param_t :=
  { kernel := 2, pixel_fraction := Dbl.fin 1, scale := Dbl.fin 1, weight_scale := Dbl.fin 1,
    uuid := 1, xmin := 0, xmax := 0, ymin := 0, ymax := 0,
    data := { nx := 1, ny := 1, val := fun _ _ => Dbl.fin 7 },
    weights := some { nx := 1, ny := 1, val := fun _ _ => Dbl.fin (-1) },
    pixmap := fun x y => (Dbl.fin x, Dbl.fin y),
    output_data := zero_plane 1 1, output_counts := zero_plane 1 1,
    output_context := none, nmiss := 0, nskip := 0, error := none }

/-- An antiderivative of `clip01`: `0` below 0, `v²/2` on `[0, 1]`, `v − 1/2`
above 1. -/
def clip_primitive (v : ℚ) : ℚ := (max v 0) ^ 2 / 2 - (max (v - 1) 0) ^ 2 / 2

/-- The rational value of a finite double (0 for an infinity or a NaN). -/
def Dbl.toRat : Dbl → ℚ
  | Dbl.fin q => q
  | _ => 0

/-- The closed region bounded by the quadrilateral with vertices
`(X k, Y k)`: the convex hull of the four vertices in the real plane. -/
def quad_region (X Y : Fin 4 → ℚ) : Set (ℝ × ℝ) :=
  convexHull ℝ (Set.range fun k => ((X k : ℝ), (Y k : ℝ)))

/-- The unit cell of the destination grid centred at `(ii, jj)`. -/
def unit_cell (ii jj : Int) : Set (ℝ × ℝ) :=
  Set.Icc ((ii : ℝ) - 1 / 2, (jj : ℝ) - 1 / 2) ((ii : ℝ) + 1 / 2, (jj : ℝ) + 1 / 2)

/-- The footprint of source pixel `(1, 1)` under a rotation by 45° about
`(1, 1)` (with `cos = sin = 7/10`), in the corner order of
`do_kernel_square`: abscissae. -/
def rotated_x : Fin 4 → ℚ := ![3 / 10, 1, 17 / 10, 1]

/-- The ordinates of the rotated footprint `rotated_x`. -/
def rotated_y : Fin 4 → ℚ := ![1, 17 / 10, 1, 3 / 10]

/-- Concrete collaborators for the rotation scenario: the scanner admits the
source pixel `(1, 1)` only, and `interpolate_point` is the rotation by 45°
about `(1, 1)` with `cos = sin = 7/10`. -/
def rot_env : Extern :=
  { init_image_scanner := fun _ =>
      { ret := 0, error := none, ymin := 1, ymax := 1,
        rows := fun _ => { status := 0, x1 := 1, x2 := 1 } },
    interpolate_point := fun _ x y =>
      some (Dbl.fin 1 + Dbl.fin (7 / 10) * ((x - Dbl.fin 1) - (y - Dbl.fin 1)),
        Dbl.fin 1 + Dbl.fin (7 / 10) * ((x - Dbl.fin 1) + (y - Dbl.fin 1))),
    lanczos_lut := fun _ _ => Dbl.fin 0,
    malloc_fails := false,
    exp := fun _ => Dbl.fin 1,
    pi := Dbl.fin (355 / 113) }

/-- The bundle of the rotation scenario: a 3×3 source image whose only
non-zero pixel is `data[1,1] = 5`, unit scale and pixel fraction, no weights,
no context, zeroed 3×3 outputs. -/
def rot_param : driz_param_t :=
  { kernel := 0, pixel_fraction := Dbl.fin 1, scale := Dbl.fin 1, weight_scale := Dbl.fin 1,
    uuid := 1, xmin := 0, xmax := 2, ymin := 0, ymax := 2,
    data := { nx := 3, ny := 3, val := fun x y => if x = 1 ∧ y = 1 then Dbl.fin 5 else Dbl.fin 0 },
    weights := none,
    pixmap := fun x y => (Dbl.fin x, Dbl.fin y),
    output_data := zero_plane 3 3, output_counts := zero_plane 3 3,
    output_context := none, nmiss := 0, nskip := 0, error := none }

/-- The bundle after `update_data` stored a first contribution at `(ii, jj)`:
the value `d` and the counts `v`. -/
def deposit (p : driz_param_t) (ii jj : Int) (d v : Dbl) : driz_param_t :=
  { p with output_data := set_pixel p.output_data ii jj d,
           output_counts := set_pixel p.output_counts ii jj v }


/-- The body of `do_kernel_lanczos` once `kernel_order` has been chosen (lines
480-594): the table of that order, `pfo = kernel_order·pixel_fraction/scale`,
and the row loop. -/
def lanczos_with_order (kernel_order : Int) (E : Extern) (p : driz_param_t) : Int × driz_param_t :=
  let del := Dbl.fin (1 / 100)
  let scale2 := p.scale * p.scale
  let pfo := Dbl.ofInt kernel_order * p.pixel_fraction / p.scale
  let bv := compute_bit_value p.uuid
  if E.malloc_fails then (1, { p with error := some "Out of memory" })
  else
    let lut := E.lanczos_lut kernel_order
    let sdp := p.scale / del / p.pixel_fraction
    let s := E.init_image_scanner p
    if s.ret ≠ 0 then (1, { p with error := s.error })
    else
      let p1 := init_counters p s
      let osize := get_dimensions p1.output_data
      driver_result (forLoop s.ymin s.ymax
        (scan_row s (fun j xmin xmax q =>
          forLoop xmin xmax (lanczos_pixel lut sdp pfo scale2 bv osize j) q)) p1)

/-- The outcome of a loop or of a loop body leaves a state satisfying `I`, and
a `return` carries the code 1. -/
def Ctl.ok {σ : Type} (I : σ → Prop) : Ctl σ → Prop
  | Ctl.next s => I s
  | Ctl.brk s => I s
  | Ctl.ret c s => c = 1 ∧ I s

/-- The part of the bundle the engine only reads: `q` has the inputs of `p`
and output planes of the same shape. -/
def Frame (p q : driz_param_t) : Prop :=
  q.kernel = p.kernel ∧ q.pixel_fraction = p.pixel_fraction ∧ q.scale = p.scale ∧
  q.weight_scale = p.weight_scale ∧ q.uuid = p.uuid ∧
  q.xmin = p.xmin ∧ q.xmax = p.xmax ∧ q.ymin = p.ymin ∧ q.ymax = p.ymax ∧
  q.data = p.data ∧ q.weights = p.weights ∧ q.pixmap = p.pixmap ∧
  q.output_data.nx = p.output_data.nx ∧ q.output_data.ny = p.output_data.ny ∧
  q.output_counts.nx = p.output_counts.nx ∧ q.output_counts.ny = p.output_counts.ny

/-- The number of rows for which `get_scanline_limits` was asked and answered
status 0: the rows of the scanner's range with status 0 that come before any
row with status 1. -/
def status0_rows (s : Scanner) : Nat :=
  ((List.range (s.ymax + 1 - s.ymin).toNat).filter fun n : Nat =>
    decide ((s.rows (s.ymin + (n : Int))).status = 0) && !scan_stopped s (s.ymin + (n : Int))).length

/-- Concrete collaborators whose scanner skips row 0 (status 2), admits row 1
and has finished at row 2 (status 1). -/
def mixed_env : Extern :=
  { init_image_scanner := fun _ =>
      { ret := 0, error := none, ymin := 0, ymax := 2,
        rows := fun j => { status := if j = 0 then 2 else if j = 1 then 0 else 1, x1 := 0, x2 := 2 } },
    interpolate_point := fun _ x y => if x.isFinite && y.isFinite then some (x, y) else none,
    lanczos_lut := fun _ _ => Dbl.fin 0,
    malloc_fails := false,
    exp := fun _ => Dbl.fin 1,
    pi := Dbl.fin (355 / 113) }

/-- The value `update_data` stores in `output_data` for a pixel that holds
`old` with counts `vc` (lines 33-62). -/
def merged_data (old vc d dow : Dbl) : Dbl :=
  if Dbl.feq dow (Dbl.fin 0) then old
  else if Dbl.feq vc (Dbl.fin 0) then d else (old * vc + dow * d) / (vc + dow)

/-- The value `update_data` stores in `output_counts` for a pixel with counts
`vc`. -/
def merged_counts (vc dow : Dbl) : Dbl :=
  if Dbl.feq dow (Dbl.fin 0) then vc else vc + dow

/-- The context word after the step `if (dow > 0) set_bit(...)` of the
drivers. -/
def merged_word (w bv : Nat) (dow : Dbl) : Nat :=
  if Dbl.gt dow (Dbl.fin 0) then w ||| bv else w

/-- The bundle after each destination pixel `(x, y)` with `G x y = some (d, dow)`
has received that one contribution: the context bit is set when `dow > 0`
and `update_data` has merged `(d, dow)`. -/
def apply_cells (q : driz_param_t) (bv : Nat) (G : Int → Int → Option (Dbl × Dbl)) :
    driz_param_t :=
  { q with
    output_data := { q.output_data with val := (fun x y =>
      match G x y with
      | none => q.output_data.val x y
      | some c => merged_data (q.output_data.val x y) (q.output_counts.val x y) c.1 c.2) },
    output_counts := { q.output_counts with val := (fun x y =>
      match G x y with
      | none => q.output_counts.val x y
      | some c => merged_counts (q.output_counts.val x y) c.2) },
    output_context := q.output_context.map (fun ctx => { ctx with word := (fun x y =>
      match G x y with
      | none => ctx.word x y
      | some c => merged_word (ctx.word x y) bv c.2) }) }

/-- One step of a footprint loop: no call when the cell receives nothing,
otherwise a hit is counted and `(d, dow)` is handed to `update_data` with the
counts currently stored at the cell. -/
def deposit_at (F : Int → Int → Option (Dbl × Dbl)) (bv : Nat) (ii jj : Int)
    (st : driz_param_t × Int) : Ctl (driz_param_t × Int) :=
  match F ii jj with
  | none => Ctl.next st
  | some c => contribute st (st.2 + 1) ii jj bv c.1 (get_pixel st.1.output_counts ii jj) c.2

/-- The bundle a driver leaves after one source pixel whose footprint is the
map of cells `G` and whose hit count is `n`: `nmiss` is incremented when
nothing was hit. -/
def pixel_result (q : driz_param_t) (bv : Nat) (G : Int → Int → Option (Dbl × Dbl)) (n : Int) :
    driz_param_t :=
  if n = 0 then { apply_cells q bv G with nmiss := q.nmiss + 1 } else apply_cells q bv G

/-- The contribution `(d, dow)` of source pixel `(i, j)` to destination pixel
`(x, y)` in `do_kernel_point` (lines 285-313): the weight `w` at the rounded
mapped position when it lies inside the output image, `none` where
`update_data` is not called. -/
def point_cells (scale2 : Dbl) (osize : Int × Int) (q : driz_param_t) (j i : Int)
    (x y : Int) : Option (Dbl × Dbl) :=
  match map_pixel q.pixmap i j with
  | none => none
  | some (ox, oy) =>
    let ii := fortran_round ox
    let jj := fortran_round oy
    if ii < 0 ∨ ii ≥ osize.1 ∨ jj < 0 ∨ jj ≥ osize.2 then none
    else if x = ii ∧ y = jj then some (get_pixel q.data i j * scale2, pixel_weight q i j)
    else none

/-- The contribution `(d, dow)` of source pixel `(i, j)` to destination pixel
`(x, y)` in `do_kernel_gaussian` (lines 390-441): every pixel of the clipped
window receives `dover·w`. -/
def gaussian_cells (E : Extern) (pfo gaussian_efac gaussian_es scale2 : Dbl) (osize : Int × Int)
    (q : driz_param_t) (j i : Int) (x y : Int) : Option (Dbl × Dbl) :=
  match map_pixel q.pixmap i j with
  | none => none
  | some (ox, oy) =>
    let nxi := max (fortran_round (ox - pfo)) 0
    let nxa := min (fortran_round (ox + pfo)) (osize.1 - 1)
    let nyi := max (fortran_round (oy - pfo)) 0
    let nya := min (fortran_round (oy + pfo)) (osize.2 - 1)
    if nyi ≤ y ∧ y ≤ nya ∧ nxi ≤ x ∧ x ≤ nxa then
      let ddx := ox - Dbl.ofInt x
      let ddy := oy - Dbl.ofInt y
      let r2 := ddx * ddx + ddy * ddy
      some (get_pixel q.data i j * scale2,
        gaussian_es * E.exp ((-r2) * gaussian_efac) * pixel_weight q i j)
    else none

/-- The contribution `(d, dow)` of source pixel `(i, j)` to destination pixel
`(x, y)` in `do_kernel_lanczos` (lines 527-578): every pixel of the clipped
window receives the product of the two table entries times `w`. -/
def lanczos_cells (lut : Int → Dbl) (sdp pfo scale2 : Dbl) (osize : Int × Int)
    (q : driz_param_t) (j i : Int) (x y : Int) : Option (Dbl × Dbl) :=
  match map_pixel q.pixmap i j with
  | none => none
  | some (xx, yy) =>
    let nxi := max (fortran_round (xx - Dbl.fin 1 - pfo)) 0
    let nxa := min (fortran_round (xx - Dbl.fin 1 + pfo)) (osize.1 - 1)
    let nyi := max (fortran_round (yy - Dbl.fin 1 - pfo)) 0
    let nya := min (fortran_round (yy - Dbl.fin 1 + pfo)) (osize.2 - 1)
    if nyi ≤ y ∧ y ≤ nya ∧ nxi ≤ x ∧ x ≤ nxa then
      let ix := fortran_round (Dbl.abs (xx - Dbl.ofInt x) * sdp) + 1
      let iy := fortran_round (Dbl.abs (yy - Dbl.ofInt y) * sdp) + 1
      some (get_pixel q.data i j * scale2, lut ix * lut iy * pixel_weight q i j)
    else none

/-- The contribution `(d, dow)` of source pixel `(i, j)` to destination pixel
`(x, y)` in `do_kernel_turbo` (lines 653-710): the pixels of the clipped
window with a positive overlap receive `over·scale²·ac·w`. -/
def turbo_cells (pfo scale2 ac : Dbl) (osize : Int × Int)
    (q : driz_param_t) (j i : Int) (x y : Int) : Option (Dbl × Dbl) :=
  match map_pixel q.pixmap i j with
  | none => none
  | some (ox, oy) =>
    let iis := max (fortran_round (ox - pfo)) 0
    let iie := min (fortran_round (ox + pfo)) (osize.1 - 1)
    let jjs := max (fortran_round (oy - pfo)) 0
    let jje := min (fortran_round (oy + pfo)) (osize.2 - 1)
    if jjs ≤ y ∧ y ≤ jje ∧ iis ≤ x ∧ x ≤ iie then
      let dover := over x y (ox - pfo) (ox + pfo) (oy - pfo) (oy + pfo)
      if Dbl.gt dover (Dbl.fin 0) then
        some (get_pixel q.data i j * scale2, dover * (scale2 * ac) * pixel_weight q i j)
      else none
    else none

/-- The contribution `(d, dow)` of source pixel `(i, j)` to destination pixel
`(x, y)` in `do_kernel_square` (lines 793-879): the pixels of the clipped
bounding box with a positive `boxer` area receive `dover/jaco·w`. -/
def square_cells (E : Extern) (dh scale2 : Dbl) (osize : Int × Int)
    (q : driz_param_t) (j i : Int) (x y : Int) : Option (Dbl × Dbl) :=
  match interpolate_corners E q (corner_xin dh i) (corner_yin dh j) with
  | none => none
  | some (xout0, yout0) =>
    let jaco0 := signed_jaco xout0 yout0
    let swap := Dbl.lt jaco0 (Dbl.fin 0)
    let jaco := if swap then jaco0 * Dbl.fin (-1) else jaco0
    let xout := swap13 swap xout0
    let yout := swap13 swap yout0
    let min_jj := max (fortran_round (min_doubles yout)) 0
    let max_jj := min (fortran_round (max_doubles yout)) (osize.2 - 1)
    let min_ii := max (fortran_round (min_doubles xout)) 0
    let max_ii := min (fortran_round (max_doubles xout)) (osize.1 - 1)
    if min_ii ≤ x ∧ x ≤ max_ii ∧ min_jj ≤ y ∧ y ≤ max_jj then
      let dover := boxer (Dbl.ofInt x) (Dbl.ofInt y) xout yout (edge_sgn_dx xout)
        (edge_slope xout yout) (edge_inv_slope xout yout)
      if Dbl.gt dover (Dbl.fin 0) then
        some (get_pixel q.data i j * scale2, dover / jaco * pixel_weight q i j)
      else none
    else none

/-- The contribution `(d, dow)` of source pixel `(i, j)` to destination pixel
`(x, y)` in the driver that `dobox` runs for the kernel tag of `p`, with the
parameters the driver computes in its prologue. -/
def driver_cells (E : Extern) (p : driz_param_t) (j i : Int) (x y : Int) : Option (Dbl × Dbl) :=
  let osize := get_dimensions p.output_data
  let scale2 := p.scale * p.scale
  if p.kernel = 0 then
    square_cells E (Dbl.fin (1 / 2) * p.pixel_fraction) scale2 osize p j i x y
  else if p.kernel = 1 then
    let pfo0 := Dbl.fin (5 / 2) * p.pixel_fraction / Dbl.fin (23548 / 10000) / p.scale
    let pfo := CLAMP_ABOVE pfo0 (Dbl.fin (12 / 10) / p.scale)
    let ac := Dbl.fin 1 / (p.pixel_fraction * p.pixel_fraction)
    let gaussian_efac :=
      (Dbl.fin (23548 / 10000) * Dbl.fin (23548 / 10000)) * scale2 * ac / Dbl.fin 2
    let gaussian_es := gaussian_efac / E.pi
    gaussian_cells E pfo gaussian_efac gaussian_es scale2 osize p j i x y
  else if p.kernel = 2 then
    point_cells scale2 osize p j i x y
  else if p.kernel = 3 then
    turbo_cells (p.pixel_fraction / p.scale / Dbl.fin 2) scale2
      (Dbl.fin 1 / (p.pixel_fraction * p.pixel_fraction)) osize p j i x y
  else if p.kernel = 4 ∨ p.kernel = 5 then
    let kernel_order : Int := if p.kernel = kernel_lanczos2 then 2 else 3
    lanczos_cells (E.lanczos_lut kernel_order) (p.scale / Dbl.fin (1 / 100) / p.pixel_fraction)
      (Dbl.ofInt kernel_order * p.pixel_fraction / p.scale) scale2 osize p j i x y
  else none

/-- A zeroed context plane. -/
def zero_context (nx ny : Nat) : CtxPlane := { nx := nx, ny := ny, word := fun _ _ => 0 }

/-- The bundle `demo_param` with a zeroed 3×3 context plane. -/
def ctx_param : driz_param_t := { demo_param with output_context := some (zero_context 3 3) }

/-- The destination pixel of source pixel `(i, j)` in `do_kernel_point` (lines
285-296): the rounded mapped position, `none` when the pixel is unmappable or
the position lies outside the output image. -/
def point_dest (p : driz_param_t) (i j : Int) : Option (Int × Int) :=
  match map_pixel p.pixmap i j with
  | none => none
  | some (ox, oy) =>
    let ii := fortran_round ox
    let jj := fortran_round oy
    if ii < 0 ∨ ii ≥ (get_dimensions p.output_data).1 ∨ jj < 0 ∨
        jj ≥ (get_dimensions p.output_data).2 then none
    else some (ii, jj)

/-- The bundle `demo_param` with the pixmap `(i, j) ↦ (i + 0.5, j)`. -/
def shift_param : driz_param_t :=
  { demo_param with pixmap := fun x y => (Dbl.fin ((x : ℚ) + 1 / 2), Dbl.fin y) }

/-- The bundle `demo_param` for the turbo kernel with `pixel_fraction = 0.5`. -/
def turbo_param : driz_param_t :=
  { demo_param with kernel := 3, pixel_fraction := Dbl.fin (1 / 2) }

/-- The bundle `demo_param` whose pixmap sends every source pixel to
`(−1, −1)`, outside the output image. -/
def outside_param : driz_param_t :=
  { demo_param with pixmap := fun _ _ => (Dbl.fin (-1), Dbl.fin (-1)) }

/-- The bundle `demo_param` with a weights plane of zeros. -/
def zero_weight_param : driz_param_t :=
  { demo_param with weights := some (zero_plane 3 3) }

/-- The conditions of `assert(slope != 0.0)` met by one call of `boxer` (lines
183-201): `sgarea` is called on the four translated edges, and each call must
pass its assertion when it reaches it (the ordinates play no part in the
condition). -/
def boxer_assert_ok (is : Dbl) (x : Fin 4 → Dbl) (sgn_dx : Fin 4 → Int)
    (slope inv_slope : Fin 4 → Dbl) : Bool :=
  let is := is - Dbl.fin (1 / 2)
  let px : Fin 4 → Dbl := fun i => x i - is
  List.all [0, 1, 2, 3]
    (fun i => sgarea_assert_ok (px i) (px (i + 1)) (sgn_dx i) (slope i) (inv_slope i))

/-- Concrete collaborators for a 1×1 source image whose Lanczos table is the
512 entries `0..511`, all zero; the value 1 marks a read outside the table. -/
def table_env : Extern :=
  { init_image_scanner := fun _ =>
      { ret := 0, error := none, ymin := 0, ymax := 0,
        rows := fun _ => { status := 0, x1 := 0, x2 := 0 } },
    interpolate_point := fun _ x y => if x.isFinite && y.isFinite then some (x, y) else none,
    lanczos_lut := fun _ k => if 0 ≤ k ∧ k ≤ 511 then Dbl.fin 0 else Dbl.fin 1,
    malloc_fails := false,
    exp := fun _ => Dbl.fin 1,
    pi := Dbl.fin (355 / 113) }

/-- A 1×1 run of the kernel `lanczos3` with `pixel_fraction = 0.5` and
`scale = 1`: the source pixel, data 7, is mapped to `(5.9, 5.9)` in zeroed
8×8 outputs. -/
def lanczos_param : driz_param_t :=
  { kernel := 5, pixel_fraction := Dbl.fin (1 / 2), scale := Dbl.fin 1, weight_scale := Dbl.fin 1,
    uuid := 1, xmin := 0, xmax := 0, ymin := 0, ymax := 0,
    data := { nx := 1, ny := 1, val := fun _ _ => Dbl.fin 7 },
    weights := none,
    pixmap := fun _ _ => (Dbl.fin (59 / 10), Dbl.fin (59 / 10)),
    output_data := zero_plane 8 8, output_counts := zero_plane 8 8,
    output_context := none, nmiss := 0, nskip := 0, error := none }

/-- The values `(xlo, ylo, xhi, yhi, xtop)` at the two statements of `sgarea`
that compute `xtop` (lines 150 and 154), after the trimming of lines 133-141,
as rationals in the statements of `sgareaQ`; `none` when `sgarea` returns
before it computes `xtop`. -/
def sgarea_xtop (x1 y1 x2 : ℚ) (sgn_dx : Int) (slope inv_slope : ℚ) :
    Option (ℚ × ℚ × ℚ × ℚ × ℚ) :=
  if inv_slope = 0 then none
  else
    let xlo0 := if sgn_dx < 0 then x2 else x1
    let xhi0 := if sgn_dx < 0 then x1 else x2
    if 1 ≤ xlo0 ∨ xhi0 ≤ 0 then none
    else
      let xlo := max xlo0 0
      let xhi := min xhi0 1
      let c := y1 - slope * x1
      let ylo := slope * xlo + c
      let yhi := slope * xhi + c
      if ylo ≤ 0 ∧ yhi ≤ 0 then none
      else if 1 ≤ ylo ∧ 1 ≤ yhi then none
      else
        let xlo1 := if ylo < 0 then (-c) * inv_slope else xlo
        let ylo1 := if ylo < 0 then 0 else ylo
        let xhi1 := if yhi < 0 then (-c) * inv_slope else xhi
        let yhi1 := if yhi < 0 then 0 else yhi
        if ylo1 ≤ 1 then
          if yhi1 ≤ 1 then none
          else some (xlo1, ylo1, xhi1, yhi1, (1 - c) * inv_slope)
        else some (xlo1, ylo1, xhi1, yhi1, (1 - c) * inv_slope)

/-- The sum over the destination pixels `(x, y)` of the output image that
receive a contribution `c = G x y` from one source pixel of the quantity
`f x y c`. -/
def sum_over_cells (nx ny : Nat) (G : Int → Int → Option (Dbl × Dbl))
    (f : Int → Int → Dbl × Dbl → Dbl) : Dbl :=
  plane_sum nx ny (fun x y =>
    match G x y with
    | none => Dbl.fin 0
    | some c => f x y c)

/-! ## Arithmetic of `Dbl` -/

namespace Dbl

@[simp] theorem fin_add_fin (a b : ℚ) : fin a + fin b = fin (a + b) := rfl

@[simp] theorem neg_fin (a : ℚ) : -fin a = fin (-a) := rfl

@[simp] theorem fin_sub_fin (a b : ℚ) : fin a - fin b = fin (a - b) := by
  show Dbl.add (fin a) (Dbl.neg (fin b)) = fin (a - b)
  simp only [Dbl.neg, Dbl.add, sub_eq_add_neg]

@[simp] theorem fin_mul_fin (a b : ℚ) : fin a * fin b = fin (a * b) := rfl

theorem fin_div_fin (a b : ℚ) (h : b ≠ 0) : fin a / fin b = fin (a / b) := by
  show Dbl.div (fin a) (fin b) = fin (a / b)
  simp only [Dbl.div, h, if_false]

@[simp] theorem lt_fin_fin (a b : ℚ) : Dbl.lt (fin a) (fin b) = decide (a < b) := rfl

@[simp] theorem le_fin_fin (a b : ℚ) : Dbl.le (fin a) (fin b) = decide (a ≤ b) := rfl

@[simp] theorem gt_fin_fin (a b : ℚ) : Dbl.gt (fin a) (fin b) = decide (b < a) := rfl

@[simp] theorem ge_fin_fin (a b : ℚ) : Dbl.ge (fin a) (fin b) = decide (b ≤ a) := rfl

@[simp] theorem feq_fin_fin (a b : ℚ) : Dbl.feq (fin a) (fin b) = decide (a = b) := rfl

@[simp] theorem ofInt_eq (i : Int) : Dbl.ofInt i = fin (i : ℚ) := rfl

theorem sub_eq_add_neg' (a b : Dbl) : a - b = a + -b := rfl

theorem add_comm' (a b : Dbl) : a + b = b + a := by
  cases a <;> cases b <;> first | rfl | (show fin _ = fin _; rw [add_comm])

theorem add_assoc' (a b c : Dbl) : a + b + c = a + (b + c) := by
  cases a <;> cases b <;> cases c <;> first | rfl | (show fin _ = fin _; rw [add_assoc])

theorem zero_add' (a : Dbl) : fin 0 + a = a := by
  cases a <;> first | rfl | (show fin _ = fin _; rw [zero_add])

theorem add_zero' (a : Dbl) : a + fin 0 = a := by
  cases a <;> first | rfl | (show fin _ = fin _; rw [add_zero])

theorem neg_neg' (a : Dbl) : - -a = a := by
  cases a <;> first | rfl | (show fin _ = fin _; rw [neg_neg])

theorem neg_add' (a b : Dbl) : -(a + b) = -a + -b := by
  cases a <;> cases b <;> first | rfl | (show fin _ = fin _; rw [neg_add])

theorem mul_one' (a : Dbl) : a * fin 1 = a := by
  cases a with
  | fin q => show fin _ = fin _; rw [mul_one]
  | pinf => show signedInf 1 = pinf; simp [signedInf]
  | ninf => show signedInf (-1) = ninf; simp [signedInf]
  | nan => rfl

/-- A finite multiple of a value is finite only when the value is. -/
theorem fin_mul_eq_fin (s f : ℚ) (x : Dbl) (h : fin s * x = fin f) :
    ∃ v, x = fin v ∧ s * v = f := by
  cases x with
  | fin v => exact ⟨v, rfl, by simpa using h⟩
  | pinf =>
    exfalso
    have h1 : signedInf s = fin f := h
    unfold signedInf at h1
    split_ifs at h1
  | ninf =>
    exfalso
    have h1 : signedInf (-s) = fin f := h
    unfold signedInf at h1
    split_ifs at h1
  | nan => exact absurd h (by intro h; cases h)

end Dbl

/-! ## The updater `update_data` -/

/-- A zero weight makes `update_data` a no-op. -/
theorem update_data_skip (p : driz_param_t) (ii jj : Int) (d vc dow : Dbl)
    (h : Dbl.feq dow (Dbl.fin 0) = true) : update_data p ii jj d vc dow = (0, p) := by
  simp [update_data, h]

/-- The state `update_data` leaves for a non-zero weight at a pixel inside
both planes. -/
theorem update_data_in_bounds (p : driz_param_t) (ii jj : Int) (d vc dow : Dbl)
    (hd : oob_pixel p.output_data ii jj = false)
    (hc : oob_pixel p.output_counts ii jj = false)
    (h : Dbl.feq dow (Dbl.fin 0) = false) :
    update_data p ii jj d vc dow =
      (0, { p with
          output_data := set_pixel p.output_data ii jj
            (if Dbl.feq vc (Dbl.fin 0) then d
             else (get_pixel p.output_data ii jj * vc + dow * d) / (vc + dow)),
          output_counts := set_pixel p.output_counts ii jj (vc + dow) }) := by
  by_cases hv : Dbl.feq vc (Dbl.fin 0) = true
  · simp [update_data, h, hv, hd, hc]
  · simp [update_data, h, hv, hd, hc]

/-- C1: `update_data` equals its reference definition.  For a pixel inside
both output planes: with `dow == 0` it returns 0 and leaves the bundle as it
was; otherwise it returns 0, stores `d` in `output_data[ii,jj]` when
`vc == 0` and `(old_data·vc + dow·d)/(vc + dow)` when not, stores `vc + dow`
in `output_counts[ii,jj]`, and changes no other pixel of either plane. -/
theorem update_data_reference (p : driz_param_t) (ii jj : Int) (d vc dow : Dbl)
    (hd : oob_pixel p.output_data ii jj = false)
    (hc : oob_pixel p.output_counts ii jj = false) :
    (Dbl.feq dow (Dbl.fin 0) = true → update_data p ii jj d vc dow = (0, p)) ∧
    (Dbl.feq dow (Dbl.fin 0) = false →
      (update_data p ii jj d vc dow).1 = 0 ∧
      (update_data p ii jj d vc dow).2.output_data.val ii jj =
        (if Dbl.feq vc (Dbl.fin 0) then d
         else (p.output_data.val ii jj * vc + dow * d) / (vc + dow)) ∧
      (update_data p ii jj d vc dow).2.output_counts.val ii jj = vc + dow ∧
      (∀ x y : Int, ¬(x = ii ∧ y = jj) →
        (update_data p ii jj d vc dow).2.output_data.val x y = p.output_data.val x y ∧
        (update_data p ii jj d vc dow).2.output_counts.val x y = p.output_counts.val x y)) := by
  constructor
  · intro h
    simp [update_data, h]
  · intro h
    by_cases hv : Dbl.feq vc (Dbl.fin 0) = true
    · simp [update_data, h, hv, hd, hc, set_pixel]
      intro x y hxy
      exact ⟨fun a b => absurd b (hxy a), fun a b => absurd b (hxy a)⟩
    · simp [update_data, h, hv, hd, hc, set_pixel, get_pixel]
      intro x y hxy
      exact ⟨fun a b => absurd b (hxy a), fun a b => absurd b (hxy a)⟩

/-- C1 at a concrete input: merging `d = 5` with weight 2 into pixel `(1, 1)`
of the zeroed 3×3 planes, the counts there being 0, stores 5 and counts 2. -/
theorem update_data_reference_witness :
    (update_data demo_param 1 1 (Dbl.fin 5) (Dbl.fin 0) (Dbl.fin 2)).1 = 0 ∧
    (update_data demo_param 1 1 (Dbl.fin 5) (Dbl.fin 0) (Dbl.fin 2)).2.output_data.val 1 1
      = Dbl.fin 5 ∧
    (update_data demo_param 1 1 (Dbl.fin 5) (Dbl.fin 0) (Dbl.fin 2)).2.output_counts.val 1 1
      = Dbl.fin 0 + Dbl.fin 2 := by
  have h := (update_data_reference demo_param 1 1 (Dbl.fin 5) (Dbl.fin 0) (Dbl.fin 2)
    (by decide) (by decide)).2 (by simp)
  exact ⟨h.1, by simpa using h.2.1, h.2.2.1⟩

/-- C4: `update_data` returns non-zero exactly when `dow != 0` and `(ii, jj)`
is outside `output_data` or outside `output_counts`; the message is
`"OOB in output_data[ii,jj]"` when the data plane is out of bounds, in which
case neither plane is modified, and `"OOB in output_counts[ii,jj]"`
otherwise. -/
theorem update_data_error_contract (p : driz_param_t) (ii jj : Int) (d vc dow : Dbl) :
    ((update_data p ii jj d vc dow).1 ≠ 0 ↔
      (Dbl.feq dow (Dbl.fin 0) = false ∧
        (oob_pixel p.output_data ii jj = true ∨ oob_pixel p.output_counts ii jj = true))) ∧
    ((update_data p ii jj d vc dow).1 ≠ 0 → oob_pixel p.output_data ii jj = true →
      (update_data p ii jj d vc dow).2.error = some (oob_data_message ii jj) ∧
      (update_data p ii jj d vc dow).2.output_data = p.output_data ∧
      (update_data p ii jj d vc dow).2.output_counts = p.output_counts) ∧
    ((update_data p ii jj d vc dow).1 ≠ 0 → oob_pixel p.output_data ii jj = false →
      (update_data p ii jj d vc dow).2.error = some (oob_counts_message ii jj)) ∧
    oob_data_message 3 (-1) = "OOB in output_data[3,-1]" ∧
    oob_counts_message 0 12 = "OOB in output_counts[0,12]" := by
  refine ⟨?_, ?_, ?_, by decide, by decide⟩ <;>
  by_cases h : Dbl.feq dow (Dbl.fin 0) = true <;>
  by_cases hv : Dbl.feq vc (Dbl.fin 0) = true <;>
  by_cases hd : oob_pixel p.output_data ii jj = true <;>
  by_cases hc : oob_pixel p.output_counts ii jj = true <;>
  simp [update_data, h, hv, hd, hc, set_pixel]

/-- A list of non-negative rationals with a non-zero entry has a positive
sum. -/
theorem sum_pos_of_nonneg (l : List ℚ) (hpos : ∀ x ∈ l, 0 ≤ x) (hne : ∃ x ∈ l, x ≠ 0) :
    0 < l.sum := by
  induction l with
  | nil => obtain ⟨x, hx, _⟩ := hne; cases hx
  | cons a l ih =>
    have ha : 0 ≤ a := hpos a (List.mem_cons_self _ _)
    have hl : ∀ x ∈ l, 0 ≤ x := fun x hx => hpos x (List.mem_cons_of_mem _ hx)
    have hsum : 0 ≤ l.sum := List.sum_nonneg hl
    rw [List.sum_cons]
    obtain ⟨x, hx, hx0⟩ := hne
    rcases List.mem_cons.mp hx with rfl | hx'
    · have : 0 < x := lt_of_le_of_ne ha (Ne.symm hx0)
      linarith
    · have := ih hl ⟨x, hx', hx0⟩
      linarith

/-- The invariant of the running weighted mean, from any state: if the
counts at the pixel are `s ≥ 0` and, when `s > 0`, `counts · data` is the flux
`f` accumulated so far, then after merging the contributions `cs` the counts
are `s + Σ dow` and `counts · data` is `f + Σ dow·d`. -/
theorem update_seq_invariant (ii jj : Int) (cs : List (ℚ × ℚ)) :
    ∀ (p : driz_param_t) (s f : ℚ),
      oob_pixel p.output_data ii jj = false →
      oob_pixel p.output_counts ii jj = false →
      p.output_counts.val ii jj = Dbl.fin s → 0 ≤ s →
      (0 < s → p.output_counts.val ii jj * p.output_data.val ii jj = Dbl.fin f) →
      (s = 0 → f = 0) →
      (∀ c ∈ cs, 0 ≤ c.2) →
      (update_seq p ii jj (cs.map fun c => (Dbl.fin c.1, Dbl.fin c.2))).output_counts.val ii jj
          = Dbl.fin (s + (cs.map fun c => c.2).sum) ∧
      (0 < s + (cs.map fun c => c.2).sum →
        (update_seq p ii jj (cs.map fun c => (Dbl.fin c.1, Dbl.fin c.2))).output_counts.val ii jj *
        (update_seq p ii jj (cs.map fun c => (Dbl.fin c.1, Dbl.fin c.2))).output_data.val ii jj
          = Dbl.fin (f + (cs.map fun c => c.2 * c.1).sum)) := by
  induction cs with
  | nil =>
    intro p s f _ _ hcnt _ hprod _ _
    simp only [List.map_nil, List.sum_nil, add_zero, update_seq]
    exact ⟨hcnt, hprod⟩
  | cons c cs ih =>
    intro p s f hd hc hcnt hs hprod hzero hpos
    have hc2 : 0 ≤ c.2 := hpos c (List.mem_cons_self _ _)
    have hrest : ∀ c' ∈ cs, 0 ≤ c'.2 := fun c' hc' => hpos c' (List.mem_cons_of_mem _ hc')
    simp only [List.map_cons, List.sum_cons, update_seq]
    by_cases hz : c.2 = 0
    · have hskip := update_data_skip p ii jj (Dbl.fin c.1) (get_pixel p.output_counts ii jj)
        (Dbl.fin c.2) (by simp [hz])
      rw [hskip]
      have := ih p s f hd hc hcnt hs hprod hzero hrest
      simpa [hz] using this
    · have hdow : Dbl.feq (Dbl.fin c.2) (Dbl.fin 0) = false := by simp [hz]
      have hstep := update_data_in_bounds p ii jj (Dbl.fin c.1) (get_pixel p.output_counts ii jj)
        (Dbl.fin c.2) hd hc hdow
      rw [hstep]
      have hc2pos : 0 < c.2 := lt_of_le_of_ne hc2 (Ne.symm hz)
      have hnew := ih
        { p with
          output_data := set_pixel p.output_data ii jj
            (if Dbl.feq (get_pixel p.output_counts ii jj) (Dbl.fin 0) then Dbl.fin c.1
             else (get_pixel p.output_data ii jj * get_pixel p.output_counts ii jj
                    + Dbl.fin c.2 * Dbl.fin c.1) / (get_pixel p.output_counts ii jj + Dbl.fin c.2)),
          output_counts := set_pixel p.output_counts ii jj
            (get_pixel p.output_counts ii jj + Dbl.fin c.2) }
        (s + c.2) (f + c.2 * c.1) hd hc
        (by simp [set_pixel, get_pixel, hcnt])
        (by linarith)
        (by
          intro _
          simp only [set_pixel, get_pixel, and_self, if_true, hcnt]
          by_cases hs0 : s = 0
          · simp [hs0, hzero hs0]
          · have hspos : 0 < s := lt_of_le_of_ne hs (Ne.symm hs0)
            have hp := hprod hspos
            rw [hcnt] at hp
            obtain ⟨v, hv, hsv⟩ := Dbl.fin_mul_eq_fin s f _ hp
            rw [hv]
            have hne : s + c.2 ≠ 0 := by linarith
            simp only [Dbl.feq_fin_fin, hs0, decide_False, Dbl.fin_mul_fin, Dbl.fin_add_fin,
              Dbl.fin_div_fin _ _ hne]
            simp
            field_simp
            rw [← hsv]; ring)
        (by intro h; exfalso; linarith)
        hrest
      simpa [add_assoc] using hnew

/-- C2: the weighted-mean invariant of `update_data`.  Starting from counts 0
at a destination pixel inside both planes and merging any finite sequence of
contributions `(d_k, dow_k)` with `dow_k ≥ 0`, not all zero, each call being
passed the pixel's current counts, the counts end as `Σ dow_k > 0` and
`counts · output_data` is exactly `Σ dow_k·d_k`. -/
theorem weighted_mean_invariant (p : driz_param_t) (ii jj : Int) (cs : List (ℚ × ℚ))
    (hd : oob_pixel p.output_data ii jj = false)
    (hc : oob_pixel p.output_counts ii jj = false)
    (h0 : p.output_counts.val ii jj = Dbl.fin 0)
    (hpos : ∀ c ∈ cs, 0 ≤ c.2) (hne : ∃ c ∈ cs, c.2 ≠ 0) :
    (update_seq p ii jj (cs.map fun c => (Dbl.fin c.1, Dbl.fin c.2))).output_counts.val ii jj
        = Dbl.fin ((cs.map fun c => c.2).sum) ∧
    0 < (cs.map fun c => c.2).sum ∧
    (update_seq p ii jj (cs.map fun c => (Dbl.fin c.1, Dbl.fin c.2))).output_counts.val ii jj *
      (update_seq p ii jj (cs.map fun c => (Dbl.fin c.1, Dbl.fin c.2))).output_data.val ii jj
        = Dbl.fin ((cs.map fun c => c.2 * c.1).sum) := by
  have hsum : 0 < (cs.map fun c => c.2).sum := by
    apply sum_pos_of_nonneg
    · intro x hx
      obtain ⟨c, hc', rfl⟩ := List.mem_map.mp hx
      exact hpos c hc'
    · obtain ⟨c, hc', hc0⟩ := hne
      exact ⟨c.2, List.mem_map.mpr ⟨c, hc', rfl⟩, hc0⟩
  have h := update_seq_invariant ii jj cs p 0 0 hd hc h0 le_rfl
    (fun h => absurd h (lt_irrefl 0)) (fun _ => rfl) hpos
  simp only [zero_add] at h
  exact ⟨h.1, hsum, h.2 hsum⟩

/-- C2 at a concrete input: the contributions `(d, dow) = (2, 1), (7, 0),
(4, 3)` merged into pixel `(0, 0)` of the zeroed planes. -/
theorem weighted_mean_invariant_witness :
    (update_seq demo_param 0 0
        ([((2 : ℚ), (1 : ℚ)), (7, 0), (4, 3)].map fun c => (Dbl.fin c.1, Dbl.fin c.2))
      ).output_counts.val 0 0
        = Dbl.fin (([((2 : ℚ), (1 : ℚ)), (7, 0), (4, 3)].map fun c => c.2).sum) ∧
    0 < ([((2 : ℚ), (1 : ℚ)), (7, 0), (4, 3)].map fun c => c.2).sum ∧
    (update_seq demo_param 0 0
        ([((2 : ℚ), (1 : ℚ)), (7, 0), (4, 3)].map fun c => (Dbl.fin c.1, Dbl.fin c.2))
      ).output_counts.val 0 0 *
      (update_seq demo_param 0 0
        ([((2 : ℚ), (1 : ℚ)), (7, 0), (4, 3)].map fun c => (Dbl.fin c.1, Dbl.fin c.2))
      ).output_data.val 0 0
        = Dbl.fin (([((2 : ℚ), (1 : ℚ)), (7, 0), (4, 3)].map fun c => c.2 * c.1).sum) :=
  weighted_mean_invariant demo_param 0 0 [(2, 1), (7, 0), (4, 3)] (by decide) (by decide) rfl
    (by simp) ⟨(2, 1), by simp, by norm_num⟩

/-! ## The geometry primitives `sgarea` and `boxer` -/

namespace Dbl

theorem sub_sub_fin (a b : Dbl) (h : ℚ) : a - (b - fin h) = a - b + fin h := by
  cases a <;> cases b <;> first | rfl | (simp only [fin_sub_fin, fin_add_fin]; congr 1; ring)

end Dbl

theorem MAX_fin (a b : ℚ) : MAX (Dbl.fin a) (Dbl.fin b) = Dbl.fin (max a b) := by
  unfold MAX
  simp only [Dbl.gt_fin_fin, decide_eq_true_eq]
  split_ifs with h
  · rw [max_eq_left (le_of_lt h)]
  · rw [max_eq_right (not_lt.mp h)]

theorem MIN_fin (a b : ℚ) : MIN (Dbl.fin a) (Dbl.fin b) = Dbl.fin (min a b) := by
  unfold MIN
  simp only [Dbl.lt_fin_fin, decide_eq_true_eq]
  split_ifs with h
  · rw [min_eq_left (le_of_lt h)]
  · rw [min_eq_right (not_lt.mp h)]

theorem ite_fin (c : Prop) [Decidable c] (a b : ℚ) :
    (if c then Dbl.fin a else Dbl.fin b) = Dbl.fin (if c then a else b) := by
  split_ifs <;> rfl

/-- On finite arguments `sgarea` computes `sgareaQ`. -/
theorem sgarea_fin (x1 y1 x2 y2 : ℚ) (sgn_dx : Int) (slope inv_slope : ℚ) :
    sgarea (Dbl.fin x1) (Dbl.fin y1) (Dbl.fin x2) (Dbl.fin y2) sgn_dx (Dbl.fin slope)
      (Dbl.fin inv_slope) = Dbl.fin (sgareaQ x1 y1 x2 sgn_dx slope inv_slope) := by
  simp only [sgarea, sgareaQ, ite_fin, MAX_fin, MIN_fin, Dbl.fin_mul_fin, Dbl.fin_sub_fin,
    Dbl.fin_add_fin, Dbl.neg_fin, Dbl.ofInt_eq, Dbl.le_fin_fin, Dbl.ge_fin_fin, Dbl.lt_fin_fin,
    Dbl.feq_fin_fin, decide_eq_true_eq, Bool.or_eq_true, Bool.and_eq_true]

/-- The rational value of `sgarea` agrees with the case table of the spec
when `sgn_dx` records the x-order of the end points and
`inv_slope = 1/slope`. -/
theorem sgareaQ_eq_table (x1 y1 x2 : ℚ) (sgn_dx : Int) (slope inv_slope : ℚ)
    (hsgn : sgn_dx < 0 ↔ x2 < x1)
    (hinv : inv_slope ≠ 0 → inv_slope = 1 / slope) :
    sgareaQ x1 y1 x2 sgn_dx slope inv_slope = sgarea_table x1 y1 x2 sgn_dx slope inv_slope := by
  unfold sgareaQ sgarea_table
  by_cases h0 : inv_slope = 0
  · simp only [h0, if_true]
  · simp only [h0, if_false]
    have hi := hinv h0
    have hlo : (if sgn_dx < 0 then x2 else x1) = min x1 x2 := by
      by_cases h : sgn_dx < 0
      · rw [if_pos h, min_eq_right (le_of_lt (hsgn.mp h))]
      · rw [if_neg h, min_eq_left (not_lt.mp (fun h' => h (hsgn.mpr h')))]
    have hhi : (if sgn_dx < 0 then x1 else x2) = max x1 x2 := by
      by_cases h : sgn_dx < 0
      · rw [if_pos h, max_eq_left (le_of_lt (hsgn.mp h))]
      · rw [if_neg h, max_eq_right (not_lt.mp (fun h' => h (hsgn.mpr h')))]
    simp only [hlo, hhi]
    by_cases hout : max x1 x2 ≤ 0 ∨ 1 ≤ min x1 x2
    · rw [if_pos hout, if_pos (Or.symm hout)]
    · rw [if_neg hout, if_neg (fun h => hout (Or.symm h))]
      have hout' := not_or.mp hout
      have h1 : clip01 (min x1 x2) = max (min x1 x2) 0 := by
        unfold clip01
        apply min_eq_left
        apply max_le (le_of_lt (not_le.mp hout'.2)) zero_le_one
      have h2 : clip01 (max x1 x2) = min (max x1 x2) 1 := by
        unfold clip01
        rw [max_eq_left (le_of_lt (not_le.mp hout'.1))]
      have h3 : ∀ t : ℚ, t * inv_slope = t / slope := by
        intro t; rw [hi]; ring
      simp only [h1, h2, h3]
      generalize slope * max (min x1 x2) 0 + (y1 - slope * x1) = ylo
      generalize slope * min (max x1 x2) 1 + (y1 - slope * x1) = yhi
      by_cases ha : ylo ≤ 0 ∧ yhi ≤ 0
      · simp only [if_pos ha]
      · simp only [if_neg ha]
        by_cases hb : 1 ≤ ylo ∧ 1 ≤ yhi
        · simp only [if_pos hb]
        · simp only [if_neg hb]
          by_cases hl : ylo < 0 <;> by_cases hh : yhi < 0 <;>
            simp only [hl, hh, if_true, if_false] <;>
            split_ifs <;> first | ring1 | (exfalso; linarith) | (exfalso; simp_all)

/-- C10: `sgarea` follows the case table of the spec.  For finite arguments,
with `sgn_dx` negative exactly when `x2 < x1` (so that `xlo, xhi` are the
x-ordered end points) and `inv_slope = 1/slope` whenever `inv_slope ≠ 0`, the
value of `sgarea` is the one the table gives: 0 for `inv_slope = 0`, 0 when the
x-extent misses `(0, 1)`, 0 when both clipped ordinates are `≤ 0`,
`sgn_dx·(xhi − xlo)` when both are `≥ 1`, and after lifting the negative
ordinate the three trapezoid formulas. -/
theorem sgarea_case_table (x1 y1 x2 y2 : ℚ) (sgn_dx : Int) (slope inv_slope : ℚ)
    (hsgn : sgn_dx < 0 ↔ x2 < x1)
    (hinv : inv_slope ≠ 0 → inv_slope = 1 / slope) :
    sgarea (Dbl.fin x1) (Dbl.fin y1) (Dbl.fin x2) (Dbl.fin y2) sgn_dx (Dbl.fin slope)
      (Dbl.fin inv_slope) = Dbl.fin (sgarea_table x1 y1 x2 sgn_dx slope inv_slope) := by
  rw [sgarea_fin, sgareaQ_eq_table x1 y1 x2 sgn_dx slope inv_slope hsgn hinv]

/-- C10 at a concrete input: the edge from `(-1/2, -1)` to `(3/2, 3)` (slope
2, `c = 0`) leaves the unit square through its top at `xtop = 1/2`; the table
gives `½·(½ − 0)·(1 + 0) + (1 − ½) = 3/4`. -/
theorem sgarea_case_table_witness :
    sgarea (Dbl.fin (-1 / 2)) (Dbl.fin (-1)) (Dbl.fin (3 / 2)) (Dbl.fin 3) 1 (Dbl.fin 2)
        (Dbl.fin (1 / 2))
      = Dbl.fin (sgarea_table (-1 / 2) (-1) (3 / 2) 1 2 (1 / 2)) ∧
    sgarea_table (-1 / 2) (-1) (3 / 2) 1 2 (1 / 2) = 3 / 4 :=
  ⟨sgarea_case_table (-1 / 2) (-1) (3 / 2) 3 1 2 (1 / 2) (by norm_num) (by norm_num),
    by norm_num [sgarea_table, clip01]⟩

/-- `boxer` as the sum of its four `sgarea` terms. -/
theorem boxer_unfold (is js : Dbl) (x y : Fin 4 → Dbl) (sgn_dx : Fin 4 → Int)
    (slope inv_slope : Fin 4 → Dbl) :
    boxer is js x y sgn_dx slope inv_slope =
      sgarea (x 0 - (is - Dbl.fin (1 / 2))) (y 0 - (js - Dbl.fin (1 / 2)))
          (x 1 - (is - Dbl.fin (1 / 2))) (y 1 - (js - Dbl.fin (1 / 2)))
          (sgn_dx 0) (slope 0) (inv_slope 0) +
        sgarea (x 1 - (is - Dbl.fin (1 / 2))) (y 1 - (js - Dbl.fin (1 / 2)))
          (x 2 - (is - Dbl.fin (1 / 2))) (y 2 - (js - Dbl.fin (1 / 2)))
          (sgn_dx 1) (slope 1) (inv_slope 1) +
        sgarea (x 2 - (is - Dbl.fin (1 / 2))) (y 2 - (js - Dbl.fin (1 / 2)))
          (x 3 - (is - Dbl.fin (1 / 2))) (y 3 - (js - Dbl.fin (1 / 2)))
          (sgn_dx 2) (slope 2) (inv_slope 2) +
        sgarea (x 3 - (is - Dbl.fin (1 / 2))) (y 3 - (js - Dbl.fin (1 / 2)))
          (x 0 - (is - Dbl.fin (1 / 2))) (y 0 - (js - Dbl.fin (1 / 2)))
          (sgn_dx 3) (slope 3) (inv_slope 3) := by
  simp only [boxer, List.foldl, Dbl.zero_add']
  rfl

/-- C9: `boxer` equals its reference definition: for all inputs it is the sum
over the four edges `k → (k+1) mod 4` of `sgarea` at the vertices translated
by `− i + 0.5` and `− j + 0.5`, with the edge's `sgn_dx`, `slope` and
`inv_slope`. -/
theorem boxer_reference (i j : Dbl) (x y : Fin 4 → Dbl) (sgn_dx : Fin 4 → Int)
    (slope inv_slope : Fin 4 → Dbl) :
    boxer i j x y sgn_dx slope inv_slope = boxer_spec i j x y sgn_dx slope inv_slope := by
  rw [boxer_unfold]
  simp only [Dbl.sub_sub_fin, boxer_spec]
  rfl

namespace Dbl

@[simp] theorem nan_add (a : Dbl) : nan + a = nan := by cases a <;> rfl
@[simp] theorem add_nan (a : Dbl) : a + nan = nan := by cases a <;> rfl
@[simp] theorem nan_sub (a : Dbl) : nan - a = nan := by cases a <;> rfl
@[simp] theorem sub_nan (a : Dbl) : a - nan = nan := by cases a <;> rfl
@[simp] theorem nan_mul (a : Dbl) : nan * a = nan := by cases a <;> rfl
@[simp] theorem mul_nan (a : Dbl) : a * nan = nan := by cases a <;> rfl
@[simp] theorem neg_nan : -nan = nan := rfl
@[simp] theorem neg_pinf : -pinf = ninf := rfl
@[simp] theorem neg_ninf : -ninf = pinf := rfl
@[simp] theorem lt_nan (a : Dbl) : Dbl.lt a nan = false := by cases a <;> rfl
@[simp] theorem nan_lt (a : Dbl) : Dbl.lt nan a = false := by cases a <;> rfl
@[simp] theorem le_nan (a : Dbl) : Dbl.le a nan = false := by cases a <;> rfl
@[simp] theorem nan_le (a : Dbl) : Dbl.le nan a = false := by cases a <;> rfl
@[simp] theorem gt_nan (a : Dbl) : Dbl.gt a nan = false := by cases a <;> rfl
@[simp] theorem nan_gt (a : Dbl) : Dbl.gt nan a = false := by cases a <;> rfl
@[simp] theorem ge_nan (a : Dbl) : Dbl.ge a nan = false := by cases a <;> rfl
@[simp] theorem nan_ge (a : Dbl) : Dbl.ge nan a = false := by cases a <;> rfl
@[simp] theorem feq_nan (a : Dbl) : Dbl.feq a nan = false := by cases a <;> rfl
@[simp] theorem nan_feq (a : Dbl) : Dbl.feq nan a = false := by cases a <;> rfl
@[simp] theorem pinf_feq_fin (a : ℚ) : Dbl.feq pinf (fin a) = false := rfl
@[simp] theorem ninf_feq_fin (a : ℚ) : Dbl.feq ninf (fin a) = false := rfl

theorem fin_div_fin_eq (a b : ℚ) :
    fin a / fin b = if b = 0 then signedInf a else fin (a / b) := rfl

@[simp] theorem signedInf_zero : signedInf 0 = nan := by simp [signedInf]

theorem signedInf_of_pos {q : ℚ} (h : 0 < q) : signedInf q = pinf := by simp [signedInf, h]

theorem signedInf_of_neg {q : ℚ} (h : q < 0) : signedInf q = ninf := by
  simp [signedInf, h, not_lt.mpr (le_of_lt h)]

theorem signedInf_feq_zero (q : ℚ) : Dbl.feq (signedInf q) (fin 0) = false := by
  unfold signedInf; split_ifs <;> rfl

end Dbl

theorem sgarea_of_inv_zero (x1 y1 x2 y2 : Dbl) (sgn_dx : Int) (slope : Dbl) :
    sgarea x1 y1 x2 y2 sgn_dx slope (Dbl.fin 0) = Dbl.fin 0 := by
  simp [sgarea]

/-- A horizontal edge -/
theorem sgarea_flat (x1 y1 x2 y2 : ℚ) (sgn_dx : Int) (inv_slope : Dbl)
    (h : Dbl.feq inv_slope (Dbl.fin 0) = false) :
    sgarea (Dbl.fin x1) (Dbl.fin y1) (Dbl.fin x2) (Dbl.fin y2) sgn_dx (Dbl.fin 0) inv_slope
      = Dbl.fin (sgareaQ x1 y1 x2 sgn_dx 0 1) := by
  simp only [sgarea, sgareaQ, h, ite_fin, MAX_fin, MIN_fin, Dbl.fin_mul_fin, Dbl.fin_sub_fin,
    Dbl.fin_add_fin, Dbl.neg_fin, Dbl.ofInt_eq, Dbl.le_fin_fin, Dbl.ge_fin_fin, Dbl.lt_fin_fin,
    Dbl.feq_fin_fin, decide_eq_true_eq, Bool.or_eq_true, Bool.and_eq_true, zero_mul, zero_add,
    sub_zero, one_ne_zero, if_false, Bool.false_eq_true]
  by_cases hx : (1 ≤ if sgn_dx < 0 then x2 else x1) ∨ (if sgn_dx < 0 then x1 else x2) ≤ 0
  · simp only [if_pos hx]
  · simp only [if_neg hx]
    by_cases h0 : y1 ≤ 0
    · simp only [h0, and_self, if_true]
    · by_cases h1 : 1 ≤ y1
      · simp only [h0, h1, and_self, if_true, if_false]
      · have h0' : ¬ y1 < 0 := fun hh => h0 (le_of_lt hh)
        have h1' : y1 ≤ 1 := le_of_lt (not_le.mp h1)
        simp only [h0, h1, h0', h1', and_self, if_true, if_false, Dbl.fin_mul_fin,
          Dbl.fin_sub_fin, Dbl.fin_add_fin]

/-- A degenerate edge -/
theorem sgarea_point (x1 y1 : ℚ) :
    sgarea (Dbl.fin x1) (Dbl.fin y1) (Dbl.fin x1) (Dbl.fin y1) 1 Dbl.nan Dbl.nan
      = if 1 ≤ x1 ∨ x1 ≤ 0 then Dbl.fin 0 else Dbl.nan := by
  simp only [sgarea, MAX_fin, MIN_fin, Dbl.nan_feq, Dbl.ge_fin_fin, Dbl.le_fin_fin,
    Bool.or_eq_true, decide_eq_true_eq, Dbl.nan_mul, Dbl.sub_nan, Dbl.nan_add, Dbl.nan_le,
    Dbl.ge_nan, Dbl.le_nan, Dbl.nan_ge, Dbl.lt_nan, Dbl.nan_lt, Dbl.mul_nan, Dbl.add_nan,
    Dbl.nan_sub, Bool.false_eq_true, if_false, Bool.and_self, Dbl.neg_nan]
  norm_num

theorem sgn_ite_eq (X1 X2 a : ℚ) :
    (if decide (0 ≤ X2 - X1) = true then (1 : Int) else -1) =
      (if X1 - a ≤ X2 - a then 1 else -1) := by
  by_cases h : X1 ≤ X2
  · have h1 : 0 ≤ X2 - X1 := by linarith
    have h2 : X1 - a ≤ X2 - a := by linarith
    simp [h1, h2]
  · have h1 : ¬ 0 ≤ X2 - X1 := by intro hh; apply h; linarith
    have h2 : ¬ X1 - a ≤ X2 - a := by intro hh; apply h; linarith
    simp [h1, h2]

theorem sgarea_edge (X1 Y1 X2 Y2 a b : ℚ)
    (h : X1 ≠ X2 ∨ Y1 ≠ Y2 ∨ X1 - a ≤ 0 ∨ 1 ≤ X1 - a) :
    sgarea (Dbl.fin X1 - Dbl.fin a) (Dbl.fin Y1 - Dbl.fin b) (Dbl.fin X2 - Dbl.fin a)
        (Dbl.fin Y2 - Dbl.fin b)
        (if Dbl.ge (Dbl.fin X2 - Dbl.fin X1) (Dbl.fin 0) then 1 else -1)
        ((Dbl.fin Y2 - Dbl.fin Y1) / (Dbl.fin X2 - Dbl.fin X1))
        ((Dbl.fin X2 - Dbl.fin X1) / (Dbl.fin Y2 - Dbl.fin Y1))
      = Dbl.fin (edge_areaQ (X1 - a) (Y1 - b) (X2 - a) (Y2 - b)) := by
  simp only [Dbl.fin_sub_fin, Dbl.ge_fin_fin, Dbl.fin_div_fin_eq, sgn_ite_eq X1 X2 a]
  have hdx : X2 - a - (X1 - a) = X2 - X1 := by ring
  have hdy : Y2 - b - (Y1 - b) = Y2 - Y1 := by ring
  have hyeq : (Y2 - b = Y1 - b) ↔ Y2 - Y1 = 0 := by
    constructor <;> intro hh <;> linarith
  unfold edge_areaQ
  rw [hdx, hdy]
  simp only [hyeq]
  by_cases hx : X2 - X1 = 0
  · by_cases hy : Y2 - Y1 = 0
    · have e1 : X2 = X1 := by linarith
      have e2 : Y2 = Y1 := by linarith
      subst e1 e2
      have hb : 1 ≤ X2 - a ∨ X2 - a ≤ 0 := by
        rcases h with h | h | h | h
        · exact absurd rfl h
        · exact absurd rfl h
        · exact Or.inr h
        · exact Or.inl h
      simp only [sub_self, if_true, Dbl.signedInf_zero, le_refl]
      rw [sgarea_point, if_pos hb]
      simp only [sgareaQ, one_ne_zero, if_false, ite_self, hb, if_true]
    · simp only [hx, hy, if_true, if_false, zero_div]
      rw [sgarea_of_inv_zero]
      simp [sgareaQ]
  · by_cases hy : Y2 - Y1 = 0
    · simp only [hx, hy, if_true, if_false, zero_div]
      rw [sgarea_flat _ _ _ _ _ _ (Dbl.signedInf_feq_zero _)]
    · simp only [hx, hy, if_false]
      rw [sgarea_fin]

theorem sgareaQ_eq_strip (x1 y1 x2 : ℚ) (sgn_dx : Int) (slope inv_slope : ℚ) :
    sgareaQ x1 y1 x2 sgn_dx slope inv_slope =
      (sgn_dx : ℚ) * strip_area (if sgn_dx < 0 then x2 else x1) (if sgn_dx < 0 then x1 else x2)
        (y1 - slope * x1) slope inv_slope := by
  unfold sgareaQ strip_area
  generalize (if sgn_dx < 0 then x2 else x1) = xlo0
  generalize (if sgn_dx < 0 then x1 else x2) = xhi0
  generalize y1 - slope * x1 = c
  by_cases h0 : inv_slope = 0
  · simp only [h0, if_true, mul_zero]
  · simp only [h0, if_false]
    by_cases hout : 1 ≤ xlo0 ∨ xhi0 ≤ 0
    · simp only [if_pos hout, mul_zero]
    · simp only [if_neg hout]
      generalize slope * max xlo0 0 + c = ylo
      generalize slope * min xhi0 1 + c = yhi
      generalize max xlo0 0 = xlo
      generalize min xhi0 1 = xhi
      by_cases ha : ylo ≤ 0 ∧ yhi ≤ 0
      · simp only [if_pos ha, mul_zero]
      · simp only [if_neg ha]
        by_cases hb : 1 ≤ ylo ∧ 1 ≤ yhi
        · simp only [if_pos hb]
        · simp only [if_neg hb]
          generalize (if ylo < 0 then -c * inv_slope else xlo) = xlo1
          generalize (if ylo < 0 then 0 else ylo) = ylo1
          generalize (if yhi < 0 then -c * inv_slope else xhi) = xhi1
          generalize (if yhi < 0 then 0 else yhi) = yhi1
          split_ifs <;> ring1

theorem sgareaQ_reverse (x1 y1 x2 y2 m im : ℚ) (sgn : Int) (hs : sgn = 1 ∨ sgn = -1)
    (hc : y2 - m * x2 = y1 - m * x1) :
    sgareaQ x2 y2 x1 (-sgn) m im = -sgareaQ x1 y1 x2 sgn m im := by
  rw [sgareaQ_eq_strip, sgareaQ_eq_strip, hc]
  rcases hs with rfl | rfl
  · simp only [show ((-1 : Int) < 0) by decide, show ¬ ((1 : Int) < 0) by decide, if_true,
      if_false, Int.cast_neg, Int.cast_one]
    ring
  · simp only [show ((-1 : Int) < 0) by decide, show ¬ ((- -1 : Int) < 0) by decide, if_true,
      if_false, Int.cast_neg, Int.cast_one]
    ring

theorem edge_areaQ_reverse (x1 y1 x2 y2 : ℚ) (h : x1 ≠ x2 ∨ y1 ≠ y2) :
    edge_areaQ x2 y2 x1 y1 = -edge_areaQ x1 y1 x2 y2 := by
  unfold edge_areaQ
  by_cases hx : x1 = x2
  · subst hx
    have hy : y1 ≠ y2 := by
      rcases h with h | h
      · exact absurd rfl h
      · exact h
    simp [sgareaQ, hy, Ne.symm hy]
  · have hdx : x2 - x1 ≠ 0 := sub_ne_zero.mpr (Ne.symm hx)
    have hm : (y1 - y2) / (x1 - x2) = (y2 - y1) / (x2 - x1) := by
      rw [← neg_sub y2 y1, ← neg_sub x2 x1, neg_div_neg_eq]
    have him : (if y1 = y2 then (1 : ℚ) else (x1 - x2) / (y1 - y2)) =
        (if y2 = y1 then 1 else (x2 - x1) / (y2 - y1)) := by
      by_cases hy : y1 = y2
      · simp [hy]
      · rw [if_neg hy, if_neg (Ne.symm hy), ← neg_sub y2 y1, ← neg_sub x2 x1, neg_div_neg_eq]
    have hsgn : (if x2 ≤ x1 then (1 : Int) else -1) = -(if x1 ≤ x2 then (1 : Int) else -1) := by
      by_cases hle : x1 ≤ x2
      · have : ¬ x2 ≤ x1 := fun h' => hx (le_antisymm hle h')
        simp [hle, this]
      · have : x2 ≤ x1 := le_of_lt (not_le.mp hle)
        simp [hle, this]
    rw [hm, him, hsgn]
    apply sgareaQ_reverse
    · by_cases hle : x1 ≤ x2 <;> simp [hle]
    · field_simp
      ring

theorem neg_ite_zero_nan (c : Prop) [Decidable c] :
    -(if c then Dbl.fin 0 else Dbl.nan) = (if c then Dbl.fin 0 else Dbl.nan) := by
  split_ifs
  · show Dbl.fin (-0) = Dbl.fin 0
    rw [neg_zero]
  · rfl

theorem sgarea_reverse (X1 Y1 X2 Y2 a b : ℚ) :
    sgarea (Dbl.fin X2 - Dbl.fin a) (Dbl.fin Y2 - Dbl.fin b) (Dbl.fin X1 - Dbl.fin a)
        (Dbl.fin Y1 - Dbl.fin b)
        (if Dbl.ge (Dbl.fin X1 - Dbl.fin X2) (Dbl.fin 0) then 1 else -1)
        ((Dbl.fin Y1 - Dbl.fin Y2) / (Dbl.fin X1 - Dbl.fin X2))
        ((Dbl.fin X1 - Dbl.fin X2) / (Dbl.fin Y1 - Dbl.fin Y2))
      = -sgarea (Dbl.fin X1 - Dbl.fin a) (Dbl.fin Y1 - Dbl.fin b) (Dbl.fin X2 - Dbl.fin a)
        (Dbl.fin Y2 - Dbl.fin b)
        (if Dbl.ge (Dbl.fin X2 - Dbl.fin X1) (Dbl.fin 0) then 1 else -1)
        ((Dbl.fin Y2 - Dbl.fin Y1) / (Dbl.fin X2 - Dbl.fin X1))
        ((Dbl.fin X2 - Dbl.fin X1) / (Dbl.fin Y2 - Dbl.fin Y1)) := by
  by_cases h : X1 ≠ X2 ∨ Y1 ≠ Y2
  · have h' : X2 ≠ X1 ∨ Y2 ≠ Y1 := by
      rcases h with h | h
      · exact Or.inl (Ne.symm h)
      · exact Or.inr (Ne.symm h)
    rw [sgarea_edge X1 Y1 X2 Y2 a b (by tauto), sgarea_edge X2 Y2 X1 Y1 a b (by tauto),
      edge_areaQ_reverse _ _ _ _ (by
        rcases h with h | h
        · left; intro e; apply h; linarith
        · right; intro e; apply h; linarith)]
    rfl
  · have e1 : X1 = X2 := by by_contra hh; exact h (Or.inl hh)
    have e2 : Y1 = Y2 := by by_contra hh; exact h (Or.inr hh)
    subst e1 e2
    simp only [Dbl.fin_sub_fin, sub_self, Dbl.ge_fin_fin, le_refl, decide_True, if_true,
      Dbl.fin_div_fin_eq, Dbl.signedInf_zero]
    rw [sgarea_point, neg_ite_zero_nan]

theorem boxer_fin (i j : ℚ) (x y : Fin 4 → ℚ)
    (h : ∀ k, x k ≠ x (k + 1) ∨ y k ≠ y (k + 1) ∨ x k - (i - 1 / 2) ≤ 0 ∨ 1 ≤ x k - (i - 1 / 2)) :
    boxer (Dbl.fin i) (Dbl.fin j) (quad x) (quad y) (edge_sgn_dx (quad x))
      (edge_slope (quad x) (quad y)) (edge_inv_slope (quad x) (quad y))
      = Dbl.fin (boxerQ i j x y) := by
  rw [boxer_unfold, Dbl.fin_sub_fin, Dbl.fin_sub_fin]
  unfold boxerQ
  simp only [← Dbl.fin_add_fin]
  congr 1
  congr 1
  congr 1
  · exact sgarea_edge (x 0) (y 0) (x 1) (y 1) (i - 1 / 2) (j - 1 / 2) (h 0)
  · exact sgarea_edge (x 1) (y 1) (x 2) (y 2) (i - 1 / 2) (j - 1 / 2) (h 1)
  · exact sgarea_edge (x 2) (y 2) (x 3) (y 3) (i - 1 / 2) (j - 1 / 2) (h 2)
  · exact sgarea_edge (x 3) (y 3) (x 0) (y 0) (i - 1 / 2) (j - 1 / 2) (h 3)

theorem edge_areaQ_inside (x1 y1 x2 y2 : ℚ) (hx1 : 0 ≤ x1 ∧ x1 ≤ 1) (hy1 : 0 ≤ y1 ∧ y1 ≤ 1)
    (hx2 : 0 ≤ x2 ∧ x2 ≤ 1) (hy2 : 0 ≤ y2 ∧ y2 ≤ 1) :
    edge_areaQ x1 y1 x2 y2 = 1 / 2 * ((x2 - x1) * (y1 + y2)) := by
  obtain ⟨a1, b1⟩ := hx1
  obtain ⟨a2, b2⟩ := hy1
  obtain ⟨a3, b3⟩ := hx2
  obtain ⟨a4, b4⟩ := hy2
  unfold edge_areaQ sgareaQ
  by_cases hx : x2 = x1
  · subst hx
    by_cases hy : y2 = y1
    · subst hy
      simp only [if_true, one_ne_zero, if_false, le_refl, sub_self, zero_div, zero_mul, zero_add,
        ite_self, sub_zero, max_eq_left a3, min_eq_left b3]
      split_ifs <;> first | ring1 | (exfalso; linarith)
    · simp [hy]
  · have hdx : x2 - x1 ≠ 0 := sub_ne_zero.mpr hx
    by_cases hy : y2 = y1
    · subst hy
      simp only [if_true, one_ne_zero, if_false, sub_self, zero_div, zero_mul, zero_add, sub_zero]
      by_cases hle : x1 ≤ x2
      · have hlt : x1 < x2 := lt_of_le_of_ne hle (Ne.symm hx)
        simp only [hle, if_true, show ¬ ((1 : Int) < 0) by decide, if_false]
        have e1 : ¬ (1 ≤ x1 ∨ x2 ≤ 0) := by
          intro h; rcases h with h | h <;> linarith
        rw [if_neg e1, max_eq_left a1, min_eq_left b3]
        split_ifs <;> first | (push_cast; ring1) | (exfalso; linarith) | (push_cast; nlinarith)
      · have hlt : x2 < x1 := not_le.mp hle
        simp only [hle, if_false, show ((-1 : Int) < 0) by decide, if_true]
        have e1 : ¬ (1 ≤ x2 ∨ x1 ≤ 0) := by
          intro h; rcases h with h | h <;> linarith
        rw [if_neg e1, max_eq_left a3, min_eq_left b1]
        split_ifs <;> first | (push_cast; ring1) | (exfalso; linarith) | (push_cast; nlinarith)
    · have hdy : y2 - y1 ≠ 0 := sub_ne_zero.mpr hy
      have hinv : (x2 - x1) / (y2 - y1) ≠ 0 := div_ne_zero hdx hdy
      simp only [hy, if_false, hinv]
      have hs : (y2 - y1) / (x2 - x1) * x2 + (y1 - (y2 - y1) / (x2 - x1) * x1) = y2 := by
        field_simp; ring
      have hs1 : (y2 - y1) / (x2 - x1) * x1 + (y1 - (y2 - y1) / (x2 - x1) * x1) = y1 := by
        ring
      by_cases hle : x1 ≤ x2
      · have hlt : x1 < x2 := lt_of_le_of_ne hle (Ne.symm hx)
        simp only [hle, if_true, show ¬ ((1 : Int) < 0) by decide, if_false]
        have e1 : ¬ (1 ≤ x1 ∨ x2 ≤ 0) := by
          intro h; rcases h with h | h <;> linarith
        simp only [if_neg e1, max_eq_left a1, min_eq_left b3, hs, hs1]
        have e2 : ¬ (y1 ≤ 0 ∧ y2 ≤ 0) := by
          intro h; apply hy; linarith [h.1, h.2]
        have e3 : ¬ (1 ≤ y1 ∧ 1 ≤ y2) := by
          intro h; apply hy; linarith [h.1, h.2]
        simp only [if_neg e2, if_neg e3, if_neg (not_lt.mpr a2), if_neg (not_lt.mpr a4),
          if_pos b2, if_pos b4]
        push_cast; ring
      · have hlt : x2 < x1 := not_le.mp hle
        simp only [hle, if_false, show ((-1 : Int) < 0) by decide, if_true]
        have e1 : ¬ (1 ≤ x2 ∨ x1 ≤ 0) := by
          intro h; rcases h with h | h <;> linarith
        simp only [if_neg e1, max_eq_left a3, min_eq_left b1, hs, hs1]
        have e2 : ¬ (y2 ≤ 0 ∧ y1 ≤ 0) := by
          intro h; apply hy; linarith [h.1, h.2]
        have e3 : ¬ (1 ≤ y2 ∧ 1 ≤ y1) := by
          intro h; apply hy; linarith [h.1, h.2]
        simp only [if_neg e2, if_neg e3, if_neg (not_lt.mpr a4), if_neg (not_lt.mpr a2),
          if_pos b4, if_pos b2]
        push_cast; ring

/-- The shoelace area of a clockwise convex quadrilateral is positive. -/
theorem shoelace_pos_of_clockwise (x y : Fin 4 → ℚ) (h : clockwise x y) : 0 < shoelace x y := by
  have h0 : (x 1 - x 0) * (y 2 - y 1) - (y 1 - y 0) * (x 2 - x 1) < 0 := h 0
  have h2 : (x 3 - x 2) * (y 0 - y 3) - (y 3 - y 2) * (x 0 - x 3) < 0 := h 2
  unfold shoelace
  nlinarith [h0, h2]

/-- C7 (amended): the signed-area law.  For every closed quadrilateral whose
four translated vertices lie in `[0,1]²`, the per-edge arrays being those of
`do_kernel_square`, and in which no edge of length zero lies strictly inside
the strip `0 < x < 1`, `boxer` on that cell (the sum of `sgarea` over the four
edges) equals the shoelace signed area `½·Σ (x_{k+1} − x_k)(y_k + y_{k+1})` of
the translated vertices, which is positive for clockwise traversal. -/
theorem boxer_signed_area (i j : ℚ) (x y : Fin 4 → ℚ)
    (hx : ∀ k, 0 ≤ x k - (i - 1 / 2) ∧ x k - (i - 1 / 2) ≤ 1)
    (hy : ∀ k, 0 ≤ y k - (j - 1 / 2) ∧ y k - (j - 1 / 2) ≤ 1)
    (hnd : ∀ k, x k ≠ x (k + 1) ∨ y k ≠ y (k + 1) ∨ x k - (i - 1 / 2) ≤ 0 ∨
      1 ≤ x k - (i - 1 / 2)) :
    boxer (Dbl.fin i) (Dbl.fin j) (quad x) (quad y) (edge_sgn_dx (quad x))
        (edge_slope (quad x) (quad y)) (edge_inv_slope (quad x) (quad y))
      = Dbl.fin (shoelace (fun k => x k - (i - 1 / 2)) (fun k => y k - (j - 1 / 2))) ∧
    (clockwise (fun k => x k - (i - 1 / 2)) (fun k => y k - (j - 1 / 2)) →
      0 < shoelace (fun k => x k - (i - 1 / 2)) (fun k => y k - (j - 1 / 2))) := by
  refine ⟨?_, shoelace_pos_of_clockwise _ _⟩
  rw [boxer_fin i j x y hnd]
  congr 1
  unfold boxerQ shoelace
  rw [edge_areaQ_inside _ _ _ _ (hx 0) (hy 0) (hx 1) (hy 1),
    edge_areaQ_inside _ _ _ _ (hx 1) (hy 1) (hx 2) (hy 2),
    edge_areaQ_inside _ _ _ _ (hx 2) (hy 2) (hx 3) (hy 3),
    edge_areaQ_inside _ _ _ _ (hx 3) (hy 3) (hx 0) (hy 0)]
  ring

/-- C7 as stated fails on a quadrilateral with a repeated vertex: all the
translated vertices of `degenerate_x, degenerate_y` lie in `[0,1]²`, yet the
edge of length zero has `slope = inv_slope = 0/0 = NaN` and `boxer` returns
`NaN`, not the shoelace area. -/
theorem boxer_degenerate_edge :
    (∀ k, 0 ≤ degenerate_x k - (0 - 1 / 2) ∧ degenerate_x k - (0 - 1 / 2) ≤ 1) ∧
    (∀ k, 0 ≤ degenerate_y k - (0 - 1 / 2) ∧ degenerate_y k - (0 - 1 / 2) ≤ 1) ∧
    boxer (Dbl.fin 0) (Dbl.fin 0) (quad degenerate_x) (quad degenerate_y)
        (edge_sgn_dx (quad degenerate_x)) (edge_slope (quad degenerate_x) (quad degenerate_y))
        (edge_inv_slope (quad degenerate_x) (quad degenerate_y)) = Dbl.nan ∧
    boxer (Dbl.fin 0) (Dbl.fin 0) (quad degenerate_x) (quad degenerate_y)
        (edge_sgn_dx (quad degenerate_x)) (edge_slope (quad degenerate_x) (quad degenerate_y))
        (edge_inv_slope (quad degenerate_x) (quad degenerate_y))
      ≠ Dbl.fin (shoelace (fun k => degenerate_x k - (0 - 1 / 2))
          (fun k => degenerate_y k - (0 - 1 / 2))) := by
  have hb : boxer (Dbl.fin 0) (Dbl.fin 0) (quad degenerate_x) (quad degenerate_y)
        (edge_sgn_dx (quad degenerate_x)) (edge_slope (quad degenerate_x) (quad degenerate_y))
        (edge_inv_slope (quad degenerate_x) (quad degenerate_y)) = Dbl.nan := by
    rw [boxer_unfold]
    have h3 : sgarea (quad degenerate_x 2 - (Dbl.fin 0 - Dbl.fin (1 / 2)))
        (quad degenerate_y 2 - (Dbl.fin 0 - Dbl.fin (1 / 2)))
        (quad degenerate_x 3 - (Dbl.fin 0 - Dbl.fin (1 / 2)))
        (quad degenerate_y 3 - (Dbl.fin 0 - Dbl.fin (1 / 2)))
        (edge_sgn_dx (quad degenerate_x) 2) (edge_slope (quad degenerate_x) (quad degenerate_y) 2)
        (edge_inv_slope (quad degenerate_x) (quad degenerate_y) 2) = Dbl.nan := by
      have e := sgarea_point (3 / 4) (1 / 4)
      norm_num at e
      simp [quad, degenerate_x, degenerate_y, edge_sgn_dx, edge_slope, edge_inv_slope,
        Dbl.fin_div_fin_eq]
      norm_num
      exact e
    rw [h3]
    simp
  refine ⟨?_, ?_, hb, ?_⟩
  · intro k; fin_cases k <;> norm_num [degenerate_x]
  · intro k; fin_cases k <;> norm_num [degenerate_y]
  · rw [hb]; intro h; cases h

theorem rotate4 (a b c d : Dbl) : b + c + d + a = a + b + c + d := by
  rw [Dbl.add_comm' (b + c + d) a, Dbl.add_assoc' b c d, ← Dbl.add_assoc' a b (c + d),
    ← Dbl.add_assoc' (a + b) c d]

theorem reverse4 (a b c d : Dbl) : -c + -b + -a + -d = -(a + b + c + d) := by
  rw [Dbl.neg_add', Dbl.neg_add', Dbl.neg_add']
  congr 1
  rw [Dbl.add_comm' (-c) (-b), Dbl.add_comm' (-b + -c) (-a), ← Dbl.add_assoc']

/-- C8: the symmetry of `boxer`.  For every cell and every quadrilateral with
rational vertices, the per-edge arrays being derived from the vertices as in
`do_kernel_square`: rotating the four corners cyclically leaves the result
unchanged, and reversing the traversal negates it. -/
theorem boxer_symmetry (i j : ℚ) (x y : Fin 4 → ℚ) :
    boxer (Dbl.fin i) (Dbl.fin j) (quad fun k => x (k + 1)) (quad fun k => y (k + 1))
        (edge_sgn_dx (quad fun k => x (k + 1)))
        (edge_slope (quad fun k => x (k + 1)) (quad fun k => y (k + 1)))
        (edge_inv_slope (quad fun k => x (k + 1)) (quad fun k => y (k + 1)))
      = boxer (Dbl.fin i) (Dbl.fin j) (quad x) (quad y) (edge_sgn_dx (quad x))
        (edge_slope (quad x) (quad y)) (edge_inv_slope (quad x) (quad y)) ∧
    boxer (Dbl.fin i) (Dbl.fin j) (quad fun k => x (Fin.rev k)) (quad fun k => y (Fin.rev k))
        (edge_sgn_dx (quad fun k => x (Fin.rev k)))
        (edge_slope (quad fun k => x (Fin.rev k)) (quad fun k => y (Fin.rev k)))
        (edge_inv_slope (quad fun k => x (Fin.rev k)) (quad fun k => y (Fin.rev k)))
      = -boxer (Dbl.fin i) (Dbl.fin j) (quad x) (quad y) (edge_sgn_dx (quad x))
        (edge_slope (quad x) (quad y)) (edge_inv_slope (quad x) (quad y)) := by
  constructor
  · rw [boxer_unfold, boxer_unfold]
    exact rotate4 _ _ _ _
  · rw [boxer_unfold, boxer_unfold, Dbl.fin_sub_fin, Dbl.fin_sub_fin, ← reverse4]
    congr 1
    congr 1
    congr 1
    · exact sgarea_reverse (x 2) (y 2) (x 3) (y 3) (i - 1 / 2) (j - 1 / 2)
    · exact sgarea_reverse (x 1) (y 1) (x 2) (y 2) (i - 1 / 2) (j - 1 / 2)
    · exact sgarea_reverse (x 0) (y 0) (x 1) (y 1) (i - 1 / 2) (j - 1 / 2)
    · exact sgarea_reverse (x 3) (y 3) (x 0) (y 0) (i - 1 / 2) (j - 1 / 2)

/-! ## Loops -/

/-- Loop rule: an invariant indexed by the loop counter. -/
theorem loopFrom_rule {σ : Type} (body : Int → σ → Ctl σ) (I : Int → σ → Prop) (Q : σ → Prop) :
    ∀ (n : Nat) (lo : Int) (s : σ), I lo s →
      (∀ k t, lo ≤ k → k < lo + n → I k t →
        (∃ t1, body k t = Ctl.next t1 ∧ I (k + 1) t1) ∨ (∃ t1, body k t = Ctl.brk t1 ∧ Q t1)) →
      (∀ t, I (lo + n) t → Q t) →
      ∃ s1, loopFrom body n lo s = Ctl.next s1 ∧ Q s1 := by
  intro n
  induction n with
  | zero =>
    intro lo s h0 _ hend
    refine ⟨s, rfl, hend s ?_⟩
    simpa using h0
  | succ n ih =>
    intro lo s h0 hstep hend
    rcases hstep lo s le_rfl (by push_cast; linarith) h0 with ⟨t1, hb, hI⟩ | ⟨t1, hb, hQ⟩
    · have := ih (lo + 1) t1 hI
        (fun k t hk1 hk2 hIk => hstep k t (by linarith) (by push_cast; linarith) hIk)
        (fun t ht => hend t (by
          have e : lo + 1 + (n : Int) = lo + ((n + 1 : Nat) : Int) := by push_cast; ring
          rwa [e] at ht))
      obtain ⟨s1, hs1, hQ⟩ := this
      exact ⟨s1, by simp only [loopFrom, hb, hs1], hQ⟩
    · exact ⟨t1, by simp only [loopFrom, hb], hQ⟩

/-- The rule for `for (i = lo; i <= hi; ++i)`. -/
theorem forLoop_rule {σ : Type} (body : Int → σ → Ctl σ) (I : Int → σ → Prop) (Q : σ → Prop)
    (lo hi : Int) (s : σ) (h0 : I lo s)
    (hstep : ∀ k t, lo ≤ k → k ≤ hi → I k t →
      (∃ t1, body k t = Ctl.next t1 ∧ I (k + 1) t1) ∨ (∃ t1, body k t = Ctl.brk t1 ∧ Q t1))
    (hend : ∀ t, I (max lo (hi + 1)) t → Q t) :
    ∃ s1, forLoop lo hi body s = Ctl.next s1 ∧ Q s1 := by
  unfold forLoop
  have hn : lo + ((hi + 1 - lo).toNat : Int) = max lo (hi + 1) := by
    rcases le_total lo (hi + 1) with h | h
    · rw [Int.toNat_of_nonneg (by linarith), max_eq_right h]; ring
    · rw [Int.toNat_eq_zero.mpr (by linarith), max_eq_left h]; simp
  apply loopFrom_rule body I Q _ lo s h0
  · intro k t hk1 hk2 hIk
    apply hstep k t hk1 _ hIk
    rw [hn] at hk2
    rcases le_total lo (hi + 1) with h | h
    · rw [max_eq_right h] at hk2; linarith
    · rw [max_eq_left h] at hk2; linarith
  · intro t ht
    rw [hn] at ht
    exact hend t ht

/-- A loop whose body does nothing. -/
theorem forLoop_skip {σ : Type} (body : Int → σ → Ctl σ) (lo hi : Int) (s : σ)
    (h : ∀ k, lo ≤ k → k ≤ hi → body k s = Ctl.next s) :
    forLoop lo hi body s = Ctl.next s := by
  obtain ⟨s1, h1, h2⟩ := forLoop_rule body (fun _ t => t = s) (fun t => t = s) lo hi s rfl
    (fun k t hk1 hk2 ht => Or.inl ⟨s, by rw [ht]; exact h k hk1 hk2, rfl⟩) (fun t ht => ht)
  rw [h1, h2]

/-- Peel the first iteration. -/
theorem forLoop_first {σ : Type} (body : Int → σ → Ctl σ) (lo hi : Int) (s s1 : σ)
    (hle : lo ≤ hi) (h : body lo s = Ctl.next s1) :
    forLoop lo hi body s = forLoop (lo + 1) hi body s1 := by
  unfold forLoop
  have e : (hi + 1 - lo).toNat = (hi + 1 - (lo + 1)).toNat + 1 := by
    have h1 : 0 ≤ hi + 1 - (lo + 1) := by linarith
    have h2 : 0 ≤ hi + 1 - lo := by linarith
    apply Int.ofNat.inj
    show ((hi + 1 - lo).toNat : Int) = (((hi + 1 - (lo + 1)).toNat + 1 : Nat) : Int)
    push_cast
    rw [Int.toNat_of_nonneg h1, Int.toNat_of_nonneg h2]
    ring
  rw [e]
  simp only [loopFrom, h]

/-! ## The square kernel under the identity map -/

/-- A vertical edge contributes nothing. -/
theorem edge_areaQ_vertical (x y1 y2 : ℚ) : edge_areaQ x y1 x y2 = 0 := by
  unfold edge_areaQ
  by_cases hy : y2 = y1
  · subst hy
    simp only [if_true, sub_self, zero_div, le_refl]
    unfold sgareaQ
    simp only [one_ne_zero, if_false, ite_self, zero_mul, zero_add, sub_zero]
    by_cases hb : 1 ≤ x ∨ x ≤ 0
    · rw [if_pos hb]
    · have hb' := not_or.mp hb
      rw [if_neg hb, max_eq_left (le_of_lt (not_le.mp hb'.2)),
        min_eq_left (le_of_lt (not_le.mp hb'.1))]
      split_ifs <;> first | ring1 | (exfalso; linarith) | (exfalso; simp_all; linarith)
  · simp [sgareaQ, hy]

/-- The horizontal unit edge from `(u, h)` to `(u + 1, h)` at integer
coordinates. -/
theorem edge_areaQ_unit_right (u h : Int) :
    edge_areaQ (u : ℚ) (h : ℚ) ((u : ℚ) + 1) (h : ℚ) = if u = 0 ∧ 1 ≤ h then 1 else 0 := by
  unfold edge_areaQ sgareaQ
  have hle : (u : ℚ) ≤ (u : ℚ) + 1 := by linarith
  simp only [if_true, sub_self, zero_div, hle, one_ne_zero, if_false, zero_mul, zero_add,
    sub_zero, show ¬ ((1 : Int) < 0) by decide, Int.cast_one, one_mul]
  by_cases hu : u = 0
  · subst hu
    have e : ¬ ((1 : ℚ) ≤ ((0 : Int) : ℚ) ∨ ((0 : Int) : ℚ) + 1 ≤ 0) := by norm_num
    rw [if_neg e]
    by_cases hh : 1 ≤ h
    · have h1 : (1 : ℚ) ≤ (h : ℚ) := by exact_mod_cast hh
      have h2 : ¬ ((h : ℚ) ≤ 0) := by linarith
      simp [hh, h1, h2]
    · have h0 : h ≤ 0 := by omega
      have h1 : (h : ℚ) ≤ 0 := by exact_mod_cast h0
      simp [hh, h1]
  · have e : (1 : ℚ) ≤ (u : ℚ) ∨ (u : ℚ) + 1 ≤ 0 := by
      rcases lt_or_gt_of_ne hu with h1 | h1
      · right
        have : u + 1 ≤ 0 := by omega
        exact_mod_cast this
      · left
        have : 1 ≤ u := by omega
        exact_mod_cast this
    simp [hu, e]

theorem edge_areaQ_unit_left (u h : Int) :
    edge_areaQ ((u : ℚ) + 1) (h : ℚ) (u : ℚ) (h : ℚ) = if u = 0 ∧ 1 ≤ h then -1 else 0 := by
  rw [edge_areaQ_reverse (u : ℚ) (h : ℚ) ((u : ℚ) + 1) (h : ℚ) (Or.inl (by linarith)),
    edge_areaQ_unit_right]
  split_ifs <;> simp

/-- The overlap of the unit pixel `(i, j)` with the integer cell `(ii, jj)`. -/
theorem boxerQ_unit_pixel (i j ii jj : Int) :
    boxerQ (ii : ℚ) (jj : ℚ) (unit_pixel_x i) (unit_pixel_y j) =
      if ii = i ∧ jj = j then 1 else 0 := by
  unfold boxerQ
  have x0 : unit_pixel_x i 0 - ((ii : ℚ) - 1 / 2) = ((i - ii : Int) : ℚ) := by
    simp [unit_pixel_x]
  have x1 : unit_pixel_x i 1 - ((ii : ℚ) - 1 / 2) = ((i - ii : Int) : ℚ) + 1 := by
    simp [unit_pixel_x]; ring
  have x2 : unit_pixel_x i 2 - ((ii : ℚ) - 1 / 2) = ((i - ii : Int) : ℚ) + 1 := by
    simp [unit_pixel_x]; ring
  have x3 : unit_pixel_x i 3 - ((ii : ℚ) - 1 / 2) = ((i - ii : Int) : ℚ) := by
    simp [unit_pixel_x]
  have y0 : unit_pixel_y j 0 - ((jj : ℚ) - 1 / 2) = ((j - jj + 1 : Int) : ℚ) := by
    simp [unit_pixel_y]; ring
  have y1 : unit_pixel_y j 1 - ((jj : ℚ) - 1 / 2) = ((j - jj + 1 : Int) : ℚ) := by
    simp [unit_pixel_y]; ring
  have y2 : unit_pixel_y j 2 - ((jj : ℚ) - 1 / 2) = ((j - jj : Int) : ℚ) := by
    simp [unit_pixel_y]
  have y3 : unit_pixel_y j 3 - ((jj : ℚ) - 1 / 2) = ((j - jj : Int) : ℚ) := by
    simp [unit_pixel_y]
  rw [x0, x1, x2, x3, y0, y1, y2, y3, edge_areaQ_unit_right, edge_areaQ_vertical,
    edge_areaQ_unit_left, edge_areaQ_vertical]
  by_cases hi : ii = i
  · subst hi
    by_cases hj : jj = j
    · subst hj; simp
    · rcases lt_or_gt_of_ne hj with h | h
      · have a1 : 1 ≤ j - jj + 1 := by omega
        have a2 : 1 ≤ j - jj := by omega
        simp [hj, a1, a2]
      · have a1 : ¬ 1 ≤ j - jj + 1 := by omega
        have a2 : ¬ 1 ≤ j - jj := by omega
        simp [hj, a1, a2]
  · have : ¬ (i - ii = 0) := by omega
    simp [hi, this]

theorem unit_pixel_nondegenerate (i j : Int) (a : ℚ) :
    ∀ k, unit_pixel_x i k ≠ unit_pixel_x i (k + 1) ∨ unit_pixel_y j k ≠ unit_pixel_y j (k + 1) ∨
      unit_pixel_x i k - a ≤ 0 ∨ 1 ≤ unit_pixel_x i k - a := by
  intro k
  fin_cases k
  · left; simp [unit_pixel_x]; linarith
  · right; left; simp [unit_pixel_y]; linarith
  · left; simp [unit_pixel_x]; linarith
  · right; left; simp [unit_pixel_y]; linarith

/-- boxer on the unit pixel -/
theorem boxer_unit_pixel (i j ii jj : Int) :
    boxer (Dbl.ofInt ii) (Dbl.ofInt jj) (quad (unit_pixel_x i)) (quad (unit_pixel_y j))
        (edge_sgn_dx (quad (unit_pixel_x i)))
        (edge_slope (quad (unit_pixel_x i)) (quad (unit_pixel_y j)))
        (edge_inv_slope (quad (unit_pixel_x i)) (quad (unit_pixel_y j)))
      = if ii = i ∧ jj = j then Dbl.fin 1 else Dbl.fin 0 := by
  rw [Dbl.ofInt_eq, Dbl.ofInt_eq, boxer_fin _ _ _ _ (unit_pixel_nondegenerate i j _),
    boxerQ_unit_pixel]
  split_ifs <;> rfl

theorem signed_jaco_unit_pixel (i j : Int) :
    signed_jaco (quad (unit_pixel_x i)) (quad (unit_pixel_y j)) = Dbl.fin 1 := by
  simp only [signed_jaco, quad, unit_pixel_x, unit_pixel_y, Dbl.fin_sub_fin, Dbl.fin_mul_fin]
  congr 1
  simp
  ring

theorem fortran_round_half_below (i : Int) :
    fortran_round (Dbl.fin ((i : ℚ) - 1 / 2)) = if 1 ≤ i then i else i - 1 := by
  unfold fortran_round
  by_cases h : 1 ≤ i
  · have h1 : (0 : ℚ) ≤ (i : ℚ) - 1 / 2 := by
      have : (1 : ℚ) ≤ (i : ℚ) := by exact_mod_cast h
      linarith
    simp only [h1, if_true, h]
    have : (i : ℚ) - 1 / 2 + 1 / 2 = ((i : Int) : ℚ) := by ring
    rw [this, Int.floor_intCast]
  · have h0 : i ≤ 0 := by omega
    have h1 : ¬ (0 : ℚ) ≤ (i : ℚ) - 1 / 2 := by
      have : (i : ℚ) ≤ 0 := by exact_mod_cast h0
      intro hh; linarith
    simp only [h1, if_false, h]
    have : (1 : ℚ) / 2 - ((i : ℚ) - 1 / 2) = ((1 - i : Int) : ℚ) := by push_cast; ring
    rw [this, Int.floor_intCast]
    ring

theorem fortran_round_half_above (i : Int) :
    fortran_round (Dbl.fin ((i : ℚ) + 1 / 2)) = if 0 ≤ i then i + 1 else i := by
  unfold fortran_round
  by_cases h : 0 ≤ i
  · have h1 : (0 : ℚ) ≤ (i : ℚ) + 1 / 2 := by
      have : (0 : ℚ) ≤ (i : ℚ) := by exact_mod_cast h
      linarith
    simp only [h1, if_true, h]
    have : (i : ℚ) + 1 / 2 + 1 / 2 = ((i + 1 : Int) : ℚ) := by push_cast; ring
    rw [this, Int.floor_intCast]
  · have h0 : i ≤ -1 := by omega
    have h1 : ¬ (0 : ℚ) ≤ (i : ℚ) + 1 / 2 := by
      have : (i : ℚ) ≤ -1 := by exact_mod_cast h0
      intro hh; linarith
    simp only [h1, if_false, h]
    have : (1 : ℚ) / 2 - ((i : ℚ) + 1 / 2) = ((-i : Int) : ℚ) := by push_cast; ring
    rw [this, Int.floor_intCast]
    ring

theorem unit_pixel_x_val (i : Int) :
    unit_pixel_x i 0 = (i : ℚ) - 1 / 2 ∧ unit_pixel_x i 1 = (i : ℚ) + 1 / 2 ∧
    unit_pixel_x i 2 = (i : ℚ) + 1 / 2 ∧ unit_pixel_x i 3 = (i : ℚ) - 1 / 2 :=
  ⟨rfl, rfl, rfl, rfl⟩

theorem unit_pixel_y_val (j : Int) :
    unit_pixel_y j 0 = (j : ℚ) + 1 / 2 ∧ unit_pixel_y j 1 = (j : ℚ) + 1 / 2 ∧
    unit_pixel_y j 2 = (j : ℚ) - 1 / 2 ∧ unit_pixel_y j 3 = (j : ℚ) - 1 / 2 :=
  ⟨rfl, rfl, rfl, rfl⟩

theorem half_lt_facts (i : ℚ) : ¬ (i + 1 / 2 < i - 1 / 2) ∧ i - 1 / 2 < i + 1 / 2 :=
  ⟨by intro h; linarith, by linarith⟩

theorem min_doubles_unit_x (i : Int) :
    min_doubles (quad (unit_pixel_x i)) = Dbl.fin ((i : ℚ) - 1 / 2) := by
  obtain ⟨e0, e1, e2, e3⟩ := unit_pixel_x_val i
  obtain ⟨f1, f2⟩ := half_lt_facts (i : ℚ)
  simp only [min_doubles, List.foldl, quad, e0, e1, e2, e3, Dbl.lt_fin_fin, f1, f2, lt_irrefl,
    decide_False, decide_True, if_true, if_false, Bool.false_eq_true]

theorem max_doubles_unit_x (i : Int) :
    max_doubles (quad (unit_pixel_x i)) = Dbl.fin ((i : ℚ) + 1 / 2) := by
  obtain ⟨e0, e1, e2, e3⟩ := unit_pixel_x_val i
  obtain ⟨f1, f2⟩ := half_lt_facts (i : ℚ)
  simp only [max_doubles, List.foldl, quad, e0, e1, e2, e3, Dbl.gt_fin_fin, f1, f2, lt_irrefl,
    decide_False, decide_True, if_true, if_false, Bool.false_eq_true]

theorem min_doubles_unit_y (j : Int) :
    min_doubles (quad (unit_pixel_y j)) = Dbl.fin ((j : ℚ) - 1 / 2) := by
  obtain ⟨e0, e1, e2, e3⟩ := unit_pixel_y_val j
  obtain ⟨f1, f2⟩ := half_lt_facts (j : ℚ)
  simp only [min_doubles, List.foldl, quad, e0, e1, e2, e3, Dbl.lt_fin_fin, f1, f2, lt_irrefl,
    decide_False, decide_True, if_true, if_false, Bool.false_eq_true]

theorem max_doubles_unit_y (j : Int) :
    max_doubles (quad (unit_pixel_y j)) = Dbl.fin ((j : ℚ) + 1 / 2) := by
  obtain ⟨e0, e1, e2, e3⟩ := unit_pixel_y_val j
  obtain ⟨f1, f2⟩ := half_lt_facts (j : ℚ)
  simp only [max_doubles, List.foldl, quad, e0, e1, e2, e3, Dbl.gt_fin_fin, f1, f2, lt_irrefl,
    decide_False, decide_True, if_true, if_false, Bool.false_eq_true]

theorem square_footprint_unit_pixel (i j : Int) (d : Dbl) (bv : Nat) (osize : Int × Int)
    (p : driz_param_t) (st1 : driz_param_t × Int)
    (hi : 0 ≤ i ∧ i < osize.1) (hj : 0 ≤ j ∧ j < osize.2)
    (hc : contribute (p, 0) 1 i j bv d (get_pixel p.output_counts i j) (Dbl.fin 1)
      = Ctl.next st1) :
    square_footprint (quad (unit_pixel_x i)) (quad (unit_pixel_y j)) (Dbl.fin 1) d (Dbl.fin 1)
      bv osize p = Ctl.next st1 := by
  unfold square_footprint
  simp only [min_doubles_unit_x, max_doubles_unit_x, min_doubles_unit_y, max_doubles_unit_y,
    fortran_round_half_below, fortran_round_half_above, boxer_unit_pixel]
  have hmin_i : max (if 1 ≤ i then i else i - 1) 0 ≤ i := by
    split_ifs <;> omega
  have hmax_i : i ≤ min (if 0 ≤ i then i + 1 else i) (osize.1 - 1) := by
    split_ifs <;> omega
  have hmin_j : max (if 1 ≤ j then j else j - 1) 0 ≤ j := by
    split_ifs <;> omega
  have hmax_j : j ≤ min (if 0 ≤ j then j + 1 else j) (osize.2 - 1) := by
    split_ifs <;> omega
  generalize max (if 1 ≤ i then i else i - 1) 0 = min_ii at hmin_i
  generalize min (if 0 ≤ i then i + 1 else i) (osize.1 - 1) = max_ii at hmax_i
  generalize max (if 1 ≤ j then j else j - 1) 0 = min_jj at hmin_j
  generalize min (if 0 ≤ j then j + 1 else j) (osize.2 - 1) = max_jj at hmax_j
  obtain ⟨s1, h1, h2⟩ := forLoop_rule
    (fun ii st =>
      forLoop min_jj max_jj (fun jj st1 =>
        if Dbl.gt (if ii = i ∧ jj = j then Dbl.fin 1 else Dbl.fin 0) (Dbl.fin 0) = true then
          contribute st1 (st1.2 + 1) ii jj bv d (get_pixel st1.1.output_counts ii jj)
            ((if ii = i ∧ jj = j then Dbl.fin 1 else Dbl.fin 0) / Dbl.fin 1 * Dbl.fin 1)
        else Ctl.next st1) st)
    (fun ii st => st = if i < ii then st1 else (p, 0))
    (fun st => st = st1) min_ii max_ii (p, 0)
    (by simp only [not_lt.mpr hmin_i, if_false])
    (by
      intro ii st hk1 hk2 hI
      left
      obtain ⟨s2, g1, g2⟩ := forLoop_rule
        (fun jj st1 =>
          if Dbl.gt (if ii = i ∧ jj = j then Dbl.fin 1 else Dbl.fin 0) (Dbl.fin 0) = true then
            contribute st1 (st1.2 + 1) ii jj bv d (get_pixel st1.1.output_counts ii jj)
              ((if ii = i ∧ jj = j then Dbl.fin 1 else Dbl.fin 0) / Dbl.fin 1 * Dbl.fin 1)
          else Ctl.next st1)
        (fun jj st => st = if i < ii ∨ (i = ii ∧ j < jj) then st1 else (p, 0))
        (fun st => st = if i < ii + 1 then st1 else (p, 0)) min_jj max_jj st
        (by
          rw [hI]
          by_cases h : i < ii
          · simp only [h, true_or, if_true]
          · have : ¬ (i < ii ∨ (i = ii ∧ j < min_jj)) := by
              intro hh; rcases hh with hh | hh
              · exact h hh
              · omega
            rw [if_neg h]
            beta_reduce
            rw [if_neg this])
        (by
          intro jj st2 hj1 hj2 hJ
          left
          by_cases hcell : ii = i ∧ jj = j
          · obtain ⟨rfl, rfl⟩ := hcell
            have hcond : ¬ (ii < ii ∨ (ii = ii ∧ jj < jj)) := by
              intro hh; rcases hh with hh | hh <;> omega
            rw [if_neg hcond] at hJ
            subst hJ
            refine ⟨st1, ?_, ?_⟩
            · have e : Dbl.fin 1 / Dbl.fin 1 * Dbl.fin 1 = Dbl.fin 1 := by
                rw [Dbl.fin_div_fin 1 1 one_ne_zero, Dbl.fin_mul_fin]; norm_num
              simp only [and_self, if_true, Dbl.gt_fin_fin, zero_lt_one, decide_True, e, zero_add]
              exact hc
            · have : ii < ii ∨ (ii = ii ∧ jj < jj + 1) := Or.inr ⟨rfl, by omega⟩
              beta_reduce
              rw [if_pos this]
          · refine ⟨st2, ?_, ?_⟩
            · simp only [hcell, if_false, Dbl.gt_fin_fin, lt_irrefl, decide_False,
                Bool.false_eq_true]
            · rw [hJ]
              have : (i < ii ∨ (i = ii ∧ j < jj + 1)) ↔ (i < ii ∨ (i = ii ∧ j < jj)) := by
                constructor
                · intro hh; rcases hh with hh | ⟨h1, h2⟩
                  · exact Or.inl hh
                  · right; refine ⟨h1, ?_⟩
                    rcases lt_or_eq_of_le (Int.lt_add_one_iff.mp h2) with h3 | h3
                    · exact h3
                    · exact absurd ⟨h1.symm, h3.symm⟩ hcell
                · intro hh; rcases hh with hh | ⟨h1, h2⟩
                  · exact Or.inl hh
                  · exact Or.inr ⟨h1, by omega⟩
              simp only [this])
        (by
          intro st2 hst
          rw [hst]
          have hmx : max min_jj (max_jj + 1) = max_jj + 1 := max_eq_right (by omega)
          rw [hmx]
          have : (i < ii ∨ (i = ii ∧ j < max_jj + 1)) ↔ i < ii + 1 := by
            constructor
            · intro hh; rcases hh with hh | ⟨h1, _⟩ <;> omega
            · intro hh
              rcases lt_or_eq_of_le (Int.lt_add_one_iff.mp hh) with h3 | h3
              · exact Or.inl h3
              · exact Or.inr ⟨h3, by omega⟩
          simp only [this])
      exact ⟨s2, g1, g2⟩)
    (by
      intro st hst
      rw [hst]
      have hmx : max min_ii (max_ii + 1) = max_ii + 1 := max_eq_right (by omega)
      rw [hmx, if_pos (by omega)])
  rw [h1, h2]

theorem update_context_frame (p : driz_param_t) (ii jj : Int) (bv : Nat) (dow : Dbl) :
    (update_context p ii jj bv dow).output_data = p.output_data ∧
    (update_context p ii jj bv dow).output_counts = p.output_counts ∧
    (update_context p ii jj bv dow).data = p.data ∧
    (update_context p ii jj bv dow).weights = p.weights ∧
    (update_context p ii jj bv dow).nmiss = p.nmiss ∧
    (update_context p ii jj bv dow).nskip = p.nskip ∧
    (update_context p ii jj bv dow).error = p.error := by
  unfold update_context
  split
  · split_ifs <;> exact ⟨rfl, rfl, rfl, rfl, rfl, rfl, rfl⟩
  · exact ⟨rfl, rfl, rfl, rfl, rfl, rfl, rfl⟩

theorem quad_vec (a b c d : ℚ) :
    (![Dbl.fin a, Dbl.fin b, Dbl.fin c, Dbl.fin d] : Fin 4 → Dbl) = quad ![a, b, c, d] := by
  funext k
  fin_cases k <;> rfl

theorem interpolate_corners_identity (E : Extern) (p : driz_param_t) (i j : Int)
    (hid : ∀ q a b, E.interpolate_point q (Dbl.fin a) (Dbl.fin b) = some (Dbl.fin a, Dbl.fin b)) :
    interpolate_corners E p (corner_xin (Dbl.fin (1 / 2)) i) (corner_yin (Dbl.fin (1 / 2)) j)
      = some (quad (unit_pixel_x i), quad (unit_pixel_y j)) := by
  simp only [corner_xin, corner_yin, Dbl.ofInt_eq, Dbl.fin_sub_fin, Dbl.fin_add_fin,
    interpolate_corners, Matrix.cons_val_zero, Matrix.cons_val_one, Matrix.head_cons,
    Matrix.cons_val_two, Matrix.tail_cons, Matrix.cons_val_three, hid, quad_vec]
  rfl

/-- One source pixel under the identity map. -/
theorem square_pixel_identity (E : Extern) (p : driz_param_t) (bv : Nat) (i j : Int)
    (hid : ∀ q a b, E.interpolate_point q (Dbl.fin a) (Dbl.fin b) = some (Dbl.fin a, Dbl.fin b))
    (hw : p.weights = none)
    (hi : 0 ≤ i ∧ i < (p.output_data.nx : Int)) (hj : 0 ≤ j ∧ j < (p.output_data.ny : Int))
    (hc : oob_pixel p.output_counts i j = false)
    (h0 : p.output_counts.val i j = Dbl.fin 0) :
    ∃ q, square_pixel E (Dbl.fin (1 / 2)) (Dbl.fin 1) bv
        ((p.output_data.nx : Int), (p.output_data.ny : Int)) j i p = Ctl.next q ∧
      q.output_data = set_pixel p.output_data i j (p.data.val i j) ∧
      q.output_counts = set_pixel p.output_counts i j (Dbl.fin 1) ∧
      q.data = p.data ∧ q.weights = p.weights ∧ q.nmiss = p.nmiss ∧ q.nskip = p.nskip ∧
      q.error = p.error := by
  obtain ⟨c1, c2, c3, c4, c5, c6, c7⟩ := update_context_frame p i j bv (Dbl.fin 1)
  have hd : oob_pixel p.output_data i j = false := by
    simp only [oob_pixel, Bool.or_eq_false_iff, decide_eq_false_iff_not, not_lt, not_le]
    exact ⟨⟨⟨hi.1, hi.2⟩, hj.1⟩, hj.2⟩
  have hupd := update_data_in_bounds (update_context p i j bv (Dbl.fin 1)) i j
    (get_pixel p.data i j) (get_pixel p.output_counts i j) (Dbl.fin 1)
    (by rw [c1]; exact hd) (by rw [c2]; exact hc) (by simp)
  have hvc : get_pixel p.output_counts i j = Dbl.fin 0 := h0
  rw [hvc] at hupd
  simp only [Dbl.feq_fin_fin, decide_True, if_true, Dbl.fin_add_fin, zero_add, c1, c2] at hupd
  refine ⟨(update_data (update_context p i j bv (Dbl.fin 1)) i j (get_pixel p.data i j)
    (Dbl.fin 0) (Dbl.fin 1)).2, ?_, ?_⟩
  · unfold square_pixel
    simp only [interpolate_corners_identity E p i j hid, signed_jaco_unit_pixel, Dbl.lt_fin_fin,
      show ¬ ((1 : ℚ) < 0) by norm_num, decide_False, Bool.false_eq_true, if_false, swap13,
      Dbl.mul_one']
    have hpw : pixel_weight p i j = Dbl.fin 1 := by simp [pixel_weight, hw]
    rw [hpw]
    rw [square_footprint_unit_pixel i j (get_pixel p.data i j) bv _ p
      ((update_data (update_context p i j bv (Dbl.fin 1)) i j (get_pixel p.data i j)
        (Dbl.fin 0) (Dbl.fin 1)).2, 1) hi hj
      (by
        unfold contribute
        simp only [hvc, hupd, ne_eq, not_true_eq_false, if_false])]
    simp only [count_miss, one_ne_zero, if_false]
  · rw [hupd]
    exact ⟨rfl, rfl, c3, c4, c5, c6, c7⟩

theorem scan_stopped_iff (s : Scanner) (j : Int) :
    scan_stopped s j = true ↔ ∃ k, s.ymin ≤ k ∧ k ≤ j ∧ (s.rows k).status = 1 := by
  unfold scan_stopped
  rw [List.any_eq_true]
  constructor
  · rintro ⟨n, hn, hst⟩
    rw [List.mem_range] at hn
    have hpos : 0 < j + 1 - s.ymin := by
      by_contra hh
      rw [Int.toNat_eq_zero.mpr (by omega)] at hn
      omega
    have : (n : Int) < j + 1 - s.ymin := by
      have := Int.toNat_of_nonneg (le_of_lt hpos)
      omega
    exact ⟨s.ymin + n, by omega, by omega, by simpa using hst⟩
  · rintro ⟨k, h1, h2, hst⟩
    refine ⟨(k - s.ymin).toNat, ?_, ?_⟩
    · rw [List.mem_range]
      have a1 := Int.toNat_of_nonneg (show 0 ≤ k - s.ymin by omega)
      have a2 := Int.toNat_of_nonneg (show 0 ≤ j + 1 - s.ymin by omega)
      omega
    · have a1 := Int.toNat_of_nonneg (show 0 ≤ k - s.ymin by omega)
      rw [a1]
      have : s.ymin + (k - s.ymin) = k := by ring
      rw [this]
      simpa using hst

theorem row_processed_iff (s : Scanner) (j : Int) :
    row_processed s j = true ↔
      s.ret = 0 ∧ s.ymin ≤ j ∧ j ≤ s.ymax ∧ (∀ k, s.ymin ≤ k → k ≤ j → (s.rows k).status ≠ 1) ∧
      (s.rows j).status ≠ 2 ∧ (s.rows j).status ≠ 3 := by
  unfold row_processed
  simp only [Bool.and_eq_true, decide_eq_true_eq, Bool.not_eq_true', ne_eq]
  have hs : scan_stopped s j = false ↔ ∀ k, s.ymin ≤ k → k ≤ j → (s.rows k).status ≠ 1 := by
    rw [← Bool.not_eq_true, scan_stopped_iff]
    constructor
    · intro h k h1 h2 h3; exact h ⟨k, h1, h2, h3⟩
    · rintro h ⟨k, h1, h2, h3⟩; exact h k h1 h2 h3
  rw [hs]
  tauto

theorem processed_iff (s : Scanner) (i j : Int) :
    processed s i j = true ↔ row_processed s j = true ∧ (s.rows j).x1 ≤ i ∧ i ≤ (s.rows j).x2 := by
  unfold processed
  simp only [Bool.and_eq_true, decide_eq_true_eq]
  tauto

theorem SquareInv_congr (p0 : driz_param_t) (P P1 : Int → Int → Prop) (q : driz_param_t)
    (h : ∀ x y, P x y ↔ P1 x y) (hq : SquareInv p0 P q) : SquareInv p0 P1 q := by
  obtain ⟨a1, a2, a3, a4, a5, a6, a7, a8⟩ := hq
  exact ⟨a1, a2, a3, a4, a5, a6, fun x y hp => a7 x y ((h x y).mpr hp),
    fun x y hp => a8 x y (fun hh => hp ((h x y).mp hh))⟩

theorem SquareInv_counters (p0 : driz_param_t) (P : Int → Int → Prop) (q : driz_param_t)
    (a b : Int) (hq : SquareInv p0 P q) :
    SquareInv p0 P { q with nmiss := a, nskip := b } := hq

/-- The column loop over one row under the identity map. -/
theorem square_row_identity (E : Extern) (p0 : driz_param_t) (bv : Nat) (j x1 x2 : Int)
    (Pprev : Int → Int → Prop) (q : driz_param_t)
    (hid : ∀ q a b, E.interpolate_point q (Dbl.fin a) (Dbl.fin b) = some (Dbl.fin a, Dbl.fin b))
    (hdim : p0.output_counts.nx = p0.output_data.nx ∧ p0.output_counts.ny = p0.output_data.ny)
    (hprev : ∀ x y, Pprev x y → y < j)
    (hfit : ∀ i, x1 ≤ i → i ≤ x2 →
      0 ≤ i ∧ i < (p0.output_data.nx : Int) ∧ 0 ≤ j ∧ j < (p0.output_data.ny : Int))
    (hq : SquareInv p0 Pprev q) :
    ∃ q1, forLoop x1 x2 (square_pixel E (Dbl.fin (1 / 2)) (Dbl.fin 1) bv
        ((p0.output_data.nx : Int), (p0.output_data.ny : Int)) j) q = Ctl.next q1 ∧
      SquareInv p0 (fun x y => Pprev x y ∨ (y = j ∧ x1 ≤ x ∧ x ≤ x2)) q1 := by
  apply forLoop_rule _
    (fun i t => SquareInv p0 (fun x y => Pprev x y ∨ (y = j ∧ x1 ≤ x ∧ x < i)) t)
  · apply SquareInv_congr p0 _ _ q _ hq
    intro x y
    constructor
    · intro h; exact Or.inl h
    · rintro (h | ⟨_, h1, h2⟩)
      · exact h
      · omega
  · intro i t hi1 hi2 hI
    left
    obtain ⟨a1, a2, a3, a4, a5, a6, a7, a8⟩ := hI
    obtain ⟨f1, f2, f3, f4⟩ := hfit i hi1 hi2
    have hnot : ¬ (Pprev i j ∨ (j = j ∧ x1 ≤ i ∧ i < i)) := by
      rintro (h | ⟨_, _, h⟩)
      · have := hprev i j h; omega
      · omega
    have hzero := (a8 i j hnot).1
    have hoob : oob_pixel t.output_counts i j = false := by
      simp only [oob_pixel, Bool.or_eq_false_iff, decide_eq_false_iff_not, not_lt, not_le, a5, a6,
        hdim.1, hdim.2]
      exact ⟨⟨⟨f1, f2⟩, f3⟩, f4⟩
    obtain ⟨q1, g1, g2, g3, g4, g5, _, _, _⟩ := square_pixel_identity E t bv i j hid a2
      (by rw [a3]; exact ⟨f1, f2⟩) (by rw [a4]; exact ⟨f3, f4⟩) hoob hzero
    rw [a3, a4] at g1
    refine ⟨q1, g1, ?_⟩
    refine ⟨by rw [g4, a1], by rw [g5, a2], by rw [g2]; exact a3, by rw [g2]; exact a4,
      by rw [g3]; exact a5, by rw [g3]; exact a6, ?_, ?_⟩
    · intro x y hP
      rw [g2, g3]
      simp only [set_pixel]
      by_cases hxy : x = i ∧ y = j
      · simp only [hxy, and_self, if_true, a1]
      · simp only [hxy, if_false]
        apply a7 x y
        rcases hP with h | ⟨h1, h2, h3⟩
        · exact Or.inl h
        · right
          refine ⟨h1, h2, ?_⟩
          rcases lt_or_eq_of_le (Int.lt_add_one_iff.mp h3) with h4 | h4
          · exact h4
          · exact absurd ⟨h4, h1⟩ hxy
    · intro x y hP
      rw [g2, g3]
      simp only [set_pixel]
      have hxy : ¬ (x = i ∧ y = j) := by
        rintro ⟨rfl, rfl⟩
        exact hP (Or.inr ⟨rfl, hi1, by omega⟩)
      simp only [hxy, if_false]
      apply a8 x y
      rintro (h | ⟨h1, h2, h3⟩)
      · exact hP (Or.inl h)
      · exact hP (Or.inr ⟨h1, h2, by omega⟩)
  · intro t ht
    by_cases hle : x1 ≤ x2 + 1
    · rw [max_eq_right hle] at ht
      apply SquareInv_congr p0 _ _ t _ ht
      intro x y
      constructor
      · rintro (h | ⟨h1, h2, h3⟩)
        · exact Or.inl h
        · exact Or.inr ⟨h1, h2, by omega⟩
      · rintro (h | ⟨h1, h2, h3⟩)
        · exact Or.inl h
        · exact Or.inr ⟨h1, h2, by omega⟩
    · rw [max_eq_left (by omega)] at ht
      apply SquareInv_congr p0 _ _ t _ ht
      intro x y
      constructor
      · rintro (h | ⟨h1, h2, h3⟩)
        · exact Or.inl h
        · omega
      · rintro (h | ⟨h1, h2, h3⟩)
        · exact Or.inl h
        · omega

/-- The whole run of the square kernel under the identity map. -/
theorem square_run_identity (E : Extern) (p : driz_param_t)
    (hid : ∀ q a b, E.interpolate_point q (Dbl.fin a) (Dbl.fin b) = some (Dbl.fin a, Dbl.fin b))
    (hpf : p.pixel_fraction = Dbl.fin 1) (hsc : p.scale = Dbl.fin 1) (hw : p.weights = none)
    (hz1 : ∀ x y, p.output_data.val x y = Dbl.fin 0)
    (hz2 : ∀ x y, p.output_counts.val x y = Dbl.fin 0)
    (hdim : p.output_counts.nx = p.output_data.nx ∧ p.output_counts.ny = p.output_data.ny)
    (hfit : ∀ i j, processed (E.init_image_scanner p) i j = true →
      0 ≤ i ∧ i < (p.output_data.nx : Int) ∧ 0 ≤ j ∧ j < (p.output_data.ny : Int)) :
    SquareInv p (fun x y => processed (E.init_image_scanner p) x y = true)
      (do_kernel_square E p).2 := by
  unfold do_kernel_square
  have hzero : SquareInv p (fun _ _ => False) p :=
    ⟨rfl, hw, rfl, rfl, rfl, rfl, fun _ _ h => absurd h id, fun x y _ => ⟨hz2 x y, hz1 x y⟩⟩
  by_cases hret : (E.init_image_scanner p).ret = 0
  · simp only [hret, ne_eq, not_true_eq_false, if_false, hpf, hsc, Dbl.fin_mul_fin, mul_one]
    generalize hs : E.init_image_scanner p = s at hret hfit ⊢
    have hp1 : SquareInv p (fun x y => y < s.ymin ∧ processed s x y = true)
        (init_counters p s) := by
      apply SquareInv_congr p (fun _ _ => False) _ _ _ hzero
      intro x y
      constructor
      · intro h; exact absurd h id
      · rintro ⟨h1, h2⟩
        have := ((row_processed_iff s y).mp ((processed_iff s x y).mp h2).1).2.1
        omega
    have hosize : get_dimensions (init_counters p s).output_data
        = ((p.output_data.nx : Int), (p.output_data.ny : Int)) := rfl
    rw [hosize]
    obtain ⟨q1, h1, h2⟩ := forLoop_rule
      (scan_row s fun j xmin xmax q =>
        forLoop xmin xmax (square_pixel E (Dbl.fin (1 / 2)) (Dbl.fin 1) (compute_bit_value p.uuid)
          ((p.output_data.nx : Int), (p.output_data.ny : Int)) j) q)
      (fun j t => SquareInv p (fun x y => y < j ∧ processed s x y = true) t ∧
        ∀ k, s.ymin ≤ k → k < j → (s.rows k).status ≠ 1)
      (fun t => SquareInv p (fun x y => processed s x y = true) t)
      s.ymin s.ymax (init_counters p s)
      ⟨hp1, fun k h1 h2 => by omega⟩
      (by
        intro j t hj1 hj2 ⟨hI, hnostop⟩
        unfold scan_row
        by_cases hst1 : (s.rows j).status = 1
        · right
          simp only [hst1, if_true]
          refine ⟨_, rfl, ?_⟩
          apply SquareInv_counters
          apply SquareInv_congr p _ _ t _ hI
          intro x y
          constructor
          · exact fun h => h.2
          · intro h
            refine ⟨?_, h⟩
            have hr := ((row_processed_iff s y).mp ((processed_iff s x y).mp h).1)
            by_contra hh
            exact hr.2.2.2.1 j hj1 (by omega) hst1
        · left
          by_cases hst23 : (s.rows j).status = 2 ∨ (s.rows j).status = 3
          · simp only [hst1, if_false, hst23, if_true]
            refine ⟨_, rfl, ?_, ?_⟩
            · apply SquareInv_counters
              apply SquareInv_congr p _ _ t _ hI
              intro x y
              constructor
              · rintro ⟨h1, h2⟩; exact ⟨by omega, h2⟩
              · rintro ⟨h1, h2⟩
                refine ⟨?_, h2⟩
                have hr := ((row_processed_iff s y).mp ((processed_iff s x y).mp h2).1)
                rcases lt_or_eq_of_le (Int.lt_add_one_iff.mp h1) with h3 | h3
                · exact h3
                · subst h3
                  rcases hst23 with h4 | h4
                  · exact absurd h4 hr.2.2.2.2.1
                  · exact absurd h4 hr.2.2.2.2.2
            · intro k hk1 hk2
              rcases lt_or_eq_of_le (Int.lt_add_one_iff.mp hk2) with h3 | h3
              · exact hnostop k hk1 h3
              · subst h3; exact hst1
          · simp only [hst1, if_false, hst23]
            have hrow : row_processed s j = true := by
              rw [row_processed_iff]
              refine ⟨hret, hj1, hj2, ?_, fun h => hst23 (Or.inl h), fun h => hst23 (Or.inr h)⟩
              intro k hk1 hk2
              rcases lt_or_eq_of_le hk2 with h3 | h3
              · exact hnostop k hk1 h3
              · subst h3; exact hst1
            obtain ⟨q1, g1, g2⟩ := square_row_identity E p (compute_bit_value p.uuid) j
              (s.rows j).x1 (s.rows j).x2 (fun x y => y < j ∧ processed s x y = true)
              { t with nmiss := t.nmiss + (t.xmax - t.xmin - ((s.rows j).x2 + 1 - (s.rows j).x1)) }
              hid hdim (fun x y h => h.1)
              (fun i hi1 hi2 => hfit i j ((processed_iff s i j).mpr ⟨hrow, hi1, hi2⟩))
              hI
            refine ⟨q1, g1, ?_, ?_⟩
            · apply SquareInv_congr p _ _ q1 _ g2
              intro x y
              constructor
              · rintro (⟨h1, h2⟩ | ⟨h1, h2, h3⟩)
                · exact ⟨by omega, h2⟩
                · subst h1
                  exact ⟨by omega, (processed_iff s x y).mpr ⟨hrow, h2, h3⟩⟩
              · rintro ⟨h1, h2⟩
                rcases lt_or_eq_of_le (Int.lt_add_one_iff.mp h1) with h3 | h3
                · exact Or.inl ⟨h3, h2⟩
                · subst h3
                  have := (processed_iff s x y).mp h2
                  exact Or.inr ⟨rfl, this.2.1, this.2.2⟩
            · intro k hk1 hk2
              rcases lt_or_eq_of_le (Int.lt_add_one_iff.mp hk2) with h3 | h3
              · exact hnostop k hk1 h3
              · subst h3; exact hst1)
      (by
        intro t ⟨hI, _⟩
        apply SquareInv_congr p _ _ t _ hI
        intro x y
        constructor
        · exact fun h => h.2
        · intro h
          refine ⟨?_, h⟩
          have hr := ((row_processed_iff s y).mp ((processed_iff s x y).mp h).1)
          have : y < s.ymax + 1 := by omega
          exact lt_of_lt_of_le this (le_max_right _ _))
    rw [h1]
    exact h2
  · simp only [hret, ne_eq, not_false_eq_true, if_true]
    apply SquareInv_congr p (fun _ _ => False) _ _ _ hzero
    intro x y
    constructor
    · intro h; exact absurd h id
    · intro h
      have := ((row_processed_iff _ y).mp ((processed_iff _ x y).mp h).1).1
      exact hret this

theorem plane_sum_congr (nx ny : Nat) (f g : Int → Int → Dbl) (h : ∀ x y, f x y = g x y) :
    plane_sum nx ny f = plane_sum nx ny g := by
  have : f = g := by funext x y; exact h x y
  rw [this]

/-- C5: conservation of the square kernel under the identity map.  With
`interpolate_point` the identity, `pixel_fraction = scale = 1`, no weights
plane and zeroed outputs that hold every processed source pixel: the corners
of source pixel `(i, j)` map to the unit square around `(i, j)`, `jaco` is 1,
`boxer` is 1 on destination cell `(i, j)` and 0 on every other cell; after the
run each processed pixel has counts 1 and the source value, every other pixel
is still zero; and `Σ output_data·output_counts` equals the sum of `data` over
the processed source pixels. -/
theorem square_identity_conservation (E : Extern) (p : driz_param_t)
    (hid : ∀ q a b, E.interpolate_point q (Dbl.fin a) (Dbl.fin b) = some (Dbl.fin a, Dbl.fin b))
    (hpf : p.pixel_fraction = Dbl.fin 1) (hsc : p.scale = Dbl.fin 1) (hw : p.weights = none)
    (hz1 : ∀ x y, p.output_data.val x y = Dbl.fin 0)
    (hz2 : ∀ x y, p.output_counts.val x y = Dbl.fin 0)
    (hdim : p.output_counts.nx = p.output_data.nx ∧ p.output_counts.ny = p.output_data.ny)
    (hfit : ∀ i j, processed (E.init_image_scanner p) i j = true →
      0 ≤ i ∧ i < (p.output_data.nx : Int) ∧ 0 ≤ j ∧ j < (p.output_data.ny : Int)) :
    (∀ i j : Int,
      interpolate_corners E p (corner_xin (Dbl.fin (1 / 2) * p.pixel_fraction) i)
          (corner_yin (Dbl.fin (1 / 2) * p.pixel_fraction) j)
        = some (quad (unit_pixel_x i), quad (unit_pixel_y j)) ∧
      signed_jaco (quad (unit_pixel_x i)) (quad (unit_pixel_y j)) = Dbl.fin 1 ∧
      ∀ ii jj : Int,
        boxer (Dbl.ofInt ii) (Dbl.ofInt jj) (quad (unit_pixel_x i)) (quad (unit_pixel_y j))
            (edge_sgn_dx (quad (unit_pixel_x i)))
            (edge_slope (quad (unit_pixel_x i)) (quad (unit_pixel_y j)))
            (edge_inv_slope (quad (unit_pixel_x i)) (quad (unit_pixel_y j)))
          = if ii = i ∧ jj = j then Dbl.fin 1 else Dbl.fin 0) ∧
    (∀ x y : Int,
      (processed (E.init_image_scanner p) x y = true →
        (do_kernel_square E p).2.output_counts.val x y = Dbl.fin 1 ∧
        (do_kernel_square E p).2.output_data.val x y = p.data.val x y) ∧
      (processed (E.init_image_scanner p) x y = false →
        (do_kernel_square E p).2.output_counts.val x y = Dbl.fin 0 ∧
        (do_kernel_square E p).2.output_data.val x y = Dbl.fin 0)) ∧
    plane_sum p.output_data.nx p.output_data.ny
        (fun x y => (do_kernel_square E p).2.output_data.val x y *
          (do_kernel_square E p).2.output_counts.val x y)
      = plane_sum p.output_data.nx p.output_data.ny
        (fun x y => if processed (E.init_image_scanner p) x y then p.data.val x y
          else Dbl.fin 0) := by
  have hrun := square_run_identity E p hid hpf hsc hw hz1 hz2 hdim hfit
  obtain ⟨_, _, _, _, _, _, a7, a8⟩ := hrun
  refine ⟨?_, ?_, ?_⟩
  · intro i j
    refine ⟨?_, signed_jaco_unit_pixel i j, fun ii jj => boxer_unit_pixel i j ii jj⟩
    rw [hpf, Dbl.fin_mul_fin, mul_one]
    exact interpolate_corners_identity E p i j hid
  · intro x y
    refine ⟨fun h => a7 x y h, fun h => a8 x y (by beta_reduce; rw [h]; exact Bool.false_ne_true)⟩
  · apply plane_sum_congr
    intro x y
    by_cases h : processed (E.init_image_scanner p) x y = true
    · rw [(a7 x y h).1, (a7 x y h).2, Dbl.mul_one', if_pos h]
    · rw [(a8 x y h).1, (a8 x y h).2, if_neg h]
      simp

theorem demo_env_fits (i j : Int)
    (h : processed (demo_env.init_image_scanner demo_param) i j = true) :
    0 ≤ i ∧ i < (demo_param.output_data.nx : Int) ∧ 0 ≤ j ∧
      j < (demo_param.output_data.ny : Int) := by
  obtain ⟨h1, h2, h3⟩ := (processed_iff _ i j).mp h
  obtain ⟨_, g2, g3, _⟩ := (row_processed_iff _ j).mp h1
  have e1 : (demo_param.output_data.nx : Int) = 3 := rfl
  have e2 : (demo_param.output_data.ny : Int) = 3 := rfl
  have e3 : ((demo_env.init_image_scanner demo_param).rows j).x1 = 0 := rfl
  have e4 : ((demo_env.init_image_scanner demo_param).rows j).x2 = 2 := rfl
  have e5 : (demo_env.init_image_scanner demo_param).ymin = 0 := rfl
  have e6 : (demo_env.init_image_scanner demo_param).ymax = 2 := rfl
  rw [e3] at h2
  rw [e4] at h3
  rw [e5] at g2
  rw [e6] at g3
  rw [e1, e2]
  omega

/-- C5 at a concrete input: the 3×3 image `1..9` with a scanner that admits
every pixel. -/
theorem square_identity_conservation_witness :
    (do_kernel_square demo_env demo_param).2.output_counts.val 1 1 = Dbl.fin 1 ∧
    (do_kernel_square demo_env demo_param).2.output_data.val 1 1 = Dbl.fin 5 ∧
    plane_sum 3 3
        (fun x y => (do_kernel_square demo_env demo_param).2.output_data.val x y *
          (do_kernel_square demo_env demo_param).2.output_counts.val x y)
      = plane_sum 3 3
        (fun x y => if processed (demo_env.init_image_scanner demo_param) x y then
          demo_param.data.val x y else Dbl.fin 0) := by
  have h := square_identity_conservation demo_env demo_param (fun _ _ _ => rfl) rfl rfl rfl
    (fun _ _ => rfl) (fun _ _ => rfl) ⟨rfl, rfl⟩ demo_env_fits
  have hp : processed (demo_env.init_image_scanner demo_param) 1 1 = true := by decide
  refine ⟨((h.2.1 1 1).1 hp).1, ?_, h.2.2⟩
  rw [((h.2.1 1 1).1 hp).2]
  show Dbl.fin _ = Dbl.fin 5
  norm_num

theorem forall_fin4 (P : Fin 4 → Prop) (h0 : P 0) (h1 : P 1) (h2 : P 2) (h3 : P 3) : ∀ k, P k := by
  intro k
  fin_cases k
  · exact h0
  · exact h1
  · exact h2
  · exact h3

theorem clockwise_iff (x y : Fin 4 → ℚ) :
    clockwise x y ↔
      (x 1 - x 0) * (y 2 - y 1) - (y 1 - y 0) * (x 2 - x 1) < 0 ∧
      (x 2 - x 1) * (y 3 - y 2) - (y 2 - y 1) * (x 3 - x 2) < 0 ∧
      (x 3 - x 2) * (y 0 - y 3) - (y 3 - y 2) * (x 0 - x 3) < 0 ∧
      (x 0 - x 3) * (y 1 - y 0) - (y 0 - y 3) * (x 1 - x 0) < 0 := by
  constructor
  · intro h
    exact ⟨h 0, h 1, h 2, h 3⟩
  · rintro ⟨h0, h1, h2, h3⟩
    exact forall_fin4 _ h0 h1 h2 h3

/-- C7 at a concrete input: the rotated square `diamond_x, diamond_y` inside the
cell centred at the origin has signed area 1/2. -/
theorem boxer_signed_area_witness :
    boxer (Dbl.fin 0) (Dbl.fin 0) (quad diamond_x) (quad diamond_y) (edge_sgn_dx (quad diamond_x))
        (edge_slope (quad diamond_x) (quad diamond_y))
        (edge_inv_slope (quad diamond_x) (quad diamond_y))
      = Dbl.fin (1 / 2) ∧
    0 < shoelace (fun k => diamond_x k - (0 - 1 / 2)) (fun k => diamond_y k - (0 - 1 / 2)) := by
  have h := boxer_signed_area 0 0 diamond_x diamond_y
    (by apply forall_fin4 <;> norm_num [diamond_x])
    (by apply forall_fin4 <;> norm_num [diamond_y])
    (by apply forall_fin4 <;> norm_num [diamond_x, diamond_y])
  refine ⟨?_, h.2 ((clockwise_iff _ _).mpr (by norm_num [diamond_x, diamond_y]))⟩
  rw [h.1]
  congr 1
  norm_num [shoelace, diamond_x, diamond_y]

/-! ## Counts are monotone -/

namespace Dbl

theorem le_refl_of_le {a b : Dbl} (h : Dbl.le a b = true) : Dbl.le a a = true := by
  cases a <;> cases b <;> simp_all [Dbl.le]

theorem le_trans' {a b c : Dbl} (h1 : Dbl.le a b = true) (h2 : Dbl.le b c = true) :
    Dbl.le a c = true := by
  cases a <;> cases b <;> cases c <;> simp_all [Dbl.le]
  exact le_trans h1 h2

theorem le_add_fin_of_le {a b : Dbl} {w : ℚ} (h : Dbl.le a b = true) (hw : 0 ≤ w) :
    Dbl.le a (b + fin w) = true := by
  cases a <;> cases b <;> simp_all [Dbl.le]
  · linarith
  all_goals rfl

end Dbl

theorem loopFrom_preserves {σ : Type} (I : σ → Prop) (body : Int → σ → Ctl σ)
    (h : ∀ i s, I s → I (body i s).state) :
    ∀ (n : Nat) (i : Int) (s : σ), I s → I (loopFrom body n i s).state := by
  intro n
  induction n with
  | zero => intro i s hs; exact hs
  | succ n ih =>
    intro i s hs
    have hb := h i s hs
    unfold loopFrom
    cases hbody : body i s with
    | next s1 => rw [hbody] at hb; exact ih (i + 1) s1 hb
    | brk s1 => rw [hbody] at hb; exact hb
    | ret c s1 => rw [hbody] at hb; exact hb

theorem forLoop_preserves {σ : Type} (I : σ → Prop) (body : Int → σ → Ctl σ) (lo hi : Int) (s : σ)
    (h : ∀ i s, I s → I (body i s).state) (hs : I s) : I (forLoop lo hi body s).state :=
  loopFrom_preserves I body h _ lo s hs

theorem driver_result_state (r : Ctl driz_param_t) : (driver_result r).2 = r.state := by
  cases r <;> rfl

/-- A property that does not depend on the counters `nmiss` and `nskip` and is
kept by the body of the column loop is kept by the whole row loop of a
driver. -/
theorem scan_loop_preserves (I : driz_param_t → Prop) (s : Scanner)
    (pixel : Int → Int → driz_param_t → Ctl driz_param_t)
    (hframe : ∀ q q1 : driz_param_t, q1.weights = q.weights → q1.weight_scale = q.weight_scale →
      q1.output_counts = q.output_counts → q1.output_data = q.output_data → q1.data = q.data →
      q1.pixmap = q.pixmap → q1.output_context = q.output_context → q1.error = q.error →
      I q → I q1)
    (hpix : ∀ j i q, I q → I (pixel j i q).state) (p1 : driz_param_t) (h : I p1) :
    I (driver_result (forLoop s.ymin s.ymax
      (scan_row s (fun j xmin xmax q => forLoop xmin xmax (pixel j) q)) p1)).2 := by
  rw [driver_result_state]
  apply forLoop_preserves I _ _ _ _ _ h
  intro j q hq
  unfold scan_row
  by_cases h1 : (s.rows j).status = 1
  · simp only [h1, if_true]
    exact hframe q _ rfl rfl rfl rfl rfl rfl rfl rfl hq
  · by_cases h2 : (s.rows j).status = 2 ∨ (s.rows j).status = 3
    · simp only [h1, if_false, h2, if_true]
      exact hframe q _ rfl rfl rfl rfl rfl rfl rfl rfl hq
    · simp only [h1, if_false, h2]
      apply forLoop_preserves I _ _ _ _ (hpix j)
      exact hframe q _ rfl rfl rfl rfl rfl rfl rfl rfl hq

theorem CountsInv_frame (p q q1 : driz_param_t) (h1 : q1.weights = q.weights)
    (h2 : q1.weight_scale = q.weight_scale) (h3 : q1.output_counts = q.output_counts)
    (h : CountsInv p q) : CountsInv p q1 := by
  unfold CountsInv
  rw [h1, h2, h3]
  exact h

theorem CountsInv_context (p q : driz_param_t) (ii jj : Int) (bv : Nat) (dow : Dbl)
    (h : CountsInv p q) : CountsInv p (update_context q ii jj bv dow) := by
  unfold update_context
  split
  · split_ifs
    · exact h
    · exact h
  · exact h

theorem CountsInv_update (p q : driz_param_t) (ii jj : Int) (d : Dbl) (w : ℚ) (hw : 0 ≤ w)
    (h : CountsInv p q) :
    CountsInv p (update_data q ii jj d (get_pixel q.output_counts ii jj) (Dbl.fin w)).2 := by
  obtain ⟨a1, a2, a3, a4, a5⟩ := h
  unfold update_data
  by_cases h0 : Dbl.feq (Dbl.fin w) (Dbl.fin 0) = true
  · simp only [h0, if_true]
    exact ⟨a1, a2, a3, a4, a5⟩
  · simp only [h0, if_false]
    have key : ∀ v : Dbl, oob_pixel q.output_counts ii jj = false →
        CountsInv p { q with
          output_data := set_pixel q.output_data ii jj v,
          output_counts := set_pixel q.output_counts ii jj
            (get_pixel q.output_counts ii jj + Dbl.fin w) } := by
      intro v hoob
      refine ⟨a1, a2, a3, a4, ?_⟩
      intro x y hxy
      simp only [set_pixel]
      by_cases hc : x = ii ∧ y = jj
      · obtain ⟨rfl, rfl⟩ := hc
        simp only [and_self, if_true]
        exact Dbl.le_add_fin_of_le (a5 x y hxy) hw
      · simp only [hc, if_false]
        exact a5 x y hxy
    by_cases hv : Dbl.feq (get_pixel q.output_counts ii jj) (Dbl.fin 0) = true <;>
    by_cases hd : oob_pixel q.output_data ii jj = true <;>
    by_cases hc : oob_pixel q.output_counts ii jj = true
    all_goals simp only [hv, hd, hc, if_true, if_false, Bool.false_eq_true]
    all_goals first
      | exact ⟨a1, a2, a3, a4, a5⟩
      | exact key _ (by simpa using hc)

theorem contribute_preserves (p : driz_param_t) (st : driz_param_t × Int) (nhit ii jj : Int)
    (bv : Nat) (d : Dbl) (w : ℚ) (hw : 0 ≤ w) (h : CountsInv p st.1) :
    CountsInv p (contribute st nhit ii jj bv d (get_pixel st.1.output_counts ii jj)
      (Dbl.fin w)).state.1 := by
  unfold contribute
  have hctx := CountsInv_context p st.1 ii jj bv (Dbl.fin w) h
  have hcnt : get_pixel st.1.output_counts ii jj
      = get_pixel (update_context st.1 ii jj bv (Dbl.fin w)).output_counts ii jj := by
    rw [(update_context_frame st.1 ii jj bv (Dbl.fin w)).2.1]
  rw [hcnt]
  have := CountsInv_update p _ ii jj d w hw hctx
  simp only []
  split_ifs <;> exact this

theorem count_miss_preserves (p : driz_param_t) (r : Ctl (driz_param_t × Int))
    (h : CountsInv p r.state.1) : CountsInv p (count_miss r).state := by
  cases r with
  | next st =>
    simp only [count_miss, Ctl.state]
    split_ifs
    · exact h
    · exact h
  | brk st =>
    simp only [count_miss, Ctl.state]
    split_ifs
    · exact h
    · exact h
  | ret c st => exact h

theorem pixel_weight_frame (p q : driz_param_t) (i j : Int) (h : CountsInv p q) :
    pixel_weight q i j = pixel_weight p i j := by
  unfold pixel_weight
  rw [h.1, h.2.1]

theorem point_pixel_preserves (p q : driz_param_t) (scale2 : Dbl) (bv : Nat) (osize : Int × Int)
    (j i : Int) (hw : ∀ i j, ∃ w : ℚ, 0 ≤ w ∧ pixel_weight p i j = Dbl.fin w)
    (h : CountsInv p q) : CountsInv p (point_pixel scale2 bv osize j i q).state := by
  unfold point_pixel
  split
  · exact h
  · rename_i ox oy _
    obtain ⟨w, hw0, hwe⟩ := hw i j
    have hctx := CountsInv_context p q (fortran_round ox) (fortran_round oy) bv (Dbl.fin w) h
    have hcnt : get_pixel q.output_counts (fortran_round ox) (fortran_round oy)
        = get_pixel (update_context q (fortran_round ox) (fortran_round oy) bv
            (Dbl.fin w)).output_counts (fortran_round ox) (fortran_round oy) := by
      rw [(update_context_frame q _ _ bv (Dbl.fin w)).2.1]
    have hupd := CountsInv_update p _ (fortran_round ox) (fortran_round oy)
      (get_pixel q.data i j * scale2) w hw0 hctx
    rw [← hcnt] at hupd
    simp only [pixel_weight_frame p q i j h, hwe]
    split_ifs
    · exact h
    · exact hupd
    · exact hupd

theorem MIN_sub_MAX (x y : Dbl) (a b : ℚ) :
    (∃ q, MIN x (Dbl.fin a) - MAX y (Dbl.fin b) = Dbl.fin q) ∨
      MIN x (Dbl.fin a) - MAX y (Dbl.fin b) = Dbl.ninf := by
  have hsub : ∀ u v : Dbl, (u = Dbl.ninf ∨ ∃ q, u = Dbl.fin q) → (v = Dbl.pinf ∨ ∃ q, v = Dbl.fin q) →
      (∃ q, u - v = Dbl.fin q) ∨ u - v = Dbl.ninf := by
    intro u v hu hv
    rcases hu with rfl | ⟨q1, rfl⟩ <;> rcases hv with rfl | ⟨q2, rfl⟩
    · exact Or.inr rfl
    · exact Or.inr rfl
    · exact Or.inr rfl
    · exact Or.inl ⟨_, Dbl.fin_sub_fin _ _⟩
  apply hsub
  · unfold MIN
    cases x <;> simp [Dbl.lt]
    split_ifs <;> simp
  · unfold MAX
    cases y <;> simp [Dbl.lt, Dbl.gt]
    split_ifs <;> simp

theorem over_pos (i j : Int) (xmin xmax ymin ymax : Dbl)
    (h : Dbl.gt (over i j xmin xmax ymin ymax) (Dbl.fin 0) = true) :
    ∃ o : ℚ, 0 < o ∧ over i j xmin xmax ymin ymax = Dbl.fin o := by
  unfold over at h ⊢
  simp only [Dbl.ofInt_eq, Dbl.fin_add_fin, Dbl.fin_sub_fin] at h ⊢
  rcases MIN_sub_MAX xmax xmin ((i : ℚ) + 1 / 2) ((i : ℚ) - 1 / 2) with ⟨dx, hdx⟩ | hdx <;>
  rcases MIN_sub_MAX ymax ymin ((j : ℚ) + 1 / 2) ((j : ℚ) - 1 / 2) with ⟨dy, hdy⟩ | hdy
  · rw [hdx, hdy] at h ⊢
    simp only [Dbl.gt_fin_fin, Bool.and_eq_true, decide_eq_true_eq, Dbl.fin_mul_fin] at h ⊢
    by_cases hc : 0 < dx ∧ 0 < dy
    · rw [if_pos hc]
      exact ⟨dx * dy, mul_pos hc.1 hc.2, rfl⟩
    · rw [if_neg hc] at h
      simp at h
  · rw [hdx, hdy] at h
    simp [Dbl.gt, Dbl.lt] at h
  · rw [hdx, hdy] at h
    simp [Dbl.gt, Dbl.lt] at h
  · rw [hdx, hdy] at h
    simp [Dbl.gt, Dbl.lt] at h

theorem turbo_pixel_preserves (p q : driz_param_t) (pfo : Dbl) (s2 a : ℚ) (hs2 : 0 ≤ s2)
    (ha : 0 ≤ a) (bv : Nat) (osize : Int × Int) (j i : Int)
    (hw : ∀ i j, ∃ w : ℚ, 0 ≤ w ∧ pixel_weight p i j = Dbl.fin w)
    (h : CountsInv p q) :
    CountsInv p (turbo_pixel pfo (Dbl.fin s2) (Dbl.fin a) bv osize j i q).state := by
  unfold turbo_pixel
  apply count_miss_preserves
  split
  · exact h
  · rename_i ox oy _
    obtain ⟨w, hw0, hwe⟩ := hw i j
    simp only [pixel_weight_frame p q i j h, hwe]
    apply forLoop_preserves (fun st : driz_param_t × Int => CountsInv p st.1) _ _ _ _ _ h
    intro jj st hst
    apply forLoop_preserves (fun st : driz_param_t × Int => CountsInv p st.1) _ _ _ _ _ hst
    intro ii st1 hst1
    beta_reduce
    by_cases hg : Dbl.gt (over ii jj (ox - pfo) (ox + pfo) (oy - pfo) (oy + pfo)) (Dbl.fin 0) = true
    · obtain ⟨o, ho, hoe⟩ := over_pos _ _ _ _ _ _ hg
      have hg1 : Dbl.gt (Dbl.fin o) (Dbl.fin 0) = true := by rw [← hoe]; exact hg
      simp only [hoe, hg1, if_true, Dbl.fin_mul_fin]
      exact contribute_preserves p st1 _ ii jj bv _ _
        (mul_nonneg (mul_nonneg (le_of_lt ho) (mul_nonneg hs2 ha)) hw0) hst1
    · simp only [hg, if_false, Bool.false_eq_true]
      exact hst1

theorem gaussian_pixel_preserves (E : Extern) (p q : driz_param_t) (pfo efac scale2 : Dbl)
    (es : ℚ) (hes : 0 ≤ es) (hexp : ∀ x, ∃ e : ℚ, 0 ≤ e ∧ E.exp x = Dbl.fin e)
    (bv : Nat) (osize : Int × Int) (j i : Int)
    (hw : ∀ i j, ∃ w : ℚ, 0 ≤ w ∧ pixel_weight p i j = Dbl.fin w)
    (h : CountsInv p q) :
    CountsInv p (gaussian_pixel E pfo efac (Dbl.fin es) scale2 bv osize j i q).state := by
  unfold gaussian_pixel
  apply count_miss_preserves
  split
  · exact h
  · rename_i ox oy _
    obtain ⟨w, hw0, hwe⟩ := hw i j
    simp only [pixel_weight_frame p q i j h, hwe]
    apply forLoop_preserves (fun st : driz_param_t × Int => CountsInv p st.1) _ _ _ _ _ h
    intro jj st hst
    apply forLoop_preserves (fun st : driz_param_t × Int => CountsInv p st.1) _ _ _ _ _ hst
    intro ii st1 hst1
    beta_reduce
    obtain ⟨e, he0, hee⟩ := hexp
      (-((ox - Dbl.ofInt ii) * (ox - Dbl.ofInt ii) + (oy - Dbl.ofInt jj) * (oy - Dbl.ofInt jj))
        * efac)
    simp only [hee, Dbl.fin_mul_fin]
    exact contribute_preserves p st1 _ ii jj bv _ _ (mul_nonneg (mul_nonneg hes he0) hw0) hst1

theorem sgarea_edge_cases (X1 Y1 X2 Y2 a b : ℚ) :
    (∃ r, sgarea (Dbl.fin X1 - Dbl.fin a) (Dbl.fin Y1 - Dbl.fin b) (Dbl.fin X2 - Dbl.fin a)
        (Dbl.fin Y2 - Dbl.fin b)
        (if Dbl.ge (Dbl.fin X2 - Dbl.fin X1) (Dbl.fin 0) then 1 else -1)
        ((Dbl.fin Y2 - Dbl.fin Y1) / (Dbl.fin X2 - Dbl.fin X1))
        ((Dbl.fin X2 - Dbl.fin X1) / (Dbl.fin Y2 - Dbl.fin Y1)) = Dbl.fin r) ∨
      sgarea (Dbl.fin X1 - Dbl.fin a) (Dbl.fin Y1 - Dbl.fin b) (Dbl.fin X2 - Dbl.fin a)
        (Dbl.fin Y2 - Dbl.fin b)
        (if Dbl.ge (Dbl.fin X2 - Dbl.fin X1) (Dbl.fin 0) then 1 else -1)
        ((Dbl.fin Y2 - Dbl.fin Y1) / (Dbl.fin X2 - Dbl.fin X1))
        ((Dbl.fin X2 - Dbl.fin X1) / (Dbl.fin Y2 - Dbl.fin Y1)) = Dbl.nan := by
  by_cases h : X1 ≠ X2 ∨ Y1 ≠ Y2 ∨ X1 - a ≤ 0 ∨ 1 ≤ X1 - a
  · exact Or.inl ⟨_, sgarea_edge X1 Y1 X2 Y2 a b h⟩
  · have e1 : X1 = X2 := by by_contra hh; exact h (Or.inl hh)
    have e2 : Y1 = Y2 := by by_contra hh; exact h (Or.inr (Or.inl hh))
    subst e1 e2
    simp only [Dbl.fin_sub_fin, sub_self, Dbl.ge_fin_fin, le_refl, decide_True, if_true,
      Dbl.fin_div_fin_eq, Dbl.signedInf_zero]
    rw [sgarea_point]
    split_ifs
    · exact Or.inl ⟨0, rfl⟩
    · exact Or.inr rfl

theorem fin_or_nan_add (u v : Dbl) (hu : (∃ r, u = Dbl.fin r) ∨ u = Dbl.nan)
    (hv : (∃ r, v = Dbl.fin r) ∨ v = Dbl.nan) : (∃ r, u + v = Dbl.fin r) ∨ u + v = Dbl.nan := by
  rcases hu with ⟨r1, rfl⟩ | rfl <;> rcases hv with ⟨r2, rfl⟩ | rfl
  · exact Or.inl ⟨_, rfl⟩
  · exact Or.inr rfl
  · exact Or.inr rfl
  · exact Or.inr rfl

theorem boxer_fin_or_nan (i j : ℚ) (x y : Fin 4 → ℚ) :
    (∃ r, boxer (Dbl.fin i) (Dbl.fin j) (quad x) (quad y) (edge_sgn_dx (quad x))
        (edge_slope (quad x) (quad y)) (edge_inv_slope (quad x) (quad y)) = Dbl.fin r) ∨
      boxer (Dbl.fin i) (Dbl.fin j) (quad x) (quad y) (edge_sgn_dx (quad x))
        (edge_slope (quad x) (quad y)) (edge_inv_slope (quad x) (quad y)) = Dbl.nan := by
  rw [boxer_unfold, Dbl.fin_sub_fin, Dbl.fin_sub_fin]
  apply fin_or_nan_add
  apply fin_or_nan_add
  apply fin_or_nan_add
  · exact sgarea_edge_cases (x 0) (y 0) (x 1) (y 1) (i - 1 / 2) (j - 1 / 2)
  · exact sgarea_edge_cases (x 1) (y 1) (x 2) (y 2) (i - 1 / 2) (j - 1 / 2)
  · exact sgarea_edge_cases (x 2) (y 2) (x 3) (y 3) (i - 1 / 2) (j - 1 / 2)
  · exact sgarea_edge_cases (x 3) (y 3) (x 0) (y 0) (i - 1 / 2) (j - 1 / 2)

theorem signed_jaco_quad (x y : Fin 4 → ℚ) :
    signed_jaco (quad x) (quad y)
      = Dbl.fin (1 / 2 * ((x 1 - x 3) * (y 0 - y 2) - (x 0 - x 2) * (y 1 - y 3))) := by
  simp only [signed_jaco, quad, Dbl.fin_sub_fin, Dbl.fin_mul_fin]

theorem swap13_quad (b : Bool) (x : Fin 4 → ℚ) :
    swap13 b (quad x) = quad (if b then ![x 0, x 3, x 2, x 1] else x) := by
  unfold swap13
  cases b
  · rfl
  · simp only [if_true]
    funext k
    fin_cases k <;> rfl

theorem square_footprint_preserves (p q : driz_param_t) (x y : Fin 4 → ℚ) (ja w : ℚ)
    (hja : 0 < ja) (hw : 0 ≤ w) (d : Dbl) (bv : Nat) (osize : Int × Int)
    (h : CountsInv p q) :
    CountsInv p (square_footprint (quad x) (quad y) (Dbl.fin ja) d (Dbl.fin w) bv osize
      q).state.1 := by
  unfold square_footprint
  apply forLoop_preserves (fun st : driz_param_t × Int => CountsInv p st.1) _ _ _ _ _ h
  intro ii st hst
  apply forLoop_preserves (fun st : driz_param_t × Int => CountsInv p st.1) _ _ _ _ _ hst
  intro jj st1 hst1
  beta_reduce
  rcases boxer_fin_or_nan (ii : ℚ) (jj : ℚ) x y with ⟨b, hb⟩ | hb
  · simp only [Dbl.ofInt_eq, hb, Dbl.gt_fin_fin, decide_eq_true_eq]
    by_cases hpos : 0 < b
    · simp only [hpos, if_true, Dbl.fin_div_fin b ja (ne_of_gt hja), Dbl.fin_mul_fin]
      exact contribute_preserves p st1 _ ii jj bv _ _
        (mul_nonneg (div_nonneg (le_of_lt hpos) (le_of_lt hja)) hw) hst1
    · simp only [hpos, if_false]
      exact hst1
  · simp only [Dbl.ofInt_eq, hb, Dbl.nan_gt, Bool.false_eq_true, if_false]
    exact hst1

theorem square_pixel_preserves (E : Extern) (p q : driz_param_t) (dh scale2 : Dbl) (bv : Nat)
    (osize : Int × Int) (j i : Int)
    (hmap : ∀ (q : driz_param_t) (i j : Int) (xout yout : Fin 4 → Dbl),
      interpolate_corners E q (corner_xin dh i) (corner_yin dh j) = some (xout, yout) →
      ∃ X Y : Fin 4 → ℚ, xout = quad X ∧ yout = quad Y ∧
        signed_jaco (quad X) (quad Y) ≠ Dbl.fin 0)
    (hw : ∀ i j, ∃ w : ℚ, 0 ≤ w ∧ pixel_weight p i j = Dbl.fin w)
    (h : CountsInv p q) :
    CountsInv p (square_pixel E dh scale2 bv osize j i q).state := by
  unfold square_pixel
  apply count_miss_preserves
  beta_reduce
  split
  · exact h
  · rename_i xout0 yout0 heq
    obtain ⟨X, Y, rfl, rfl, hJ⟩ := hmap q i j xout0 yout0 heq
    obtain ⟨w, hw0, hwe⟩ := hw i j
    rw [signed_jaco_quad] at hJ
    have hJ0 : 1 / 2 * ((X 1 - X 3) * (Y 0 - Y 2) - (X 0 - X 2) * (Y 1 - Y 3)) ≠ 0 := by
      intro e; apply hJ; rw [e]
    simp only [pixel_weight_frame p q i j h, hwe, signed_jaco_quad, swap13_quad, Dbl.lt_fin_fin,
      Dbl.fin_mul_fin, ite_fin]
    apply square_footprint_preserves p q _ _ _ w _ hw0 _ bv osize h
    split_ifs with hneg
    · have := of_decide_eq_true hneg
      linarith
    · have : ¬ (1 / 2 * ((X 1 - X 3) * (Y 0 - Y 2) - (X 0 - X 2) * (Y 1 - Y 3)) < 0) := by
        intro hh; exact hneg (decide_eq_true hh)
      exact lt_of_le_of_ne (not_lt.mp this) (Ne.symm hJ0)

/-- C3 as stated fails for a negative weight: the point kernel on a 1×1 image
with weight `-1` and zero prior counts returns 0 and leaves
`output_counts[0,0] = -1`, which is negative and smaller than before. -/
theorem counts_negative_weight :
    (∀ x y, Dbl.le (Dbl.fin 0) (neg_weight_param.output_counts.val x y) = true) ∧
    (do_kernel_point single_env neg_weight_param).1 = 0 ∧
    (do_kernel_point single_env neg_weight_param).2.output_counts.val 0 0 = Dbl.fin (-1) ∧
    Dbl.le (Dbl.fin 0) ((do_kernel_point single_env neg_weight_param).2.output_counts.val 0 0)
      = false := by
  have hrun : do_kernel_point single_env neg_weight_param =
      (0, { neg_weight_param with
        output_data := set_pixel neg_weight_param.output_data 0 0 (Dbl.fin 7),
        output_counts := set_pixel neg_weight_param.output_counts 0 0 (Dbl.fin (-1)),
        nmiss := -1 }) := by
    simp [do_kernel_point, single_env, neg_weight_param, init_counters, get_dimensions, forLoop,
      loopFrom, scan_row, point_pixel, map_pixel, Dbl.isFinite, fortran_round, zero_plane,
      pixel_weight, get_pixel, update_context, update_data, oob_pixel, driver_result, set_pixel]
    norm_num
  refine ⟨fun x y => by simp [neg_weight_param, zero_plane], ?_, ?_, ?_⟩
  · rw [hrun]
  · rw [hrun]; simp [set_pixel]
  · rw [hrun]; simp [set_pixel]

namespace Dbl
theorem le_refl_right {a b : Dbl} (h : Dbl.le a b = true) : Dbl.le b b = true := by
  cases a <;> cases b <;> simp_all [Dbl.le]
end Dbl

theorem CountsInv_init (p : driz_param_t)
    (h0 : ∀ x y, oob_pixel p.output_counts x y = false →
      Dbl.le (Dbl.fin 0) (p.output_counts.val x y) = true) : CountsInv p p :=
  ⟨rfl, rfl, rfl, rfl, fun x y hxy => Dbl.le_refl_right (h0 x y hxy)⟩

theorem CountsInv_scan (p : driz_param_t) (s : Scanner)
    (pixel : Int → Int → driz_param_t → Ctl driz_param_t)
    (hpix : ∀ j i q, CountsInv p q → CountsInv p (pixel j i q).state)
    (p1 : driz_param_t) (h : CountsInv p p1) :
    CountsInv p (driver_result (forLoop s.ymin s.ymax
      (scan_row s (fun j xmin xmax q => forLoop xmin xmax (pixel j) q)) p1)).2 :=
  scan_loop_preserves (CountsInv p) s pixel
    (fun q q1 h1 h2 h3 _ _ _ _ _ hq => CountsInv_frame p q q1 h1 h2 h3 hq) hpix p1 h

theorem point_counts (E : Extern) (p : driz_param_t)
    (hw : ∀ i j, ∃ w : ℚ, 0 ≤ w ∧ pixel_weight p i j = Dbl.fin w)
    (h0 : ∀ x y, oob_pixel p.output_counts x y = false →
      Dbl.le (Dbl.fin 0) (p.output_counts.val x y) = true) :
    CountsInv p (do_kernel_point E p).2 := by
  have hinit := CountsInv_init p h0
  unfold do_kernel_point
  dsimp only
  split_ifs
  · exact hinit
  · exact CountsInv_scan p _ _ (fun j i q hq => point_pixel_preserves p q _ _ _ j i hw hq) _ hinit

theorem turbo_counts (E : Extern) (p : driz_param_t) (sc pf : ℚ) (hsc : p.scale = Dbl.fin sc)
    (hpf : p.pixel_fraction = Dbl.fin pf) (hpf0 : pf ≠ 0)
    (hw : ∀ i j, ∃ w : ℚ, 0 ≤ w ∧ pixel_weight p i j = Dbl.fin w)
    (h0 : ∀ x y, oob_pixel p.output_counts x y = false →
      Dbl.le (Dbl.fin 0) (p.output_counts.val x y) = true) :
    CountsInv p (do_kernel_turbo E p).2 := by
  have hinit := CountsInv_init p h0
  unfold do_kernel_turbo
  have hpp : pf * pf ≠ 0 := mul_ne_zero hpf0 hpf0
  simp only [hsc, hpf, Dbl.fin_mul_fin, Dbl.fin_div_fin 1 (pf * pf) hpp]
  split_ifs
  · exact hinit
  · exact CountsInv_scan p _ _
      (fun j i q hq => turbo_pixel_preserves p q _ _ _ (mul_self_nonneg sc)
        (div_nonneg zero_le_one (mul_self_nonneg pf)) _ _ j i hw hq) _ hinit

theorem gaussian_counts (E : Extern) (p : driz_param_t) (sc pf pi : ℚ)
    (hsc : p.scale = Dbl.fin sc)
    (hpf : p.pixel_fraction = Dbl.fin pf) (hpf0 : pf ≠ 0)
    (hpi : E.pi = Dbl.fin pi) (hpi0 : 0 < pi)
    (hexp : ∀ x, ∃ e : ℚ, 0 ≤ e ∧ E.exp x = Dbl.fin e)
    (hw : ∀ i j, ∃ w : ℚ, 0 ≤ w ∧ pixel_weight p i j = Dbl.fin w)
    (h0 : ∀ x y, oob_pixel p.output_counts x y = false →
      Dbl.le (Dbl.fin 0) (p.output_counts.val x y) = true) :
    CountsInv p (do_kernel_gaussian E p).2 := by
  have hinit := CountsInv_init p h0
  unfold do_kernel_gaussian
  have hpp : pf * pf ≠ 0 := mul_ne_zero hpf0 hpf0
  simp only [hsc, hpf, hpi, Dbl.fin_mul_fin, Dbl.fin_div_fin 1 (pf * pf) hpp,
    Dbl.fin_div_fin _ 2 two_ne_zero, Dbl.fin_div_fin _ pi (ne_of_gt hpi0)]
  split_ifs
  · exact hinit
  · refine CountsInv_scan p _ _
      (fun j i q hq => gaussian_pixel_preserves E p q _ _ _ _ ?_ hexp _ _ j i hw hq) _ hinit
    apply div_nonneg _ (le_of_lt hpi0)
    apply div_nonneg _ zero_le_two
    apply mul_nonneg
    · apply mul_nonneg
      · norm_num
      · exact mul_self_nonneg sc
    · exact div_nonneg zero_le_one (mul_self_nonneg pf)

theorem square_counts (E : Extern) (p : driz_param_t)
    (hmap : ∀ (q : driz_param_t) (i j : Int) (xout yout : Fin 4 → Dbl),
      interpolate_corners E q (corner_xin (Dbl.fin (1 / 2) * p.pixel_fraction) i)
        (corner_yin (Dbl.fin (1 / 2) * p.pixel_fraction) j) = some (xout, yout) →
      ∃ X Y : Fin 4 → ℚ, xout = quad X ∧ yout = quad Y ∧
        signed_jaco (quad X) (quad Y) ≠ Dbl.fin 0)
    (hw : ∀ i j, ∃ w : ℚ, 0 ≤ w ∧ pixel_weight p i j = Dbl.fin w)
    (h0 : ∀ x y, oob_pixel p.output_counts x y = false →
      Dbl.le (Dbl.fin 0) (p.output_counts.val x y) = true) :
    CountsInv p (do_kernel_square E p).2 := by
  have hinit := CountsInv_init p h0
  unfold do_kernel_square
  dsimp only
  split_ifs
  · exact hinit
  · exact CountsInv_scan p _ _
      (fun j i q hq => square_pixel_preserves E p q _ _ _ _ j i hmap hw hq) _ hinit

theorem CountsInv_final (p q : driz_param_t)
    (h0 : ∀ x y, oob_pixel p.output_counts x y = false →
      Dbl.le (Dbl.fin 0) (p.output_counts.val x y) = true)
    (h : CountsInv p q) (x y : Int) (hxy : oob_pixel p.output_counts x y = false) :
    Dbl.le (Dbl.fin 0) (q.output_counts.val x y) = true ∧
    Dbl.le (p.output_counts.val x y) (q.output_counts.val x y) = true :=
  ⟨Dbl.le_trans' (h0 x y hxy) (h.2.2.2.2 x y hxy), h.2.2.2.2 x y hxy⟩

/-- C3 (amended): counts are non-negative and monotone.  For the point,
gaussian, turbo and square drivers, with finite `scale`, finite non-zero
`pixel_fraction`, finite non-negative effective weights
`weights[j][i]·weight_scale` (or no weights plane), `exp ≥ 0` and `M_PI > 0`
finite, mapped quadrilaterals with finite corners and `jaco ≠ 0`, and prior
counts `≥ 0`: after the run every pixel of `output_counts` is `≥ 0` and not
smaller than before the run. -/
theorem counts_monotone (E : Extern) (p : driz_param_t) (sc pf pi : ℚ)
    (hsc : p.scale = Dbl.fin sc)
    (hpf : p.pixel_fraction = Dbl.fin pf) (hpf0 : pf ≠ 0)
    (hpi : E.pi = Dbl.fin pi) (hpi0 : 0 < pi)
    (hexp : ∀ x, ∃ e : ℚ, 0 ≤ e ∧ E.exp x = Dbl.fin e)
    (hmap : ∀ (q : driz_param_t) (i j : Int) (xout yout : Fin 4 → Dbl),
      interpolate_corners E q (corner_xin (Dbl.fin (1 / 2) * p.pixel_fraction) i)
        (corner_yin (Dbl.fin (1 / 2) * p.pixel_fraction) j) = some (xout, yout) →
      ∃ X Y : Fin 4 → ℚ, xout = quad X ∧ yout = quad Y ∧
        signed_jaco (quad X) (quad Y) ≠ Dbl.fin 0)
    (hw : ∀ i j, ∃ w : ℚ, 0 ≤ w ∧ pixel_weight p i j = Dbl.fin w)
    (h0 : ∀ x y, oob_pixel p.output_counts x y = false →
      Dbl.le (Dbl.fin 0) (p.output_counts.val x y) = true) :
    ∀ D ∈ [do_kernel_point E, do_kernel_gaussian E, do_kernel_turbo E, do_kernel_square E],
      ∀ x y, oob_pixel p.output_counts x y = false →
        Dbl.le (Dbl.fin 0) ((D p).2.output_counts.val x y) = true ∧
        Dbl.le (p.output_counts.val x y) ((D p).2.output_counts.val x y) = true := by
  intro D hD x y hxy
  simp only [List.mem_cons, List.mem_singleton, List.not_mem_nil, or_false] at hD
  rcases hD with rfl | rfl | rfl | rfl
  · exact CountsInv_final p _ h0 (point_counts E p hw h0) x y hxy
  · exact CountsInv_final p _ h0
      (gaussian_counts E p sc pf pi hsc hpf hpf0 hpi hpi0 hexp hw h0) x y hxy
  · exact CountsInv_final p _ h0 (turbo_counts E p sc pf hsc hpf hpf0 hw h0) x y hxy
  · exact CountsInv_final p _ h0 (square_counts E p hmap hw h0) x y hxy

theorem demo_env_corners (q : driz_param_t) (i j : Int) (xout yout : Fin 4 → Dbl)
    (h : interpolate_corners demo_env q
      (corner_xin (Dbl.fin (1 / 2) * demo_param.pixel_fraction) i)
      (corner_yin (Dbl.fin (1 / 2) * demo_param.pixel_fraction) j) = some (xout, yout)) :
    ∃ X Y : Fin 4 → ℚ, xout = quad X ∧ yout = quad Y ∧
      signed_jaco (quad X) (quad Y) ≠ Dbl.fin 0 := by
  have e : Dbl.fin (1 / 2) * demo_param.pixel_fraction = Dbl.fin (1 / 2) := by
    show Dbl.fin (1 / 2) * Dbl.fin 1 = Dbl.fin (1 / 2)
    rw [Dbl.fin_mul_fin, mul_one]
  rw [e, interpolate_corners_identity demo_env q i j (fun _ _ _ => rfl)] at h
  have h1 := Option.some.inj h
  refine ⟨unit_pixel_x i, unit_pixel_y j, (congrArg Prod.fst h1).symm,
    (congrArg Prod.snd h1).symm, ?_⟩
  rw [signed_jaco_unit_pixel]
  intro hh
  have := Dbl.fin.inj hh
  norm_num at this

/-- C3 (amended) at a concrete input: the square kernel on the 3×3 image with
the identity map. -/
theorem counts_monotone_witness :
    Dbl.le (Dbl.fin 0) ((do_kernel_square demo_env demo_param).2.output_counts.val 1 1) = true ∧
    Dbl.le (demo_param.output_counts.val 1 1)
      ((do_kernel_square demo_env demo_param).2.output_counts.val 1 1) = true :=
  counts_monotone demo_env demo_param 1 1 (355 / 113) rfl rfl one_ne_zero rfl (by norm_num)
    (fun _ => ⟨1, zero_le_one, rfl⟩) demo_env_corners (fun _ _ => ⟨1, zero_le_one, rfl⟩)
    (fun _ _ _ => by simp [demo_param, zero_plane])
    (do_kernel_square demo_env) (by simp) 1 1 (by decide)

/-! ## The area computed by `boxer` -/

section BoxerArea

open MeasureTheory Set

/-- The sides of a vertical line on which the four vertices lie: all on one
side, alternating, or exactly one edge crosses to the right and one to the
left. -/
theorem crossing_pattern : ∀ s : Fin 4 → Bool,
    (∀ k, s k = s 0) ∨ (∀ k, s (k + 1) = !s k) ∨
    ∃ j i, s j = true ∧ s (j + 1) = false ∧ s i = false ∧ s (i + 1) = true ∧
      ∀ k, k ≠ j → k ≠ i → s (k + 1) = s k := by
  decide

theorem hull4_le (x y : Fin 4 → ℝ) (a b c : ℝ) (h : ∀ i, a * x i + b * y i ≤ c)
    (p : ℝ × ℝ) (hp : p ∈ convexHull ℝ (Set.range fun i => (x i, y i))) :
    a * p.1 + b * p.2 ≤ c := by
  have hconv : Convex ℝ {q : ℝ × ℝ | a * q.1 + b * q.2 ≤ c} := by
    intro p hp q hq s t hs ht hst
    simp only [Set.mem_setOf_eq, Prod.fst_add, Prod.snd_add, Prod.smul_fst, Prod.smul_snd,
      smul_eq_mul] at *
    have e : a * (s * p.1 + t * q.1) + b * (s * p.2 + t * q.2)
        = s * (a * p.1 + b * p.2) + t * (a * q.1 + b * q.2) := by ring
    have e1 : s * c + t * c = c := by rw [← add_mul, hst, one_mul]
    rw [e]
    linarith [mul_le_mul_of_nonneg_left hp hs, mul_le_mul_of_nonneg_left hq ht]
  have hsub : (Set.range fun i => (x i, y i)) ⊆ {q : ℝ × ℝ | a * q.1 + b * q.2 ≤ c} := by
    rintro _ ⟨i, rfl⟩
    exact h i
  exact convexHull_min hsub hconv hp

theorem hull4_edge (x y : Fin 4 → ℝ) (k : Fin 4) (m c t : ℝ)
    (hm : m * (x (k + 1) - x k) = y (k + 1) - y k) (hc : c = y k - m * x k)
    (h : (x k < t ∧ t < x (k + 1)) ∨ (x (k + 1) < t ∧ t < x k)) :
    (t, m * t + c) ∈ convexHull ℝ (Set.range fun i => (x i, y i)) := by
  have hne : x (k + 1) - x k ≠ 0 := by
    rcases h with h | h
    · exact ne_of_gt (by linarith)
    · exact ne_of_lt (by linarith)
  have hseg : (t, m * t + c) ∈ segment ℝ (x k, y k) (x (k + 1), y (k + 1)) := by
    refine ⟨1 - (t - x k) / (x (k + 1) - x k), (t - x k) / (x (k + 1) - x k), ?_, ?_, by ring, ?_⟩
    · rcases h with h | h
      · rw [sub_nonneg, div_le_one (by linarith)]; linarith
      · rw [sub_nonneg, div_le_one_of_neg (by linarith)]; linarith
    · rcases h with h | h
      · exact div_nonneg (by linarith) (by linarith)
      · exact div_nonneg_of_nonpos (by linarith) (by linarith)
    · ext
      · simp only [Prod.fst_add, Prod.smul_fst, smul_eq_mul]
        field_simp
        ring
      · simp only [Prod.snd_add, Prod.smul_snd, smul_eq_mul]
        have hy : y (k + 1) = y k + m * (x (k + 1) - x k) := by linarith
        rw [hc, hy]
        field_simp
        ring
  exact segment_subset_convexHull (Set.mem_range_self k) (Set.mem_range_self (k + 1)) hseg

theorem hull4_between (x y : Fin 4 → ℝ) (t l u v : ℝ)
    (hl : (t, l) ∈ convexHull ℝ (Set.range fun i => (x i, y i)))
    (hu : (t, u) ∈ convexHull ℝ (Set.range fun i => (x i, y i)))
    (h1 : l ≤ v) (h2 : v ≤ u) :
    (t, v) ∈ convexHull ℝ (Set.range fun i => (x i, y i)) := by
  rcases eq_or_lt_of_le (h1.trans h2) with e | hlt
  · have : v = l := le_antisymm (by linarith) h1
    rw [this]; exact hl
  · have hseg : (t, v) ∈ segment ℝ (t, l) (t, u) := by
      refine ⟨(u - v) / (u - l), (v - l) / (u - l), ?_, ?_, ?_, ?_⟩
      · exact div_nonneg (by linarith) (by linarith)
      · exact div_nonneg (by linarith) (by linarith)
      · have hne : u - l ≠ 0 := ne_of_gt (by linarith)
        rw [← add_div]
        have e : u - v + (v - l) = u - l := by ring
        rw [e, div_self hne]
      · have hne : u - l ≠ 0 := ne_of_gt (by linarith)
        ext
        · simp only [Prod.fst_add, Prod.smul_fst, smul_eq_mul]
          field_simp
          ring
        · simp only [Prod.snd_add, Prod.smul_snd, smul_eq_mul]
          field_simp
          ring
    exact (convex_convexHull ℝ _).segment_subset hl hu hseg

theorem cw_real (x y : Fin 4 → ℝ)
    (hcw : ∀ k : Fin 4, (x (k + 1) - x k) * (y (k + 2) - y (k + 1))
      - (y (k + 1) - y k) * (x (k + 2) - x (k + 1)) < 0) :
    (x 1 - x 0) * (y 2 - y 1) - (y 1 - y 0) * (x 2 - x 1) < 0 ∧
    (x 2 - x 1) * (y 3 - y 2) - (y 2 - y 1) * (x 3 - x 2) < 0 ∧
    (x 3 - x 2) * (y 0 - y 3) - (y 3 - y 2) * (x 0 - x 3) < 0 ∧
    (x 0 - x 3) * (y 1 - y 0) - (y 0 - y 3) * (x 1 - x 0) < 0 :=
  ⟨hcw 0, hcw 1, hcw 2, hcw 3⟩

theorem inner_side (x y : Fin 4 → ℝ)
    (hcw : ∀ k : Fin 4, (x (k + 1) - x k) * (y (k + 2) - y (k + 1))
      - (y (k + 1) - y k) * (x (k + 2) - x (k + 1)) < 0) :
    ∀ k i : Fin 4, (x (k + 1) - x k) * (y i - y k) - (y (k + 1) - y k) * (x i - x k) ≤ 0 := by
  obtain ⟨h0, h1, h2, h3⟩ := cw_real x y hcw
  have e0 : (0 : Fin 4) + 1 = 1 := rfl
  have e1 : (1 : Fin 4) + 1 = 2 := rfl
  have e2 : (2 : Fin 4) + 1 = 3 := rfl
  have e3 : (3 : Fin 4) + 1 = 0 := rfl
  ring_nf at h0 h1 h2 h3
  apply forall_fin4 <;> apply forall_fin4 <;> simp only [e0, e1, e2, e3] <;> ring_nf <;> linarith

theorem no_alternation (x y : Fin 4 → ℝ)
    (hcw : ∀ k : Fin 4, (x (k + 1) - x k) * (y (k + 2) - y (k + 1))
      - (y (k + 1) - y k) * (x (k + 2) - x (k + 1)) < 0) (t : ℝ) :
    ¬ (x 0 < t ∧ t < x 1 ∧ x 2 < t ∧ t < x 3) ∧ ¬ (t < x 0 ∧ x 1 < t ∧ t < x 2 ∧ x 3 < t) := by
  obtain ⟨h0, h1, h2, h3⟩ := cw_real x y hcw
  constructor
  · rintro ⟨a0, a1, a2, a3⟩
    nlinarith [mul_pos (neg_pos.mpr h1) (sub_pos.mpr a0), mul_pos (neg_pos.mpr h3) (sub_pos.mpr a2),
      mul_pos (neg_pos.mpr h2) (sub_pos.mpr a1), mul_pos (neg_pos.mpr h0) (sub_pos.mpr a3)]
  · rintro ⟨a0, a1, a2, a3⟩
    nlinarith [mul_pos (neg_pos.mpr h1) (sub_pos.mpr a0), mul_pos (neg_pos.mpr h3) (sub_pos.mpr a2),
      mul_pos (neg_pos.mpr h2) (sub_pos.mpr a1), mul_pos (neg_pos.mpr h0) (sub_pos.mpr a3)]

theorem hull_below_edge (x y m c : Fin 4 → ℝ)
    (hcw : ∀ k : Fin 4, (x (k + 1) - x k) * (y (k + 2) - y (k + 1))
      - (y (k + 1) - y k) * (x (k + 2) - x (k + 1)) < 0)
    (hm : ∀ k, x k ≠ x (k + 1) → m k * (x (k + 1) - x k) = y (k + 1) - y k)
    (hc : ∀ k, c k = y k - m k * x k) (k : Fin 4) (hk : x k < x (k + 1)) (t v : ℝ)
    (hv : (t, v) ∈ convexHull ℝ (Set.range fun i => (x i, y i))) :
    v ≤ m k * t + c k := by
  have h := hull4_le x y (-(y (k + 1) - y k)) (x (k + 1) - x k)
    (-(y (k + 1) - y k) * x k + (x (k + 1) - x k) * y k)
    (fun i => by linarith [inner_side x y hcw k i]) (t, v) hv
  simp only at h
  have hmk := hm k (ne_of_lt hk)
  rw [← hmk] at h
  rw [hc k]
  by_contra hcon
  push_neg at hcon
  nlinarith [mul_pos (sub_pos.mpr hk) (sub_pos.mpr hcon)]

theorem hull_above_edge (x y m c : Fin 4 → ℝ)
    (hcw : ∀ k : Fin 4, (x (k + 1) - x k) * (y (k + 2) - y (k + 1))
      - (y (k + 1) - y k) * (x (k + 2) - x (k + 1)) < 0)
    (hm : ∀ k, x k ≠ x (k + 1) → m k * (x (k + 1) - x k) = y (k + 1) - y k)
    (hc : ∀ k, c k = y k - m k * x k) (k : Fin 4) (hk : x (k + 1) < x k) (t v : ℝ)
    (hv : (t, v) ∈ convexHull ℝ (Set.range fun i => (x i, y i))) :
    m k * t + c k ≤ v := by
  have h := hull4_le x y (-(y (k + 1) - y k)) (x (k + 1) - x k)
    (-(y (k + 1) - y k) * x k + (x (k + 1) - x k) * y k)
    (fun i => by linarith [inner_side x y hcw k i]) (t, v) hv
  simp only at h
  have hmk := hm k (ne_of_gt hk)
  rw [← hmk] at h
  rw [hc k]
  by_contra hcon
  push_neg at hcon
  nlinarith [mul_pos (sub_pos.mpr hk) (sub_pos.mpr hcon)]

theorem section_mixed (x y m c : Fin 4 → ℝ)
    (hcw : ∀ k : Fin 4, (x (k + 1) - x k) * (y (k + 2) - y (k + 1))
      - (y (k + 1) - y k) * (x (k + 2) - x (k + 1)) < 0)
    (hm : ∀ k, x k ≠ x (k + 1) → m k * (x (k + 1) - x k) = y (k + 1) - y k)
    (hc : ∀ k, c k = y k - m k * x k) (t : ℝ) (j i : Fin 4)
    (hj : x j < t ∧ t < x (j + 1)) (hi : x (i + 1) < t ∧ t < x i) (v : ℝ) :
    (t, v) ∈ convexHull ℝ (Set.range fun i => (x i, y i)) ↔
      m i * t + c i ≤ v ∧ v ≤ m j * t + c j := by
  constructor
  · intro hv
    exact ⟨hull_above_edge x y m c hcw hm hc i (by linarith) t v hv,
      hull_below_edge x y m c hcw hm hc j (by linarith) t v hv⟩
  · rintro ⟨h1, h2⟩
    exact hull4_between x y t _ _ v
      (hull4_edge x y i (m i) (c i) t (hm i (ne_of_gt (by linarith))) (hc i) (Or.inr hi))
      (hull4_edge x y j (m j) (c j) t (hm j (ne_of_lt (by linarith))) (hc j) (Or.inl hj)) h1 h2

theorem clip_diff (L U B1 B2 : ℝ) (hLU : L ≤ U) (hB : B1 ≤ B2) :
    ENNReal.ofReal (min U B2 - max L B1)
      = ENNReal.ofReal ((min (max U B1) B2 - B1) + -1 * (min (max L B1) B2 - B1)) ∧
    0 ≤ (min (max U B1) B2 - B1) + -1 * (min (max L B1) B2 - B1) := by
  have key : (min (max U B1) B2 - B1) + -1 * (min (max L B1) B2 - B1)
      = max (min U B2 - max L B1) 0 := by
    simp only [min_def, max_def]
    split_ifs <;> linarith
  rw [key]
  refine ⟨?_, le_max_right _ _⟩
  rcases le_total (min U B2 - max L B1) 0 with h | h
  · rw [max_eq_right h, ENNReal.ofReal_of_nonpos h, ENNReal.ofReal_zero]
  · rw [max_eq_left h]

theorem hull4_lt (x y : Fin 4 → ℝ) (a b c : ℝ) (h : ∀ i, a * x i + b * y i < c)
    (p : ℝ × ℝ) (hp : p ∈ convexHull ℝ (Set.range fun i => (x i, y i))) :
    a * p.1 + b * p.2 < c := by
  have h1 := hull4_le x y a b
    (max (max (a * x 0 + b * y 0) (a * x 1 + b * y 1)) (max (a * x 2 + b * y 2) (a * x 3 + b * y 3)))
    (by apply forall_fin4 <;> simp [le_max_iff]) p hp
  refine lt_of_le_of_lt h1 ?_
  simp only [max_lt_iff]
  exact ⟨⟨h 0, h 1⟩, h 2, h 3⟩

theorem edge_term_same (xa xb A1 A2 t : ℝ) (f : ℝ → ℝ)
    (h : (xa < t ∧ xb < t) ∨ (t < xa ∧ t < xb) ∨ t < A1 ∨ A2 < t) :
    Set.indicator (Set.Ioc (max (min xa xb) A1) (min (max xa xb) A2)) f t = 0 := by
  apply Set.indicator_of_not_mem
  rintro ⟨h1, h2⟩
  rw [max_lt_iff, min_lt_iff] at h1
  rw [le_min_iff, le_max_iff] at h2
  rcases h with h | h | h | h
  · rcases h2.1 with h3 | h3 <;> linarith
  · rcases h1.1 with h3 | h3 <;> linarith
  · linarith
  · linarith

theorem edge_term_in (xa xb A1 A2 t : ℝ) (f : ℝ → ℝ) (hin : A1 < t ∧ t < A2)
    (h : (xa < t ∧ t < xb) ∨ (xb < t ∧ t < xa)) :
    Set.indicator (Set.Ioc (max (min xa xb) A1) (min (max xa xb) A2)) f t = f t := by
  apply Set.indicator_of_mem
  constructor
  · rw [max_lt_iff, min_lt_iff]
    rcases h with h | h
    · exact ⟨Or.inl h.1, hin.1⟩
    · exact ⟨Or.inr h.1, hin.1⟩
  · rw [le_min_iff, le_max_iff]
    rcases h with h | h
    · exact ⟨Or.inr h.2.le, hin.2.le⟩
    · exact ⟨Or.inl h.2.le, hin.2.le⟩

/-- The length of the vertical section at abscissa `t` of the quadrilateral
inside a box, away from the abscissae of the vertices and of the box walls: the
signed sum over the edges above `t` of the clipped ordinate of the edge. -/
theorem section_volume (x y m c : Fin 4 → ℝ) (A1 A2 B1 B2 : ℝ) (g : Fin 4 → ℝ → ℝ)
    (hcw : ∀ k : Fin 4, (x (k + 1) - x k) * (y (k + 2) - y (k + 1))
      - (y (k + 1) - y k) * (x (k + 2) - x (k + 1)) < 0)
    (hm : ∀ k, x k ≠ x (k + 1) → m k * (x (k + 1) - x k) = y (k + 1) - y k)
    (hc : ∀ k, c k = y k - m k * x k) (hB : B1 ≤ B2)
    (hg : ∀ k t, g k t = Set.indicator
        (Set.Ioc (max (min (x k) (x (k + 1))) A1) (min (max (x k) (x (k + 1))) A2))
        (fun t => (if x k ≤ x (k + 1) then 1 else -1) * (min (max (m k * t + c k) B1) B2 - B1)) t)
    (t : ℝ) (ht : ∀ k, t ≠ x k) (ht1 : t ≠ A1) (ht2 : t ≠ A2) :
    volume (Set.preimage (Prod.mk t)
        (convexHull ℝ (Set.range fun i => (x i, y i)) ∩ Set.Icc (A1, B1) (A2, B2)))
      = ENNReal.ofReal (∑ k, g k t) ∧ 0 ≤ ∑ k, g k t := by
  have hsame : ∀ k, ((x k < t ∧ x (k + 1) < t) ∨ (t < x k ∧ t < x (k + 1)) ∨ t < A1 ∨ A2 < t) →
      g k t = 0 := fun k h => by
    rw [hg]
    exact edge_term_same _ _ _ _ _ _ h
  have hzero : (∀ k, g k t = 0) →
      (Set.preimage (Prod.mk t)
        (convexHull ℝ (Set.range fun i => (x i, y i)) ∩ Set.Icc (A1, B1) (A2, B2)))
        = ∅ →
      volume (Set.preimage (Prod.mk t)
        (convexHull ℝ (Set.range fun i => (x i, y i)) ∩ Set.Icc (A1, B1) (A2, B2)))
      = ENNReal.ofReal (∑ k, g k t) ∧ 0 ≤ ∑ k, g k t := by
    intro h0 he
    rw [he, measure_empty, Finset.sum_eq_zero (fun k _ => h0 k), ENNReal.ofReal_zero]
    exact ⟨rfl, le_refl 0⟩
  by_cases hin : A1 < t ∧ t < A2
  swap
  · have hout : t < A1 ∨ A2 < t := by
      by_contra hcon
      push_neg at hcon
      exact hin ⟨lt_of_le_of_ne hcon.1 (Ne.symm ht1), lt_of_le_of_ne hcon.2 ht2⟩
    apply hzero (fun k => hsame k (Or.inr (Or.inr hout)))
    ext v
    simp only [Set.mem_preimage, Set.mem_inter_iff, Set.mem_Icc, Prod.mk_le_mk,
      Set.mem_empty_iff_false, iff_false]
    rintro ⟨_, ⟨h1, _⟩, ⟨h2, _⟩⟩
    rcases hout with h | h <;> linarith
  · rcases crossing_pattern (fun k => decide (x k < t)) with
      hconst | halt | ⟨j, i, hj1, hj2, hi1, hi2, hrest⟩
    · simp only [decide_eq_decide] at hconst
      by_cases h0 : x 0 < t
      · have hall : ∀ k, x k < t := fun k => (hconst k).mpr h0
        apply hzero (fun k => hsame k (Or.inl ⟨hall k, hall (k + 1)⟩))
        ext v
        simp only [Set.mem_preimage, Set.mem_inter_iff, Set.mem_empty_iff_false, iff_false]
        rintro ⟨hv, _⟩
        have := hull4_lt x y 1 0 t (fun i => by linarith [hall i]) (t, v) hv
        simp only at this
        linarith
      · have hall : ∀ k, t < x k := fun k =>
          lt_of_le_of_ne (not_lt.mp (fun h => h0 ((hconst k).mp h))) (ht k)
        apply hzero (fun k => hsame k (Or.inr (Or.inl ⟨hall k, hall (k + 1)⟩)))
        ext v
        simp only [Set.mem_preimage, Set.mem_inter_iff, Set.mem_empty_iff_false, iff_false]
        rintro ⟨hv, _⟩
        have := hull4_lt x y (-1) 0 (-t) (fun i => by linarith [hall i]) (t, v) hv
        simp only at this
        linarith
    · exfalso
      have e0 : (0 : Fin 4) + 1 = 1 := rfl
      have e1 : (1 : Fin 4) + 1 = 2 := rfl
      have e2 : (2 : Fin 4) + 1 = 3 := rfl
      have a0 := halt 0
      have a1 := halt 1
      have a2 := halt 2
      simp only [e0, e1, e2] at a0 a1 a2
      have hna := no_alternation x y hcw t
      by_cases h0 : x 0 < t
      · simp only [h0, decide_True, Bool.not_true, decide_eq_false_iff_not] at a0
        simp only [a0, decide_False, Bool.not_false, decide_eq_true_eq] at a1
        simp only [a1, decide_True, Bool.not_true, decide_eq_false_iff_not] at a2
        exact hna.1 ⟨h0, lt_of_le_of_ne (not_lt.mp a0) (ht 1), a1,
          lt_of_le_of_ne (not_lt.mp a2) (ht 3)⟩
      · simp only [h0, decide_False, Bool.not_false, decide_eq_true_eq] at a0
        simp only [a0, decide_True, Bool.not_true, decide_eq_false_iff_not] at a1
        simp only [a1, decide_False, Bool.not_false, decide_eq_true_eq] at a2
        exact hna.2 ⟨lt_of_le_of_ne (not_lt.mp h0) (ht 0), a0,
          lt_of_le_of_ne (not_lt.mp a1) (ht 2), a2⟩
    · simp only [decide_eq_true_eq, decide_eq_false_iff_not, decide_eq_decide] at hj1 hj2 hi1 hi2 hrest
      have hj : x j < t ∧ t < x (j + 1) := ⟨hj1, lt_of_le_of_ne (not_lt.mp hj2) (ht _)⟩
      have hi : x (i + 1) < t ∧ t < x i := ⟨hi2, lt_of_le_of_ne (not_lt.mp hi1) (ht _)⟩
      have hji : j ≠ i := by
        rintro rfl
        exact hi1 hj1
      have hsum : ∑ k, g k t = g j t + g i t := by
        apply Finset.sum_eq_add j i hji
        · intro k _ hk
          apply hsame k
          by_cases hk1 : x k < t
          · exact Or.inl ⟨hk1, (hrest k hk.1 hk.2).mpr hk1⟩
          · refine Or.inr (Or.inl ⟨lt_of_le_of_ne (not_lt.mp hk1) (ht k),
              lt_of_le_of_ne (not_lt.mp (fun h => hk1 ((hrest k hk.1 hk.2).mp h))) (ht _)⟩)
        · intro h
          exact absurd (Finset.mem_univ j) h
        · intro h
          exact absurd (Finset.mem_univ i) h
      have hgj : g j t = min (max (m j * t + c j) B1) B2 - B1 := by
        rw [hg, edge_term_in _ _ _ _ _ _ hin (Or.inl hj), if_pos (by linarith), one_mul]
      have hgi : g i t = -1 * (min (max (m i * t + c i) B1) B2 - B1) := by
        rw [hg, edge_term_in _ _ _ _ _ _ hin (Or.inr hi), if_neg (by linarith)]
      have hsec : (Set.preimage (Prod.mk t)
          (convexHull ℝ (Set.range fun i => (x i, y i)) ∩ Set.Icc (A1, B1) (A2, B2)))
          = Set.Icc (max (m i * t + c i) B1) (min (m j * t + c j) B2) := by
        ext v
        simp only [Set.mem_preimage, Set.mem_inter_iff, Set.mem_Icc, Prod.mk_le_mk,
          section_mixed x y m c hcw hm hc t j i hj hi v, max_le_iff, le_min_iff]
        constructor
        · rintro ⟨⟨h1, h2⟩, ⟨_, h3⟩, ⟨_, h4⟩⟩
          exact ⟨⟨h1, h3⟩, h2, h4⟩
        · rintro ⟨⟨h1, h3⟩, h2, h4⟩
          exact ⟨⟨h1, h2⟩, ⟨hin.1.le, h3⟩, ⟨hin.2.le, h4⟩⟩
      have hLU : m i * t + c i ≤ m j * t + c j := by
        have hmem := hull4_edge x y i (m i) (c i) t (hm i (ne_of_gt (by linarith))) (hc i)
          (Or.inr hi)
        exact ((section_mixed x y m c hcw hm hc t j i hj hi _).mp hmem).2
      rw [hsec, Real.volume_Icc, hsum, hgj, hgi]
      exact clip_diff _ _ _ _ hLU hB

/-- The area of a clockwise convex quadrilateral inside a box as the sum of the
signed integrals of the clipped edge lines (Fubini over the abscissa). -/
theorem hull_box_volume (x y m c : Fin 4 → ℝ) (A1 A2 B1 B2 : ℝ)
    (hcw : ∀ k : Fin 4, (x (k + 1) - x k) * (y (k + 2) - y (k + 1))
      - (y (k + 1) - y k) * (x (k + 2) - x (k + 1)) < 0)
    (hm : ∀ k, x k ≠ x (k + 1) → m k * (x (k + 1) - x k) = y (k + 1) - y k)
    (hc : ∀ k, c k = y k - m k * x k) (hB : B1 ≤ B2) :
    (volume (convexHull ℝ (Set.range fun i => (x i, y i)) ∩ Set.Icc (A1, B1) (A2, B2))).toReal
      = ∑ k, ∫ t in Set.Ioc (max (min (x k) (x (k + 1))) A1) (min (max (x k) (x (k + 1))) A2),
          (if x k ≤ x (k + 1) then 1 else -1) * (min (max (m k * t + c k) B1) B2 - B1) := by
  have hS : MeasurableSet
      (convexHull ℝ (Set.range fun i => (x i, y i)) ∩ Set.Icc (A1, B1) (A2, B2)) :=
    ((Set.finite_range _).isCompact_convexHull.isClosed.measurableSet).inter measurableSet_Icc
  have hcont : ∀ k, Continuous (fun t : ℝ =>
      (if x k ≤ x (k + 1) then (1 : ℝ) else -1) * (min (max (m k * t + c k) B1) B2 - B1)) := by
    intro k
    fun_prop
  have hint : ∀ k ∈ (Finset.univ : Finset (Fin 4)), Integrable (fun t => Set.indicator
      (Set.Ioc (max (min (x k) (x (k + 1))) A1) (min (max (x k) (x (k + 1))) A2))
      (fun t => (if x k ≤ x (k + 1) then (1 : ℝ) else -1) *
        (min (max (m k * t + c k) B1) B2 - B1)) t) volume := by
    intro k _
    exact ((hcont k).integrableOn_Ioc).integrable_indicator measurableSet_Ioc
  have hae : ∀ᵐ t ∂(volume : Measure ℝ), t ∉ (Set.range x ∪ {A1, A2}) :=
    (((Set.finite_range x).union (Set.toFinite {A1, A2})).countable).ae_not_mem volume
  have hsec := fun t (ht : t ∉ (Set.range x ∪ {A1, A2})) =>
    section_volume x y m c A1 A2 B1 B2 _ hcw hm hc hB (fun _ _ => rfl) t
      (fun k h => ht (Or.inl ⟨k, h.symm⟩)) (fun h => ht (Or.inr (by simp [h])))
      (fun h => ht (Or.inr (by simp [h])))
  rw [Measure.volume_eq_prod, Measure.prod_apply hS]
  rw [lintegral_congr_ae (hae.mono fun t ht => (hsec t ht).1)]
  rw [← integral_eq_lintegral_of_nonneg_ae (hae.mono fun t ht => (hsec t ht).2)
    (integrable_finset_sum _ hint).aestronglyMeasurable]
  rw [integral_finset_sum _ hint]
  refine Finset.sum_congr rfl fun k _ => ?_
  rw [integral_indicator measurableSet_Ioc]

theorem hasDerivAt_half_sq_pos (v : ℝ) :
    HasDerivAt (fun w : ℝ => (max w 0) ^ 2 / 2) (max v 0) v := by
  rcases lt_trichotomy v 0 with h | h | h
  · have he : (fun w : ℝ => (max w 0) ^ 2 / 2) =ᶠ[nhds v] fun _ => (0 : ℝ) := by
      filter_upwards [gt_mem_nhds h] with w hw
      rw [max_eq_right hw.le]
      norm_num
    rw [max_eq_right h.le]
    exact (hasDerivAt_const v (0 : ℝ)).congr_of_eventuallyEq he
  · subst h
    rw [max_self]
    rw [hasDerivAt_iff_isLittleO_nhds_zero]
    have hO : (fun h : ℝ => (max (0 + h) 0) ^ 2 / 2 - (max (0 : ℝ) 0) ^ 2 / 2 - h • (0 : ℝ))
        =O[nhds 0] fun h : ℝ => h ^ 2 := by
      apply Asymptotics.IsBigO.of_bound 1
      filter_upwards with h
      simp only [zero_add, max_self, smul_zero, sub_zero, one_mul, Real.norm_eq_abs]
      norm_num
      rw [abs_of_nonneg (by positivity)]
      rcases le_total h 0 with h0 | h0
      · rw [max_eq_right h0]
        nlinarith [sq_nonneg h]
      · rw [max_eq_left h0]
        nlinarith [sq_nonneg h]
    exact hO.trans_isLittleO (Asymptotics.isLittleO_pow_id (by norm_num))
  · have he : (fun w : ℝ => (max w 0) ^ 2 / 2) =ᶠ[nhds v] fun w => w ^ 2 / 2 := by
      filter_upwards [lt_mem_nhds h] with w hw
      rw [max_eq_left hw.le]
    rw [max_eq_left h.le]
    have hd : HasDerivAt (fun w : ℝ => w ^ 2 / 2) v v := by
      have := (hasDerivAt_pow 2 v).div_const 2
      simpa using this
    exact hd.congr_of_eventuallyEq he

theorem clip_eq_ramps (v : ℝ) : min (max v 0) 1 = max v 0 - max (v - 1) 0 := by
  simp only [min_def, max_def]
  split_ifs <;> linarith

/-- The integral of the clipped line `min (max (m u + c) 0) 1` in closed form. -/
theorem clip_integral (m c a b : ℝ) (hm : m ≠ 0) :
    ∫ u in a..b, min (max (m * u + c) 0) 1
      = (((max (m * b + c) 0) ^ 2 / 2 - (max (m * b + c - 1) 0) ^ 2 / 2)
        - ((max (m * a + c) 0) ^ 2 / 2 - (max (m * a + c - 1) 0) ^ 2 / 2)) / m := by
  have hderiv : ∀ u ∈ Set.uIcc a b, HasDerivAt
      (fun u => ((max (m * u + c) 0) ^ 2 / 2 - (max (m * u + c - 1) 0) ^ 2 / 2) / m)
      (min (max (m * u + c) 0) 1) u := by
    intro u _
    have h1 : HasDerivAt (fun u : ℝ => m * u + c) m u := by
      simpa using ((hasDerivAt_id u).const_mul m).add_const c
    have h2 : HasDerivAt (fun u : ℝ => m * u + c - 1) m u := by
      simpa using h1.sub_const 1
    have h3 := (hasDerivAt_half_sq_pos (m * u + c)).comp u h1
    have h4 := (hasDerivAt_half_sq_pos (m * u + c - 1)).comp u h2
    have h5 := (h3.sub h4).div_const m
    rw [clip_eq_ramps]
    convert h5 using 1
    field_simp
    ring
  have hint : IntervalIntegrable (fun u => min (max (m * u + c) 0) 1) volume a b := by
    apply Continuous.intervalIntegrable
    fun_prop
  rw [intervalIntegral.integral_eq_sub_of_hasDerivAt hderiv hint]
  ring

/-- The case analysis of `sgarea` computes the integral of the clipped line. -/
theorem strip_area_closed (xlo0 xhi0 c m im : ℚ) (h : ¬ (1 ≤ xlo0 ∨ xhi0 ≤ 0))
    (him0 : im ≠ 0) (him : m ≠ 0 → im = 1 / m) :
    strip_area xlo0 xhi0 c m im =
      if m = 0 then clip01 c * (min xhi0 1 - max xlo0 0)
      else (clip_primitive (m * min xhi0 1 + c) - clip_primitive (m * max xlo0 0 + c)) / m := by
  unfold strip_area
  simp only [if_neg him0, if_neg h]
  generalize max xlo0 0 = a
  generalize min xhi0 1 = b
  by_cases hm0 : m = 0
  · subst hm0
    simp only [zero_mul, zero_add, if_true, clip01]
    by_cases h1 : c ≤ 0
    · simp [h1]
    · by_cases h2 : 1 ≤ c
      · have : ¬ c ≤ 0 := h1
        simp [h1, h2]
      · push_neg at h1 h2
        have h3 : ¬ c < 0 := not_lt.mpr h1.le
        simp [h1.le, h2.le, not_le.mpr h1, not_le.mpr h2, h3]
        ring
  · rw [if_neg hm0, him hm0]
    unfold clip_primitive
    obtain ⟨ylo, rfl⟩ : ∃ ylo, a = (ylo - c) / m := ⟨m * a + c, by field_simp⟩
    obtain ⟨yhi, rfl⟩ : ∃ yhi, b = (yhi - c) / m := ⟨m * b + c, by field_simp⟩
    have hs : ∀ v, m * ((v - c) / m) + c = v := by
      intro v
      field_simp
    simp only [hs]
    have e1 : ∀ v : ℚ, max v 0 = if v < 0 then 0 else v := by
      intro v
      rw [max_def]
      split_ifs <;> linarith
    have e2 : ∀ v : ℚ, max (v - 1) 0 = if v ≤ 1 then 0 else v - 1 := by
      intro v
      rw [max_def]
      split_ifs <;> linarith
    have cases3 : ∀ v : ℚ, (v < 0 ∧ v ≤ 1) ∨ (¬ v < 0 ∧ v ≤ 1) ∨ (¬ v < 0 ∧ ¬ v ≤ 1) := by
      intro v
      rcases lt_or_le v 0 with h | h
      · exact Or.inl ⟨h, by linarith⟩
      · rcases le_or_lt v 1 with h1 | h1
        · exact Or.inr (Or.inl ⟨not_lt.mpr h, h1⟩)
        · exact Or.inr (Or.inr ⟨not_lt.mpr h, not_le.mpr h1⟩)
    simp only [e2]
    simp only [e1]
    by_cases hA : ylo ≤ 0 ∧ yhi ≤ 0
    · rw [if_pos hA]
      obtain ⟨ha, hb⟩ := hA
      have ha1 : ylo ≤ 1 := by linarith
      have hb1 : yhi ≤ 1 := by linarith
      rcases eq_or_lt_of_le ha with ha | ha <;> rcases eq_or_lt_of_le hb with hb | hb <;>
        simp [ha, hb, ha1, hb1]
    · rw [if_neg hA]
      by_cases hB : 1 ≤ ylo ∧ 1 ≤ yhi
      · rw [if_pos hB]
        obtain ⟨ha, hb⟩ := hB
        have a1 : ¬ ylo < 0 := by linarith
        have b1 : ¬ yhi < 0 := by linarith
        simp only [a1, b1, if_false]
        rcases eq_or_lt_of_le ha with ha | ha <;> rcases eq_or_lt_of_le hb with hb | hb
        · subst ha
          subst hb
          simp
        · subst ha
          simp only [le_refl, if_true, not_le.mpr hb, if_false]
          field_simp
          ring
        · subst hb
          simp only [le_refl, if_true, not_le.mpr ha, if_false]
          field_simp
          ring
        · simp only [not_le.mpr ha, not_le.mpr hb, if_false]
          field_simp
          ring
      · rw [if_neg hB]
        rcases cases3 ylo with ⟨a1, a2⟩ | ⟨a1, a2⟩ | ⟨a1, a2⟩ <;>
          rcases cases3 yhi with ⟨b1, b2⟩ | ⟨b1, b2⟩ | ⟨b1, b2⟩ <;>
          simp only [a1, a2, b1, b2, if_true, if_false, zero_le_one] <;> first
            | (exfalso; exact hA ⟨by linarith, by linarith⟩)
            | (exfalso; exact hB ⟨by linarith, by linarith⟩)
            | (field_simp; ring)

theorem edge_areaQ_closed (X1 Y1 X2 Y2 : ℚ) (hx : X1 ≠ X2) :
    edge_areaQ X1 Y1 X2 Y2 =
      (if X1 ≤ X2 then 1 else -1) *
        (if 1 ≤ min X1 X2 ∨ max X1 X2 ≤ 0 then 0
          else if (Y2 - Y1) / (X2 - X1) = 0 then
            clip01 (Y1 - (Y2 - Y1) / (X2 - X1) * X1) * (min (max X1 X2) 1 - max (min X1 X2) 0)
          else (clip_primitive ((Y2 - Y1) / (X2 - X1) * min (max X1 X2) 1
                + (Y1 - (Y2 - Y1) / (X2 - X1) * X1))
              - clip_primitive ((Y2 - Y1) / (X2 - X1) * max (min X1 X2) 0
                + (Y1 - (Y2 - Y1) / (X2 - X1) * X1))) / ((Y2 - Y1) / (X2 - X1))) := by
  have hdx : X2 - X1 ≠ 0 := sub_ne_zero.mpr (Ne.symm hx)
  unfold edge_areaQ
  rw [sgareaQ_eq_strip]
  have him0 : (if Y2 = Y1 then (1 : ℚ) else (X2 - X1) / (Y2 - Y1)) ≠ 0 := by
    split_ifs with h
    · exact one_ne_zero
    · exact div_ne_zero hdx (sub_ne_zero.mpr h)
  have him : (Y2 - Y1) / (X2 - X1) ≠ 0 →
      (if Y2 = Y1 then (1 : ℚ) else (X2 - X1) / (Y2 - Y1)) = 1 / ((Y2 - Y1) / (X2 - X1)) := by
    intro hm
    have hy : Y2 ≠ Y1 := by
      rintro rfl
      simp at hm
    rw [if_neg hy, one_div, inv_div]
  by_cases hle : X1 ≤ X2
  · have e1 : min X1 X2 = X1 := min_eq_left hle
    have e2 : max X1 X2 = X2 := max_eq_right hle
    simp only [hle, if_true, show ¬ ((1 : Int) < 0) by decide, if_false, e1, e2, Int.cast_one]
    by_cases hout : 1 ≤ X1 ∨ X2 ≤ 0
    · rw [if_pos hout]
      unfold strip_area
      rw [if_neg him0, if_pos hout]
    · rw [if_neg hout, strip_area_closed _ _ _ _ _ hout him0 him]
  · have hle1 : X2 ≤ X1 := le_of_lt (not_le.mp hle)
    have e1 : min X1 X2 = X2 := min_eq_right hle1
    have e2 : max X1 X2 = X1 := max_eq_left hle1
    simp only [hle, if_false, show ((-1 : Int) < 0) by decide, if_true, e1, e2, Int.cast_neg,
      Int.cast_one]
    by_cases hout : 1 ≤ X2 ∨ X1 ≤ 0
    · rw [if_pos hout]
      unfold strip_area
      rw [if_neg him0, if_pos hout]
    · rw [if_neg hout, strip_area_closed _ _ _ _ _ hout him0 him]

theorem clip_shift (v B : ℝ) : min (max v B) (B + 1) - B = min (max (v - B) 0) 1 := by
  simp only [min_def, max_def]
  split_ifs <;> linarith

theorem clip_interval_integral (m c a b : ℝ) (X1 Y1 X2 Y2 : ℚ) (hx : X1 ≠ X2)
    (hm : m = (((Y2 - Y1) / (X2 - X1) : ℚ) : ℝ))
    (hc : c = ((Y1 - (Y2 - Y1) / (X2 - X1) * X1 : ℚ) : ℝ))
    (ha : a = ((max (min X1 X2) 0 : ℚ) : ℝ)) (hb : b = ((min (max X1 X2) 1 : ℚ) : ℝ))
    (hout : ¬ (1 ≤ min X1 X2 ∨ max X1 X2 ≤ 0)) :
    (if X1 ≤ X2 then (1 : ℝ) else -1) * ∫ u in a..b, min (max (m * u + c) 0) 1
      = ((edge_areaQ X1 Y1 X2 Y2 : ℚ) : ℝ) := by
  rw [edge_areaQ_closed _ _ _ _ hx, if_neg hout]
  by_cases hm0 : (Y2 - Y1) / (X2 - X1) = 0
  · have hm0r : m = 0 := by rw [hm, hm0, Rat.cast_zero]
    rw [if_pos hm0]
    subst hm0r
    simp only [zero_mul, zero_add, intervalIntegral.integral_const, smul_eq_mul]
    rw [hc, ha, hb, hm0]
    unfold clip01
    push_cast
    split_ifs <;> ring
  · have hm0r : m ≠ 0 := by
      rw [hm]
      exact_mod_cast hm0
    rw [if_neg hm0, clip_integral m c a b hm0r, hm, hc, ha, hb]
    unfold clip_primitive
    push_cast
    split_ifs <;> ring

/-- The signed integral of the clipped line of one edge over a unit cell is the
value `sgarea` computes for the translated edge. -/
theorem edge_cell_integral (X1 Y1 X2 Y2 A B : ℚ) (hne : X1 ≠ X2 ∨ Y1 ≠ Y2) :
    ∫ t in Set.Ioc (max (min (X1 : ℝ) (X2 : ℝ)) (A : ℝ)) (min (max (X1 : ℝ) (X2 : ℝ)) ((A : ℝ) + 1)),
        (if (X1 : ℝ) ≤ (X2 : ℝ) then (1 : ℝ) else -1) *
          (min (max ((((Y2 - Y1) / (X2 - X1) : ℚ) : ℝ) * t
            + ((Y1 - (Y2 - Y1) / (X2 - X1) * X1 : ℚ) : ℝ)) (B : ℝ)) ((B : ℝ) + 1) - (B : ℝ))
      = ((edge_areaQ (X1 - A) (Y1 - B) (X2 - A) (Y2 - B) : ℚ) : ℝ) := by
  by_cases hx : X1 = X2
  · subst hx
    rw [edge_areaQ_vertical, Rat.cast_zero, Set.Ioc_eq_empty, Measure.restrict_empty,
      integral_zero_measure]
    rw [min_self, max_self, not_lt]
    exact (min_le_left _ _).trans (le_max_left _ _)
  · have hxA : X1 - A ≠ X2 - A := fun h => hx (by linarith)
    have hmin : (((min (X1 - A) (X2 - A) : ℚ)) : ℝ) = min (X1 : ℝ) (X2 : ℝ) - (A : ℝ) := by
      push_cast
      rw [min_sub_sub_right]
    have hmax : (((max (X1 - A) (X2 - A) : ℚ)) : ℝ) = max (X1 : ℝ) (X2 : ℝ) - (A : ℝ) := by
      push_cast
      rw [max_sub_sub_right]
    by_cases hout : 1 ≤ min (X1 - A) (X2 - A) ∨ max (X1 - A) (X2 - A) ≤ 0
    · rw [edge_areaQ_closed _ _ _ _ hxA, if_pos hout, mul_zero, Rat.cast_zero, Set.Ioc_eq_empty,
        Measure.restrict_empty, integral_zero_measure]
      rw [not_lt]
      rcases hout with h | h
      · have h1 : (1 : ℝ) ≤ min (X1 : ℝ) (X2 : ℝ) - (A : ℝ) := by
          rw [← hmin]
          exact_mod_cast h
        exact (min_le_right _ _).trans (le_trans (by linarith) (le_max_left _ _))
      · have h1 : max (X1 : ℝ) (X2 : ℝ) - (A : ℝ) ≤ 0 := by
          rw [← hmax]
          exact_mod_cast h
        exact (min_le_left _ _).trans (le_trans (by linarith) (le_max_right _ _))
    · have hout1 := hout
      push_neg at hout1
      have h1 : min (X1 : ℝ) (X2 : ℝ) - (A : ℝ) < 1 := by
        rw [← hmin]
        exact_mod_cast hout1.1
      have h2 : 0 < max (X1 : ℝ) (X2 : ℝ) - (A : ℝ) := by
        rw [← hmax]
        exact_mod_cast hout1.2
      have hab : max (min (X1 : ℝ) (X2 : ℝ)) (A : ℝ) ≤ min (max (X1 : ℝ) (X2 : ℝ)) ((A : ℝ) + 1) := by
        rw [le_min_iff, max_le_iff, max_le_iff]
        exact ⟨⟨min_le_max, by linarith⟩, by linarith, by linarith⟩
      rw [integral_mul_left, ← intervalIntegral.integral_of_le hab]
      have hf : (fun t : ℝ => min (max ((((Y2 - Y1) / (X2 - X1) : ℚ) : ℝ) * t
            + ((Y1 - (Y2 - Y1) / (X2 - X1) * X1 : ℚ) : ℝ)) (B : ℝ)) ((B : ℝ) + 1) - (B : ℝ))
          = fun t => (fun u : ℝ => min (max ((((Y2 - Y1) / (X2 - X1) : ℚ) : ℝ) * u
            + (((Y1 - (Y2 - Y1) / (X2 - X1) * X1 : ℚ) : ℝ)
              + (((Y2 - Y1) / (X2 - X1) : ℚ) : ℝ) * (A : ℝ) - (B : ℝ))) 0) 1) (t - (A : ℝ)) := by
        funext t
        rw [clip_shift]
        congr 2
        ring
      rw [hf, intervalIntegral.integral_comp_sub_right
        (fun u : ℝ => min (max ((((Y2 - Y1) / (X2 - X1) : ℚ) : ℝ) * u
            + (((Y1 - (Y2 - Y1) / (X2 - X1) * X1 : ℚ) : ℝ)
              + (((Y2 - Y1) / (X2 - X1) : ℚ) : ℝ) * (A : ℝ) - (B : ℝ))) 0) 1) (A : ℝ)]
      have hsgn : (if (X1 : ℝ) ≤ (X2 : ℝ) then (1 : ℝ) else -1)
          = (if X1 - A ≤ X2 - A then (1 : ℝ) else -1) := by
        by_cases hle : X1 ≤ X2
        · rw [if_pos (by exact_mod_cast hle), if_pos (by linarith)]
        · rw [if_neg (by exact_mod_cast hle), if_neg (by linarith)]
      rw [hsgn]
      apply clip_interval_integral _ _ _ _ _ _ _ _ hxA _ _ _ _ hout
      · congr 1
        rw [sub_sub_sub_cancel_right, sub_sub_sub_cancel_right]
      · rw [sub_sub_sub_cancel_right, sub_sub_sub_cancel_right]
        push_cast
        ring
      · push_cast
        simp only [min_def, max_def]
        split_ifs <;> linarith
      · push_cast
        simp only [min_def, max_def]
        split_ifs <;> linarith

theorem clockwise_edge_ne (X Y : Fin 4 → ℚ) (h : clockwise X Y) (k : Fin 4) :
    X k ≠ X (k + 1) ∨ Y k ≠ Y (k + 1) := by
  by_contra hcon
  push_neg at hcon
  have := h k
  rw [hcon.1, hcon.2] at this
  simp at this

/-- The value of `boxer` is the area of the quadrilateral inside the cell. -/
theorem boxerQ_area (X Y : Fin 4 → ℚ) (h : clockwise X Y) (i j : ℚ) :
    (volume (convexHull ℝ (Set.range fun k => ((X k : ℝ), (Y k : ℝ))) ∩
        Set.Icc ((i : ℝ) - 1 / 2, (j : ℝ) - 1 / 2) ((i : ℝ) + 1 / 2, (j : ℝ) + 1 / 2))).toReal
      = ((boxerQ i j X Y : ℚ) : ℝ) := by
  have hA : ((i : ℝ) + 1 / 2) = (((i - 1 / 2 : ℚ) : ℝ)) + 1 := by
    push_cast
    ring
  have hB : ((j : ℝ) + 1 / 2) = (((j - 1 / 2 : ℚ) : ℝ)) + 1 := by
    push_cast
    ring
  have hA1 : ((i : ℝ) - 1 / 2) = (((i - 1 / 2 : ℚ) : ℝ)) := by push_cast; ring
  have hB1 : ((j : ℝ) - 1 / 2) = (((j - 1 / 2 : ℚ) : ℝ)) := by push_cast; ring
  rw [hA, hB, hA1, hB1]
  rw [hull_box_volume (fun k => (X k : ℝ)) (fun k => (Y k : ℝ))
    (fun k => (((Y (k + 1) - Y k) / (X (k + 1) - X k) : ℚ) : ℝ))
    (fun k => ((Y k - (Y (k + 1) - Y k) / (X (k + 1) - X k) * X k : ℚ) : ℝ))
    _ _ _ _ ?_ ?_ ?_ (by linarith)]
  · rw [Fin.sum_univ_four]
    have e0 : (0 : Fin 4) + 1 = 1 := rfl
    have e1 : (1 : Fin 4) + 1 = 2 := rfl
    have e2 : (2 : Fin 4) + 1 = 3 := rfl
    have e3 : (3 : Fin 4) + 1 = 0 := rfl
    have h0 := clockwise_edge_ne X Y h 0
    have h1 := clockwise_edge_ne X Y h 1
    have h2 := clockwise_edge_ne X Y h 2
    have h3 := clockwise_edge_ne X Y h 3
    simp only [e0, e1, e2, e3] at h0 h1 h2 h3 ⊢
    rw [edge_cell_integral _ _ _ _ _ _ h0, edge_cell_integral _ _ _ _ _ _ h1,
      edge_cell_integral _ _ _ _ _ _ h2, edge_cell_integral _ _ _ _ _ _ h3]
    unfold boxerQ
    push_cast
    rfl
  · intro k
    have := h k
    have hc : (((X (k + 1) - X k) * (Y (k + 2) - Y (k + 1))
      - (Y (k + 1) - Y k) * (X (k + 2) - X (k + 1)) : ℚ) : ℝ) < ((0 : ℚ) : ℝ) :=
      Rat.cast_lt.mpr this
    push_cast at hc
    exact hc
  · intro k hk
    have hk1 : X (k + 1) - X k ≠ 0 := by
      intro h0
      apply hk
      have : X k = X (k + 1) := by linarith
      show ((X k : ℚ) : ℝ) = ((X (k + 1) : ℚ) : ℝ)
      rw [this]
    have hk2 : ((X (k + 1) : ℝ) - (X k : ℝ)) ≠ 0 := by exact_mod_cast hk1
    show (((Y (k + 1) - Y k) / (X (k + 1) - X k) : ℚ) : ℝ) * ((X (k + 1) : ℝ) - (X k : ℝ))
      = (Y (k + 1) : ℝ) - (Y k : ℝ)
    push_cast
    field_simp
  · intro k
    show ((Y k - (Y (k + 1) - Y k) / (X (k + 1) - X k) * X k : ℚ) : ℝ)
      = (Y k : ℝ) - (((Y (k + 1) - Y k) / (X (k + 1) - X k) : ℚ) : ℝ) * (X k : ℝ)
    push_cast
    ring

theorem edge_big_integral (xa ya xb yb m c A1 A2 B1 B2 : ℝ)
    (hm : xa ≠ xb → m * (xb - xa) = yb - ya) (hc : c = ya - m * xa)
    (hxa : A1 ≤ xa ∧ xa ≤ A2) (hxb : A1 ≤ xb ∧ xb ≤ A2)
    (hya : B1 ≤ ya ∧ ya ≤ B2) (hyb : B1 ≤ yb ∧ yb ≤ B2) :
    ∫ t in Set.Ioc (max (min xa xb) A1) (min (max xa xb) A2),
        (if xa ≤ xb then (1 : ℝ) else -1) * (min (max (m * t + c) B1) B2 - B1)
      = (xb - xa) * ((ya + yb) / 2 - B1) := by
  rw [max_eq_left (le_min hxa.1 hxb.1), min_eq_left (max_le hxa.2 hxb.2)]
  rcases lt_trichotomy xa xb with hlt | heq | hgt
  · have hmk := hm (ne_of_lt hlt)
    rw [min_eq_left hlt.le, max_eq_right hlt.le, if_pos hlt.le]
    have hcongr : ∀ t ∈ Set.Ioc xa xb,
        (1 : ℝ) * (min (max (m * t + c) B1) B2 - B1) = m * t + c - B1 := by
      intro t ht
      have hmk1 : m * (xb - xa) * (t - xa) = (yb - ya) * (t - xa) := by rw [hmk]
      have h1 : B1 ≤ m * t + c := by
        rw [hc]
        by_contra hcon
        push_neg at hcon
        nlinarith [mul_nonneg (sub_nonneg.mpr hya.1) (sub_nonneg.mpr ht.2),
          mul_nonneg (sub_nonneg.mpr hyb.1) (sub_nonneg.mpr ht.1.le),
          mul_pos (sub_pos.mpr hcon) (sub_pos.mpr hlt), hmk1]
      have h2 : m * t + c ≤ B2 := by
        rw [hc]
        by_contra hcon
        push_neg at hcon
        nlinarith [mul_nonneg (sub_nonneg.mpr hya.2) (sub_nonneg.mpr ht.2),
          mul_nonneg (sub_nonneg.mpr hyb.2) (sub_nonneg.mpr ht.1.le),
          mul_pos (sub_pos.mpr hcon) (sub_pos.mpr hlt), hmk1]
      rw [max_eq_left h1, min_eq_left h2, one_mul]
    rw [setIntegral_congr_fun measurableSet_Ioc hcongr, ← intervalIntegral.integral_of_le hlt.le]
    have hderiv : ∀ t ∈ Set.uIcc xa xb,
        HasDerivAt (fun t => m * t ^ 2 / 2 + (c - B1) * t) (m * t + c - B1) t := by
      intro t _
      have h1 := ((hasDerivAt_pow 2 t).const_mul m).div_const 2
      have h2 := (hasDerivAt_id t).const_mul (c - B1)
      convert h1.add h2 using 1
      simp
      ring
    rw [intervalIntegral.integral_eq_sub_of_hasDerivAt hderiv
      (Continuous.intervalIntegrable (by fun_prop) _ _)]
    rw [hc]
    nlinarith
  · subst heq
    simp
  · have hmk := hm (ne_of_gt hgt)
    rw [min_eq_right hgt.le, max_eq_left hgt.le, if_neg (not_le.mpr hgt)]
    have hcongr : ∀ t ∈ Set.Ioc xb xa,
        (-1 : ℝ) * (min (max (m * t + c) B1) B2 - B1) = -(m * t + c - B1) := by
      intro t ht
      have hmk1 : m * (xb - xa) * (t - xa) = (yb - ya) * (t - xa) := by rw [hmk]
      have h1 : B1 ≤ m * t + c := by
        rw [hc]
        by_contra hcon
        push_neg at hcon
        nlinarith [mul_nonneg (sub_nonneg.mpr hya.1) (sub_nonneg.mpr ht.1.le),
          mul_nonneg (sub_nonneg.mpr hyb.1) (sub_nonneg.mpr ht.2),
          mul_pos (sub_pos.mpr hcon) (sub_pos.mpr hgt), hmk1]
      have h2 : m * t + c ≤ B2 := by
        rw [hc]
        by_contra hcon
        push_neg at hcon
        nlinarith [mul_nonneg (sub_nonneg.mpr hya.2) (sub_nonneg.mpr ht.1.le),
          mul_nonneg (sub_nonneg.mpr hyb.2) (sub_nonneg.mpr ht.2),
          mul_pos (sub_pos.mpr hcon) (sub_pos.mpr hgt), hmk1]
      rw [max_eq_left h1, min_eq_left h2]
      ring
    rw [setIntegral_congr_fun measurableSet_Ioc hcongr, ← intervalIntegral.integral_of_le hgt.le]
    have hderiv : ∀ t ∈ Set.uIcc xb xa,
        HasDerivAt (fun t => -(m * t ^ 2 / 2 + (c - B1) * t)) (-(m * t + c - B1)) t := by
      intro t _
      have h1 := ((hasDerivAt_pow 2 t).const_mul m).div_const 2
      have h2 := (hasDerivAt_id t).const_mul (c - B1)
      convert (h1.add h2).neg using 1
      simp
      ring
    rw [intervalIntegral.integral_eq_sub_of_hasDerivAt hderiv
      (Continuous.intervalIntegrable (by fun_prop) _ _)]
    rw [hc]
    nlinarith

theorem four_bounds (x : Fin 4 → ℝ) (k : Fin 4) :
    min (min (x 0) (x 1)) (min (x 2) (x 3)) ≤ x k ∧
      x k ≤ max (max (x 0) (x 1)) (max (x 2) (x 3)) := by
  revert k
  apply forall_fin4 <;> simp [min_le_iff, le_max_iff]

/-- The area of a clockwise convex quadrilateral is its shoelace sum. -/
theorem quad_area (X Y : Fin 4 → ℚ) (h : clockwise X Y) :
    (volume (convexHull ℝ (Set.range fun k => ((X k : ℝ), (Y k : ℝ))))).toReal
      = ((shoelace X Y : ℚ) : ℝ) := by
  have hsub : convexHull ℝ (Set.range fun k => ((X k : ℝ), (Y k : ℝ))) ⊆
      Set.Icc (min (min (X 0 : ℝ) (X 1)) (min (X 2 : ℝ) (X 3)),
          min (min (Y 0 : ℝ) (Y 1)) (min (Y 2 : ℝ) (Y 3)))
        (max (max (X 0 : ℝ) (X 1)) (max (X 2 : ℝ) (X 3)),
          max (max (Y 0 : ℝ) (Y 1)) (max (Y 2 : ℝ) (Y 3))) := by
    apply convexHull_min _ (convex_Icc _ _)
    rintro _ ⟨k, rfl⟩
    exact ⟨⟨(four_bounds (fun k => (X k : ℝ)) k).1, (four_bounds (fun k => (Y k : ℝ)) k).1⟩,
      ⟨(four_bounds (fun k => (X k : ℝ)) k).2, (four_bounds (fun k => (Y k : ℝ)) k).2⟩⟩
  rw [← Set.inter_eq_left.mpr hsub]
  rw [hull_box_volume (fun k => (X k : ℝ)) (fun k => (Y k : ℝ))
    (fun k => (((Y (k + 1) - Y k) / (X (k + 1) - X k) : ℚ) : ℝ))
    (fun k => ((Y k - (Y (k + 1) - Y k) / (X (k + 1) - X k) * X k : ℚ) : ℝ))
    _ _ _ _ ?_ ?_ ?_ ((four_bounds (fun k => (Y k : ℝ)) 0).1.trans
      (four_bounds (fun k => (Y k : ℝ)) 0).2)]
  · have hm : ∀ k, (X k : ℝ) ≠ (X (k + 1) : ℝ) →
        (((Y (k + 1) - Y k) / (X (k + 1) - X k) : ℚ) : ℝ) * ((X (k + 1) : ℝ) - (X k : ℝ))
          = (Y (k + 1) : ℝ) - (Y k : ℝ) := by
      intro k hk
      have hk2 : ((X (k + 1) : ℝ) - (X k : ℝ)) ≠ 0 := sub_ne_zero.mpr (Ne.symm hk)
      push_cast
      field_simp
    have hc : ∀ k, ((Y k - (Y (k + 1) - Y k) / (X (k + 1) - X k) * X k : ℚ) : ℝ)
        = (Y k : ℝ) - (((Y (k + 1) - Y k) / (X (k + 1) - X k) : ℚ) : ℝ) * (X k : ℝ) := by
      intro k
      push_cast
      ring
    have hb := fun k => four_bounds (fun k => (X k : ℝ)) k
    have hby := fun k => four_bounds (fun k => (Y k : ℝ)) k
    have hedge := fun k : Fin 4 => edge_big_integral (X k : ℝ) (Y k : ℝ) (X (k + 1) : ℝ)
      (Y (k + 1) : ℝ) _ _ _ _ _ _ (hm k) (hc k) (hb k) (hb (k + 1)) (hby k) (hby (k + 1))
    rw [Finset.sum_congr rfl (fun k _ => hedge k), Fin.sum_univ_four]
    have e0 : (0 : Fin 4) + 1 = 1 := rfl
    have e1 : (1 : Fin 4) + 1 = 2 := rfl
    have e2 : (2 : Fin 4) + 1 = 3 := rfl
    have e3 : (3 : Fin 4) + 1 = 0 := rfl
    simp only [e0, e1, e2, e3]
    unfold shoelace
    push_cast
    ring
  · intro k
    have := h k
    have hc : (((X (k + 1) - X k) * (Y (k + 2) - Y (k + 1))
      - (Y (k + 1) - Y k) * (X (k + 2) - X (k + 1)) : ℚ) : ℝ) < ((0 : ℚ) : ℝ) :=
      Rat.cast_lt.mpr this
    push_cast at hc
    exact hc
  · intro k hk
    have hk2 : ((X (k + 1) : ℝ) - (X k : ℝ)) ≠ 0 := sub_ne_zero.mpr (Ne.symm hk)
    show (((Y (k + 1) - Y k) / (X (k + 1) - X k) : ℚ) : ℝ) * ((X (k + 1) : ℝ) - (X k : ℝ))
      = (Y (k + 1) : ℝ) - (Y k : ℝ)
    push_cast
    field_simp
  · intro k
    show ((Y k - (Y (k + 1) - Y k) / (X (k + 1) - X k) * X k : ℚ) : ℝ)
      = (Y k : ℝ) - (((Y (k + 1) - Y k) / (X (k + 1) - X k) : ℚ) : ℝ) * (X k : ℝ)
    push_cast
    ring

theorem cell_index (r : ℝ) (i1 i2 : ℤ) (hi : i1 ≤ i2) (h1 : (i1 : ℝ) - 1 / 2 ≤ r)
    (h2 : r ≤ (i2 : ℝ) + 1 / 2) :
    ∃ i ∈ Finset.Icc i1 i2, (i : ℝ) - 1 / 2 ≤ r ∧ r ≤ (i : ℝ) + 1 / 2 := by
  by_cases hf : Int.floor (r + 1 / 2) ≤ i2
  · refine ⟨Int.floor (r + 1 / 2), Finset.mem_Icc.mpr ⟨?_, hf⟩, ?_, ?_⟩
    · apply Int.le_floor.mpr
      linarith
    · have := Int.floor_le (r + 1 / 2)
      linarith
    · have := Int.lt_floor_add_one (r + 1 / 2)
      linarith
  · refine ⟨i2, Finset.mem_Icc.mpr ⟨hi, le_refl _⟩, ?_, h2⟩
    push_neg at hf
    have h3 : (i2 : ℝ) + 1 ≤ (Int.floor (r + 1 / 2) : ℝ) := by exact_mod_cast hf
    have := Int.floor_le (r + 1 / 2)
    linarith

theorem line_null_fst (a : ℝ) : volume ({r : ℝ × ℝ | r.1 = a}) = 0 := by
  have : {r : ℝ × ℝ | r.1 = a} = ({a} : Set ℝ) ×ˢ (Set.univ : Set ℝ) := by
    ext r
    simp only [Set.mem_setOf_eq, Set.mem_prod, Set.mem_singleton_iff, Set.mem_univ, and_true]
  rw [this, Measure.volume_eq_prod, Measure.prod_prod, Real.volume_singleton, zero_mul]

theorem line_null_snd (a : ℝ) : volume ({r : ℝ × ℝ | r.2 = a}) = 0 := by
  have : {r : ℝ × ℝ | r.2 = a} = (Set.univ : Set ℝ) ×ˢ ({a} : Set ℝ) := by
    ext r
    simp only [Set.mem_setOf_eq, Set.mem_prod, Set.mem_singleton_iff, Set.mem_univ, true_and]
  rw [this, Measure.volume_eq_prod, Measure.prod_prod, Real.volume_singleton, mul_zero]

theorem cells_null (p q : ℤ × ℤ) (hpq : p ≠ q) :
    volume (Set.Icc ((p.1 : ℝ) - 1 / 2, (p.2 : ℝ) - 1 / 2) ((p.1 : ℝ) + 1 / 2, (p.2 : ℝ) + 1 / 2) ∩
      Set.Icc ((q.1 : ℝ) - 1 / 2, (q.2 : ℝ) - 1 / 2) ((q.1 : ℝ) + 1 / 2, (q.2 : ℝ) + 1 / 2)) = 0 := by
  have hne : p.1 ≠ q.1 ∨ p.2 ≠ q.2 := by
    by_contra hcon
    push_neg at hcon
    exact hpq (Prod.ext hcon.1 hcon.2)
  rcases hne with h | h
  · rcases lt_or_gt_of_ne h with hlt | hgt
    · apply measure_mono_null _ (line_null_fst ((p.1 : ℝ) + 1 / 2))
      rintro r ⟨⟨_, hr2⟩, ⟨hr3, _⟩⟩
      have h1 : (p.1 : ℝ) + 1 ≤ (q.1 : ℝ) := by exact_mod_cast hlt
      have := hr2.1
      have := hr3.1
      simp only [Set.mem_setOf_eq]
      simp only at *
      linarith
    · apply measure_mono_null _ (line_null_fst ((q.1 : ℝ) + 1 / 2))
      rintro r ⟨⟨hr1, _⟩, ⟨_, hr4⟩⟩
      have h1 : (q.1 : ℝ) + 1 ≤ (p.1 : ℝ) := by exact_mod_cast hgt
      have := hr1.1
      have := hr4.1
      simp only [Set.mem_setOf_eq]
      simp only at *
      linarith
  · rcases lt_or_gt_of_ne h with hlt | hgt
    · apply measure_mono_null _ (line_null_snd ((p.2 : ℝ) + 1 / 2))
      rintro r ⟨⟨_, hr2⟩, ⟨hr3, _⟩⟩
      have h1 : (p.2 : ℝ) + 1 ≤ (q.2 : ℝ) := by exact_mod_cast hlt
      have := hr2.2
      have := hr3.2
      simp only [Set.mem_setOf_eq]
      simp only at *
      linarith
    · apply measure_mono_null _ (line_null_snd ((q.2 : ℝ) + 1 / 2))
      rintro r ⟨⟨hr1, _⟩, ⟨_, hr4⟩⟩
      have h1 : (q.2 : ℝ) + 1 ≤ (p.2 : ℝ) := by exact_mod_cast hgt
      have := hr1.2
      have := hr4.2
      simp only [Set.mem_setOf_eq]
      simp only at *
      linarith

theorem cast_cell_bounds (q : ℚ) (i1 i2 : ℤ) (h : (i1 : ℚ) - 1 / 2 ≤ q ∧ q ≤ (i2 : ℚ) + 1 / 2) :
    (i1 : ℝ) - 1 / 2 ≤ (q : ℝ) ∧ (q : ℝ) ≤ (i2 : ℝ) + 1 / 2 := by
  have h1 : (((i1 : ℚ) - 1 / 2 : ℚ) : ℝ) ≤ ((q : ℚ) : ℝ) := Rat.cast_le.mpr h.1
  have h2 : ((q : ℚ) : ℝ) ≤ (((i2 : ℚ) + 1 / 2 : ℚ) : ℝ) := Rat.cast_le.mpr h.2
  push_cast at h1 h2
  exact ⟨h1, h2⟩

/-- The values of `boxer` over a block of cells that covers the quadrilateral
add up to its shoelace area. -/
theorem boxerQ_sum (X Y : Fin 4 → ℚ) (h : clockwise X Y) (i1 i2 j1 j2 : ℤ)
    (hi : i1 ≤ i2) (hj : j1 ≤ j2)
    (hx : ∀ k, (i1 : ℚ) - 1 / 2 ≤ X k ∧ X k ≤ (i2 : ℚ) + 1 / 2)
    (hy : ∀ k, (j1 : ℚ) - 1 / 2 ≤ Y k ∧ Y k ≤ (j2 : ℚ) + 1 / 2) :
    ∑ i ∈ Finset.Icc i1 i2, ∑ j ∈ Finset.Icc j1 j2, boxerQ i j X Y = shoelace X Y := by
  have hinj : Function.Injective (Rat.cast : ℚ → ℝ) := Rat.cast_injective
  apply hinj
  rw [← quad_area X Y h]
  have hcompact : IsCompact (convexHull ℝ (Set.range fun k => ((X k : ℝ), (Y k : ℝ)))) :=
    (Set.finite_range _).isCompact_convexHull
  have hcover : convexHull ℝ (Set.range fun k => ((X k : ℝ), (Y k : ℝ)))
      = ⋃ p ∈ (Finset.Icc i1 i2 ×ˢ Finset.Icc j1 j2),
        (convexHull ℝ (Set.range fun k => ((X k : ℝ), (Y k : ℝ))) ∩
          Set.Icc ((p.1 : ℝ) - 1 / 2, (p.2 : ℝ) - 1 / 2) ((p.1 : ℝ) + 1 / 2, (p.2 : ℝ) + 1 / 2)) := by
    apply Set.Subset.antisymm
    · intro r hr
      have hx1 := hull4_le (fun k => (X k : ℝ)) (fun k => (Y k : ℝ)) (-1) 0 (-((i1 : ℝ) - 1 / 2))
        (fun k => by
          have := (cast_cell_bounds _ _ _ (hx k)).1
          simp only
          linarith) r hr
      have hx2 := hull4_le (fun k => (X k : ℝ)) (fun k => (Y k : ℝ)) 1 0 ((i2 : ℝ) + 1 / 2)
        (fun k => by
          have := (cast_cell_bounds _ _ _ (hx k)).2
          simp only
          linarith) r hr
      have hy1 := hull4_le (fun k => (X k : ℝ)) (fun k => (Y k : ℝ)) 0 (-1) (-((j1 : ℝ) - 1 / 2))
        (fun k => by
          have := (cast_cell_bounds _ _ _ (hy k)).1
          simp only
          linarith) r hr
      have hy2 := hull4_le (fun k => (X k : ℝ)) (fun k => (Y k : ℝ)) 0 1 ((j2 : ℝ) + 1 / 2)
        (fun k => by
          have := (cast_cell_bounds _ _ _ (hy k)).2
          simp only
          linarith) r hr
      obtain ⟨i, him, hi1, hi2⟩ := cell_index r.1 i1 i2 hi (by linarith) (by linarith)
      obtain ⟨j, hjm, hj1, hj2⟩ := cell_index r.2 j1 j2 hj (by linarith) (by linarith)
      simp only [Set.mem_iUnion, Set.mem_inter_iff, Set.mem_Icc, Finset.mem_product, exists_prop]
      exact ⟨(i, j), ⟨him, hjm⟩, hr, ⟨hi1, hj1⟩, ⟨hi2, hj2⟩⟩
    · intro r hr
      simp only [Set.mem_iUnion, Set.mem_inter_iff, exists_prop] at hr
      obtain ⟨_, _, hr1, _⟩ := hr
      exact hr1
  have hmeas : ∀ p ∈ (Finset.Icc i1 i2 ×ˢ Finset.Icc j1 j2), NullMeasurableSet
      (convexHull ℝ (Set.range fun k => ((X k : ℝ), (Y k : ℝ))) ∩
        Set.Icc ((p.1 : ℝ) - 1 / 2, (p.2 : ℝ) - 1 / 2) ((p.1 : ℝ) + 1 / 2, (p.2 : ℝ) + 1 / 2))
      volume := fun p _ =>
    ((hcompact.isClosed.measurableSet).inter measurableSet_Icc).nullMeasurableSet
  have hdisj : ((Finset.Icc i1 i2 ×ˢ Finset.Icc j1 j2 : Finset (ℤ × ℤ)) : Set (ℤ × ℤ)).Pairwise
      (AEDisjoint volume on fun p : ℤ × ℤ =>
        (convexHull ℝ (Set.range fun k => ((X k : ℝ), (Y k : ℝ))) ∩
          Set.Icc ((p.1 : ℝ) - 1 / 2, (p.2 : ℝ) - 1 / 2) ((p.1 : ℝ) + 1 / 2, (p.2 : ℝ) + 1 / 2))) := by
    intro p _ q _ hpq
    apply measure_mono_null _ (cells_null p q hpq)
    rintro r ⟨⟨_, h1⟩, ⟨_, h2⟩⟩
    exact ⟨h1, h2⟩
  have hvol : volume (convexHull ℝ (Set.range fun k => ((X k : ℝ), (Y k : ℝ))))
      = ∑ p ∈ (Finset.Icc i1 i2 ×ˢ Finset.Icc j1 j2),
        volume (convexHull ℝ (Set.range fun k => ((X k : ℝ), (Y k : ℝ))) ∩
          Set.Icc ((p.1 : ℝ) - 1 / 2, (p.2 : ℝ) - 1 / 2) ((p.1 : ℝ) + 1 / 2, (p.2 : ℝ) + 1 / 2)) := by
    conv_lhs => rw [hcover]
    exact measure_biUnion_finset₀ hdisj hmeas
  have hfin : ∀ p ∈ (Finset.Icc i1 i2 ×ˢ Finset.Icc j1 j2),
      volume (convexHull ℝ (Set.range fun k => ((X k : ℝ), (Y k : ℝ))) ∩
          Set.Icc ((p.1 : ℝ) - 1 / 2, (p.2 : ℝ) - 1 / 2) ((p.1 : ℝ) + 1 / 2, (p.2 : ℝ) + 1 / 2))
        ≠ ⊤ := fun p _ =>
    ne_of_lt (lt_of_le_of_lt (measure_mono Set.inter_subset_left) hcompact.measure_lt_top)
  rw [hvol, ENNReal.toReal_sum hfin, Finset.sum_product]
  push_cast
  refine Finset.sum_congr rfl fun i _ => Finset.sum_congr rfl fun j _ => ?_
  have := boxerQ_area X Y h (i : ℚ) (j : ℚ)
  push_cast at this
  rw [this]

theorem fortran_round_bounds (q : ℚ) :
    ((fortran_round (Dbl.fin q) : Int) : ℚ) - 1 / 2 ≤ q ∧
      q ≤ ((fortran_round (Dbl.fin q) : Int) : ℚ) + 1 / 2 := by
  unfold fortran_round
  by_cases h : 0 ≤ q
  · simp only [h, if_true]
    have h1 := Int.floor_le (q + 1 / 2)
    have h2 := Int.lt_floor_add_one (q + 1 / 2)
    constructor <;> linarith
  · simp only [h, if_false]
    have h1 := Int.floor_le (1 / 2 - q)
    have h2 := Int.lt_floor_add_one (1 / 2 - q)
    push_cast
    constructor <;> linarith

theorem ite_lt_fin (a b : ℚ) :
    (if Dbl.lt (Dbl.fin a) (Dbl.fin b) then Dbl.fin a else Dbl.fin b) = Dbl.fin (min a b) := by
  rw [Dbl.lt_fin_fin]
  by_cases h : a < b
  · simp [h, min_eq_left h.le]
  · simp [h, min_eq_right (not_lt.mp h)]

theorem ite_gt_fin (a b : ℚ) :
    (if Dbl.gt (Dbl.fin a) (Dbl.fin b) then Dbl.fin a else Dbl.fin b) = Dbl.fin (max a b) := by
  rw [Dbl.gt_fin_fin]
  by_cases h : b < a
  · simp [h, max_eq_left h.le]
  · simp [h, max_eq_right (not_lt.mp h)]

theorem min_doubles_quad (X : Fin 4 → ℚ) :
    min_doubles (quad X) = Dbl.fin (min (X 3) (min (X 2) (min (X 1) (X 0)))) := by
  simp only [min_doubles, List.foldl, quad, ite_lt_fin]

theorem max_doubles_quad (X : Fin 4 → ℚ) :
    max_doubles (quad X) = Dbl.fin (max (X 3) (max (X 2) (max (X 1) (X 0)))) := by
  simp only [max_doubles, List.foldl, quad, ite_gt_fin]

theorem round_range (X : Fin 4 → ℚ) (k : Fin 4) :
    ((fortran_round (min_doubles (quad X)) : Int) : ℚ) - 1 / 2 ≤ X k ∧
      X k ≤ ((fortran_round (max_doubles (quad X)) : Int) : ℚ) + 1 / 2 := by
  rw [min_doubles_quad, max_doubles_quad]
  have h1 := (fortran_round_bounds (min (X 3) (min (X 2) (min (X 1) (X 0))))).1
  have h2 := (fortran_round_bounds (max (X 3) (max (X 2) (max (X 1) (X 0))))).2
  have h3 : min (X 3) (min (X 2) (min (X 1) (X 0))) ≤ X k := by
    revert k
    apply forall_fin4 <;> simp [min_le_iff]
  have h4 : X k ≤ max (X 3) (max (X 2) (max (X 1) (X 0))) := by
    revert k
    apply forall_fin4 <;> simp [le_max_iff]
  exact ⟨h1.trans h3, h4.trans h2⟩

theorem clockwise_spread (X Y : Fin 4 → ℚ) (h : clockwise X Y) :
    (∃ k l, X k < X l) ∧ (∃ k l, Y k < Y l) := by
  obtain ⟨h0, h1, h2, h3⟩ := (clockwise_iff X Y).mp h
  constructor
  · by_contra hcon
    push_neg at hcon
    have e1 : X 1 = X 0 := le_antisymm (hcon 0 1) (hcon 1 0)
    have e2 : X 2 = X 0 := le_antisymm (hcon 0 2) (hcon 2 0)
    rw [e1, e2] at h0
    simp at h0
  · by_contra hcon
    push_neg at hcon
    have e1 : Y 1 = Y 0 := le_antisymm (hcon 0 1) (hcon 1 0)
    have e2 : Y 2 = Y 0 := le_antisymm (hcon 0 2) (hcon 2 0)
    rw [e1, e2] at h0
    simp at h0

theorem round_range_le (X : Fin 4 → ℚ) (h : ∃ k l, X k < X l) :
    fortran_round (min_doubles (quad X)) ≤ fortran_round (max_doubles (quad X)) := by
  obtain ⟨k, l, hkl⟩ := h
  have h1 := (round_range X k).1
  have h2 := (round_range X l).2
  have h3 : ((fortran_round (min_doubles (quad X)) : Int) : ℚ)
      < ((fortran_round (max_doubles (quad X)) : Int) : ℚ) + 1 := by linarith
  have h4 : fortran_round (min_doubles (quad X)) < fortran_round (max_doubles (quad X)) + 1 := by
    exact_mod_cast h3
  omega

theorem boxer_ofInt (X Y : Fin 4 → ℚ) (h : clockwise X Y) (ii jj : Int) :
    boxer (Dbl.ofInt ii) (Dbl.ofInt jj) (quad X) (quad Y) (edge_sgn_dx (quad X))
        (edge_slope (quad X) (quad Y)) (edge_inv_slope (quad X) (quad Y))
      = Dbl.fin (boxerQ ii jj X Y) :=
  boxer_fin _ _ X Y (fun k => by
    rcases clockwise_edge_ne X Y h k with h1 | h1
    · exact Or.inl h1
    · exact Or.inr (Or.inl h1))

theorem boxerQ_cell_area (X Y : Fin 4 → ℚ) (h : clockwise X Y) (ii jj : Int) :
    ((boxerQ ii jj X Y : ℚ) : ℝ)
      = (MeasureTheory.volume (quad_region X Y ∩ unit_cell ii jj)).toReal := by
  have := boxerQ_area X Y h (ii : ℚ) (jj : ℚ)
  push_cast at this
  rw [← this]
  rfl

theorem signed_jaco_shoelace (X Y : Fin 4 → ℚ) :
    signed_jaco (quad X) (quad Y) = Dbl.fin (shoelace X Y) := by
  rw [signed_jaco_quad]
  congr 1
  unfold shoelace
  ring

/-- C6: `boxer` computes the exact intersection area.  For every
non-degenerate convex quadrilateral with rational vertices given in clockwise
order (a strict right turn at each vertex), with the per-edge `sgn_dx`,
`slope = dy/dx` and `inv_slope = dx/dy` of `do_kernel_square`:
`boxer(ii, jj, …)` is a finite non-negative number equal to the area (Lebesgue
measure) of the quadrilateral intersected with the unit cell centred at
`(ii, jj)`; `jaco` is positive and is the area of the quadrilateral; the sum
of `boxer` over the integer cells of `[round(min x), round(max x)] ×
[round(min y), round(max y)]` equals `jaco`; and when that range lies inside
the destination image, the sum of `dover / jaco` over the cells the footprint
loops of `do_kernel_square` visit is 1. -/
theorem boxer_intersection_area (X Y : Fin 4 → ℚ) (h : clockwise X Y) :
    (∀ ii jj : Int, ∃ a : ℚ, 0 ≤ a ∧
        boxer (Dbl.ofInt ii) (Dbl.ofInt jj) (quad X) (quad Y) (edge_sgn_dx (quad X))
          (edge_slope (quad X) (quad Y)) (edge_inv_slope (quad X) (quad Y)) = Dbl.fin a ∧
        (a : ℝ) = (MeasureTheory.volume (quad_region X Y ∩ unit_cell ii jj)).toReal) ∧
    (∃ jaco : ℚ, 0 < jaco ∧ signed_jaco (quad X) (quad Y) = Dbl.fin jaco ∧
        (jaco : ℝ) = (MeasureTheory.volume (quad_region X Y)).toReal ∧
        ∑ ii ∈ Finset.Icc (fortran_round (min_doubles (quad X)))
            (fortran_round (max_doubles (quad X))),
          ∑ jj ∈ Finset.Icc (fortran_round (min_doubles (quad Y)))
              (fortran_round (max_doubles (quad Y))),
            Dbl.toRat (boxer (Dbl.ofInt ii) (Dbl.ofInt jj) (quad X) (quad Y)
              (edge_sgn_dx (quad X)) (edge_slope (quad X) (quad Y))
              (edge_inv_slope (quad X) (quad Y))) = jaco) ∧
    (∀ osize : Int × Int,
        0 ≤ fortran_round (min_doubles (quad X)) →
        fortran_round (max_doubles (quad X)) ≤ osize.1 - 1 →
        0 ≤ fortran_round (min_doubles (quad Y)) →
        fortran_round (max_doubles (quad Y)) ≤ osize.2 - 1 →
        ∑ ii ∈ Finset.Icc (max (fortran_round (min_doubles (quad X))) 0)
            (min (fortran_round (max_doubles (quad X))) (osize.1 - 1)),
          ∑ jj ∈ Finset.Icc (max (fortran_round (min_doubles (quad Y))) 0)
              (min (fortran_round (max_doubles (quad Y))) (osize.2 - 1)),
            Dbl.toRat (boxer (Dbl.ofInt ii) (Dbl.ofInt jj) (quad X) (quad Y)
              (edge_sgn_dx (quad X)) (edge_slope (quad X) (quad Y))
              (edge_inv_slope (quad X) (quad Y)) / signed_jaco (quad X) (quad Y)) = 1) := by
  have hpos := shoelace_pos_of_clockwise X Y h
  have hsum := boxerQ_sum X Y h _ _ _ _
    (round_range_le X (clockwise_spread X Y h).1) (round_range_le Y (clockwise_spread X Y h).2)
    (round_range X) (round_range Y)
  refine ⟨fun ii jj => ⟨boxerQ ii jj X Y, ?_, boxer_ofInt X Y h ii jj,
    boxerQ_cell_area X Y h ii jj⟩, ⟨shoelace X Y, hpos, signed_jaco_shoelace X Y,
    (quad_area X Y h).symm, ?_⟩, ?_⟩
  · have h1 : (0 : ℝ) ≤ ((boxerQ ii jj X Y : ℚ) : ℝ) := by
      rw [boxerQ_cell_area X Y h ii jj]
      exact ENNReal.toReal_nonneg
    exact_mod_cast h1
  · simp only [boxer_ofInt X Y h, Dbl.toRat]
    exact hsum
  · intro osize hx1 hx2 hy1 hy2
    rw [max_eq_left hx1, min_eq_left hx2, max_eq_left hy1, min_eq_left hy2]
    simp only [boxer_ofInt X Y h, signed_jaco_shoelace, Dbl.fin_div_fin _ _ (ne_of_gt hpos),
      Dbl.toRat]
    simp only [← Finset.sum_div]
    rw [hsum, div_self (ne_of_gt hpos)]

theorem rotated_clockwise : clockwise rotated_x rotated_y :=
  (clockwise_iff _ _).mpr (by norm_num [rotated_x, rotated_y])

set_option maxRecDepth 100000 in
theorem rotated_boxerQ :
    boxerQ 1 1 rotated_x rotated_y = 41 / 50 ∧
    boxerQ 0 1 rotated_x rotated_y = 1 / 25 ∧
    boxerQ 2 1 rotated_x rotated_y = 1 / 25 ∧
    boxerQ 1 0 rotated_x rotated_y = 1 / 25 ∧
    boxerQ 1 2 rotated_x rotated_y = 1 / 25 ∧
    boxerQ 0 0 rotated_x rotated_y = 0 ∧
    boxerQ 0 2 rotated_x rotated_y = 0 ∧
    boxerQ 2 0 rotated_x rotated_y = 0 ∧
    boxerQ 2 2 rotated_x rotated_y = 0 := by
  decide!

theorem rot_corners (q : driz_param_t) :
    interpolate_corners rot_env q (corner_xin (Dbl.fin (1 / 2)) 1)
        (corner_yin (Dbl.fin (1 / 2)) 1)
      = some (quad rotated_x, quad rotated_y) := by
  simp only [interpolate_corners, rot_env, corner_xin, corner_yin, Dbl.ofInt, Dbl.fin_mul_fin,
    Dbl.fin_sub_fin, Dbl.fin_add_fin, Matrix.cons_val_zero, Matrix.cons_val_one, Matrix.head_cons,
    Matrix.cons_val_two, Matrix.tail_cons, Matrix.cons_val_three, rotated_x, rotated_y]
  rw [← quad_vec, ← quad_vec]
  norm_num

theorem rot_bounds :
    fortran_round (min_doubles (quad rotated_x)) = 0 ∧
    fortran_round (max_doubles (quad rotated_x)) = 2 ∧
    fortran_round (min_doubles (quad rotated_y)) = 0 ∧
    fortran_round (max_doubles (quad rotated_y)) = 2 := by
  rw [min_doubles_quad, max_doubles_quad, min_doubles_quad, max_doubles_quad]
  simp only [fortran_round, rotated_x, rotated_y, Matrix.cons_val_zero, Matrix.cons_val_one,
    Matrix.head_cons, Matrix.cons_val_two, Matrix.tail_cons, Matrix.cons_val_three]
  norm_num

theorem forLoop_zero_two {σ : Type} (body : Int → σ → Ctl σ) (s s1 s2 s3 : σ)
    (h0 : body 0 s = Ctl.next s1) (h1 : body 1 s1 = Ctl.next s2) (h2 : body 2 s2 = Ctl.next s3) :
    forLoop 0 2 body s = Ctl.next s3 := by
  have e : ((2 : Int) + 1 - 0).toNat = 3 := rfl
  simp only [forLoop, e, loopFrom, h0, h1, h2, zero_add]
  have e1 : (1 : Int) + 1 = 2 := rfl
  simp only [e1, h2]

theorem rot_cell_skip (ii jj : Int) (st : driz_param_t × Int) (jaco d w : Dbl) (bv : Nat)
    (hb : boxerQ ii jj rotated_x rotated_y = 0) :
    (if Dbl.gt (boxer (Dbl.ofInt ii) (Dbl.ofInt jj) (quad rotated_x) (quad rotated_y)
        (edge_sgn_dx (quad rotated_x)) (edge_slope (quad rotated_x) (quad rotated_y))
        (edge_inv_slope (quad rotated_x) (quad rotated_y))) (Dbl.fin 0) = true then
      contribute st (st.2 + 1) ii jj bv d (get_pixel st.1.output_counts ii jj)
        (boxer (Dbl.ofInt ii) (Dbl.ofInt jj) (quad rotated_x) (quad rotated_y)
          (edge_sgn_dx (quad rotated_x)) (edge_slope (quad rotated_x) (quad rotated_y))
          (edge_inv_slope (quad rotated_x) (quad rotated_y)) / jaco * w)
    else Ctl.next st) = Ctl.next st := by
  rw [boxer_ofInt rotated_x rotated_y rotated_clockwise, hb]
  simp

theorem rot_cell_hit (ii jj : Int) (st : driz_param_t × Int) (d : Dbl) (bv : Nat) (a : ℚ)
    (hb : boxerQ ii jj rotated_x rotated_y = a) (ha : 0 < a)
    (hctx : st.1.output_context = none)
    (hvc : st.1.output_counts.val ii jj = Dbl.fin 0)
    (hin : oob_pixel st.1.output_data ii jj = false)
    (hin2 : oob_pixel st.1.output_counts ii jj = false) :
    (if Dbl.gt (boxer (Dbl.ofInt ii) (Dbl.ofInt jj) (quad rotated_x) (quad rotated_y)
        (edge_sgn_dx (quad rotated_x)) (edge_slope (quad rotated_x) (quad rotated_y))
        (edge_inv_slope (quad rotated_x) (quad rotated_y))) (Dbl.fin 0) = true then
      contribute st (st.2 + 1) ii jj bv d (get_pixel st.1.output_counts ii jj)
        (boxer (Dbl.ofInt ii) (Dbl.ofInt jj) (quad rotated_x) (quad rotated_y)
          (edge_sgn_dx (quad rotated_x)) (edge_slope (quad rotated_x) (quad rotated_y))
          (edge_inv_slope (quad rotated_x) (quad rotated_y)) / Dbl.fin (49 / 50) * Dbl.fin 1)
    else Ctl.next st)
      = Ctl.next (deposit st.1 ii jj d (Dbl.fin (a / (49 / 50))), st.2 + 1) := by
  rw [boxer_ofInt rotated_x rotated_y rotated_clockwise, hb]
  have hne : a / (49 / 50) ≠ 0 := by positivity
  have h1 : Dbl.fin a / Dbl.fin (49 / 50) * Dbl.fin 1 = Dbl.fin (a / (49 / 50)) := by
    rw [Dbl.fin_div_fin _ _ (by norm_num), Dbl.fin_mul_fin, mul_one]
  rw [h1]
  simp only [Dbl.gt_fin_fin, ha, decide_True, if_true, contribute, update_context, hctx,
    update_data, get_pixel, hvc, Dbl.feq, hne, decide_False, Bool.false_eq_true, if_false,
    hin, Dbl.fin_add_fin, zero_add]
  have hin3 : oob_pixel (set_pixel st.1.output_data ii jj d) ii jj = false := hin
  simp [deposit, hin2, hctx]

theorem rot_footprint (p : driz_param_t) (bv : Nat) (d : Dbl)
    (h1 : p.output_context = none) (h2 : p.output_counts = zero_plane 3 3)
    (h3 : p.output_data = zero_plane 3 3) :
    square_footprint (quad rotated_x) (quad rotated_y) (Dbl.fin (49 / 50)) d (Dbl.fin 1) bv (3, 3) p
      = Ctl.next (deposit (deposit (deposit (deposit (deposit p 0 1 d (Dbl.fin (2 / 49)))
          1 0 d (Dbl.fin (2 / 49))) 1 1 d (Dbl.fin (41 / 49))) 1 2 d (Dbl.fin (2 / 49)))
          2 1 d (Dbl.fin (2 / 49)), 5) := by
  obtain ⟨b1, b2, b3, b4⟩ := rot_bounds
  obtain ⟨q1, q2, q3, q4, q5, q6, q7, q8, q9⟩ := rotated_boxerQ
  have e1 : (2 : ℚ) / 49 = 1 / 25 / (49 / 50) := by norm_num
  have e2 : (41 : ℚ) / 49 = 41 / 50 / (49 / 50) := by norm_num
  rw [e1, e2]
  simp only [square_footprint, b1, b2, b3, b4]
  have m1 : max (0 : Int) 0 = 0 := rfl
  have m2 : min (2 : Int) (3 - 1) = 2 := rfl
  rw [m1, m2]
  refine forLoop_zero_two _ _ (deposit p 0 1 d (Dbl.fin (1 / 25 / (49 / 50))), 1)
    (deposit (deposit (deposit (deposit p 0 1 d (Dbl.fin (1 / 25 / (49 / 50))))
      1 0 d (Dbl.fin (1 / 25 / (49 / 50)))) 1 1 d (Dbl.fin (41 / 50 / (49 / 50))))
      1 2 d (Dbl.fin (1 / 25 / (49 / 50))), 4) _ ?_ ?_ ?_
  · refine forLoop_zero_two _ _ (p, 0) (deposit p 0 1 d (Dbl.fin (1 / 25 / (49 / 50))), 1) _
      ?_ ?_ ?_
    · exact rot_cell_skip 0 0 _ _ _ _ _ (by exact_mod_cast q6)
    · exact rot_cell_hit 0 1 (p, 0) d bv _ (by exact_mod_cast q2) (by norm_num) h1
        (by rw [h2]; rfl) (by rw [h3]; rfl) (by rw [h2]; rfl)
    · exact rot_cell_skip 0 2 _ _ _ _ _ (by exact_mod_cast q7)
  · refine forLoop_zero_two _ _
      (deposit (deposit p 0 1 d (Dbl.fin (1 / 25 / (49 / 50)))) 1 0 d
        (Dbl.fin (1 / 25 / (49 / 50))), 2)
      (deposit (deposit (deposit p 0 1 d (Dbl.fin (1 / 25 / (49 / 50)))) 1 0 d
        (Dbl.fin (1 / 25 / (49 / 50)))) 1 1 d (Dbl.fin (41 / 50 / (49 / 50))), 3) _ ?_ ?_ ?_
    · exact rot_cell_hit 1 0 _ d bv _ (by exact_mod_cast q4) (by norm_num) h1
        (by simp [deposit, set_pixel, h2, zero_plane])
        (by simp [deposit, set_pixel, h3, zero_plane, oob_pixel])
        (by simp [deposit, set_pixel, h2, zero_plane, oob_pixel])
    · exact rot_cell_hit 1 1 _ d bv _ (by exact_mod_cast q1) (by norm_num) h1
        (by simp [deposit, set_pixel, h2, zero_plane])
        (by simp [deposit, set_pixel, h3, zero_plane, oob_pixel])
        (by simp [deposit, set_pixel, h2, zero_plane, oob_pixel])
    · exact rot_cell_hit 1 2 _ d bv _ (by exact_mod_cast q5) (by norm_num) h1
        (by simp [deposit, set_pixel, h2, zero_plane])
        (by simp [deposit, set_pixel, h3, zero_plane, oob_pixel])
        (by simp [deposit, set_pixel, h2, zero_plane, oob_pixel])
  · refine forLoop_zero_two _ _
      (deposit (deposit (deposit (deposit p 0 1 d (Dbl.fin (1 / 25 / (49 / 50))))
        1 0 d (Dbl.fin (1 / 25 / (49 / 50)))) 1 1 d (Dbl.fin (41 / 50 / (49 / 50))))
        1 2 d (Dbl.fin (1 / 25 / (49 / 50))), 4)
      (deposit (deposit (deposit (deposit (deposit p 0 1 d (Dbl.fin (1 / 25 / (49 / 50))))
        1 0 d (Dbl.fin (1 / 25 / (49 / 50)))) 1 1 d (Dbl.fin (41 / 50 / (49 / 50))))
        1 2 d (Dbl.fin (1 / 25 / (49 / 50)))) 2 1 d (Dbl.fin (1 / 25 / (49 / 50))), 5) _ ?_ ?_ ?_
    · exact rot_cell_skip 2 0 _ _ _ _ _ (by exact_mod_cast q8)
    · exact rot_cell_hit 2 1 _ d bv _ (by exact_mod_cast q3) (by norm_num) h1
        (by simp [deposit, set_pixel, h2, zero_plane])
        (by simp [deposit, set_pixel, h3, zero_plane, oob_pixel])
        (by simp [deposit, set_pixel, h2, zero_plane, oob_pixel])
    · exact rot_cell_skip 2 2 _ _ _ _ _ (by exact_mod_cast q9)

theorem rot_pixel (q : driz_param_t) (bv : Nat)
    (h1 : q.output_context = none) (h2 : q.output_counts = zero_plane 3 3)
    (h3 : q.output_data = zero_plane 3 3) (h4 : q.weights = none)
    (h5 : q.data.val 1 1 = Dbl.fin 5) :
    square_pixel rot_env (Dbl.fin (1 / 2)) (Dbl.fin 1) bv (3, 3) 1 1 q
      = Ctl.next (deposit (deposit (deposit (deposit (deposit q 0 1 (Dbl.fin 5) (Dbl.fin (2 / 49)))
          1 0 (Dbl.fin 5) (Dbl.fin (2 / 49))) 1 1 (Dbl.fin 5) (Dbl.fin (41 / 49)))
          1 2 (Dbl.fin 5) (Dbl.fin (2 / 49))) 2 1 (Dbl.fin 5) (Dbl.fin (2 / 49))) := by
  have hj : signed_jaco (quad rotated_x) (quad rotated_y) = Dbl.fin (49 / 50) := by
    rw [signed_jaco_shoelace]
    congr 1
    norm_num [shoelace, rotated_x, rotated_y]
  have hd : get_pixel q.data 1 1 * Dbl.fin 1 = Dbl.fin 5 := by
    rw [get_pixel, h5, Dbl.fin_mul_fin]
    norm_num
  have hw : pixel_weight q 1 1 = Dbl.fin 1 := by
    simp only [pixel_weight, h4]
  have hlt : Dbl.lt (Dbl.fin (49 / 50)) (Dbl.fin 0) = false := by
    rw [Dbl.lt_fin_fin]
    norm_num
  unfold square_pixel
  simp only [rot_corners, hj, hlt, Bool.false_eq_true, if_false, swap13, hd, hw,
    rot_footprint q bv (Dbl.fin 5) h1 h2 h3, count_miss]
  norm_num

/-- A run of `do_kernel_square` whose scanner admits the single source pixel
`(i, j)`. -/
theorem do_kernel_square_single (E : Extern) (p q1 : driz_param_t) (i j : Int)
    (hret : (E.init_image_scanner p).ret = 0) (hymin : (E.init_image_scanner p).ymin = j)
    (hymax : (E.init_image_scanner p).ymax = j)
    (hst : ((E.init_image_scanner p).rows j).status = 0)
    (hx1 : ((E.init_image_scanner p).rows j).x1 = i)
    (hx2 : ((E.init_image_scanner p).rows j).x2 = i)
    (hpix : square_pixel E (Dbl.fin (1 / 2) * p.pixel_fraction) (p.scale * p.scale)
        (compute_bit_value p.uuid)
        (get_dimensions (init_counters p (E.init_image_scanner p)).output_data) j i
        { init_counters p (E.init_image_scanner p) with
          nmiss := (init_counters p (E.init_image_scanner p)).nmiss +
            ((init_counters p (E.init_image_scanner p)).xmax -
              (init_counters p (E.init_image_scanner p)).xmin - (i + 1 - i)) }
      = Ctl.next q1) :
    do_kernel_square E p = (0, q1) := by
  have e1 : (j + 1 - j).toNat = 1 := by
    have : j + 1 - j = 1 := by ring
    rw [this]
    rfl
  have e2 : (i + 1 - i).toNat = 1 := by
    have : i + 1 - i = 1 := by ring
    rw [this]
    rfl
  unfold do_kernel_square
  simp only [hret, ne_eq, not_true_eq_false, if_false, hymin, hymax, forLoop, e1, loopFrom,
    scan_row, hst, hx1, hx2, show ¬ ((0 : Int) = 1) by decide,
    show ¬ ((0 : Int) = 2 ∨ (0 : Int) = 3) by decide, e2, hpix, driver_result]

theorem rot_run :
    do_kernel_square rot_env rot_param
      = (0, deposit (deposit (deposit (deposit (deposit
          { rot_param with nskip := 2, nmiss := 5 } 0 1 (Dbl.fin 5) (Dbl.fin (2 / 49)))
          1 0 (Dbl.fin 5) (Dbl.fin (2 / 49))) 1 1 (Dbl.fin 5) (Dbl.fin (41 / 49)))
          1 2 (Dbl.fin 5) (Dbl.fin (2 / 49))) 2 1 (Dbl.fin 5) (Dbl.fin (2 / 49))) := by
  apply do_kernel_square_single rot_env rot_param _ 1 1 rfl rfl rfl rfl rfl rfl
  have hdh : Dbl.fin (1 / 2) * rot_param.pixel_fraction = Dbl.fin (1 / 2) := by
    show Dbl.fin (1 / 2) * Dbl.fin 1 = _
    rw [Dbl.fin_mul_fin, mul_one]
  have hs2 : rot_param.scale * rot_param.scale = Dbl.fin 1 := by
    show Dbl.fin 1 * Dbl.fin 1 = _
    rw [Dbl.fin_mul_fin, mul_one]
  rw [hdh, hs2]
  exact rot_pixel _ _ rfl rfl rfl rfl (by simp [init_counters, rot_param])

/-- The run of `do_kernel_square` in the rotation scenario. -/
theorem rotated_square_run :
    (do_kernel_square rot_env rot_param).1 = 0 ∧
    (do_kernel_square rot_env rot_param).2.output_counts.val 1 1 = Dbl.fin (41 / 49) ∧
    (do_kernel_square rot_env rot_param).2.output_counts.val 0 1 = Dbl.fin (2 / 49) ∧
    (do_kernel_square rot_env rot_param).2.output_counts.val 1 0 = Dbl.fin (2 / 49) ∧
    (do_kernel_square rot_env rot_param).2.output_counts.val 1 2 = Dbl.fin (2 / 49) ∧
    (do_kernel_square rot_env rot_param).2.output_counts.val 2 1 = Dbl.fin (2 / 49) ∧
    (∀ x y : Int, Dbl.gt ((do_kernel_square rot_env rot_param).2.output_counts.val x y)
        (Dbl.fin 0) = true → (x, y) ∈ [((0 : Int), (1 : Int)), (1, 0), (1, 1), (1, 2), (2, 1)]) ∧
    plane_sum 3 3 (fun x y => (do_kernel_square rot_env rot_param).2.output_data.val x y *
        (do_kernel_square rot_env rot_param).2.output_counts.val x y)
      = rot_param.data.val 1 1 := by
  rw [rot_run]
  refine ⟨rfl, ?_, ?_, ?_, ?_, ?_, ?_, ?_⟩
  · simp [deposit, set_pixel]
  · simp [deposit, set_pixel]
  · simp [deposit, set_pixel]
  · simp [deposit, set_pixel]
  · simp [deposit, set_pixel]
  · intro x y
    simp only [deposit, set_pixel, rot_param, zero_plane]
    intro h
    by_cases h1 : x = 2 ∧ y = 1
    · simp [h1.1, h1.2]
    · by_cases h2 : x = 1 ∧ y = 2
      · simp [h2.1, h2.2]
      · by_cases h3 : x = 1 ∧ y = 1
        · simp [h3.1, h3.2]
        · by_cases h4 : x = 1 ∧ y = 0
          · simp [h4.1, h4.2]
          · by_cases h5 : x = 0 ∧ y = 1
            · simp [h5.1, h5.2]
            · simp [h1, h2, h3, h4, h5] at h
  · simp [plane_sum, List.range, List.range.loop, deposit, set_pixel, rot_param, zero_plane]
    norm_num

/-- C6 at a concrete input, the rotation scenario: the footprint
`rotated_x, rotated_y` of source pixel `(1, 1)` under a rotation by 45° about
`(1, 1)` is clockwise; every `boxer` value is the area of the footprint inside
the cell; over the cells `0..2 × 0..2` visited by the footprint loops the
values `dover / jaco` sum to 1; and the run of `do_kernel_square` on the 3×3
image returns 0, leaves positive counts on the five cells `(0,1)`, `(1,0)`,
`(1,1)`, `(1,2)`, `(2,1)` only, and `Σ output_data·output_counts = data[1,1]`. -/
theorem boxer_intersection_area_witness :
    clockwise rotated_x rotated_y ∧
    (∀ ii jj : Int, ∃ a : ℚ, 0 ≤ a ∧
        boxer (Dbl.ofInt ii) (Dbl.ofInt jj) (quad rotated_x) (quad rotated_y)
          (edge_sgn_dx (quad rotated_x)) (edge_slope (quad rotated_x) (quad rotated_y))
          (edge_inv_slope (quad rotated_x) (quad rotated_y)) = Dbl.fin a ∧
        (a : ℝ) = (MeasureTheory.volume (quad_region rotated_x rotated_y ∩ unit_cell ii jj)).toReal) ∧
    (∑ ii ∈ Finset.Icc (0 : Int) 2, ∑ jj ∈ Finset.Icc (0 : Int) 2,
        Dbl.toRat (boxer (Dbl.ofInt ii) (Dbl.ofInt jj) (quad rotated_x) (quad rotated_y)
          (edge_sgn_dx (quad rotated_x)) (edge_slope (quad rotated_x) (quad rotated_y))
          (edge_inv_slope (quad rotated_x) (quad rotated_y))
          / signed_jaco (quad rotated_x) (quad rotated_y)) = 1) ∧
    (do_kernel_square rot_env rot_param).1 = 0 ∧
    (do_kernel_square rot_env rot_param).2.output_counts.val 1 1 = Dbl.fin (41 / 49) ∧
    (∀ x y : Int, Dbl.gt ((do_kernel_square rot_env rot_param).2.output_counts.val x y)
        (Dbl.fin 0) = true → (x, y) ∈ [((0 : Int), (1 : Int)), (1, 0), (1, 1), (1, 2), (2, 1)]) ∧
    plane_sum 3 3 (fun x y => (do_kernel_square rot_env rot_param).2.output_data.val x y *
        (do_kernel_square rot_env rot_param).2.output_counts.val x y)
      = rot_param.data.val 1 1 := by
  have h := boxer_intersection_area rotated_x rotated_y rotated_clockwise
  obtain ⟨b1, b2, b3, b4⟩ := rot_bounds
  have hs := h.2.2 (3, 3) (by rw [b1]) (by rw [b2]; decide) (by rw [b3]) (by rw [b4]; decide)
  rw [b1, b2, b3, b4] at hs
  obtain ⟨r1, r2, _, _, _, _, r7, r8⟩ := rotated_square_run
  exact ⟨rotated_clockwise, h.1, hs, r1, r2, r7, r8⟩

end BoxerArea

/-! ## The overlap `over` and the bit value -/

/-- The overlap computed by `over` on finite bounds. -/
theorem over_fin (i j : Int) (a b c d : ℚ) :
    over i j (Dbl.fin a) (Dbl.fin b) (Dbl.fin c) (Dbl.fin d)
      = Dbl.fin (max 0 (min b ((i : ℚ) + 1 / 2) - max a ((i : ℚ) - 1 / 2)) *
          max 0 (min d ((j : ℚ) + 1 / 2) - max c ((j : ℚ) - 1 / 2))) := by
  unfold over
  simp only [Dbl.ofInt_eq, Dbl.fin_add_fin, Dbl.fin_sub_fin, MIN_fin, MAX_fin, Dbl.gt_fin_fin,
    Dbl.fin_mul_fin, Bool.and_eq_true, decide_eq_true_eq]
  by_cases hc : 0 < min b ((i : ℚ) + 1 / 2) - max a ((i : ℚ) - 1 / 2) ∧
      0 < min d ((j : ℚ) + 1 / 2) - max c ((j : ℚ) - 1 / 2)
  · rw [if_pos hc, max_eq_right hc.1.le, max_eq_right hc.2.le]
  · rw [if_neg hc]
    congr 1
    rw [not_and_or] at hc
    rcases hc with h | h
    · rw [max_eq_left (not_lt.mp h), zero_mul]
    · rw [max_eq_left (not_lt.mp h), mul_zero]

/-- C11: for all integers `i, j` and all finite bounds,
`over(i, j, xmin, xmax, ymin, ymax) = max(0, dx)·max(0, dy)` with
`dx = min(xmax, i + 0.5) − max(xmin, i − 0.5)` and
`dy = min(ymax, j + 0.5) − max(ymin, j − 0.5)` (the equality holds whether or
not `xmin ≤ xmax` and `ymin ≤ ymax`); in particular
`over(i, j, i − 0.5, i + 0.5, j − 0.5, j + 0.5) = 1`. -/
theorem over_reference (i j : Int) (xmin xmax ymin ymax : ℚ) :
    over i j (Dbl.fin xmin) (Dbl.fin xmax) (Dbl.fin ymin) (Dbl.fin ymax)
      = Dbl.fin (max 0 (min xmax ((i : ℚ) + 1 / 2) - max xmin ((i : ℚ) - 1 / 2)) *
          max 0 (min ymax ((j : ℚ) + 1 / 2) - max ymin ((j : ℚ) - 1 / 2))) ∧
    over i j (Dbl.ofInt i - Dbl.fin (1 / 2)) (Dbl.ofInt i + Dbl.fin (1 / 2))
        (Dbl.ofInt j - Dbl.fin (1 / 2)) (Dbl.ofInt j + Dbl.fin (1 / 2)) = Dbl.fin 1 := by
  refine ⟨over_fin _ _ _ _ _ _, ?_⟩
  simp only [Dbl.ofInt_eq, Dbl.fin_add_fin, Dbl.fin_sub_fin]
  rw [over_fin]
  congr 1
  have e1 : ∀ t : ℚ, min (t + 1 / 2) (t + 1 / 2) - max (t - 1 / 2) (t - 1 / 2) = 1 := by
    intro t
    rw [min_self, max_self]
    ring
  rw [e1, e1]
  norm_num

theorem compute_bit_value_eq (u : Int) (h : 1 ≤ u) :
    compute_bit_value u = 2 ^ ((u - 1) % 32).toNat := by
  have hb : u - 1 - 32 * (Int.tdiv (u - 1) 32 + 1 - 1) = (u - 1) % 32 := by
    rw [Int.tdiv_eq_ediv (by omega) (by norm_num)]
    omega
  unfold compute_bit_value
  simp only [hb]
  rw [Nat.one_shiftLeft]
  apply Nat.mod_eq_of_lt
  apply Nat.pow_lt_pow_right (by norm_num)
  omega

/-- C17: for `uuid ≥ 1` the bit number `(uuid − 1) mod 32` lies in `[0, 31]`,
`compute_bit_value(uuid) = (1 << bit_no) mod 2^32 = 2^bit_no`, and
`compute_bit_value(uuid + 32) = compute_bit_value(uuid)`. -/
theorem compute_bit_value_reference (uuid : Int) (h : 1 ≤ uuid) :
    0 ≤ (uuid - 1) % 32 ∧ (uuid - 1) % 32 ≤ 31 ∧
    compute_bit_value uuid = (1 <<< ((uuid - 1) % 32).toNat) % 2 ^ 32 ∧
    compute_bit_value uuid = 2 ^ ((uuid - 1) % 32).toNat ∧
    compute_bit_value (uuid + 32) = compute_bit_value uuid := by
  have hb : ∀ u : Int, 1 ≤ u → u - 1 - 32 * (Int.tdiv (u - 1) 32 + 1 - 1) = (u - 1) % 32 := by
    intro u hu
    rw [Int.tdiv_eq_ediv (by omega) (by norm_num)]
    omega
  have h0 : 0 ≤ (uuid - 1) % 32 := by omega
  have h1 : (uuid - 1) % 32 ≤ 31 := by omega
  have hv : ∀ u : Int, 1 ≤ u →
      compute_bit_value u = (1 <<< ((u - 1) % 32).toNat) % 2 ^ 32 := by
    intro u hu
    unfold compute_bit_value
    simp only [hb u hu]
  refine ⟨h0, h1, hv uuid h, ?_, ?_⟩
  · rw [hv uuid h, Nat.one_shiftLeft]
    apply Nat.mod_eq_of_lt
    apply Nat.pow_lt_pow_right (by norm_num)
    omega
  · rw [hv uuid h, hv (uuid + 32) (by omega)]
    have : (uuid + 32 - 1) % 32 = (uuid - 1) % 32 := by omega
    rw [this]

/-- C17 at concrete inputs: `uuid = 33` gives bit 0, `uuid = 40` gives bit 7,
the value of `uuid = 8`. -/
theorem compute_bit_value_reference_witness :
    compute_bit_value 33 = 1 ∧ compute_bit_value 40 = 128 ∧
      compute_bit_value (8 + 32) = compute_bit_value 8 := by
  have h := compute_bit_value_reference 8 (by decide)
  have h2 := compute_bit_value_reference 33 (by decide)
  refine ⟨?_, ?_, h.2.2.2.2⟩
  · rw [h2.2.2.2.1]; decide
  · rw [show (40 : Int) = 8 + 32 by norm_num, h.2.2.2.2, h.2.2.2.1]; decide

/-! ## The dispatcher `dobox` -/

theorem dobox_run (E : Extern) (p : driz_param_t) :
    (p.kernel = 0 → (dobox E p).2 = (do_kernel_square E p).2) ∧
    (p.kernel = 1 → (dobox E p).2 = (do_kernel_gaussian E p).2) ∧
    (p.kernel = 2 → (dobox E p).2 = (do_kernel_point E p).2) ∧
    (p.kernel = 3 → (dobox E p).2 = (do_kernel_turbo E p).2) ∧
    (p.kernel = 4 ∨ p.kernel = 5 → (dobox E p).2 = (do_kernel_lanczos E p).2) := by
  refine ⟨?_, ?_, ?_, ?_, ?_⟩
  · intro h
    unfold dobox
    simp [h, kernel_LAST, kernel_handler_map]
  · intro h
    unfold dobox
    simp [h, kernel_LAST, kernel_handler_map]
  · intro h
    unfold dobox
    simp [h, kernel_LAST, kernel_handler_map]
  · intro h
    unfold dobox
    simp [h, kernel_LAST, kernel_handler_map]
  · rintro (h | h)
    · unfold dobox
      simp [h, kernel_LAST, kernel_handler_map]
    · unfold dobox
      simp [h, kernel_LAST, kernel_handler_map]

/-- C18: `dobox` returns non-zero exactly when the error sink is set at exit;
for a kernel tag `≥ kernel_LAST = 6` it runs no driver, leaves the output
planes, the context, `nskip` and `nmiss` as they were, sets
`"Invalid kernel type"` and returns non-zero; for the tags `0..5` the bundle
at exit is the one the driver left, so `dobox` itself sets no message. -/
theorem dobox_error_contract (E : Extern) (p : driz_param_t) :
    ((dobox E p).1 ≠ 0 ↔ (dobox E p).2.error.isSome = true) ∧
    kernel_LAST = 6 ∧
    (kernel_LAST ≤ p.kernel →
      dobox E p = (1, { p with error := some "Invalid kernel type" }) ∧
      (dobox E p).2.output_data = p.output_data ∧
      (dobox E p).2.output_counts = p.output_counts ∧
      (dobox E p).2.output_context = p.output_context ∧
      (dobox E p).2.nskip = p.nskip ∧ (dobox E p).2.nmiss = p.nmiss ∧
      (dobox E p).1 ≠ 0) ∧
    (p.kernel < kernel_LAST →
      ∃ h, (kernel_handler_map E)[p.kernel]? = some h ∧ (dobox E p).2 = (h p).2) := by
  refine ⟨?_, rfl, ?_, ?_⟩
  · unfold dobox
    simp only []
    split_ifs with h1 h2 <;> simp_all
  · intro h
    have h1 : ¬ p.kernel < kernel_LAST := by omega
    have e : dobox E p = (1, { p with error := some "Invalid kernel type" }) := by
      unfold dobox
      simp [h1]
    rw [e]
    exact ⟨rfl, rfl, rfl, rfl, rfl, rfl, one_ne_zero⟩
  · intro h
    have hlen : p.kernel < (kernel_handler_map E).length := h
    obtain ⟨f, hf⟩ : ∃ f, (kernel_handler_map E)[p.kernel]? = some f :=
      ⟨_, List.getElem?_eq_getElem hlen⟩
    refine ⟨f, hf, ?_⟩
    unfold dobox
    simp [h, hf]

/-- C18 at a concrete input: the kernel tag 7. -/
theorem dobox_error_contract_witness :
    dobox demo_env { demo_param with kernel := 7 }
      = (1, { demo_param with kernel := 7, error := some "Invalid kernel type" }) :=
  ((dobox_error_contract demo_env { demo_param with kernel := 7 }).2.2.1 (by decide)).1

/-- C19: `dobox` dispatches the tags `0..5` to `do_kernel_square`,
`do_kernel_gaussian`, `do_kernel_point`, `do_kernel_turbo`, `do_kernel_lanczos`
and `do_kernel_lanczos`: the bundle at exit is the one left by one run of that
driver; the lanczos driver takes order 2 for tag 4 and order 3 for tag 5
(table of that order, `pfo = order·pixel_fraction/scale`). -/
theorem dobox_dispatch (E : Extern) (p : driz_param_t) :
    (p.kernel = 0 → (dobox E p).2 = (do_kernel_square E p).2) ∧
    (p.kernel = 1 → (dobox E p).2 = (do_kernel_gaussian E p).2) ∧
    (p.kernel = 2 → (dobox E p).2 = (do_kernel_point E p).2) ∧
    (p.kernel = 3 → (dobox E p).2 = (do_kernel_turbo E p).2) ∧
    (p.kernel = 4 → (dobox E p).2 = (do_kernel_lanczos E p).2 ∧
      do_kernel_lanczos E p = lanczos_with_order 2 E p) ∧
    (p.kernel = 5 → (dobox E p).2 = (do_kernel_lanczos E p).2 ∧
      do_kernel_lanczos E p = lanczos_with_order 3 E p) := by
  refine ⟨?_, ?_, ?_, ?_, ?_, ?_⟩
  · intro h
    unfold dobox
    simp [h, kernel_LAST, kernel_handler_map]
  · intro h
    unfold dobox
    simp [h, kernel_LAST, kernel_handler_map]
  · intro h
    unfold dobox
    simp [h, kernel_LAST, kernel_handler_map]
  · intro h
    unfold dobox
    simp [h, kernel_LAST, kernel_handler_map]
  · intro h
    refine ⟨?_, ?_⟩
    · unfold dobox
      simp [h, kernel_LAST, kernel_handler_map]
    · unfold do_kernel_lanczos lanczos_with_order
      simp [h, kernel_lanczos2]
  · intro h
    refine ⟨?_, ?_⟩
    · unfold dobox
      simp [h, kernel_LAST, kernel_handler_map]
    · unfold do_kernel_lanczos lanczos_with_order
      simp [h, kernel_lanczos2]

/-- C19 at a concrete input: the tag 2 runs the point driver. -/
theorem dobox_dispatch_witness :
    (dobox demo_env demo_param).2 = (do_kernel_point demo_env demo_param).2 :=
  (dobox_dispatch demo_env demo_param).2.2.1 rfl

/-! ## Outcomes of the driver loops -/

theorem loopFrom_ok {σ : Type} (I : σ → Prop) (body : Int → σ → Ctl σ) :
    ∀ (n : Nat) (lo : Int) (s : σ),
      (∀ k t, lo ≤ k → k < lo + n → I t → Ctl.ok I (body k t)) → I s →
      Ctl.ok I (loopFrom body n lo s) := by
  intro n
  induction n with
  | zero => intro lo s _ hs; exact hs
  | succ n ih =>
    intro lo s h hs
    have hb := h lo s le_rfl (by push_cast; linarith) hs
    unfold loopFrom
    cases hbody : body lo s with
    | next s1 =>
      rw [hbody] at hb
      exact ih (lo + 1) s1 (fun k t h1 h2 ht => h k t (by linarith) (by push_cast; linarith) ht) hb
    | brk s1 => rw [hbody] at hb; exact hb
    | ret c s1 => rw [hbody] at hb; exact hb

theorem forLoop_ok {σ : Type} (I : σ → Prop) (body : Int → σ → Ctl σ) (lo hi : Int) (s : σ)
    (h : ∀ k t, lo ≤ k → k ≤ hi → I t → Ctl.ok I (body k t)) (hs : I s) :
    Ctl.ok I (forLoop lo hi body s) := by
  apply loopFrom_ok I body _ lo s _ hs
  intro k t h1 h2 ht
  apply h k t h1 _ ht
  by_cases hle : 0 ≤ hi + 1 - lo
  · rw [Int.toNat_of_nonneg hle] at h2; linarith
  · rw [Int.toNat_eq_zero.mpr (by linarith)] at h2
    simp at h2
    linarith

/-- The rule for `for (i = lo; i <= hi; ++i)` when the body may also
`return`. -/
theorem forLoop_cases {σ : Type} (body : Int → σ → Ctl σ) (I : Int → σ → Prop) (Q : σ → Prop)
    (R : Int → σ → Prop) (lo hi : Int) (s : σ) (h0 : I lo s)
    (hstep : ∀ k t, lo ≤ k → k ≤ hi → I k t →
      (∃ t1, body k t = Ctl.next t1 ∧ I (k + 1) t1) ∨ (∃ t1, body k t = Ctl.brk t1 ∧ Q t1) ∨
      (∃ c t1, body k t = Ctl.ret c t1 ∧ R c t1))
    (hend : ∀ t, I (max lo (hi + 1)) t → Q t) :
    (∃ s1, forLoop lo hi body s = Ctl.next s1 ∧ Q s1) ∨
      (∃ c s1, forLoop lo hi body s = Ctl.ret c s1 ∧ R c s1) := by
  have key : ∀ (n : Nat) (a : Int) (t : σ), I a t → a + n = max lo (hi + 1) → lo ≤ a →
      (∃ s1, loopFrom body n a t = Ctl.next s1 ∧ Q s1) ∨
        (∃ c s1, loopFrom body n a t = Ctl.ret c s1 ∧ R c s1) := by
    intro n
    induction n with
    | zero =>
      intro a t ht ha _
      left
      refine ⟨t, rfl, hend t ?_⟩
      have : a = max lo (hi + 1) := by simpa using ha
      rw [← this]; exact ht
    | succ n ih =>
      intro a t ht ha hlo
      have hhi : a ≤ hi := by
        push_cast at ha
        rcases le_total lo (hi + 1) with h | h
        · rw [max_eq_right h] at ha; linarith
        · rw [max_eq_left h] at ha; linarith
      rcases hstep a t hlo hhi ht with ⟨t1, hb, h1⟩ | ⟨t1, hb, h1⟩ | ⟨c, t1, hb, h1⟩
      · rcases ih (a + 1) t1 h1 (by push_cast at ha ⊢; linarith) (by linarith) with
          ⟨s1, e, hq⟩ | ⟨c, s1, e, hr⟩
        · exact Or.inl ⟨s1, by simp only [loopFrom, hb, e], hq⟩
        · exact Or.inr ⟨c, s1, by simp only [loopFrom, hb, e], hr⟩
      · exact Or.inl ⟨t1, by simp only [loopFrom, hb], h1⟩
      · exact Or.inr ⟨c, t1, by simp only [loopFrom, hb], h1⟩
  unfold forLoop
  apply key _ lo s h0 _ le_rfl
  rcases le_total lo (hi + 1) with h | h
  · rw [Int.toNat_of_nonneg (by linarith), max_eq_right h]; ring
  · rw [Int.toNat_eq_zero.mpr (by linarith), max_eq_left h]; simp

theorem contribute_ok (I : driz_param_t → Prop) (bv : Nat)
    (hu : ∀ q ii jj d vc dow, I q → I (update_data (update_context q ii jj bv dow) ii jj d vc dow).2)
    (st : driz_param_t × Int) (nhit ii jj : Int) (d vc dow : Dbl) (h : I st.1) :
    Ctl.ok (fun t : driz_param_t × Int => I t.1) (contribute st nhit ii jj bv d vc dow) := by
  unfold contribute
  simp only []
  split_ifs
  · exact ⟨rfl, hu st.1 ii jj d vc dow h⟩
  · exact hu st.1 ii jj d vc dow h

theorem count_miss_ok (I : driz_param_t → Prop)
    (hm : ∀ q, I q → I { q with nmiss := q.nmiss + 1 })
    (r : Ctl (driz_param_t × Int)) (h : Ctl.ok (fun t : driz_param_t × Int => I t.1) r) :
    Ctl.ok I (count_miss r) := by
  cases r with
  | next st =>
    simp only [count_miss, Ctl.ok] at h ⊢
    split_ifs
    · exact hm _ h
    · exact h
  | brk st =>
    simp only [count_miss, Ctl.ok] at h ⊢
    split_ifs
    · exact hm _ h
    · exact h
  | ret c st => exact h

theorem point_pixel_ok (I : driz_param_t → Prop) (bv : Nat)
    (hm : ∀ q, I q → I { q with nmiss := q.nmiss + 1 })
    (hu : ∀ q ii jj d vc dow, I q → I (update_data (update_context q ii jj bv dow) ii jj d vc dow).2)
    (scale2 : Dbl) (osize : Int × Int) (j i : Int) (q : driz_param_t) (h : I q) :
    Ctl.ok I (point_pixel scale2 bv osize j i q) := by
  unfold point_pixel
  split
  · exact hm q h
  · simp only []
    split_ifs
    · exact hm q h
    · exact ⟨rfl, hu _ _ _ _ _ _ h⟩
    · exact hu _ _ _ _ _ _ h

theorem gaussian_pixel_ok (I : driz_param_t → Prop) (bv : Nat)
    (hm : ∀ q, I q → I { q with nmiss := q.nmiss + 1 })
    (hu : ∀ q ii jj d vc dow, I q → I (update_data (update_context q ii jj bv dow) ii jj d vc dow).2)
    (E : Extern) (pfo efac es scale2 : Dbl) (osize : Int × Int) (j i : Int) (q : driz_param_t)
    (h : I q) : Ctl.ok I (gaussian_pixel E pfo efac es scale2 bv osize j i q) := by
  unfold gaussian_pixel
  apply count_miss_ok I hm
  split
  · exact h
  · apply forLoop_ok (fun t : driz_param_t × Int => I t.1) _ _ _ _ _ h
    intro jj st _ _ hst
    apply forLoop_ok (fun t : driz_param_t × Int => I t.1) _ _ _ _ _ hst
    intro ii st1 _ _ hst1
    exact contribute_ok I bv hu st1 _ ii jj _ _ _ hst1

theorem lanczos_pixel_ok (I : driz_param_t → Prop) (bv : Nat)
    (hm : ∀ q, I q → I { q with nmiss := q.nmiss + 1 })
    (hu : ∀ q ii jj d vc dow, I q → I (update_data (update_context q ii jj bv dow) ii jj d vc dow).2)
    (lut : Int → Dbl) (sdp pfo scale2 : Dbl) (osize : Int × Int) (j i : Int) (q : driz_param_t)
    (h : I q) : Ctl.ok I (lanczos_pixel lut sdp pfo scale2 bv osize j i q) := by
  unfold lanczos_pixel
  apply count_miss_ok I hm
  split
  · exact h
  · apply forLoop_ok (fun t : driz_param_t × Int => I t.1) _ _ _ _ _ h
    intro jj st _ _ hst
    apply forLoop_ok (fun t : driz_param_t × Int => I t.1) _ _ _ _ _ hst
    intro ii st1 _ _ hst1
    exact contribute_ok I bv hu st1 _ ii jj _ _ _ hst1

theorem turbo_pixel_ok (I : driz_param_t → Prop) (bv : Nat)
    (hm : ∀ q, I q → I { q with nmiss := q.nmiss + 1 })
    (hu : ∀ q ii jj d vc dow, I q → I (update_data (update_context q ii jj bv dow) ii jj d vc dow).2)
    (pfo scale2 ac : Dbl) (osize : Int × Int) (j i : Int) (q : driz_param_t)
    (h : I q) : Ctl.ok I (turbo_pixel pfo scale2 ac bv osize j i q) := by
  unfold turbo_pixel
  apply count_miss_ok I hm
  split
  · exact h
  · apply forLoop_ok (fun t : driz_param_t × Int => I t.1) _ _ _ _ _ h
    intro jj st _ _ hst
    apply forLoop_ok (fun t : driz_param_t × Int => I t.1) _ _ _ _ _ hst
    intro ii st1 _ _ hst1
    simp only []
    split_ifs
    · exact contribute_ok I bv hu st1 _ ii jj _ _ _ hst1
    · exact hst1

theorem square_pixel_ok (I : driz_param_t → Prop) (bv : Nat)
    (hm : ∀ q, I q → I { q with nmiss := q.nmiss + 1 })
    (hu : ∀ q ii jj d vc dow, I q → I (update_data (update_context q ii jj bv dow) ii jj d vc dow).2)
    (E : Extern) (dh scale2 : Dbl) (osize : Int × Int) (j i : Int) (q : driz_param_t)
    (h : I q) : Ctl.ok I (square_pixel E dh scale2 bv osize j i q) := by
  unfold square_pixel
  apply count_miss_ok I hm
  split
  · exact h
  · unfold square_footprint
    apply forLoop_ok (fun t : driz_param_t × Int => I t.1) _ _ _ _ _ h
    intro ii st _ _ hst
    apply forLoop_ok (fun t : driz_param_t × Int => I t.1) _ _ _ _ _ hst
    intro jj st1 _ _ hst1
    simp only []
    split_ifs <;> first | exact hst1 | exact contribute_ok I bv hu st1 _ ii jj _ _ _ hst1

/-! ## Row accounting -/

theorem loopFrom_ne_brk {σ : Type} (body : Int → σ → Ctl σ) :
    ∀ (n : Nat) (lo : Int) (s t : σ), loopFrom body n lo s ≠ Ctl.brk t := by
  intro n
  induction n with
  | zero => intro lo s t h; simp [loopFrom] at h
  | succ n ih =>
    intro lo s t
    unfold loopFrom
    cases hbody : body lo s with
    | next s1 => exact ih (lo + 1) s1 t
    | brk s1 => simp
    | ret c s1 => simp

theorem forLoop_ne_brk {σ : Type} (body : Int → σ → Ctl σ) (lo hi : Int) (s t : σ) :
    forLoop lo hi body s ≠ Ctl.brk t := loopFrom_ne_brk body _ lo s t

theorem filter_range_cut (f : Nat → Bool) (m : Nat) :
    ∀ N : Nat, m ≤ N → (∀ n, m ≤ n → f n = false) →
      (List.range N).filter f = (List.range m).filter f := by
  intro N
  induction N with
  | zero => intro h _; rw [Nat.le_zero.mp h]
  | succ N ih =>
    intro h hf
    rcases Nat.lt_or_ge m (N + 1) with h1 | h1
    · rw [List.range_succ, List.filter_append, ih (by omega) hf]
      simp [hf N (by omega)]
    · have : m = N + 1 := by omega
      rw [this]

/-- The update step of the drivers leaves the counters alone. -/
theorem merge_counters (q : driz_param_t) (ii jj : Int) (bv : Nat) (d vc dow : Dbl) :
    (update_data (update_context q ii jj bv dow) ii jj d vc dow).2.nskip = q.nskip ∧
    (update_data (update_context q ii jj bv dow) ii jj d vc dow).2.nmiss = q.nmiss := by
  have h := update_context_frame q ii jj bv dow
  rw [← h.2.2.2.2.2.1, ← h.2.2.2.2.1]
  generalize update_context q ii jj bv dow = q1
  unfold update_data
  simp only []
  split_ifs <;> exact ⟨rfl, rfl⟩

/-- Row accounting of the row loop shared by the drivers. -/
theorem scan_loop_nskip (s : Scanner) (pixel : Int → Int → driz_param_t → Ctl driz_param_t)
    (hpix : ∀ (c : Int) j i q, q.nskip = c → Ctl.ok (fun t => t.nskip = c) (pixel j i q))
    (hrange : s.ymin ≤ s.ymax + 1)
    (hstat : ∀ j, 0 ≤ (s.rows j).status ∧ (s.rows j).status ≤ 3)
    (p1 : driz_param_t)
    (h0 : (driver_result (forLoop s.ymin s.ymax
      (scan_row s (fun j xmin xmax q => forLoop xmin xmax (pixel j) q)) p1)).1 = 0) :
    (driver_result (forLoop s.ymin s.ymax
      (scan_row s (fun j xmin xmax q => forLoop xmin xmax (pixel j) q)) p1)).2.nskip
      + (status0_rows s : Int) = p1.nskip + (s.ymax - s.ymin + 1) := by
  have hf : ∀ k : Int, s.ymin ≤ k → ((k - s.ymin).toNat : Int) = k - s.ymin := fun k hk =>
    Int.toNat_of_nonneg (by omega)
  have hback : ∀ k : Int, s.ymin ≤ k → s.ymin + ((k - s.ymin).toNat : Int) = k := fun k hk => by
    rw [hf k hk]; ring
  have hsucc : ∀ k : Int, s.ymin ≤ k → (k + 1 - s.ymin).toNat = (k - s.ymin).toNat + 1 := by
    intro k hk
    have := hf k hk
    have := hf (k + 1) (by omega)
    omega
  rcases forLoop_cases
    (scan_row s (fun j xmin xmax q => forLoop xmin xmax (pixel j) q))
    (fun k q => (∀ m, s.ymin ≤ m → m < k → (s.rows m).status ≠ 1) ∧
      q.nskip + (((List.range (k - s.ymin).toNat).filter fun n : Nat =>
        decide ((s.rows (s.ymin + (n : Int))).status = 0) &&
          !scan_stopped s (s.ymin + (n : Int))).length : Int) = p1.nskip + (k - s.ymin))
    (fun q => q.nskip + (status0_rows s : Int) = p1.nskip + (s.ymax - s.ymin + 1))
    (fun c _ => c = 1) s.ymin s.ymax p1
    ⟨fun m h1 h2 => by omega, by simp⟩
    (by
      intro k t hk1 hk2 ⟨hns, hcnt⟩
      unfold scan_row
      by_cases hst1 : (s.rows k).status = 1
      · right; left
        simp only [hst1, if_true]
        refine ⟨_, rfl, ?_⟩
        show t.nskip + (s.ymax + 1 - k) + (status0_rows s : Int) = _
        have hcut : status0_rows s = ((List.range (k - s.ymin).toNat).filter fun n : Nat =>
            decide ((s.rows (s.ymin + (n : Int))).status = 0) &&
              !scan_stopped s (s.ymin + (n : Int))).length := by
          unfold status0_rows
          rw [filter_range_cut _ (k - s.ymin).toNat]
          · have := hf k hk1
            have := hf (s.ymax + 1) (by omega)
            omega
          · intro n hn
            have hstop : scan_stopped s (s.ymin + (n : Int)) = true := by
              rw [scan_stopped_iff]
              refine ⟨k, hk1, ?_, hst1⟩
              have := hf k hk1
              omega
            simp [hstop]
        rw [hcut]
        linarith
      · by_cases hst23 : (s.rows k).status = 2 ∨ (s.rows k).status = 3
        · left
          simp only [hst1, if_false, hst23, if_true]
          refine ⟨_, rfl, ?_, ?_⟩
          · intro m hm1 hm2
            rcases lt_or_eq_of_le (Int.lt_add_one_iff.mp hm2) with h3 | h3
            · exact hns m hm1 h3
            · subst h3; exact hst1
          · show t.nskip + 1 + _ = _
            rw [hsucc k hk1, List.range_succ, List.filter_append, List.length_append]
            have hne : ¬ (s.rows (s.ymin + ((k - s.ymin).toNat : Int))).status = 0 := by
              rw [hback k hk1]
              rcases hst23 with h | h <;> omega
            simp only [List.filter_cons, List.filter_nil, hne, decide_False, Bool.false_and,
              Bool.false_eq_true, if_false, List.length_nil]
            push_cast
            linarith
        · have hst0 : (s.rows k).status = 0 := by
            have := hstat k
            rw [not_or] at hst23
            omega
          simp only [hst1, if_false, hst23]
          have hok := forLoop_ok (fun q => q.nskip = t.nskip) (pixel k) (s.rows k).x1 (s.rows k).x2
            { t with nmiss := t.nmiss + (t.xmax - t.xmin - ((s.rows k).x2 + 1 - (s.rows k).x1)) }
            (fun i q _ _ hq => hpix t.nskip k i q hq) rfl
          cases hres : forLoop (s.rows k).x1 (s.rows k).x2 (pixel k)
            { t with nmiss := t.nmiss + (t.xmax - t.xmin - ((s.rows k).x2 + 1 - (s.rows k).x1)) } with
          | next t1 =>
            left
            rw [hres] at hok
            refine ⟨t1, rfl, ?_, ?_⟩
            · intro m hm1 hm2
              rcases lt_or_eq_of_le (Int.lt_add_one_iff.mp hm2) with h3 | h3
              · exact hns m hm1 h3
              · subst h3; exact hst1
            · have hok1 : t1.nskip = t.nskip := hok
              rw [hok1, hsucc k hk1, List.range_succ, List.filter_append, List.length_append]
              have h1 : (s.rows (s.ymin + ((k - s.ymin).toNat : Int))).status = 0 := by
                rw [hback k hk1]; exact hst0
              have h2 : scan_stopped s (s.ymin + ((k - s.ymin).toNat : Int)) = false := by
                rw [hback k hk1, ← Bool.not_eq_true, scan_stopped_iff]
                rintro ⟨m, hm1, hm2, hm3⟩
                rcases lt_or_eq_of_le hm2 with h3 | h3
                · exact hns m hm1 h3 hm3
                · subst h3; exact hst1 hm3
              simp only [List.filter_cons, List.filter_nil, h1, h2, decide_True, Bool.not_false,
                Bool.and_self, if_true, List.length_cons, List.length_nil]
              push_cast
              linarith
          | brk t1 => exact absurd hres (forLoop_ne_brk _ _ _ _ _)
          | ret c t1 =>
            right; right
            rw [hres] at hok
            exact ⟨c, t1, rfl, hok.1⟩)
    (by
      intro t ⟨_, hcnt⟩
      rw [max_eq_right hrange] at hcnt
      unfold status0_rows
      rw [hcnt]
      ring) with ⟨s1, e, hq⟩ | ⟨c, s1, e, hc⟩
  · rw [e]
    exact hq
  · rw [e, hc] at h0
    exact absurd h0 one_ne_zero

theorem nskip_step (c : Int) (bv : Nat) :
    (∀ q : driz_param_t, q.nskip = c → ({ q with nmiss := q.nmiss + 1 } : driz_param_t).nskip = c) ∧
    (∀ (q : driz_param_t) (ii jj : Int) (d vc dow : Dbl), q.nskip = c →
      (update_data (update_context q ii jj bv dow) ii jj d vc dow).2.nskip = c) :=
  ⟨fun _ h => h, fun q ii jj d vc dow h => by rw [(merge_counters q ii jj bv d vc dow).1, h]⟩

/-- C20: row accounting.  For every driver, a scanner row range with
`ymin' ≤ ymax' + 1` and statuses in `0..3`: when the driver returns 0,
`p->nskip` plus the number of rows answered with status 0 equals
`p->ymax − p->ymin + 1`. -/
theorem row_accounting (E : Extern) (p : driz_param_t)
    (hrange : (E.init_image_scanner p).ymin ≤ (E.init_image_scanner p).ymax + 1)
    (hstat : ∀ j, 0 ≤ ((E.init_image_scanner p).rows j).status ∧
      ((E.init_image_scanner p).rows j).status ≤ 3) :
    ∀ D ∈ [do_kernel_point E, do_kernel_gaussian E, do_kernel_lanczos E, do_kernel_turbo E,
        do_kernel_square E],
      (D p).1 = 0 →
      (D p).2.nskip + (status0_rows (E.init_image_scanner p) : Int) = p.ymax - p.ymin + 1 := by
  have hinit : (init_counters p (E.init_image_scanner p)).nskip
      + ((E.init_image_scanner p).ymax - (E.init_image_scanner p).ymin + 1)
      = p.ymax - p.ymin + 1 := by
    show p.ymax - p.ymin - ((E.init_image_scanner p).ymax - (E.init_image_scanner p).ymin) + _ = _
    ring
  intro D hD
  simp only [List.mem_cons, List.mem_singleton, List.not_mem_nil, or_false] at hD
  rcases hD with rfl | rfl | rfl | rfl | rfl
  · unfold do_kernel_point
    by_cases hret : (E.init_image_scanner p).ret = 0
    · simp only [hret, ne_eq, not_true_eq_false, if_false]
      intro h0
      rw [← hinit]
      exact scan_loop_nskip _ _ (fun c j i q hq => point_pixel_ok _ _ (nskip_step c (compute_bit_value p.uuid)).1
        (nskip_step c (compute_bit_value p.uuid)).2 _ _ j i q hq) hrange hstat _ h0
    · simp only [hret, ne_eq, not_false_eq_true, if_true]
      intro h0
      exact absurd h0 one_ne_zero
  · unfold do_kernel_gaussian
    by_cases hret : (E.init_image_scanner p).ret = 0
    · simp only [hret, ne_eq, not_true_eq_false, if_false]
      intro h0
      rw [← hinit]
      exact scan_loop_nskip _ _ (fun c j i q hq => gaussian_pixel_ok _ _ (nskip_step c (compute_bit_value p.uuid)).1
        (nskip_step c (compute_bit_value p.uuid)).2 _ _ _ _ _ _ j i q hq) hrange hstat _ h0
    · simp only [hret, ne_eq, not_false_eq_true, if_true]
      intro h0
      exact absurd h0 one_ne_zero
  · unfold do_kernel_lanczos
    by_cases hm : E.malloc_fails = true
    · simp only [hm, if_true]
      intro h0
      exact absurd h0 one_ne_zero
    · by_cases hret : (E.init_image_scanner p).ret = 0
      · simp only [hm, hret, ne_eq, not_true_eq_false, if_false, Bool.false_eq_true]
        intro h0
        rw [← hinit]
        exact scan_loop_nskip _ _ (fun c j i q hq => lanczos_pixel_ok _ _ (nskip_step c (compute_bit_value p.uuid)).1
          (nskip_step c (compute_bit_value p.uuid)).2 _ _ _ _ _ j i q hq) hrange hstat _ h0
      · simp only [hm, hret, ne_eq, not_false_eq_true, if_true, if_false, Bool.false_eq_true]
        intro h0
        exact absurd h0 one_ne_zero
  · unfold do_kernel_turbo
    by_cases hret : (E.init_image_scanner p).ret = 0
    · simp only [hret, ne_eq, not_true_eq_false, if_false]
      intro h0
      rw [← hinit]
      exact scan_loop_nskip _ _ (fun c j i q hq => turbo_pixel_ok _ _ (nskip_step c (compute_bit_value p.uuid)).1
        (nskip_step c (compute_bit_value p.uuid)).2 _ _ _ _ j i q hq) hrange hstat _ h0
    · simp only [hret, ne_eq, not_false_eq_true, if_true]
      intro h0
      exact absurd h0 one_ne_zero
  · unfold do_kernel_square
    by_cases hret : (E.init_image_scanner p).ret = 0
    · simp only [hret, ne_eq, not_true_eq_false, if_false]
      intro h0
      rw [← hinit]
      exact scan_loop_nskip _ _ (fun c j i q hq => square_pixel_ok _ _ (nskip_step c (compute_bit_value p.uuid)).1
        (nskip_step c (compute_bit_value p.uuid)).2 _ _ _ _ j i q hq) hrange hstat _ h0
    · simp only [hret, ne_eq, not_false_eq_true, if_true]
      intro h0
      exact absurd h0 one_ne_zero

set_option maxRecDepth 100000 in
theorem mixed_env_code : (do_kernel_point mixed_env demo_param).1 = 0 := by
  decide!

/-- C20 at a concrete input: rows with statuses 2, 0, 1 give `nskip = 2` and
one processed row out of three. -/
theorem row_accounting_witness :
    (do_kernel_point mixed_env demo_param).2.nskip = 2 ∧
    status0_rows (mixed_env.init_image_scanner demo_param) = 1 ∧
    (do_kernel_point mixed_env demo_param).2.nskip
      + (status0_rows (mixed_env.init_image_scanner demo_param) : Int)
      = demo_param.ymax - demo_param.ymin + 1 := by
  have h := row_accounting mixed_env demo_param (by decide)
    (by
      intro j
      show 0 ≤ (if j = 0 then (2 : Int) else if j = 1 then 0 else 1) ∧
        (if j = 0 then (2 : Int) else if j = 1 then 0 else 1) ≤ 3
      split_ifs <;> omega)
    (do_kernel_point mixed_env) (by simp) mixed_env_code
  have hs : status0_rows (mixed_env.init_image_scanner demo_param) = 1 := by decide
  refine ⟨?_, hs, h⟩
  rw [hs] at h
  have e : demo_param.ymax - demo_param.ymin + 1 = 3 := rfl
  rw [e] at h
  omega

/-! ## The footprint loops -/

theorem plane_ext (a b : Plane) (h1 : a.nx = b.nx) (h2 : a.ny = b.ny)
    (h3 : ∀ x y, a.val x y = b.val x y) : a = b := by
  cases a; cases b
  simp only [Plane.mk.injEq]
  exact ⟨h1, h2, by funext x y; exact h3 x y⟩

theorem ctx_ext (a b : CtxPlane) (h1 : a.nx = b.nx) (h2 : a.ny = b.ny)
    (h3 : ∀ x y, a.word x y = b.word x y) : a = b := by
  cases a; cases b
  simp only [CtxPlane.mk.injEq]
  exact ⟨h1, h2, by funext x y; exact h3 x y⟩

theorem set_bit_merged (ctx : CtxPlane) (ii jj : Int) (bv : Nat) (dow : Dbl) :
    (if Dbl.gt dow (Dbl.fin 0) then set_bit ctx ii jj bv else ctx)
      = { ctx with word := fun x y =>
          if x = ii ∧ y = jj then merged_word (ctx.word x y) bv dow else ctx.word x y } := by
  unfold merged_word set_bit
  split_ifs with h
  · rfl
  · cases ctx
    simp

/-- One contribution at a pixel inside both planes, as a map of cells. -/
theorem merge_cell_eq (p : driz_param_t) (ii jj : Int) (bv : Nat) (d dow : Dbl)
    (hd : oob_pixel p.output_data ii jj = false)
    (hc : oob_pixel p.output_counts ii jj = false) :
    update_data (update_context p ii jj bv dow) ii jj d (get_pixel p.output_counts ii jj) dow
      = (0, apply_cells p bv (fun x y => if x = ii ∧ y = jj then some (d, dow) else none)) := by
  obtain ⟨c1, c2, _⟩ := update_context_frame p ii jj bv dow
  have hctx : update_context p ii jj bv dow
      = { p with
          output_context := p.output_context.map (fun ctx => { ctx with
            word := (fun x y =>
              if x = ii ∧ y = jj then merged_word (ctx.word x y) bv dow else ctx.word x y) }) } := by
    unfold update_context
    cases hcx : p.output_context with
    | none => simp only [Option.map_none']; cases p; simp_all
    | some ctx =>
      simp only [Option.map_some']
      rw [← set_bit_merged]
      split_ifs
      · rfl
      · cases p; simp_all
  have hsingle : apply_cells p bv (fun x y => if x = ii ∧ y = jj then some (d, dow) else none)
      = { p with
          output_data := set_pixel p.output_data ii jj
            (merged_data (p.output_data.val ii jj) (p.output_counts.val ii jj) d dow),
          output_counts := set_pixel p.output_counts ii jj
            (merged_counts (p.output_counts.val ii jj) dow),
          output_context := p.output_context.map (fun ctx => { ctx with
            word := (fun x y =>
              if x = ii ∧ y = jj then merged_word (ctx.word x y) bv dow else ctx.word x y) }) } := by
    unfold apply_cells
    congr 1
    · refine plane_ext _ _ ?_ ?_ ?_
      · rfl
      · rfl
      intro x y
      show (match (if x = ii ∧ y = jj then some (d, dow) else none) with
        | none => p.output_data.val x y
        | some c => merged_data (p.output_data.val x y) (p.output_counts.val x y) c.1 c.2) = _
      by_cases h : x = ii ∧ y = jj
      · simp only [h, and_self, if_true, set_pixel]
      · simp only [h, if_false, set_pixel]
    · refine plane_ext _ _ ?_ ?_ ?_
      · rfl
      · rfl
      intro x y
      show (match (if x = ii ∧ y = jj then some (d, dow) else none) with
        | none => p.output_counts.val x y
        | some c => merged_counts (p.output_counts.val x y) c.2) = _
      by_cases h : x = ii ∧ y = jj
      · simp only [h, and_self, if_true, set_pixel]
      · simp only [h, if_false, set_pixel]
    · congr 1
      funext ctx
      refine ctx_ext _ _ ?_ ?_ ?_
      · rfl
      · rfl
      intro x y
      show (match (if x = ii ∧ y = jj then some (d, dow) else none) with
        | none => ctx.word x y
        | some c => merged_word (ctx.word x y) bv c.2) = _
      by_cases h : x = ii ∧ y = jj
      · simp only [h, and_self, if_true]
      · simp only [h, if_false]
  have hset : ∀ img : Plane, set_pixel img ii jj (img.val ii jj) = img := by
    intro img
    unfold set_pixel
    cases img
    simp only [Plane.mk.injEq, true_and]
    funext x y
    split_ifs with h
    · rw [h.1, h.2]
    · rfl
  rw [hsingle]
  by_cases h0 : Dbl.feq dow (Dbl.fin 0) = true
  · rw [update_data_skip _ _ _ _ _ _ h0, hctx]
    simp only [merged_data, merged_counts, h0, if_true, hset]
  · have h0f : Dbl.feq dow (Dbl.fin 0) = false := by simpa using h0
    rw [update_data_in_bounds _ _ _ _ _ _ (by rw [c1]; exact hd) (by rw [c2]; exact hc) h0f]
    rw [hctx]
    simp only [merged_data, merged_counts, h0f, Bool.false_eq_true, if_false, get_pixel]

theorem apply_cells_congr (q : driz_param_t) (bv : Nat) (G G1 : Int → Int → Option (Dbl × Dbl))
    (h : ∀ x y, G x y = G1 x y) : apply_cells q bv G = apply_cells q bv G1 := by
  have : G = G1 := by funext x y; exact h x y
  rw [this]

theorem apply_cells_comp (q : driz_param_t) (bv : Nat) (G : Int → Int → Option (Dbl × Dbl))
    (ii jj : Int) (c : Dbl × Dbl) (hG : G ii jj = none) :
    apply_cells (apply_cells q bv G) bv (fun x y => if x = ii ∧ y = jj then some c else none)
      = apply_cells q bv (fun x y => if x = ii ∧ y = jj then some c else G x y) := by
  unfold apply_cells
  congr 1
  · refine plane_ext _ _ ?_ ?_ ?_
    · rfl
    · rfl
    intro x y
    show (match (if x = ii ∧ y = jj then some c else none) with
      | none => (match G x y with
        | none => q.output_data.val x y
        | some c => merged_data (q.output_data.val x y) (q.output_counts.val x y) c.1 c.2)
      | some c => merged_data (match G x y with
          | none => q.output_data.val x y
          | some c => merged_data (q.output_data.val x y) (q.output_counts.val x y) c.1 c.2)
          (match G x y with
          | none => q.output_counts.val x y
          | some c => merged_counts (q.output_counts.val x y) c.2) c.1 c.2)
      = (match (if x = ii ∧ y = jj then some c else G x y) with
        | none => q.output_data.val x y
        | some c => merged_data (q.output_data.val x y) (q.output_counts.val x y) c.1 c.2)
    by_cases h : x = ii ∧ y = jj
    · simp only [h, and_self, if_true, hG]
    · simp only [h, if_false]
  · refine plane_ext _ _ ?_ ?_ ?_
    · rfl
    · rfl
    intro x y
    show (match (if x = ii ∧ y = jj then some c else none) with
      | none => (match G x y with
        | none => q.output_counts.val x y
        | some c => merged_counts (q.output_counts.val x y) c.2)
      | some c => merged_counts (match G x y with
          | none => q.output_counts.val x y
          | some c => merged_counts (q.output_counts.val x y) c.2) c.2)
      = (match (if x = ii ∧ y = jj then some c else G x y) with
        | none => q.output_counts.val x y
        | some c => merged_counts (q.output_counts.val x y) c.2)
    by_cases h : x = ii ∧ y = jj
    · simp only [h, and_self, if_true, hG]
    · simp only [h, if_false]
  · show Option.map _ (Option.map _ q.output_context) = _
    rw [Option.map_map]
    congr 1
    funext ctx
    refine ctx_ext _ _ ?_ ?_ ?_
    · rfl
    · rfl
    intro x y
    show (match (if x = ii ∧ y = jj then some c else none) with
      | none => (match G x y with
        | none => ctx.word x y
        | some c => merged_word (ctx.word x y) bv c.2)
      | some c => merged_word (match G x y with
          | none => ctx.word x y
          | some c => merged_word (ctx.word x y) bv c.2) bv c.2)
      = (match (if x = ii ∧ y = jj then some c else G x y) with
        | none => ctx.word x y
        | some c => merged_word (ctx.word x y) bv c.2)
    by_cases h : x = ii ∧ y = jj
    · simp only [h, and_self, if_true, hG]
    · simp only [h, if_false]

/-- One step of a footprint loop on a cell that has not been visited. -/
theorem deposit_step (q : driz_param_t) (bv : Nat) (F G : Int → Int → Option (Dbl × Dbl))
    (ii jj n : Int) (hG : G ii jj = none)
    (hd : oob_pixel q.output_data ii jj = false) (hc : oob_pixel q.output_counts ii jj = false) :
    deposit_at F bv ii jj (apply_cells q bv G, n)
      = Ctl.next (apply_cells q bv (fun x y => if x = ii ∧ y = jj then F ii jj else G x y),
          if (F ii jj).isSome then n + 1 else n) := by
  unfold deposit_at
  cases hF : F ii jj with
  | none =>
    simp only [Option.isSome_none, Bool.false_eq_true, if_false]
    congr 2
    apply apply_cells_congr
    intro x y
    by_cases h : x = ii ∧ y = jj
    · simp only [h, and_self, if_true, hG]
    · simp only [h, if_false]
  | some c =>
    simp only [Option.isSome_some, if_true]
    unfold contribute
    have hm := merge_cell_eq (apply_cells q bv G) ii jj bv c.1 c.2 hd hc
    simp only [hm, ne_eq, not_true_eq_false, if_false, apply_cells_comp q bv G ii jj c hG]

theorem apply_cells_none (q : driz_param_t) (bv : Nat) :
    apply_cells q bv (fun _ _ => none) = q := by
  unfold apply_cells
  cases q with
  | mk _ _ _ _ _ _ _ _ _ _ _ _ od oc ctx _ _ _ =>
    simp only [driz_param_t.mk.injEq, true_and]
    cases ctx <;> exact ⟨rfl, trivial⟩

/-- The footprint loops of a driver: two nested loops over the cells
`(cx a b, cy a b)`, each cell visited once. -/
theorem grid_loops_gen (cx cy A B : Int → Int → Int)
    (h1 : ∀ a b, A (cx a b) (cy a b) = a) (h2 : ∀ a b, B (cx a b) (cy a b) = b)
    (h3 : ∀ x y, cx (A x y) (B x y) = x) (h4 : ∀ x y, cy (A x y) (B x y) = y)
    (q : driz_param_t) (bv : Nat) (F : Int → Int → Option (Dbl × Dbl))
    (alo ahi blo bhi : Int) (body : Int → Int → driz_param_t × Int → Ctl (driz_param_t × Int))
    (hbody : ∀ a b st, body a b st = deposit_at F bv (cx a b) (cy a b) st)
    (hin : ∀ a b, alo ≤ a → a ≤ ahi → blo ≤ b → b ≤ bhi →
      oob_pixel q.output_data (cx a b) (cy a b) = false ∧
      oob_pixel q.output_counts (cx a b) (cy a b) = false) :
    ∃ n : Int,
      forLoop alo ahi (fun a st => forLoop blo bhi (fun b st1 => body a b st1) st) (q, 0)
        = Ctl.next (apply_cells q bv (fun x y =>
            if alo ≤ A x y ∧ A x y ≤ ahi ∧ blo ≤ B x y ∧ B x y ≤ bhi then F x y else none), n) ∧
      0 ≤ n ∧
      (n = 0 ↔ ∀ x y, alo ≤ A x y → A x y ≤ ahi → blo ≤ B x y → B x y ≤ bhi → F x y = none) := by
  -- the invariant: the cells visited before `(a, k)` have been applied
  have hcongr : ∀ (V V1 : Int → Int → Prop)
      [∀ x y, Decidable (V x y)] [∀ x y, Decidable (V1 x y)] (st : driz_param_t × Int),
      (∀ x y, V x y ↔ V1 x y) →
      (∃ n : Int, st = (apply_cells q bv (fun x y => if V x y then F x y else none), n) ∧ 0 ≤ n ∧
        (n = 0 ↔ ∀ x y, V x y → F x y = none)) →
      (∃ n : Int, st = (apply_cells q bv (fun x y => if V1 x y then F x y else none), n) ∧ 0 ≤ n ∧
        (n = 0 ↔ ∀ x y, V1 x y → F x y = none)) := by
    intro V V1 _ _ st hV ⟨n, e, hn, hz⟩
    refine ⟨n, ?_, hn, ?_⟩
    · rw [e]
      congr 1
      apply apply_cells_congr
      intro x y
      by_cases h : V x y
      · rw [if_pos h, if_pos ((hV x y).mp h)]
      · rw [if_neg h, if_neg (fun h1 => h ((hV x y).mpr h1))]
    · rw [hz]
      constructor
      · intro h x y hv; exact h x y ((hV x y).mpr hv)
      · intro h x y hv; exact h x y ((hV x y).mp hv)
  obtain ⟨s1, e1, n, e2, hn, hz⟩ := forLoop_rule
    (fun a st => forLoop blo bhi (fun b st1 => body a b st1) st)
    (fun a st => ∃ n : Int, st = (apply_cells q bv (fun x y =>
        if alo ≤ A x y ∧ blo ≤ B x y ∧ B x y ≤ bhi ∧ A x y < a then F x y else none), n) ∧ 0 ≤ n ∧
      (n = 0 ↔ ∀ x y, (alo ≤ A x y ∧ blo ≤ B x y ∧ B x y ≤ bhi ∧ A x y < a) → F x y = none))
    (fun st => ∃ n : Int, st = (apply_cells q bv (fun x y =>
        if alo ≤ A x y ∧ A x y ≤ ahi ∧ blo ≤ B x y ∧ B x y ≤ bhi then F x y else none), n) ∧ 0 ≤ n ∧
      (n = 0 ↔ ∀ x y, (alo ≤ A x y ∧ A x y ≤ ahi ∧ blo ≤ B x y ∧ B x y ≤ bhi) → F x y = none))
    alo ahi (q, 0)
    (by
      refine ⟨0, ?_, le_rfl, ?_⟩
      · rw [apply_cells_congr q bv _ (fun _ _ => none)
          (by intro x y; rw [if_neg (by omega)]), apply_cells_none]
      · simp only [true_iff]
        intro x y h
        omega)
    (by
      intro a st ha1 ha2 hI
      left
      obtain ⟨s2, e3, hI2⟩ := forLoop_rule (fun b st1 => body a b st1)
        (fun k st => ∃ n : Int, st = (apply_cells q bv (fun x y =>
            if alo ≤ A x y ∧ blo ≤ B x y ∧ B x y ≤ bhi ∧ (A x y < a ∨ (A x y = a ∧ B x y < k))
            then F x y else none), n) ∧ 0 ≤ n ∧
          (n = 0 ↔ ∀ x y, (alo ≤ A x y ∧ blo ≤ B x y ∧ B x y ≤ bhi ∧
            (A x y < a ∨ (A x y = a ∧ B x y < k))) → F x y = none))
        (fun st => ∃ n : Int, st = (apply_cells q bv (fun x y =>
            if alo ≤ A x y ∧ blo ≤ B x y ∧ B x y ≤ bhi ∧ A x y < a + 1 then F x y else none), n) ∧
          0 ≤ n ∧
          (n = 0 ↔ ∀ x y, (alo ≤ A x y ∧ blo ≤ B x y ∧ B x y ≤ bhi ∧ A x y < a + 1) → F x y = none))
        blo bhi st
        (hcongr _ _ st (fun x y => by constructor <;> intro h <;> omega) hI)
        (by
          intro k t hk1 hk2 ⟨n, e, hn, hz⟩
          left
          have hnone : (fun x y => if alo ≤ A x y ∧ blo ≤ B x y ∧ B x y ≤ bhi ∧
              (A x y < a ∨ (A x y = a ∧ B x y < k)) then F x y else none) (cx a k) (cy a k)
              = none := by
            simp only [h1, h2]
            rw [if_neg (by omega)]
          have hstep := deposit_step q bv F (fun x y => if alo ≤ A x y ∧ blo ≤ B x y ∧ B x y ≤ bhi ∧
              (A x y < a ∨ (A x y = a ∧ B x y < k)) then F x y else none) (cx a k) (cy a k) n hnone
            (hin a k ha1 ha2 hk1 hk2).1 (hin a k ha1 ha2 hk1 hk2).2
          refine ⟨_, by show body a k t = _; rw [hbody, e]; exact hstep, ?_⟩
          have hcell : ∀ x y, (x = cx a k ∧ y = cy a k) ↔ (A x y = a ∧ B x y = k) := by
            intro x y
            constructor
            · rintro ⟨rfl, rfl⟩; exact ⟨h1 a k, h2 a k⟩
            · rintro ⟨rfl, rfl⟩; exact ⟨(h3 x y).symm, (h4 x y).symm⟩
          refine ⟨if (F (cx a k) (cy a k)).isSome then n + 1 else n, ?_, ?_, ?_⟩
          · congr 1
            apply apply_cells_congr
            intro x y
            beta_reduce
            by_cases hxy : x = cx a k ∧ y = cy a k
            · have := (hcell x y).mp hxy
              rw [if_pos hxy, if_pos (by omega), hxy.1, hxy.2]
            · have hne := fun h => hxy ((hcell x y).mpr h)
              rw [if_neg hxy]
              by_cases hv : alo ≤ A x y ∧ blo ≤ B x y ∧ B x y ≤ bhi ∧
                  (A x y < a ∨ (A x y = a ∧ B x y < k))
              · rw [if_pos hv, if_pos (by omega)]
              · rw [if_neg hv, if_neg (by
                  intro h
                  apply hv
                  refine ⟨h.1, h.2.1, h.2.2.1, ?_⟩
                  rcases h.2.2.2 with h5 | ⟨h5, h6⟩
                  · exact Or.inl h5
                  · right
                    refine ⟨h5, ?_⟩
                    rcases lt_or_eq_of_le (Int.lt_add_one_iff.mp h6) with h7 | h7
                    · exact h7
                    · exact absurd ⟨h5, h7⟩ hne)]
          · split_ifs <;> omega
          · cases hF : F (cx a k) (cy a k) with
            | some c =>
              simp only [Option.isSome_some, if_true]
              constructor
              · intro h; omega
              · intro h
                have := h (cx a k) (cy a k) (by rw [h1, h2]; omega)
                rw [hF] at this
                exact absurd this (by simp)
            | none =>
              simp only [Option.isSome_none, Bool.false_eq_true, if_false]
              rw [hz]
              constructor
              · intro h x y hv
                by_cases hxy : A x y = a ∧ B x y = k
                · have := (hcell x y).mpr hxy
                  rw [this.1, this.2]; exact hF
                · apply h x y
                  refine ⟨hv.1, hv.2.1, hv.2.2.1, ?_⟩
                  rcases hv.2.2.2 with h5 | ⟨h5, h6⟩
                  · exact Or.inl h5
                  · right
                    refine ⟨h5, ?_⟩
                    rcases lt_or_eq_of_le (Int.lt_add_one_iff.mp h6) with h7 | h7
                    · exact h7
                    · exact absurd ⟨h5, h7⟩ hxy
              · intro h x y hv
                exact h x y (by omega))
        (by
          intro t ht
          apply hcongr _ _ t _ ht
          intro x y
          rcases le_total blo (bhi + 1) with hle | hle
          · rw [max_eq_right hle]
            constructor <;> intro h <;> omega
          · rw [max_eq_left hle]
            constructor <;> intro h <;> omega)
      exact ⟨s2, e3, hI2⟩)
    (by
      intro t ht
      apply hcongr _ _ t _ ht
      intro x y
      rcases le_total alo (ahi + 1) with hle | hle
      · rw [max_eq_right hle]
        constructor <;> intro h <;> omega
      · rw [max_eq_left hle]
        constructor <;> intro h <;> omega)
  refine ⟨n, by rw [e1, e2], hn, ?_⟩
  rw [hz]
  constructor
  · intro h x y a1 a2 a3 a4; exact h x y ⟨a1, a2, a3, a4⟩
  · intro h x y hv; exact h x y hv.1 hv.2.1 hv.2.2.1 hv.2.2.2

/-- The footprint loops with the rows outside (`jj`, then `ii`). -/
theorem grid_loops_rows (q : driz_param_t) (bv : Nat) (F : Int → Int → Option (Dbl × Dbl))
    (ylo yhi xlo xhi : Int) (body : Int → Int → driz_param_t × Int → Ctl (driz_param_t × Int))
    (hbody : ∀ jj ii st, body jj ii st = deposit_at F bv ii jj st)
    (hin : ∀ jj ii, ylo ≤ jj → jj ≤ yhi → xlo ≤ ii → ii ≤ xhi →
      oob_pixel q.output_data ii jj = false ∧ oob_pixel q.output_counts ii jj = false) :
    ∃ n : Int,
      forLoop ylo yhi (fun jj st => forLoop xlo xhi (fun ii st1 => body jj ii st1) st) (q, 0)
        = Ctl.next (apply_cells q bv (fun x y =>
            if ylo ≤ y ∧ y ≤ yhi ∧ xlo ≤ x ∧ x ≤ xhi then F x y else none), n) ∧
      0 ≤ n ∧ (n = 0 ↔ ∀ x y, ylo ≤ y → y ≤ yhi → xlo ≤ x → x ≤ xhi → F x y = none) :=
  grid_loops_gen (fun _ b => b) (fun a _ => a) (fun _ y => y) (fun x _ => x)
    (fun _ _ => rfl) (fun _ _ => rfl) (fun _ _ => rfl) (fun _ _ => rfl) q bv F ylo yhi xlo xhi
    body hbody hin

/-- The footprint loops with the columns outside (`ii`, then `jj`). -/
theorem grid_loops_cols (q : driz_param_t) (bv : Nat) (F : Int → Int → Option (Dbl × Dbl))
    (xlo xhi ylo yhi : Int) (body : Int → Int → driz_param_t × Int → Ctl (driz_param_t × Int))
    (hbody : ∀ ii jj st, body ii jj st = deposit_at F bv ii jj st)
    (hin : ∀ ii jj, xlo ≤ ii → ii ≤ xhi → ylo ≤ jj → jj ≤ yhi →
      oob_pixel q.output_data ii jj = false ∧ oob_pixel q.output_counts ii jj = false) :
    ∃ n : Int,
      forLoop xlo xhi (fun ii st => forLoop ylo yhi (fun jj st1 => body ii jj st1) st) (q, 0)
        = Ctl.next (apply_cells q bv (fun x y =>
            if xlo ≤ x ∧ x ≤ xhi ∧ ylo ≤ y ∧ y ≤ yhi then F x y else none), n) ∧
      0 ≤ n ∧ (n = 0 ↔ ∀ x y, xlo ≤ x → x ≤ xhi → ylo ≤ y → y ≤ yhi → F x y = none) :=
  grid_loops_gen (fun a _ => a) (fun _ b => b) (fun x _ => x) (fun _ y => y)
    (fun _ _ => rfl) (fun _ _ => rfl) (fun _ _ => rfl) (fun _ _ => rfl) q bv F xlo xhi ylo yhi
    body hbody hin

theorem inside_not_oob (img : Plane) (x y : Int) (hx : 0 ≤ x ∧ x ≤ (img.nx : Int) - 1)
    (hy : 0 ≤ y ∧ y ≤ (img.ny : Int) - 1) : oob_pixel img x y = false := by
  simp only [oob_pixel, Bool.or_eq_false_iff, decide_eq_false_iff_not, not_lt, not_le]
  omega

theorem count_miss_next (g : driz_param_t) (n : Int) :
    count_miss (Ctl.next (g, n)) = Ctl.next (if n = 0 then { g with nmiss := g.nmiss + 1 } else g) :=
  rfl

/-- The body of the column loop of `do_kernel_turbo` as a map of cells. -/
theorem turbo_pixel_cells (pfo scale2 ac : Dbl) (bv : Nat) (osize : Int × Int) (j i : Int)
    (q : driz_param_t)
    (hos : osize = ((q.output_data.nx : Int), (q.output_data.ny : Int)))
    (hc : q.output_counts.nx = q.output_data.nx ∧ q.output_counts.ny = q.output_data.ny) :
    ∃ n : Int,
      turbo_pixel pfo scale2 ac bv osize j i q
        = Ctl.next (pixel_result q bv (turbo_cells pfo scale2 ac osize q j i) n) ∧
      0 ≤ n ∧ (n = 0 ↔ ∀ x y, turbo_cells pfo scale2 ac osize q j i x y = none) := by
  unfold turbo_pixel turbo_cells
  cases hmap : map_pixel q.pixmap i j with
  | none =>
    refine ⟨0, ?_, le_rfl, by simp⟩
    simp only [count_miss_next, pixel_result, if_true, apply_cells_none]
  | some v =>
    obtain ⟨ox, oy⟩ := v
    simp only []
    obtain ⟨n, e, hn, hz⟩ := grid_loops_rows q bv
      (fun x y =>
        if Dbl.gt (over x y (ox - pfo) (ox + pfo) (oy - pfo) (oy + pfo)) (Dbl.fin 0) then
          some (get_pixel q.data i j * scale2,
            over x y (ox - pfo) (ox + pfo) (oy - pfo) (oy + pfo) * (scale2 * ac)
              * pixel_weight q i j)
        else none)
      (max (fortran_round (oy - pfo)) 0) (min (fortran_round (oy + pfo)) (osize.2 - 1))
      (max (fortran_round (ox - pfo)) 0) (min (fortran_round (ox + pfo)) (osize.1 - 1))
      (fun jj ii st1 =>
        if Dbl.gt (over ii jj (ox - pfo) (ox + pfo) (oy - pfo) (oy + pfo)) (Dbl.fin 0) then
          contribute st1 (st1.2 + 1) ii jj bv (get_pixel q.data i j * scale2)
            (get_pixel st1.1.output_counts ii jj)
            (over ii jj (ox - pfo) (ox + pfo) (oy - pfo) (oy + pfo) * (scale2 * ac)
              * pixel_weight q i j)
        else Ctl.next st1)
      (by
        intro a b st
        unfold deposit_at
        beta_reduce
        split_ifs <;> rfl)
      (by
        intro a b ha1 ha2 hb1 hb2
        rw [hos] at ha2 hb2
        have := le_max_right (fortran_round (oy - pfo)) 0
        have := le_max_right (fortran_round (ox - pfo)) 0
        have := min_le_right (fortran_round (oy + pfo)) ((q.output_data.ny : Int) - 1)
        have := min_le_right (fortran_round (ox + pfo)) ((q.output_data.nx : Int) - 1)
        exact ⟨inside_not_oob _ _ _ ⟨by omega, by omega⟩ ⟨by omega, by omega⟩,
          inside_not_oob _ _ _ ⟨by omega, by rw [hc.1]; omega⟩ ⟨by omega, by rw [hc.2]; omega⟩⟩)
    refine ⟨n, ?_, hn, ?_⟩
    · rw [e, count_miss_next]
      rfl
    · rw [hz]
      constructor
      · intro h x y
        by_cases hr : max (fortran_round (oy - pfo)) 0 ≤ y ∧
            y ≤ min (fortran_round (oy + pfo)) (osize.2 - 1) ∧
            max (fortran_round (ox - pfo)) 0 ≤ x ∧ x ≤ min (fortran_round (ox + pfo)) (osize.1 - 1)
        · rw [if_pos hr]
          exact h x y hr.1 hr.2.1 hr.2.2.1 hr.2.2.2
        · rw [if_neg hr]
      · intro h x y a1 a2 a3 a4
        have := h x y
        rw [if_pos ⟨a1, a2, a3, a4⟩] at this
        exact this

/-- The body of the column loop of `do_kernel_gaussian` as a map of cells. -/
theorem gaussian_pixel_cells (E : Extern) (pfo efac es scale2 : Dbl) (bv : Nat)
    (osize : Int × Int) (j i : Int) (q : driz_param_t)
    (hos : osize = ((q.output_data.nx : Int), (q.output_data.ny : Int)))
    (hc : q.output_counts.nx = q.output_data.nx ∧ q.output_counts.ny = q.output_data.ny) :
    ∃ n : Int,
      gaussian_pixel E pfo efac es scale2 bv osize j i q
        = Ctl.next (pixel_result q bv (gaussian_cells E pfo efac es scale2 osize q j i) n) ∧
      0 ≤ n ∧ (n = 0 ↔ ∀ x y, gaussian_cells E pfo efac es scale2 osize q j i x y = none) := by
  unfold gaussian_pixel gaussian_cells
  cases hmap : map_pixel q.pixmap i j with
  | none =>
    refine ⟨0, ?_, le_rfl, by simp⟩
    simp only [count_miss_next, pixel_result, if_true, apply_cells_none]
  | some v =>
    obtain ⟨ox, oy⟩ := v
    simp only []
    obtain ⟨n, e, hn, hz⟩ := grid_loops_rows q bv
      (fun x y => some (get_pixel q.data i j * scale2,
        es * E.exp ((-((ox - Dbl.ofInt x) * (ox - Dbl.ofInt x)
          + (oy - Dbl.ofInt y) * (oy - Dbl.ofInt y))) * efac) * pixel_weight q i j))
      (max (fortran_round (oy - pfo)) 0) (min (fortran_round (oy + pfo)) (osize.2 - 1))
      (max (fortran_round (ox - pfo)) 0) (min (fortran_round (ox + pfo)) (osize.1 - 1))
      (fun jj ii st1 =>
        contribute st1 (st1.2 + 1) ii jj bv (get_pixel q.data i j * scale2)
          (get_pixel st1.1.output_counts ii jj)
          (es * E.exp ((-((ox - Dbl.ofInt ii) * (ox - Dbl.ofInt ii)
            + (oy - Dbl.ofInt jj) * (oy - Dbl.ofInt jj))) * efac) * pixel_weight q i j))
      (by
        intro a b st
        rfl)
      (by
        intro a b ha1 ha2 hb1 hb2
        rw [hos] at ha2 hb2
        have := le_max_right (fortran_round (oy - pfo)) 0
        have := le_max_right (fortran_round (ox - pfo)) 0
        have := min_le_right (fortran_round (oy + pfo)) ((q.output_data.ny : Int) - 1)
        have := min_le_right (fortran_round (ox + pfo)) ((q.output_data.nx : Int) - 1)
        exact ⟨inside_not_oob _ _ _ ⟨by omega, by omega⟩ ⟨by omega, by omega⟩,
          inside_not_oob _ _ _ ⟨by omega, by rw [hc.1]; omega⟩ ⟨by omega, by rw [hc.2]; omega⟩⟩)
    refine ⟨n, ?_, hn, ?_⟩
    · rw [e, count_miss_next]
      rfl
    · rw [hz]
      constructor
      · intro h x y
        by_cases hr : max (fortran_round (oy - pfo)) 0 ≤ y ∧
            y ≤ min (fortran_round (oy + pfo)) (osize.2 - 1) ∧
            max (fortran_round (ox - pfo)) 0 ≤ x ∧ x ≤ min (fortran_round (ox + pfo)) (osize.1 - 1)
        · rw [if_pos hr]
          exact h x y hr.1 hr.2.1 hr.2.2.1 hr.2.2.2
        · rw [if_neg hr]
      · intro h x y a1 a2 a3 a4
        have := h x y
        rw [if_pos ⟨a1, a2, a3, a4⟩] at this
        exact this

/-- The body of the column loop of `do_kernel_lanczos` as a map of cells. -/
theorem lanczos_pixel_cells (lut : Int → Dbl) (sdp pfo scale2 : Dbl) (bv : Nat)
    (osize : Int × Int) (j i : Int) (q : driz_param_t)
    (hos : osize = ((q.output_data.nx : Int), (q.output_data.ny : Int)))
    (hc : q.output_counts.nx = q.output_data.nx ∧ q.output_counts.ny = q.output_data.ny) :
    ∃ n : Int,
      lanczos_pixel lut sdp pfo scale2 bv osize j i q
        = Ctl.next (pixel_result q bv (lanczos_cells lut sdp pfo scale2 osize q j i) n) ∧
      0 ≤ n ∧ (n = 0 ↔ ∀ x y, lanczos_cells lut sdp pfo scale2 osize q j i x y = none) := by
  unfold lanczos_pixel lanczos_cells
  cases hmap : map_pixel q.pixmap i j with
  | none =>
    refine ⟨0, ?_, le_rfl, by simp⟩
    simp only [count_miss_next, pixel_result, if_true, apply_cells_none]
  | some v =>
    obtain ⟨xx, yy⟩ := v
    simp only []
    obtain ⟨n, e, hn, hz⟩ := grid_loops_rows q bv
      (fun x y => some (get_pixel q.data i j * scale2,
        lut (fortran_round (Dbl.abs (xx - Dbl.ofInt x) * sdp) + 1)
          * lut (fortran_round (Dbl.abs (yy - Dbl.ofInt y) * sdp) + 1) * pixel_weight q i j))
      (max (fortran_round (yy - Dbl.fin 1 - pfo)) 0)
      (min (fortran_round (yy - Dbl.fin 1 + pfo)) (osize.2 - 1))
      (max (fortran_round (xx - Dbl.fin 1 - pfo)) 0)
      (min (fortran_round (xx - Dbl.fin 1 + pfo)) (osize.1 - 1))
      (fun jj ii st1 =>
        contribute st1 (st1.2 + 1) ii jj bv (get_pixel q.data i j * scale2)
          (get_pixel st1.1.output_counts ii jj)
          (lut (fortran_round (Dbl.abs (xx - Dbl.ofInt ii) * sdp) + 1)
            * lut (fortran_round (Dbl.abs (yy - Dbl.ofInt jj) * sdp) + 1) * pixel_weight q i j))
      (by
        intro a b st
        rfl)
      (by
        intro a b ha1 ha2 hb1 hb2
        rw [hos] at ha2 hb2
        have := le_max_right (fortran_round (yy - Dbl.fin 1 - pfo)) 0
        have := le_max_right (fortran_round (xx - Dbl.fin 1 - pfo)) 0
        have := min_le_right (fortran_round (yy - Dbl.fin 1 + pfo)) ((q.output_data.ny : Int) - 1)
        have := min_le_right (fortran_round (xx - Dbl.fin 1 + pfo)) ((q.output_data.nx : Int) - 1)
        exact ⟨inside_not_oob _ _ _ ⟨by omega, by omega⟩ ⟨by omega, by omega⟩,
          inside_not_oob _ _ _ ⟨by omega, by rw [hc.1]; omega⟩ ⟨by omega, by rw [hc.2]; omega⟩⟩)
    refine ⟨n, ?_, hn, ?_⟩
    · rw [e, count_miss_next]
      rfl
    · rw [hz]
      constructor
      · intro h x y
        by_cases hr : max (fortran_round (yy - Dbl.fin 1 - pfo)) 0 ≤ y ∧
            y ≤ min (fortran_round (yy - Dbl.fin 1 + pfo)) (osize.2 - 1) ∧
            max (fortran_round (xx - Dbl.fin 1 - pfo)) 0 ≤ x ∧
            x ≤ min (fortran_round (xx - Dbl.fin 1 + pfo)) (osize.1 - 1)
        · rw [if_pos hr]
          exact h x y hr.1 hr.2.1 hr.2.2.1 hr.2.2.2
        · rw [if_neg hr]
      · intro h x y a1 a2 a3 a4
        have := h x y
        rw [if_pos ⟨a1, a2, a3, a4⟩] at this
        exact this

/-- The body of the column loop of `do_kernel_square` as a map of cells. -/
theorem square_pixel_cells (E : Extern) (dh scale2 : Dbl) (bv : Nat)
    (osize : Int × Int) (j i : Int) (q : driz_param_t)
    (hos : osize = ((q.output_data.nx : Int), (q.output_data.ny : Int)))
    (hc : q.output_counts.nx = q.output_data.nx ∧ q.output_counts.ny = q.output_data.ny) :
    ∃ n : Int,
      square_pixel E dh scale2 bv osize j i q
        = Ctl.next (pixel_result q bv (square_cells E dh scale2 osize q j i) n) ∧
      0 ≤ n ∧ (n = 0 ↔ ∀ x y, square_cells E dh scale2 osize q j i x y = none) := by
  unfold square_pixel square_cells square_footprint
  simp only []
  cases hmap : interpolate_corners E q (corner_xin dh i) (corner_yin dh j) with
  | none =>
    refine ⟨0, ?_, le_rfl, by simp⟩
    simp only [count_miss_next, pixel_result, if_true, apply_cells_none]
  | some v =>
    obtain ⟨xout0, yout0⟩ := v
    simp only []
    generalize hjaco : (if Dbl.lt (signed_jaco xout0 yout0) (Dbl.fin 0) = true then
      signed_jaco xout0 yout0 * Dbl.fin (-1) else signed_jaco xout0 yout0) = jaco
    generalize swap13 (Dbl.lt (signed_jaco xout0 yout0) (Dbl.fin 0)) xout0 = xout
    generalize swap13 (Dbl.lt (signed_jaco xout0 yout0) (Dbl.fin 0)) yout0 = yout
    obtain ⟨n, e, hn, hz⟩ := grid_loops_cols q bv
      (fun x y =>
        if Dbl.gt (boxer (Dbl.ofInt x) (Dbl.ofInt y) xout yout (edge_sgn_dx xout)
            (edge_slope xout yout) (edge_inv_slope xout yout)) (Dbl.fin 0) then
          some (get_pixel q.data i j * scale2,
            boxer (Dbl.ofInt x) (Dbl.ofInt y) xout yout (edge_sgn_dx xout)
              (edge_slope xout yout) (edge_inv_slope xout yout) / jaco * pixel_weight q i j)
        else none)
      (max (fortran_round (min_doubles xout)) 0)
      (min (fortran_round (max_doubles xout)) (osize.1 - 1))
      (max (fortran_round (min_doubles yout)) 0)
      (min (fortran_round (max_doubles yout)) (osize.2 - 1))
      (fun ii jj st1 =>
        if Dbl.gt (boxer (Dbl.ofInt ii) (Dbl.ofInt jj) xout yout (edge_sgn_dx xout)
            (edge_slope xout yout) (edge_inv_slope xout yout)) (Dbl.fin 0) then
          contribute st1 (st1.2 + 1) ii jj bv (get_pixel q.data i j * scale2)
            (get_pixel st1.1.output_counts ii jj)
            (boxer (Dbl.ofInt ii) (Dbl.ofInt jj) xout yout (edge_sgn_dx xout)
              (edge_slope xout yout) (edge_inv_slope xout yout) / jaco * pixel_weight q i j)
        else Ctl.next st1)
      (by
        intro a b st
        unfold deposit_at
        beta_reduce
        split_ifs <;> rfl)
      (by
        intro a b ha1 ha2 hb1 hb2
        rw [hos] at ha2 hb2
        have := le_max_right (fortran_round (min_doubles yout)) 0
        have := le_max_right (fortran_round (min_doubles xout)) 0
        have := min_le_right (fortran_round (max_doubles yout)) ((q.output_data.ny : Int) - 1)
        have := min_le_right (fortran_round (max_doubles xout)) ((q.output_data.nx : Int) - 1)
        exact ⟨inside_not_oob _ _ _ ⟨by omega, by omega⟩ ⟨by omega, by omega⟩,
          inside_not_oob _ _ _ ⟨by omega, by rw [hc.1]; omega⟩ ⟨by omega, by rw [hc.2]; omega⟩⟩)
    refine ⟨n, ?_, hn, ?_⟩
    · rw [e, count_miss_next]
      rfl
    · rw [hz]
      constructor
      · intro h x y
        by_cases hr : max (fortran_round (min_doubles xout)) 0 ≤ x ∧
            x ≤ min (fortran_round (max_doubles xout)) (osize.1 - 1) ∧
            max (fortran_round (min_doubles yout)) 0 ≤ y ∧
            y ≤ min (fortran_round (max_doubles yout)) (osize.2 - 1)
        · rw [if_pos hr]
          exact h x y hr.1 hr.2.1 hr.2.2.1 hr.2.2.2
        · rw [if_neg hr]
      · intro h x y a1 a2 a3 a4
        have := h x y
        rw [if_pos ⟨a1, a2, a3, a4⟩] at this
        exact this

/-- The body of the column loop of `do_kernel_point` as a map of cells. -/
theorem point_pixel_cells (scale2 : Dbl) (bv : Nat)
    (osize : Int × Int) (j i : Int) (q : driz_param_t)
    (hos : osize = ((q.output_data.nx : Int), (q.output_data.ny : Int)))
    (hc : q.output_counts.nx = q.output_data.nx ∧ q.output_counts.ny = q.output_data.ny) :
    ∃ n : Int,
      point_pixel scale2 bv osize j i q
        = Ctl.next (pixel_result q bv (point_cells scale2 osize q j i) n) ∧
      0 ≤ n ∧ (n = 0 ↔ ∀ x y, point_cells scale2 osize q j i x y = none) := by
  unfold point_pixel point_cells
  cases hmap : map_pixel q.pixmap i j with
  | none =>
    refine ⟨0, ?_, le_rfl, by simp⟩
    simp only [pixel_result, if_true, apply_cells_none]
  | some v =>
    obtain ⟨ox, oy⟩ := v
    simp only []
    by_cases hr : fortran_round ox < 0 ∨ fortran_round ox ≥ osize.1 ∨ fortran_round oy < 0 ∨
        fortran_round oy ≥ osize.2
    · refine ⟨0, ?_, le_rfl, by simp [hr]⟩
      simp only [hr, if_true, pixel_result, apply_cells_none]
    · refine ⟨1, ?_, by norm_num, ?_⟩
      · simp only [hr, if_false, pixel_result, one_ne_zero]
        rw [hos] at hr
        have hm := merge_cell_eq q (fortran_round ox) (fortran_round oy) bv
          (get_pixel q.data i j * scale2) (pixel_weight q i j)
          (inside_not_oob _ _ _ ⟨by omega, by omega⟩ ⟨by omega, by omega⟩)
          (inside_not_oob _ _ _ ⟨by omega, by rw [hc.1]; omega⟩ ⟨by omega, by rw [hc.2]; omega⟩)
        rw [hm]
        simp only [ne_eq, not_true_eq_false, if_false]
      · simp only [hr, if_false, one_ne_zero, false_iff, not_forall]
        exact ⟨fortran_round ox, fortran_round oy, by simp⟩

/-! ## No update outside the output planes -/

/-- A property kept by the body of the column loop, which never returns, is
kept by the whole row loop, which then runs to its end. -/
theorem scan_loop_next (I : driz_param_t → Prop) (s : Scanner)
    (pixel : Int → Int → driz_param_t → Ctl driz_param_t)
    (hcount : ∀ (q : driz_param_t) (a b : Int), I q → I { q with nmiss := a, nskip := b })
    (hpix : ∀ j i q, I q → ∃ q1, pixel j i q = Ctl.next q1 ∧ I q1)
    (p1 : driz_param_t) (h : I p1) :
    ∃ q, forLoop s.ymin s.ymax
        (scan_row s (fun j xmin xmax q => forLoop xmin xmax (pixel j) q)) p1 = Ctl.next q ∧ I q := by
  apply forLoop_rule _ (fun _ t => I t) I _ _ _ h
  · intro j t _ _ ht
    unfold scan_row
    by_cases h1 : (s.rows j).status = 1
    · right
      simp only [h1, if_true]
      exact ⟨_, rfl, hcount t _ _ ht⟩
    · left
      by_cases h2 : (s.rows j).status = 2 ∨ (s.rows j).status = 3
      · simp only [h1, if_false, h2, if_true]
        exact ⟨_, rfl, hcount t _ _ ht⟩
      · simp only [h1, if_false, h2]
        apply forLoop_rule _ (fun _ t => I t) I
        · exact hcount t _ _ ht
        · intro i q _ _ hq
          left
          exact hpix j i q hq
        · exact fun _ ht => ht
  · exact fun _ ht => ht

theorem pixel_result_frame (p q : driz_param_t) (bv : Nat) (G : Int → Int → Option (Dbl × Dbl))
    (n : Int) (h : Frame p q) : Frame p (pixel_result q bv G n) := by
  unfold pixel_result
  split_ifs <;> exact h

theorem pixel_result_error (q : driz_param_t) (bv : Nat) (G : Int → Int → Option (Dbl × Dbl))
    (n : Int) : (pixel_result q bv G n).error = q.error := by
  unfold pixel_result
  split_ifs <;> rfl

theorem Frame_init (p : driz_param_t) (s : Scanner) : Frame p (init_counters p s) :=
  ⟨rfl, rfl, rfl, rfl, rfl, rfl, rfl, rfl, rfl, rfl, rfl, rfl, rfl, rfl, rfl, rfl⟩

theorem Frame_osize (p q : driz_param_t) (h : Frame p q) :
    get_dimensions p.output_data = ((q.output_data.nx : Int), (q.output_data.ny : Int)) := by
  unfold get_dimensions
  rw [h.2.2.2.2.2.2.2.2.2.2.2.2.1, h.2.2.2.2.2.2.2.2.2.2.2.2.2.1]

theorem Frame_counts (p q : driz_param_t) (h : Frame p q)
    (hdim : p.output_counts.nx = p.output_data.nx ∧ p.output_counts.ny = p.output_data.ny) :
    q.output_counts.nx = q.output_data.nx ∧ q.output_counts.ny = q.output_data.ny := by
  obtain ⟨_, _, _, _, _, _, _, _, _, _, _, _, a1, a2, a3, a4⟩ := h
  rw [a1, a2, a3, a4]
  exact hdim

/-- With output planes of the same shape the row loop of a driver runs to its
end, and the error sink is left as the scanner set it. -/
theorem driver_loop_clean (p : driz_param_t) (s : Scanner)
    (pixel : Int → Int → driz_param_t → Ctl driz_param_t)
    (hpix : ∀ j i q, Frame p q → ∃ G n, pixel j i q = Ctl.next (pixel_result q
      (compute_bit_value p.uuid) G n)) :
    ∃ q, forLoop s.ymin s.ymax
        (scan_row s (fun j xmin xmax q => forLoop xmin xmax (pixel j) q)) (init_counters p s)
          = Ctl.next q ∧ Frame p q ∧ q.error = s.error := by
  apply scan_loop_next (fun q => Frame p q ∧ q.error = s.error)
  · intro q a b h
    exact h
  · intro j i q ⟨h1, h2⟩
    obtain ⟨G, n, e⟩ := hpix j i q h1
    exact ⟨_, e, pixel_result_frame p q _ G n h1, by rw [pixel_result_error, h2]⟩
  · exact ⟨Frame_init p s, rfl⟩

theorem not_oob_of_range (img : Plane) (x y a b c d : Int)
    (h : c ≤ y ∧ y ≤ min d ((get_dimensions img).2 - 1) ∧ a ≤ x ∧
      x ≤ min b ((get_dimensions img).1 - 1))
    (ha : 0 ≤ a) (hc : 0 ≤ c) : oob_pixel img x y = false := by
  have h1 := min_le_right d ((get_dimensions img).2 - 1)
  have h2 := min_le_right b ((get_dimensions img).1 - 1)
  simp only [get_dimensions] at h h1 h2
  exact inside_not_oob _ _ _ ⟨by omega, by omega⟩ ⟨by omega, by omega⟩

/-- Every destination pixel for which a driver calls `update_data` lies inside
`output_data`. -/
theorem cells_inside (E : Extern) (q : driz_param_t) (j i x y : Int) (c : Dbl × Dbl) :
    (∀ scale2, point_cells scale2 (get_dimensions q.output_data) q j i x y = some c →
      oob_pixel q.output_data x y = false) ∧
    (∀ pfo efac es scale2,
      gaussian_cells E pfo efac es scale2 (get_dimensions q.output_data) q j i x y = some c →
      oob_pixel q.output_data x y = false) ∧
    (∀ lut sdp pfo scale2,
      lanczos_cells lut sdp pfo scale2 (get_dimensions q.output_data) q j i x y = some c →
      oob_pixel q.output_data x y = false) ∧
    (∀ pfo scale2 ac,
      turbo_cells pfo scale2 ac (get_dimensions q.output_data) q j i x y = some c →
      oob_pixel q.output_data x y = false) ∧
    (∀ dh scale2,
      square_cells E dh scale2 (get_dimensions q.output_data) q j i x y = some c →
      oob_pixel q.output_data x y = false) := by
  refine ⟨?_, ?_, ?_, ?_, ?_⟩
  · intro scale2 h
    unfold point_cells at h
    split at h
    · exact absurd h (by simp)
    · simp only [] at h
      split_ifs at h with h1 h2
      · rw [h2.1, h2.2]
        simp only [get_dimensions] at h1
        exact inside_not_oob _ _ _ ⟨by omega, by omega⟩ ⟨by omega, by omega⟩
  · intro pfo efac es scale2 h
    unfold gaussian_cells at h
    split at h
    · exact absurd h (by simp)
    · simp only [] at h
      split_ifs at h with h1
      exact not_oob_of_range _ _ _ _ _ _ _ h1 (le_max_right _ _) (le_max_right _ _)
  · intro lut sdp pfo scale2 h
    unfold lanczos_cells at h
    split at h
    · exact absurd h (by simp)
    · simp only [] at h
      split_ifs at h with h1
      exact not_oob_of_range _ _ _ _ _ _ _ h1 (le_max_right _ _) (le_max_right _ _)
  · intro pfo scale2 ac h
    unfold turbo_cells at h
    split at h
    · exact absurd h (by simp)
    · simp only [] at h
      split_ifs at h with h1 h2
      exact not_oob_of_range _ _ _ _ _ _ _ h1 (le_max_right _ _) (le_max_right _ _)
  · intro dh scale2 h
    unfold square_cells at h
    split at h
    · exact absurd h (by simp)
    · simp only [] at h
      split_ifs at h with h1
      all_goals
        exact not_oob_of_range _ _ _ _ _ _ _ ⟨h1.2.2.1, h1.2.2.2, h1.1, h1.2.1⟩
          (le_max_right _ _) (le_max_right _ _)

theorem point_pixmap_outside (scale2 : Dbl) (bv : Nat) (osize : Int × Int) (j i : Int)
    (q : driz_param_t) (h : q.pixmap i j = (Dbl.fin (-1), Dbl.fin (-1))) :
    point_pixel scale2 bv osize j i q = Ctl.next { q with nmiss := q.nmiss + 1 } := by
  have hr : fortran_round (Dbl.fin (-1)) = -1 := by
    unfold fortran_round
    norm_num
  unfold point_pixel map_pixel
  simp [h, Dbl.isFinite, hr]

/-- C14: no update outside the output planes.  With `output_counts` of the
shape of `output_data`, for any pixmap and parameters: every driver leaves the
error sink as the scanner left it and returns non-zero only when the scanner
failed (the lanczos driver also when its table cannot be allocated), so
`update_data` never takes its out-of-bounds branch; every destination pixel
for which a driver calls `update_data` satisfies `0 ≤ ii < W_out` and
`0 ≤ jj < H_out`; and the point kernel with the pixmap `≡ (−1, −1)` leaves
`output_data` and `output_counts` unchanged and sets no error. -/
theorem no_oob_update (E : Extern) (p : driz_param_t)
    (hdim : p.output_counts.nx = p.output_data.nx ∧ p.output_counts.ny = p.output_data.ny) :
    (∀ D ∈ [do_kernel_point E, do_kernel_gaussian E, do_kernel_turbo E, do_kernel_square E],
      (D p).2.error = (E.init_image_scanner p).error ∧
      ((D p).1 ≠ 0 ↔ (E.init_image_scanner p).ret ≠ 0)) ∧
    (E.malloc_fails = false →
      (do_kernel_lanczos E p).2.error = (E.init_image_scanner p).error ∧
      ((do_kernel_lanczos E p).1 ≠ 0 ↔ (E.init_image_scanner p).ret ≠ 0)) ∧
    (E.malloc_fails = true →
      do_kernel_lanczos E p = (1, { p with error := some "Out of memory" })) ∧
    (∀ (q : driz_param_t) (j i x y : Int) (c : Dbl × Dbl),
      ((∃ scale2, point_cells scale2 (get_dimensions q.output_data) q j i x y = some c) ∨
       (∃ pfo efac es scale2, gaussian_cells E pfo efac es scale2
          (get_dimensions q.output_data) q j i x y = some c) ∨
       (∃ lut sdp pfo scale2, lanczos_cells lut sdp pfo scale2
          (get_dimensions q.output_data) q j i x y = some c) ∨
       (∃ pfo scale2 ac, turbo_cells pfo scale2 ac
          (get_dimensions q.output_data) q j i x y = some c) ∨
       (∃ dh scale2, square_cells E dh scale2
          (get_dimensions q.output_data) q j i x y = some c)) →
      0 ≤ x ∧ x < (q.output_data.nx : Int) ∧ 0 ≤ y ∧ y < (q.output_data.ny : Int)) ∧
    ((∀ i j, p.pixmap i j = (Dbl.fin (-1), Dbl.fin (-1))) →
      (do_kernel_point E p).2.output_data = p.output_data ∧
      (do_kernel_point E p).2.output_counts = p.output_counts ∧
      (do_kernel_point E p).2.error = (E.init_image_scanner p).error) := by
  have hrun : ∀ (pixel : Int → Int → driz_param_t → Ctl driz_param_t),
      (∀ j i q, Frame p q → ∃ G n, pixel j i q = Ctl.next (pixel_result q
        (compute_bit_value p.uuid) G n)) →
      ∀ r : Int × driz_param_t,
      r = (if (E.init_image_scanner p).ret ≠ 0 then
          (1, { p with error := (E.init_image_scanner p).error })
        else driver_result (forLoop (E.init_image_scanner p).ymin (E.init_image_scanner p).ymax
          (scan_row (E.init_image_scanner p) (fun j xmin xmax q => forLoop xmin xmax (pixel j) q))
          (init_counters p (E.init_image_scanner p)))) →
      r.2.error = (E.init_image_scanner p).error ∧
        (r.1 ≠ 0 ↔ (E.init_image_scanner p).ret ≠ 0) := by
    intro pixel hpix r hr
    by_cases hret : (E.init_image_scanner p).ret = 0
    · obtain ⟨q, e, _, he⟩ := driver_loop_clean p (E.init_image_scanner p) pixel hpix
      rw [hr, e]
      simp only [hret, ne_eq, not_true_eq_false, if_false, driver_result]
      exact ⟨he, by simp⟩
    · rw [hr]
      simp [hret]
  have hpoint : ∀ j i q, Frame p q → ∃ G n, point_pixel (p.scale * p.scale)
      (compute_bit_value p.uuid) (get_dimensions p.output_data) j i q
        = Ctl.next (pixel_result q (compute_bit_value p.uuid) G n) := by
    intro j i q hq
    obtain ⟨n, e, _⟩ := point_pixel_cells (p.scale * p.scale) (compute_bit_value p.uuid)
      (get_dimensions p.output_data) j i q (Frame_osize p q hq) (Frame_counts p q hq hdim)
    exact ⟨_, n, e⟩
  refine ⟨?_, ?_, ?_, ?_, ?_⟩
  · intro D hD
    simp only [List.mem_cons, List.mem_singleton, List.not_mem_nil, or_false] at hD
    rcases hD with rfl | rfl | rfl | rfl
    · exact hrun _ hpoint _ rfl
    · refine hrun _ ?_ _ rfl
      intro j i q hq
      obtain ⟨n, e, _⟩ := gaussian_pixel_cells E _ _ _ _ (compute_bit_value p.uuid)
        (get_dimensions p.output_data) j i q (Frame_osize p q hq) (Frame_counts p q hq hdim)
      exact ⟨_, n, e⟩
    · refine hrun _ ?_ _ rfl
      intro j i q hq
      obtain ⟨n, e, _⟩ := turbo_pixel_cells _ _ _ (compute_bit_value p.uuid)
        (get_dimensions p.output_data) j i q (Frame_osize p q hq) (Frame_counts p q hq hdim)
      exact ⟨_, n, e⟩
    · refine hrun _ ?_ _ rfl
      intro j i q hq
      obtain ⟨n, e, _⟩ := square_pixel_cells E _ _ (compute_bit_value p.uuid)
        (get_dimensions p.output_data) j i q (Frame_osize p q hq) (Frame_counts p q hq hdim)
      exact ⟨_, n, e⟩
  · intro hm
    refine hrun (lanczos_pixel (E.lanczos_lut (if p.kernel = kernel_lanczos2 then 2 else 3))
      (p.scale / Dbl.fin (1 / 100) / p.pixel_fraction)
      (Dbl.ofInt (if p.kernel = kernel_lanczos2 then 2 else 3) * p.pixel_fraction / p.scale)
      (p.scale * p.scale) (compute_bit_value p.uuid) (get_dimensions p.output_data)) ?_ _
      (by unfold do_kernel_lanczos; simp only [hm, Bool.false_eq_true, if_false]; rfl)
    intro j i q hq
    obtain ⟨n, e, _⟩ := lanczos_pixel_cells _ _ _ _ (compute_bit_value p.uuid)
      (get_dimensions p.output_data) j i q (Frame_osize p q hq) (Frame_counts p q hq hdim)
    exact ⟨_, n, e⟩
  · intro hm
    unfold do_kernel_lanczos
    simp only [hm, if_true]
  · intro q j i x y c h
    have hin : oob_pixel q.output_data x y = false := by
      obtain ⟨c1, c2, c3, c4, c5⟩ := cells_inside E q j i x y c
      rcases h with ⟨a0, h⟩ | ⟨a1, a2, a3, a0, h⟩ | ⟨a1, a2, a3, a0, h⟩ | ⟨a1, a0, a2, h⟩ |
        ⟨a1, a0, h⟩
      · exact c1 _ h
      · exact c2 _ _ _ _ h
      · exact c3 _ _ _ _ h
      · exact c4 _ _ _ h
      · exact c5 _ _ h
    simp only [oob_pixel, Bool.or_eq_false_iff, decide_eq_false_iff_not, not_lt, not_le] at hin
    omega
  · intro hpm
    unfold do_kernel_point
    by_cases hret : (E.init_image_scanner p).ret = 0
    · simp only [hret, ne_eq, not_true_eq_false, if_false]
      have := scan_loop_preserves
        (fun q => q.pixmap = p.pixmap ∧ q.output_data = p.output_data ∧
          q.output_counts = p.output_counts ∧ q.error = (E.init_image_scanner p).error)
        (E.init_image_scanner p)
        (point_pixel (p.scale * p.scale) (compute_bit_value p.uuid)
          (get_dimensions (init_counters p (E.init_image_scanner p)).output_data))
        (fun q q1 _ _ e3 e4 _ e6 _ e8 hq => ⟨by rw [e6, hq.1], by rw [e4, hq.2.1],
          by rw [e3, hq.2.2.1], by rw [e8, hq.2.2.2]⟩)
        (fun j i q hq => by
          rw [point_pixmap_outside _ _ _ j i q (by rw [hq.1]; exact hpm i j)]
          exact hq)
        (init_counters p (E.init_image_scanner p)) ⟨rfl, rfl, rfl, rfl⟩
      exact this.2
    · simp [hret]

/-- C14 at a concrete input: the point kernel on the 3×3 image mapped to
`(−1, −1)`. -/
theorem no_oob_update_witness :
    (do_kernel_point demo_env
        { demo_param with pixmap := fun _ _ => (Dbl.fin (-1), Dbl.fin (-1)) }).2.output_counts
      = zero_plane 3 3 ∧
    (do_kernel_point demo_env
        { demo_param with pixmap := fun _ _ => (Dbl.fin (-1), Dbl.fin (-1)) }).2.error = none :=
  let h := (no_oob_update demo_env
    { demo_param with pixmap := fun _ _ => (Dbl.fin (-1), Dbl.fin (-1)) } ⟨rfl, rfl⟩).2.2.2.2
    (fun _ _ => rfl)
  ⟨h.2.1, h.2.2⟩

/-! ## The context plane -/

/-- The column loop of one row: an invariant indexed by the set of source
pixels processed so far. -/
theorem scan_columns_rule (pixel : Int → Int → driz_param_t → Ctl driz_param_t)
    (Inv : (Int → Int → Prop) → driz_param_t → Prop)
    (hcongr : ∀ (P P1 : Int → Int → Prop) q, (∀ x y, P x y ↔ P1 x y) → Inv P q → Inv P1 q)
    (j x1 x2 : Int) (Pprev : Int → Int → Prop) (hprev : ∀ x y, Pprev x y → y < j)
    (hpix : ∀ (P : Int → Int → Prop) i q, x1 ≤ i → i ≤ x2 → ¬ P i j → Inv P q →
      ∃ q1, pixel j i q = Ctl.next q1 ∧ Inv (fun x y => P x y ∨ (x = i ∧ y = j)) q1)
    (q : driz_param_t) (hq : Inv Pprev q) :
    ∃ q1, forLoop x1 x2 (pixel j) q = Ctl.next q1 ∧
      Inv (fun x y => Pprev x y ∨ (y = j ∧ x1 ≤ x ∧ x ≤ x2)) q1 := by
  apply forLoop_rule _ (fun i t => Inv (fun x y => Pprev x y ∨ (y = j ∧ x1 ≤ x ∧ x < i)) t)
  · apply hcongr _ _ q _ hq
    intro x y
    constructor
    · intro h; exact Or.inl h
    · rintro (h | ⟨_, h1, h2⟩)
      · exact h
      · omega
  · intro i t hi1 hi2 hI
    left
    have hnot : ¬ (Pprev i j ∨ (j = j ∧ x1 ≤ i ∧ i < i)) := by
      rintro (h | ⟨_, _, h⟩)
      · have := hprev i j h; omega
      · omega
    obtain ⟨q1, e, hq1⟩ := hpix _ i t hi1 hi2 hnot hI
    refine ⟨q1, e, ?_⟩
    apply hcongr _ _ q1 _ hq1
    intro x y
    constructor
    · rintro ((h | ⟨h1, h2, h3⟩) | ⟨h1, h2⟩)
      · exact Or.inl h
      · exact Or.inr ⟨h1, h2, by omega⟩
      · exact Or.inr ⟨h2, by omega, by omega⟩
    · rintro (h | ⟨h1, h2, h3⟩)
      · exact Or.inl (Or.inl h)
      · rcases lt_or_eq_of_le (Int.lt_add_one_iff.mp h3) with h4 | h4
        · exact Or.inl (Or.inr ⟨h1, h2, h4⟩)
        · exact Or.inr ⟨h4, h1⟩
  · intro t ht
    apply hcongr _ _ t _ ht
    intro x y
    by_cases hle : x1 ≤ x2 + 1
    · rw [max_eq_right hle]
      constructor
      · rintro (h | ⟨h1, h2, h3⟩)
        · exact Or.inl h
        · exact Or.inr ⟨h1, h2, by omega⟩
      · rintro (h | ⟨h1, h2, h3⟩)
        · exact Or.inl h
        · exact Or.inr ⟨h1, h2, by omega⟩
    · rw [max_eq_left (by omega)]
      constructor
      · rintro (h | ⟨h1, h2, h3⟩)
        · exact Or.inl h
        · omega
      · rintro (h | ⟨h1, h2, h3⟩)
        · exact Or.inl h
        · omega

/-- The row loop of a driver: an invariant indexed by the set of source pixels
processed so far holds at the end for the set of all processed pixels, when
the body of the column loop never returns. -/
theorem scan_loop_rule (s : Scanner) (hret : s.ret = 0)
    (pixel : Int → Int → driz_param_t → Ctl driz_param_t)
    (Inv : (Int → Int → Prop) → driz_param_t → Prop)
    (hcongr : ∀ (P P1 : Int → Int → Prop) q, (∀ x y, P x y ↔ P1 x y) → Inv P q → Inv P1 q)
    (hcount : ∀ (P : Int → Int → Prop) (q : driz_param_t) (a b : Int),
      Inv P q → Inv P { q with nmiss := a, nskip := b })
    (hpix : ∀ (P : Int → Int → Prop) j i q, processed s i j = true → ¬ P i j → Inv P q →
      ∃ q1, pixel j i q = Ctl.next q1 ∧ Inv (fun x y => P x y ∨ (x = i ∧ y = j)) q1)
    (p1 : driz_param_t) (h0 : Inv (fun _ _ => False) p1) :
    ∃ q, forLoop s.ymin s.ymax
        (scan_row s (fun j xmin xmax q => forLoop xmin xmax (pixel j) q)) p1 = Ctl.next q ∧
      Inv (fun x y => processed s x y = true) q := by
  have hp1 : Inv (fun x y => y < s.ymin ∧ processed s x y = true) p1 := by
    apply hcongr (fun _ _ => False) _ _ _ h0
    intro x y
    constructor
    · intro h; exact absurd h id
    · rintro ⟨h1, h2⟩
      have := ((row_processed_iff s y).mp ((processed_iff s x y).mp h2).1).2.1
      omega
  apply forLoop_rule _
    (fun j t => Inv (fun x y => y < j ∧ processed s x y = true) t ∧
      ∀ k, s.ymin ≤ k → k < j → (s.rows k).status ≠ 1)
    (fun t => Inv (fun x y => processed s x y = true) t) s.ymin s.ymax p1
    ⟨hp1, fun k h1 h2 => by omega⟩
  · intro j t hj1 hj2 ⟨hI, hnostop⟩
    unfold scan_row
    by_cases hst1 : (s.rows j).status = 1
    · right
      simp only [hst1, if_true]
      refine ⟨_, rfl, ?_⟩
      apply hcount
      apply hcongr _ _ t _ hI
      intro x y
      constructor
      · exact fun h => h.2
      · intro h
        refine ⟨?_, h⟩
        have hr := ((row_processed_iff s y).mp ((processed_iff s x y).mp h).1)
        by_contra hh
        exact hr.2.2.2.1 j hj1 (by omega) hst1
    · left
      have hnext : ∀ k, s.ymin ≤ k → k < j + 1 → (s.rows k).status ≠ 1 := by
        intro k hk1 hk2
        rcases lt_or_eq_of_le (Int.lt_add_one_iff.mp hk2) with h3 | h3
        · exact hnostop k hk1 h3
        · subst h3; exact hst1
      by_cases hst23 : (s.rows j).status = 2 ∨ (s.rows j).status = 3
      · simp only [hst1, if_false, hst23, if_true]
        refine ⟨_, rfl, ?_, hnext⟩
        apply hcount
        apply hcongr _ _ t _ hI
        intro x y
        constructor
        · rintro ⟨h1, h2⟩; exact ⟨by omega, h2⟩
        · rintro ⟨h1, h2⟩
          refine ⟨?_, h2⟩
          have hr := ((row_processed_iff s y).mp ((processed_iff s x y).mp h2).1)
          rcases lt_or_eq_of_le (Int.lt_add_one_iff.mp h1) with h3 | h3
          · exact h3
          · subst h3
            rcases hst23 with h4 | h4
            · exact absurd h4 hr.2.2.2.2.1
            · exact absurd h4 hr.2.2.2.2.2
      · simp only [hst1, if_false, hst23]
        have hrow : row_processed s j = true := by
          rw [row_processed_iff]
          exact ⟨hret, hj1, hj2, fun k hk1 hk2 => hnext k hk1 (by omega),
            fun h => hst23 (Or.inl h), fun h => hst23 (Or.inr h)⟩
        obtain ⟨q1, g1, g2⟩ := scan_columns_rule pixel Inv hcongr j (s.rows j).x1 (s.rows j).x2
          (fun x y => y < j ∧ processed s x y = true) (fun x y h => h.1)
          (fun P i q hi1 hi2 hP hq =>
            hpix P j i q ((processed_iff s i j).mpr ⟨hrow, hi1, hi2⟩) hP hq)
          { t with nmiss := t.nmiss + (t.xmax - t.xmin - ((s.rows j).x2 + 1 - (s.rows j).x1)) }
          (hcount _ t _ t.nskip hI)
        refine ⟨q1, g1, ?_, hnext⟩
        apply hcongr _ _ q1 _ g2
        intro x y
        constructor
        · rintro (⟨h1, h2⟩ | ⟨h1, h2, h3⟩)
          · exact ⟨by omega, h2⟩
          · subst h1
            exact ⟨by omega, (processed_iff s x y).mpr ⟨hrow, h2, h3⟩⟩
        · rintro ⟨h1, h2⟩
          rcases lt_or_eq_of_le (Int.lt_add_one_iff.mp h1) with h3 | h3
          · exact Or.inl ⟨h3, h2⟩
          · subst h3
            have := (processed_iff s x y).mp h2
            exact Or.inr ⟨rfl, this.2.1, this.2.2⟩
  · intro t ⟨hI, _⟩
    apply hcongr _ _ t _ hI
    intro x y
    constructor
    · exact fun h => h.2
    · intro h
      refine ⟨?_, h⟩
      have hr := ((row_processed_iff s y).mp ((processed_iff s x y).mp h).1)
      have : y < s.ymax + 1 := by omega
      exact lt_of_lt_of_le this (le_max_right _ _)

theorem lor_idem (a b : Nat) : (a ||| b) ||| b = a ||| b := by
  rw [Nat.lor_assoc, Nat.or_self]

/-- The context plane after the row loop of a driver whose column-loop body
applies the cells `cells j i` of each processed source pixel. -/
theorem context_run (p : driz_param_t) (s : Scanner) (bv : Nat)
    (pixel : Int → Int → driz_param_t → Ctl driz_param_t)
    (cells : Int → Int → Int → Int → Option (Dbl × Dbl)) (ctx : CtxPlane)
    (hctx : p.output_context = some ctx) (hret : s.ret = 0)
    (hpix : ∀ j i q, Frame p q → ∃ n, pixel j i q = Ctl.next (pixel_result q bv (cells j i) n)) :
    ∃ q ctx1, forLoop s.ymin s.ymax
        (scan_row s (fun j xmin xmax q => forLoop xmin xmax (pixel j) q)) (init_counters p s)
          = Ctl.next q ∧ q.output_context = some ctx1 ∧
      ∀ x y,
        ((∃ i j c, processed s i j = true ∧ cells j i x y = some c ∧
            Dbl.gt c.2 (Dbl.fin 0) = true) → ctx1.word x y = ctx.word x y ||| bv) ∧
        ((¬ ∃ i j c, processed s i j = true ∧ cells j i x y = some c ∧
            Dbl.gt c.2 (Dbl.fin 0) = true) → ctx1.word x y = ctx.word x y) := by
  obtain ⟨q, e, _, ctx1, h1, h2⟩ := scan_loop_rule s hret pixel
    (fun P q => Frame p q ∧ ∃ ctx1, q.output_context = some ctx1 ∧ ∀ x y,
      ((∃ i j c, P i j ∧ cells j i x y = some c ∧ Dbl.gt c.2 (Dbl.fin 0) = true) →
        ctx1.word x y = ctx.word x y ||| bv) ∧
      ((¬ ∃ i j c, P i j ∧ cells j i x y = some c ∧ Dbl.gt c.2 (Dbl.fin 0) = true) →
        ctx1.word x y = ctx.word x y))
    (by
      intro P P1 q hP ⟨hf, c1, hc, hw⟩
      refine ⟨hf, c1, hc, fun x y => ⟨?_, ?_⟩⟩
      · rintro ⟨i, j, c, a1, a2, a3⟩
        exact (hw x y).1 ⟨i, j, c, (hP i j).mpr a1, a2, a3⟩
      · intro hn
        apply (hw x y).2
        rintro ⟨i, j, c, a1, a2, a3⟩
        exact hn ⟨i, j, c, (hP i j).mp a1, a2, a3⟩)
    (fun P q a b h => h)
    (by
      intro P j i q _ _ ⟨hf, c1, hc, hw⟩
      obtain ⟨n, e⟩ := hpix j i q hf
      refine ⟨_, e, pixel_result_frame p q bv _ n hf, ?_⟩
      refine ⟨{ c1 with word := (fun x y =>
        match cells j i x y with
        | none => c1.word x y
        | some c => merged_word (c1.word x y) bv c.2) }, ?_, ?_⟩
      · unfold pixel_result apply_cells
        split_ifs <;> simp only [hc, Option.map_some']
      · intro x y
        show ((∃ i1 j1 c, (P i1 j1 ∨ (i1 = i ∧ j1 = j)) ∧ cells j1 i1 x y = some c ∧
            Dbl.gt c.2 (Dbl.fin 0) = true) →
            (match cells j i x y with
              | none => c1.word x y
              | some c => merged_word (c1.word x y) bv c.2) = ctx.word x y ||| bv) ∧
          ((¬ ∃ i1 j1 c, (P i1 j1 ∨ (i1 = i ∧ j1 = j)) ∧ cells j1 i1 x y = some c ∧
            Dbl.gt c.2 (Dbl.fin 0) = true) →
            (match cells j i x y with
              | none => c1.word x y
              | some c => merged_word (c1.word x y) bv c.2) = ctx.word x y)
        have hold : c1.word x y = ctx.word x y ∨ c1.word x y = ctx.word x y ||| bv := by
          by_cases hh : ∃ i j c, P i j ∧ cells j i x y = some c ∧ Dbl.gt c.2 (Dbl.fin 0) = true
          · exact Or.inr ((hw x y).1 hh)
          · exact Or.inl ((hw x y).2 hh)
        cases hcell : cells j i x y with
        | none =>
          simp only []
          constructor
          · rintro ⟨i1, j1, c, a1 | ⟨rfl, rfl⟩, a2, a3⟩
            · exact (hw x y).1 ⟨i1, j1, c, a1, a2, a3⟩
            · rw [hcell] at a2
              exact absurd a2 (by simp)
          · intro hn
            apply (hw x y).2
            rintro ⟨i1, j1, c, a1, a2, a3⟩
            exact hn ⟨i1, j1, c, Or.inl a1, a2, a3⟩
        | some c0 =>
          simp only [merged_word]
          by_cases hpos : Dbl.gt c0.2 (Dbl.fin 0) = true
          · simp only [hpos, if_true]
            constructor
            · intro _
              rcases hold with h | h
              · rw [h]
              · rw [h, lor_idem]
            · intro hn
              exact absurd ⟨i, j, c0, Or.inr ⟨rfl, rfl⟩, hcell, hpos⟩ hn
          · simp only [hpos, if_false]
            constructor
            · rintro ⟨i1, j1, c, a1 | ⟨rfl, rfl⟩, a2, a3⟩
              · exact (hw x y).1 ⟨i1, j1, c, a1, a2, a3⟩
              · rw [hcell] at a2
                have : c0 = c := by simpa using a2
                rw [this] at hpos
                exact absurd a3 hpos
            · intro hn
              apply (hw x y).2
              rintro ⟨i1, j1, c, a1, a2, a3⟩
              exact hn ⟨i1, j1, c, Or.inl a1, a2, a3⟩)
    (init_counters p s)
    ⟨Frame_init p s, ctx, hctx, fun x y => ⟨by rintro ⟨_, _, _, h, _⟩; exact absurd h id,
      fun _ => rfl⟩⟩
  exact ⟨q, ctx1, e, h1, h2⟩

theorem pixel_weight_of_frame (p q : driz_param_t) (h : Frame p q) (i j : Int) :
    pixel_weight q i j = pixel_weight p i j := by
  unfold pixel_weight
  rw [h.2.2.2.2.2.2.2.2.2.2.1, h.2.2.2.1]

/-- The cells of a source pixel depend on the inputs only. -/
theorem cells_frame (E : Extern) (p q : driz_param_t) (h : Frame p q)
    (osize : Int × Int) (j i x y : Int) :
    (∀ scale2, point_cells scale2 osize q j i x y = point_cells scale2 osize p j i x y) ∧
    (∀ pfo efac es scale2, gaussian_cells E pfo efac es scale2 osize q j i x y
      = gaussian_cells E pfo efac es scale2 osize p j i x y) ∧
    (∀ lut sdp pfo scale2, lanczos_cells lut sdp pfo scale2 osize q j i x y
      = lanczos_cells lut sdp pfo scale2 osize p j i x y) ∧
    (∀ pfo scale2 ac, turbo_cells pfo scale2 ac osize q j i x y
      = turbo_cells pfo scale2 ac osize p j i x y) ∧
    (E.interpolate_point q = E.interpolate_point p →
      ∀ dh scale2, square_cells E dh scale2 osize q j i x y
        = square_cells E dh scale2 osize p j i x y) := by
  have hw := pixel_weight_of_frame p q h i j
  have hd : q.data = p.data := h.2.2.2.2.2.2.2.2.2.1
  have hp : q.pixmap = p.pixmap := h.2.2.2.2.2.2.2.2.2.2.2.1
  refine ⟨?_, ?_, ?_, ?_, ?_⟩
  · intro scale2
    unfold point_cells
    rw [hw, hd, hp]
  · intro pfo efac es scale2
    unfold gaussian_cells
    rw [hw, hd, hp]
  · intro lut sdp pfo scale2
    unfold lanczos_cells
    rw [hw, hd, hp]
  · intro pfo scale2 ac
    unfold turbo_cells
    rw [hw, hd, hp]
  · intro hE dh scale2
    have hi : ∀ xin yin, interpolate_corners E q xin yin = interpolate_corners E p xin yin := by
      intro xin yin
      unfold interpolate_corners
      rw [hE]
    unfold square_cells
    rw [hw, hd, hi]

/-- The context plane after a driver whose result is `r`. -/
theorem context_driver (E : Extern) (p : driz_param_t) (ctx : CtxPlane)
    (hctx : p.output_context = some ctx)
    (pixel : Int → Int → driz_param_t → Ctl driz_param_t)
    (cells : Int → Int → Int → Int → Option (Dbl × Dbl))
    (hpix : ∀ j i q, Frame p q →
      ∃ n, pixel j i q = Ctl.next (pixel_result q (compute_bit_value p.uuid) (cells j i) n))
    (r : Int × driz_param_t)
    (hr : r = (if (E.init_image_scanner p).ret ≠ 0 then
          (1, { p with error := (E.init_image_scanner p).error })
        else driver_result (forLoop (E.init_image_scanner p).ymin (E.init_image_scanner p).ymax
          (scan_row (E.init_image_scanner p) (fun j xmin xmax q => forLoop xmin xmax (pixel j) q))
          (init_counters p (E.init_image_scanner p))))) :
    ∃ ctx1, r.2.output_context = some ctx1 ∧
      ∀ x y,
        ((∃ i j c, processed (E.init_image_scanner p) i j = true ∧ cells j i x y = some c ∧
            Dbl.gt c.2 (Dbl.fin 0) = true) →
          ctx1.word x y = ctx.word x y ||| compute_bit_value p.uuid) ∧
        ((¬ ∃ i j c, processed (E.init_image_scanner p) i j = true ∧ cells j i x y = some c ∧
            Dbl.gt c.2 (Dbl.fin 0) = true) → ctx1.word x y = ctx.word x y) := by
  by_cases hret : (E.init_image_scanner p).ret = 0
  · obtain ⟨q, ctx1, e, h1, h2⟩ := context_run p (E.init_image_scanner p)
      (compute_bit_value p.uuid) pixel cells ctx hctx hret hpix
    refine ⟨ctx1, ?_, h2⟩
    rw [hr, e]
    simp only [hret, ne_eq, not_true_eq_false, if_false, driver_result]
    exact h1
  · refine ⟨ctx, ?_, ?_⟩
    · rw [hr]
      simp only [hret, ne_eq, not_false_eq_true, if_true]
      exact hctx
    · intro x y
      refine ⟨?_, fun _ => rfl⟩
      rintro ⟨i, j, c, h, _⟩
      have := ((row_processed_iff _ j).mp ((processed_iff _ i j).mp h).1).1
      exact absurd this hret

theorem pixel_result_congr (q : driz_param_t) (bv : Nat) (G G1 : Int → Int → Option (Dbl × Dbl))
    (n : Int) (h : ∀ x y, G x y = G1 x y) : pixel_result q bv G n = pixel_result q bv G1 n := by
  have : G = G1 := by funext x y; exact h x y
  rw [this]

theorem testBit_lor_left (a b k : Nat) (h : a.testBit k = true) : (a ||| b).testBit k = true := by
  rw [Nat.testBit_or, h, Bool.true_or]

/-- The context plane after `dobox`: the word at a destination pixel is ORed
with `compute_bit_value(uuid)` when a processed source pixel contributes to it
with `dow > 0`, and is left alone otherwise. -/
theorem context_words (E : Extern) (p : driz_param_t) (ctx : CtxPlane)
    (hk : p.kernel < kernel_LAST) (hctx : p.output_context = some ctx)
    (hdim : p.output_counts.nx = p.output_data.nx ∧ p.output_counts.ny = p.output_data.ny)
    (hmalloc : E.malloc_fails = false)
    (hE : ∀ q, Frame p q → E.interpolate_point q = E.interpolate_point p) :
    ∃ ctx1, (dobox E p).2.output_context = some ctx1 ∧
      ∀ x y,
        ((∃ i j c, processed (E.init_image_scanner p) i j = true ∧
            driver_cells E p j i x y = some c ∧ Dbl.gt c.2 (Dbl.fin 0) = true) →
          ctx1.word x y = ctx.word x y ||| compute_bit_value p.uuid) ∧
        ((¬ ∃ i j c, processed (E.init_image_scanner p) i j = true ∧
            driver_cells E p j i x y = some c ∧ Dbl.gt c.2 (Dbl.fin 0) = true) →
          ctx1.word x y = ctx.word x y) := by
  have hfin : ∀ r : Int × driz_param_t,
      (∃ ctx1, r.2.output_context = some ctx1 ∧
        ∀ x y,
          ((∃ i j c, processed (E.init_image_scanner p) i j = true ∧
              driver_cells E p j i x y = some c ∧ Dbl.gt c.2 (Dbl.fin 0) = true) →
            ctx1.word x y = ctx.word x y ||| compute_bit_value p.uuid) ∧
          ((¬ ∃ i j c, processed (E.init_image_scanner p) i j = true ∧
              driver_cells E p j i x y = some c ∧ Dbl.gt c.2 (Dbl.fin 0) = true) →
            ctx1.word x y = ctx.word x y)) →
      (dobox E p).2 = r.2 →
      ∃ ctx1, (dobox E p).2.output_context = some ctx1 ∧
        ∀ x y,
          ((∃ i j c, processed (E.init_image_scanner p) i j = true ∧
              driver_cells E p j i x y = some c ∧ Dbl.gt c.2 (Dbl.fin 0) = true) →
            ctx1.word x y = ctx.word x y ||| compute_bit_value p.uuid) ∧
          ((¬ ∃ i j c, processed (E.init_image_scanner p) i j = true ∧
              driver_cells E p j i x y = some c ∧ Dbl.gt c.2 (Dbl.fin 0) = true) →
            ctx1.word x y = ctx.word x y) := by
    rintro r ⟨ctx1, h1, h2⟩ hr
    exact ⟨ctx1, by rw [hr]; exact h1, h2⟩
  obtain ⟨d0, d1, d2, d3, d4⟩ := dobox_run E p
  have hcases : p.kernel = 0 ∨ p.kernel = 1 ∨ p.kernel = 2 ∨ p.kernel = 3 ∨
      (p.kernel = 4 ∨ p.kernel = 5) := by
    have : p.kernel < 6 := hk
    omega
  rcases hcases with h0 | h1 | h2 | h3 | h45
  · refine hfin (do_kernel_square E p) ?_ (d0 h0)
    refine context_driver E p ctx hctx
      (square_pixel E (Dbl.fin (1 / 2) * p.pixel_fraction) (p.scale * p.scale)
        (compute_bit_value p.uuid) (get_dimensions p.output_data))
      (driver_cells E p) ?_ _ rfl
    intro j i q hq
    obtain ⟨n, e, _⟩ := square_pixel_cells E (Dbl.fin (1 / 2) * p.pixel_fraction)
      (p.scale * p.scale) (compute_bit_value p.uuid)
      (get_dimensions p.output_data) j i q (Frame_osize p q hq) (Frame_counts p q hq hdim)
    refine ⟨n, ?_⟩
    rw [e]
    congr 1
    apply pixel_result_congr
    intro x y
    rw [(cells_frame E p q hq _ j i x y).2.2.2.2 (hE q hq)]
    unfold driver_cells
    simp only [h0, if_true]
  · refine hfin (do_kernel_gaussian E p) ?_ (d1 h1)
    refine context_driver E p ctx hctx
      (gaussian_pixel E
        (CLAMP_ABOVE (Dbl.fin (5 / 2) * p.pixel_fraction / Dbl.fin (23548 / 10000) / p.scale)
          (Dbl.fin (12 / 10) / p.scale))
        ((Dbl.fin (23548 / 10000) * Dbl.fin (23548 / 10000)) * (p.scale * p.scale)
          * (Dbl.fin 1 / (p.pixel_fraction * p.pixel_fraction)) / Dbl.fin 2)
        ((Dbl.fin (23548 / 10000) * Dbl.fin (23548 / 10000)) * (p.scale * p.scale)
          * (Dbl.fin 1 / (p.pixel_fraction * p.pixel_fraction)) / Dbl.fin 2 / E.pi)
        (p.scale * p.scale) (compute_bit_value p.uuid) (get_dimensions p.output_data))
      (driver_cells E p) ?_ _ rfl
    intro j i q hq
    obtain ⟨n, e, _⟩ := gaussian_pixel_cells E
      (CLAMP_ABOVE (Dbl.fin (5 / 2) * p.pixel_fraction / Dbl.fin (23548 / 10000) / p.scale)
        (Dbl.fin (12 / 10) / p.scale))
      ((Dbl.fin (23548 / 10000) * Dbl.fin (23548 / 10000)) * (p.scale * p.scale)
        * (Dbl.fin 1 / (p.pixel_fraction * p.pixel_fraction)) / Dbl.fin 2)
      ((Dbl.fin (23548 / 10000) * Dbl.fin (23548 / 10000)) * (p.scale * p.scale)
        * (Dbl.fin 1 / (p.pixel_fraction * p.pixel_fraction)) / Dbl.fin 2 / E.pi)
      (p.scale * p.scale) (compute_bit_value p.uuid)
      (get_dimensions p.output_data) j i q (Frame_osize p q hq) (Frame_counts p q hq hdim)
    refine ⟨n, ?_⟩
    rw [e]
    congr 1
    apply pixel_result_congr
    intro x y
    rw [(cells_frame E p q hq _ j i x y).2.1]
    unfold driver_cells
    simp only [h1, one_ne_zero, if_false, if_true]
  · refine hfin (do_kernel_point E p) ?_ (d2 h2)
    refine context_driver E p ctx hctx
      (point_pixel (p.scale * p.scale) (compute_bit_value p.uuid) (get_dimensions p.output_data))
      (driver_cells E p) ?_ _ rfl
    intro j i q hq
    obtain ⟨n, e, _⟩ := point_pixel_cells (p.scale * p.scale) (compute_bit_value p.uuid)
      (get_dimensions p.output_data) j i q (Frame_osize p q hq) (Frame_counts p q hq hdim)
    refine ⟨n, ?_⟩
    rw [e]
    congr 1
    apply pixel_result_congr
    intro x y
    rw [(cells_frame E p q hq _ j i x y).1]
    unfold driver_cells
    simp [h2]
  · refine hfin (do_kernel_turbo E p) ?_ (d3 h3)
    refine context_driver E p ctx hctx
      (turbo_pixel (p.pixel_fraction / p.scale / Dbl.fin 2) (p.scale * p.scale)
        (Dbl.fin 1 / (p.pixel_fraction * p.pixel_fraction)) (compute_bit_value p.uuid)
        (get_dimensions p.output_data))
      (driver_cells E p) ?_ _ rfl
    intro j i q hq
    obtain ⟨n, e, _⟩ := turbo_pixel_cells (p.pixel_fraction / p.scale / Dbl.fin 2)
      (p.scale * p.scale) (Dbl.fin 1 / (p.pixel_fraction * p.pixel_fraction))
      (compute_bit_value p.uuid)
      (get_dimensions p.output_data) j i q (Frame_osize p q hq) (Frame_counts p q hq hdim)
    refine ⟨n, ?_⟩
    rw [e]
    congr 1
    apply pixel_result_congr
    intro x y
    rw [(cells_frame E p q hq _ j i x y).2.2.2.1]
    unfold driver_cells
    simp [h3]
  · refine hfin (do_kernel_lanczos E p) ?_ (d4 h45)
    refine context_driver E p ctx hctx
      (lanczos_pixel (E.lanczos_lut (if p.kernel = kernel_lanczos2 then 2 else 3))
        (p.scale / Dbl.fin (1 / 100) / p.pixel_fraction)
        (Dbl.ofInt (if p.kernel = kernel_lanczos2 then 2 else 3) * p.pixel_fraction / p.scale)
        (p.scale * p.scale) (compute_bit_value p.uuid) (get_dimensions p.output_data))
      (driver_cells E p) ?_ _
      (by unfold do_kernel_lanczos; simp only [hmalloc, Bool.false_eq_true, if_false]; rfl)
    intro j i q hq
    obtain ⟨n, e, _⟩ := lanczos_pixel_cells
      (E.lanczos_lut (if p.kernel = kernel_lanczos2 then 2 else 3))
      (p.scale / Dbl.fin (1 / 100) / p.pixel_fraction)
      (Dbl.ofInt (if p.kernel = kernel_lanczos2 then 2 else 3) * p.pixel_fraction / p.scale)
      (p.scale * p.scale) (compute_bit_value p.uuid)
      (get_dimensions p.output_data) j i q (Frame_osize p q hq) (Frame_counts p q hq hdim)
    refine ⟨n, ?_⟩
    rw [e]
    congr 1
    apply pixel_result_congr
    intro x y
    rw [(cells_frame E p q hq _ j i x y).2.2.1]
    unfold driver_cells
    rcases h45 with h | h <;> simp [h]

/-- C15: context bits.  With a context plane present, output planes of one
shape and a run that is not cut short by a failed allocation: after `dobox`
the context word at each destination pixel equals its previous value OR
`compute_bit_value(uuid)` when at least one processed source pixel
contributed to the pixel with `dow > 0`, and equals its previous value
otherwise; no bit that was set before the run is cleared. -/
theorem context_bits (E : Extern) (p : driz_param_t) (ctx : CtxPlane)
    (hk : p.kernel < kernel_LAST) (hctx : p.output_context = some ctx)
    (hdim : p.output_counts.nx = p.output_data.nx ∧ p.output_counts.ny = p.output_data.ny)
    (hmalloc : E.malloc_fails = false)
    (hE : ∀ q, Frame p q → E.interpolate_point q = E.interpolate_point p) :
    ∃ ctx1, (dobox E p).2.output_context = some ctx1 ∧
      ∀ x y,
        ((∃ i j c, processed (E.init_image_scanner p) i j = true ∧
            driver_cells E p j i x y = some c ∧ Dbl.gt c.2 (Dbl.fin 0) = true) →
          ctx1.word x y = ctx.word x y ||| compute_bit_value p.uuid) ∧
        ((¬ ∃ i j c, processed (E.init_image_scanner p) i j = true ∧
            driver_cells E p j i x y = some c ∧ Dbl.gt c.2 (Dbl.fin 0) = true) →
          ctx1.word x y = ctx.word x y) ∧
        (∀ k, (ctx.word x y).testBit k = true → (ctx1.word x y).testBit k = true) := by
  obtain ⟨ctx1, h1, h2⟩ := context_words E p ctx hk hctx hdim hmalloc hE
  refine ⟨ctx1, h1, fun x y => ⟨(h2 x y).1, (h2 x y).2, ?_⟩⟩
  intro k hbit
  by_cases hh : ∃ i j c, processed (E.init_image_scanner p) i j = true ∧
      driver_cells E p j i x y = some c ∧ Dbl.gt c.2 (Dbl.fin 0) = true
  · rw [(h2 x y).1 hh]
    exact testBit_lor_left _ _ _ hbit
  · rw [(h2 x y).2 hh]
    exact hbit

set_option maxRecDepth 100000 in
theorem ctx_param_cell :
    driver_cells demo_env ctx_param 1 1 1 1 = some (Dbl.fin 5, Dbl.fin 1) ∧
    driver_cells demo_env { ctx_param with uuid := 33 } 1 1 1 1
      = some (Dbl.fin 5, Dbl.fin 1) := by
  decide!

/-- C15 at a concrete input: the point kernel with `uuid = 1` on a zeroed 3×3
context sets bit 0 at `(1, 1)` and leaves the word at `(5, 5)` alone. -/
theorem context_bits_witness :
    ∃ ctx1, (dobox demo_env ctx_param).2.output_context = some ctx1 ∧
      ctx1.word 1 1 = 1 ∧ ctx1.word 5 5 = 0 := by
  obtain ⟨ctx1, h1, h2⟩ := context_bits demo_env ctx_param (zero_context 3 3) (by decide) rfl
    ⟨rfl, rfl⟩ rfl (fun _ _ => rfl)
  refine ⟨ctx1, h1, ?_, ?_⟩
  · rw [(h2 1 1).1 ⟨1, 1, (Dbl.fin 5, Dbl.fin 1), by decide, ctx_param_cell.1, by decide⟩]
    rfl
  · rw [(h2 5 5).2.1 ?_]
    · rfl
    · rintro ⟨i, j, c, _, hc, _⟩
      have hin := (cells_inside demo_env ctx_param j i 5 5 c).1 (Dbl.fin 1 * Dbl.fin 1)
      have hd : driver_cells demo_env ctx_param j i 5 5
          = point_cells (Dbl.fin 1 * Dbl.fin 1) (get_dimensions ctx_param.output_data)
              ctx_param j i 5 5 := by
        unfold driver_cells
        rfl
      rw [hd] at hc
      have := hin hc
      revert this
      decide

set_option maxRecDepth 100000 in
theorem ctx_word_runs :
    (dobox demo_env ctx_param).2.output_context.map (fun c => c.word 1 1) = some 1 ∧
    (dobox demo_env { ctx_param with uuid := 33 }).2.output_context.map (fun c => c.word 1 1)
      = some 1 ∧
    (dobox demo_env { (dobox demo_env ctx_param).2 with uuid := 33 }).2.output_context.map
      (fun c => c.word 1 1) = some 1 := by
  refine ⟨?_, ?_, ?_⟩
  · decide!
  · decide!
  · decide!

/-- C16 as stated fails: the plane indices `(uuid − 1) div 32` of `uuid = 1`
and `uuid = 33` differ, yet on the same zeroed context both runs set bit 0 of
the word at `(1, 1)` of the one plane the bundle holds, and the run with
`uuid = 33` after the run with `uuid = 1` leaves that word at 1. -/
theorem context_plane_shared :
    Int.tdiv (1 - 1) 32 ≠ Int.tdiv (33 - 1) 32 ∧
    ctx_param.output_context.map (fun c => c.word 1 1) = some 0 ∧
    (dobox demo_env ctx_param).2.output_context.map (fun c => c.word 1 1) = some 1 ∧
    (dobox demo_env { ctx_param with uuid := 33 }).2.output_context.map (fun c => c.word 1 1)
      = some 1 ∧
    (dobox demo_env { (dobox demo_env ctx_param).2 with uuid := 33 }).2.output_context.map
      (fun c => c.word 1 1) = some 1 := by
  exact ⟨by decide, by decide, ctx_word_runs.1, ctx_word_runs.2.1, ctx_word_runs.2.2⟩

/-- C16 (amended): the engine ORs the bit `(uuid − 1) mod 32` into the words
of the context plane it is handed and selects no plane: with `uuid ≥ 1`,
after `dobox` the word at each destination pixel is its previous value OR
`2^((uuid − 1) mod 32)` when a processed source pixel contributed with
`dow > 0`, and its previous value otherwise; for `uuid = 1` and `uuid = 33`
that bit is bit 0. -/
theorem context_plane_given (E : Extern) (p : driz_param_t) (ctx : CtxPlane)
    (hk : p.kernel < kernel_LAST) (hctx : p.output_context = some ctx)
    (hdim : p.output_counts.nx = p.output_data.nx ∧ p.output_counts.ny = p.output_data.ny)
    (hmalloc : E.malloc_fails = false)
    (hE : ∀ q, Frame p q → E.interpolate_point q = E.interpolate_point p)
    (hu : 1 ≤ p.uuid) :
    ∃ ctx1, (dobox E p).2.output_context = some ctx1 ∧
      (∀ x y,
        ((∃ i j c, processed (E.init_image_scanner p) i j = true ∧
            driver_cells E p j i x y = some c ∧ Dbl.gt c.2 (Dbl.fin 0) = true) →
          ctx1.word x y = ctx.word x y ||| 2 ^ ((p.uuid - 1) % 32).toNat) ∧
        ((¬ ∃ i j c, processed (E.init_image_scanner p) i j = true ∧
            driver_cells E p j i x y = some c ∧ Dbl.gt c.2 (Dbl.fin 0) = true) →
          ctx1.word x y = ctx.word x y)) ∧
      (p.uuid = 1 ∨ p.uuid = 33 → 2 ^ ((p.uuid - 1) % 32).toNat = 1) := by
  obtain ⟨ctx1, h1, h2⟩ := context_words E p ctx hk hctx hdim hmalloc hE
  refine ⟨ctx1, h1, ?_, ?_⟩
  · intro x y
    rw [← compute_bit_value_eq p.uuid hu]
    exact h2 x y
  · rintro (h | h) <;> rw [h] <;> decide

/-- C16 (amended) at a concrete input: the point kernel with `uuid = 33` sets
bit 0 at `(1, 1)` of the plane it is given. -/
theorem context_plane_given_witness :
    ∃ ctx1, (dobox demo_env { ctx_param with uuid := 33 }).2.output_context = some ctx1 ∧
      ctx1.word 1 1 = 1 := by
  obtain ⟨ctx1, h1, h2, h3⟩ := context_plane_given demo_env { ctx_param with uuid := 33 }
    (zero_context 3 3) (by decide) rfl ⟨rfl, rfl⟩ rfl (fun _ _ => rfl) (by decide)
  refine ⟨ctx1, h1, ?_⟩
  rw [(h2 1 1).1 ⟨1, 1, (Dbl.fin 5, Dbl.fin 1), by decide, ctx_param_cell.2, by decide⟩]
  rfl

/-! ## Placement by the point kernel -/

theorem pixel_result_planes (q : driz_param_t) (bv : Nat) (G : Int → Int → Option (Dbl × Dbl))
    (n : Int) (x y : Int) :
    (pixel_result q bv G n).output_counts.val x y
      = (match G x y with
        | none => q.output_counts.val x y
        | some c => merged_counts (q.output_counts.val x y) c.2) ∧
    (pixel_result q bv G n).output_data.val x y
      = (match G x y with
        | none => q.output_data.val x y
        | some c => merged_data (q.output_data.val x y) (q.output_counts.val x y) c.1 c.2) := by
  unfold pixel_result
  by_cases h : n = 0
  · rw [if_pos h]
    exact ⟨rfl, rfl⟩
  · rw [if_neg h]
    exact ⟨rfl, rfl⟩

/-- The output planes after the row loop of a driver in which every processed
source pixel `(i, j)` makes one contribution `(d i j, 1)` to the destination
`dest i j`, the destinations being pairwise distinct and their counts zero
at the start. -/
theorem placement_run (p : driz_param_t) (s : Scanner) (bv : Nat)
    (pixel : Int → Int → driz_param_t → Ctl driz_param_t)
    (dest : Int → Int → Option (Int × Int)) (d : Int → Int → Dbl)
    (hret : s.ret = 0)
    (hz : ∀ x y, p.output_counts.val x y = Dbl.fin 0)
    (hdist : ∀ i j i1 j1 x y, processed s i j = true → processed s i1 j1 = true →
      dest i j = some (x, y) → dest i1 j1 = some (x, y) → i = i1 ∧ j = j1)
    (hpix : ∀ j i q, Frame p q → processed s i j = true →
      ∃ n, pixel j i q = Ctl.next (pixel_result q bv
        (fun x y => if dest i j = some (x, y) then some (d i j, Dbl.fin 1) else none) n)) :
    ∃ q, forLoop s.ymin s.ymax
        (scan_row s (fun j xmin xmax q => forLoop xmin xmax (pixel j) q)) (init_counters p s)
          = Ctl.next q ∧ Frame p q ∧
      (∀ i j x y, processed s i j = true → dest i j = some (x, y) →
        q.output_counts.val x y = Dbl.fin 1 ∧ q.output_data.val x y = d i j) ∧
      (∀ x y, (∀ i j, processed s i j = true → dest i j ≠ some (x, y)) →
        q.output_counts.val x y = p.output_counts.val x y ∧
        q.output_data.val x y = p.output_data.val x y) := by
  obtain ⟨q, e, hP, hf, h1, h2⟩ := scan_loop_rule s hret pixel
    (fun P q => (∀ i j, P i j → processed s i j = true) ∧ Frame p q ∧
      (∀ i j x y, P i j → dest i j = some (x, y) →
        q.output_counts.val x y = Dbl.fin 1 ∧ q.output_data.val x y = d i j) ∧
      (∀ x y, (∀ i j, P i j → dest i j ≠ some (x, y)) →
        q.output_counts.val x y = p.output_counts.val x y ∧
        q.output_data.val x y = p.output_data.val x y))
    (by
      intro P P1 q hP ⟨a0, a1, a2, a3⟩
      exact ⟨fun i j h => a0 i j ((hP i j).mpr h), a1,
        fun i j x y h hd => a2 i j x y ((hP i j).mpr h) hd,
        fun x y h => a3 x y (fun i j hp => h i j ((hP i j).mp hp))⟩)
    (fun P q a b h => h)
    (by
      intro P j i q hproc hnot ⟨a0, a1, a2, a3⟩
      obtain ⟨n, e⟩ := hpix j i q a1 hproc
      refine ⟨_, e, ?_, pixel_result_frame p q bv _ n a1, ?_, ?_⟩
      · rintro i1 j1 (h | ⟨rfl, rfl⟩)
        · exact a0 i1 j1 h
        · exact hproc
      · intro i1 j1 x y hin hd
        have hval := pixel_result_planes q bv
          (fun x y => if dest i j = some (x, y) then some (d i j, Dbl.fin 1) else none) n x y
        beta_reduce at hval
        rw [hval.1, hval.2]
        by_cases hhere : dest i j = some (x, y)
        · have hsame : i = i1 ∧ j = j1 := by
            rcases hin with h | ⟨h3, h4⟩
            · exact hdist i j i1 j1 x y hproc (a0 i1 j1 h) hhere hd
            · exact ⟨h3.symm, h4.symm⟩
          have hfresh : ∀ i2 j2, P i2 j2 → dest i2 j2 ≠ some (x, y) := by
            intro i2 j2 hp2 hd2
            have := hdist i j i2 j2 x y hproc (a0 i2 j2 hp2) hhere hd2
            rw [this.1, this.2] at hnot
            exact hnot hp2
          have hold := a3 x y hfresh
          simp only [hhere, if_true, hold.1, hz x y, merged_counts, merged_data,
            Dbl.feq_fin_fin, one_ne_zero, decide_False, Bool.false_eq_true, if_false,
            decide_True, Dbl.fin_add_fin, zero_add, ← hsame.1, ← hsame.2, and_self]
        · simp only [hhere, if_false]
          rcases hin with h | ⟨h3, h4⟩
          · exact a2 i1 j1 x y h hd
          · rw [h3, h4] at hd
            exact absurd hd hhere
      · intro x y hno
        have hhere : dest i j ≠ some (x, y) := hno i j (Or.inr ⟨rfl, rfl⟩)
        have hold := a3 x y (fun i2 j2 hp2 => hno i2 j2 (Or.inl hp2))
        have hval := pixel_result_planes q bv
          (fun x y => if dest i j = some (x, y) then some (d i j, Dbl.fin 1) else none) n x y
        beta_reduce at hval
        rw [hval.1, hval.2]
        simp only [hhere, if_false]
        exact hold)
    (init_counters p s)
    ⟨fun _ _ h => absurd h id, Frame_init p s, fun _ _ _ _ h _ => absurd h id,
      fun _ _ _ => ⟨rfl, rfl⟩⟩
  exact ⟨q, e, hf, h1, h2⟩

theorem point_cells_dest (p : driz_param_t) (hw : p.weights = none) (scale2 : Dbl)
    (j i x y : Int) :
    point_cells scale2 (get_dimensions p.output_data) p j i x y
      = if point_dest p i j = some (x, y) then some (p.data.val i j * scale2, Dbl.fin 1)
        else none := by
  unfold point_cells point_dest pixel_weight get_pixel
  rw [hw]
  cases map_pixel p.pixmap i j with
  | none => simp
  | some v =>
    obtain ⟨ox, oy⟩ := v
    simp only []
    by_cases hr : fortran_round ox < 0 ∨ fortran_round ox ≥ (get_dimensions p.output_data).1 ∨
        fortran_round oy < 0 ∨ fortran_round oy ≥ (get_dimensions p.output_data).2
    · simp [hr]
    · simp only [hr, if_false, Option.some.injEq, Prod.mk.injEq]
      by_cases hxy : x = fortran_round ox ∧ y = fortran_round oy
      · rw [if_pos hxy, if_pos ⟨hxy.1.symm, hxy.2.symm⟩]
      · rw [if_neg hxy, if_neg (fun h => hxy ⟨h.1.symm, h.2.symm⟩)]

/-- The run of the point kernel when the destinations of the processed source
pixels are pairwise distinct. -/
theorem point_run (E : Extern) (p : driz_param_t) (hw : p.weights = none)
    (hz : ∀ x y, p.output_counts.val x y = Dbl.fin 0)
    (hdim : p.output_counts.nx = p.output_data.nx ∧ p.output_counts.ny = p.output_data.ny)
    (hdist : ∀ i j i1 j1 x y, processed (E.init_image_scanner p) i j = true →
      processed (E.init_image_scanner p) i1 j1 = true →
      point_dest p i j = some (x, y) → point_dest p i1 j1 = some (x, y) → i = i1 ∧ j = j1) :
    Frame p (do_kernel_point E p).2 ∧
    (∀ i j x y, processed (E.init_image_scanner p) i j = true → point_dest p i j = some (x, y) →
      (do_kernel_point E p).2.output_counts.val x y = Dbl.fin 1 ∧
      (do_kernel_point E p).2.output_data.val x y = p.data.val i j * (p.scale * p.scale)) ∧
    (∀ x y, (∀ i j, processed (E.init_image_scanner p) i j = true →
        point_dest p i j ≠ some (x, y)) →
      (do_kernel_point E p).2.output_counts.val x y = p.output_counts.val x y ∧
      (do_kernel_point E p).2.output_data.val x y = p.output_data.val x y) := by
  unfold do_kernel_point
  by_cases hret : (E.init_image_scanner p).ret = 0
  · simp only [hret, ne_eq, not_true_eq_false, if_false]
    obtain ⟨q, e, hf, h1, h2⟩ := placement_run p (E.init_image_scanner p)
      (compute_bit_value p.uuid)
      (point_pixel (p.scale * p.scale) (compute_bit_value p.uuid) (get_dimensions p.output_data))
      (point_dest p) (fun i j => p.data.val i j * (p.scale * p.scale)) hret hz hdist
      (by
        intro j i q hq _
        obtain ⟨n, e, _⟩ := point_pixel_cells (p.scale * p.scale) (compute_bit_value p.uuid)
          (get_dimensions p.output_data) j i q (Frame_osize p q hq) (Frame_counts p q hq hdim)
        refine ⟨n, ?_⟩
        rw [e]
        congr 1
        apply pixel_result_congr
        intro x y
        rw [(cells_frame E p q hq _ j i x y).1, point_cells_dest p hw])
    have e1 : forLoop (E.init_image_scanner p).ymin (E.init_image_scanner p).ymax
        (scan_row (E.init_image_scanner p) fun j xmin xmax q =>
          forLoop xmin xmax
            (point_pixel (p.scale * p.scale) (compute_bit_value p.uuid)
              (get_dimensions (init_counters p (E.init_image_scanner p)).output_data) j) q)
        (init_counters p (E.init_image_scanner p)) = Ctl.next q := e
    rw [e1]
    exact ⟨hf, h1, h2⟩
  · simp only [hret, ne_eq, not_false_eq_true, if_true]
    refine ⟨⟨rfl, rfl, rfl, rfl, rfl, rfl, rfl, rfl, rfl, rfl, rfl, rfl, rfl, rfl, rfl, rfl⟩, ?_,
      fun _ _ _ => ⟨trivial, trivial⟩⟩
    intro i j x y h
    have := ((row_processed_iff _ j).mp ((processed_iff _ i j).mp h).1).1
    exact absurd this hret

theorem fortran_round_int (i : Int) : fortran_round (Dbl.fin (i : ℚ)) = i := by
  unfold fortran_round
  by_cases h : (0 : ℚ) ≤ (i : ℚ)
  · simp only [h, if_true]
    rw [Int.floor_eq_iff]
    constructor <;> linarith
  · simp only [h, if_false]
    have : Int.floor (1 / 2 - (i : ℚ)) = -i := by
      rw [Int.floor_eq_iff]
      constructor <;> push_cast <;> linarith
    rw [this]
    ring

theorem point_dest_identity (p : driz_param_t) (i j x y : Int)
    (hp : p.pixmap i j = (Dbl.fin (i : ℚ), Dbl.fin (j : ℚ))) :
    point_dest p i j = some (x, y) ↔
      (x = i ∧ y = j ∧ 0 ≤ i ∧ i < (p.output_data.nx : Int) ∧ 0 ≤ j ∧
        j < (p.output_data.ny : Int)) := by
  unfold point_dest map_pixel
  simp only [hp, Dbl.isFinite, Bool.and_self, if_true, fortran_round_int, get_dimensions]
  by_cases hr : i < 0 ∨ i ≥ (p.output_data.nx : Int) ∨ j < 0 ∨ j ≥ (p.output_data.ny : Int)
  · simp only [hr, if_true]
    constructor
    · intro h; exact absurd h (by simp)
    · intro h; omega
  · simp only [hr, if_false, Option.some.injEq, Prod.mk.injEq]
    constructor
    · rintro ⟨rfl, rfl⟩; omega
    · rintro ⟨rfl, rfl, _⟩; exact ⟨rfl, rfl⟩

theorem point_dest_shift (p : driz_param_t) (i j x y : Int)
    (hp : p.pixmap i j = (Dbl.fin ((i : ℚ) + 1 / 2), Dbl.fin (j : ℚ))) :
    point_dest p i j = some (x, y) ↔
      (x = i + 1 ∧ y = j ∧ 0 ≤ i ∧ i + 1 < (p.output_data.nx : Int) ∧ 0 ≤ j ∧
        j < (p.output_data.ny : Int)) := by
  unfold point_dest map_pixel
  simp only [hp, Dbl.isFinite, Bool.and_self, if_true, fortran_round_int,
    fortran_round_half_above, get_dimensions]
  by_cases h0 : 0 ≤ i
  · rw [if_pos h0]
    by_cases hr : i + 1 < 0 ∨ i + 1 ≥ (p.output_data.nx : Int) ∨ j < 0 ∨
        j ≥ (p.output_data.ny : Int)
    · simp only [hr, if_true]
      constructor
      · intro h; exact absurd h (by simp)
      · intro h; omega
    · simp only [hr, if_false, Option.some.injEq, Prod.mk.injEq]
      constructor
      · rintro ⟨rfl, rfl⟩; omega
      · rintro ⟨rfl, rfl, _⟩; exact ⟨rfl, rfl⟩
  · rw [if_neg h0]
    have hr : i < 0 ∨ i ≥ (p.output_data.nx : Int) ∨ j < 0 ∨ j ≥ (p.output_data.ny : Int) :=
      Or.inl (by omega)
    simp only [hr, if_true]
    constructor
    · intro h; exact absurd h (by simp)
    · intro h; omega

/-- C12: placement by the point kernel.  With no weights plane and zeroed
`output_counts` of the shape of `output_data`: when the destinations
`(round(ox), round(oy))` inside the image of the processed source pixels are
pairwise distinct, each such destination has counts 1 and data
`data[j][i]·scale²`, and every pixel that is no destination keeps its
values; for the identity pixmap with `scale = 1` every processed pixel inside
the image has counts 1 and `output_data = data`; for the pixmap
`(i, j) ↦ (i + 0.5, j)` column `i` is sent to column `i + 1` and column 0 is
untouched. -/
theorem point_placement (E : Extern) (p : driz_param_t) (hw : p.weights = none)
    (hz : ∀ x y, p.output_counts.val x y = Dbl.fin 0)
    (hdim : p.output_counts.nx = p.output_data.nx ∧ p.output_counts.ny = p.output_data.ny) :
    ((∀ i j i1 j1 x y, processed (E.init_image_scanner p) i j = true →
        processed (E.init_image_scanner p) i1 j1 = true →
        point_dest p i j = some (x, y) → point_dest p i1 j1 = some (x, y) → i = i1 ∧ j = j1) →
      (∀ i j x y, processed (E.init_image_scanner p) i j = true →
        point_dest p i j = some (x, y) →
        (do_kernel_point E p).2.output_counts.val x y = Dbl.fin 1 ∧
        (do_kernel_point E p).2.output_data.val x y = p.data.val i j * (p.scale * p.scale)) ∧
      (∀ x y, (∀ i j, processed (E.init_image_scanner p) i j = true →
          point_dest p i j ≠ some (x, y)) →
        (do_kernel_point E p).2.output_counts.val x y = p.output_counts.val x y ∧
        (do_kernel_point E p).2.output_data.val x y = p.output_data.val x y)) ∧
    ((∀ i j, p.pixmap i j = (Dbl.fin (i : ℚ), Dbl.fin (j : ℚ))) → p.scale = Dbl.fin 1 →
      ∀ x y, processed (E.init_image_scanner p) x y = true →
        0 ≤ x → x < (p.output_data.nx : Int) → 0 ≤ y → y < (p.output_data.ny : Int) →
        (do_kernel_point E p).2.output_counts.val x y = Dbl.fin 1 ∧
        (do_kernel_point E p).2.output_data.val x y = p.data.val x y) ∧
    ((∀ i j, p.pixmap i j = (Dbl.fin ((i : ℚ) + 1 / 2), Dbl.fin (j : ℚ))) →
      (∀ i j, processed (E.init_image_scanner p) i j = true →
        0 ≤ i → i + 1 < (p.output_data.nx : Int) → 0 ≤ j → j < (p.output_data.ny : Int) →
        (do_kernel_point E p).2.output_counts.val (i + 1) j = Dbl.fin 1 ∧
        (do_kernel_point E p).2.output_data.val (i + 1) j
          = p.data.val i j * (p.scale * p.scale)) ∧
      (∀ y, (do_kernel_point E p).2.output_counts.val 0 y = p.output_counts.val 0 y ∧
        (do_kernel_point E p).2.output_data.val 0 y = p.output_data.val 0 y)) := by
  refine ⟨?_, ?_, ?_⟩
  · intro hdist
    exact (point_run E p hw hz hdim hdist).2
  · intro hid hsc x y hproc hx1 hx2 hy1 hy2
    have hrun := point_run E p hw hz hdim (by
      intro i j i1 j1 x y _ _ h1 h2
      have a := (point_dest_identity p i j x y (hid i j)).mp h1
      have b := (point_dest_identity p i1 j1 x y (hid i1 j1)).mp h2
      exact ⟨by omega, by omega⟩)
    have := hrun.2.1 x y x y hproc
      ((point_dest_identity p x y x y (hid x y)).mpr ⟨rfl, rfl, hx1, hx2, hy1, hy2⟩)
    rw [hsc, Dbl.fin_mul_fin, mul_one, Dbl.mul_one'] at this
    exact this
  · intro hsh
    have hrun := point_run E p hw hz hdim (by
      intro i j i1 j1 x y _ _ h1 h2
      have a := (point_dest_shift p i j x y (hsh i j)).mp h1
      have b := (point_dest_shift p i1 j1 x y (hsh i1 j1)).mp h2
      exact ⟨by omega, by omega⟩)
    refine ⟨?_, ?_⟩
    · intro i j hproc hi1 hi2 hj1 hj2
      exact hrun.2.1 i j (i + 1) j hproc
        ((point_dest_shift p i j (i + 1) j (hsh i j)).mpr ⟨rfl, rfl, hi1, hi2, hj1, hj2⟩)
    · intro y
      apply hrun.2.2 0 y
      intro i j _ h
      have := (point_dest_shift p i j 0 y (hsh i j)).mp h
      omega

/-- C12 at concrete inputs: the 3×3 image `1..9` under the identity pixmap and
under the pixmap `(i, j) ↦ (i + 0.5, j)`. -/
theorem point_placement_witness :
    ((do_kernel_point demo_env demo_param).2.output_counts.val 1 1 = Dbl.fin 1 ∧
      (do_kernel_point demo_env demo_param).2.output_data.val 1 1 = Dbl.fin 5) ∧
    ((do_kernel_point demo_env shift_param).2.output_counts.val 2 1 = Dbl.fin 1 ∧
      (do_kernel_point demo_env shift_param).2.output_data.val 2 1 = Dbl.fin 5) ∧
    ((do_kernel_point demo_env shift_param).2.output_counts.val 0 1 = Dbl.fin 0 ∧
      (do_kernel_point demo_env shift_param).2.output_data.val 0 1 = Dbl.fin 0) := by
  have h1 := (point_placement demo_env demo_param rfl (fun _ _ => rfl) ⟨rfl, rfl⟩).2.1
    (fun _ _ => rfl) rfl 1 1 (by decide) (by decide) (by decide) (by decide) (by decide)
  have h2 := (point_placement demo_env shift_param rfl (fun _ _ => rfl) ⟨rfl, rfl⟩).2.2
    (fun _ _ => rfl)
  have h3 := h2.1 1 1 (by decide) (by decide) (by decide) (by decide) (by decide)
  have e5 : demo_param.data.val 1 1 = Dbl.fin 5 := by
    show Dbl.fin _ = Dbl.fin 5
    norm_num
  have e6 : shift_param.data.val 1 1 * (shift_param.scale * shift_param.scale) = Dbl.fin 5 := by
    show Dbl.fin _ * (Dbl.fin 1 * Dbl.fin 1) = Dbl.fin 5
    simp only [Dbl.fin_mul_fin]
    norm_num
  have e7 : (1 : Int) + 1 = 2 := rfl
  rw [e7, e6] at h3
  exact ⟨⟨h1.1, by rw [h1.2, e5]⟩, h3, h2.2 1⟩

/-! ## The turbo kernel on integer-aligned pixels -/

theorem one_mul_dbl (a : Dbl) : Dbl.fin 1 * a = a := by
  cases a with
  | fin q => simp
  | pinf => show Dbl.signedInf 1 = Dbl.pinf; simp [Dbl.signedInf]
  | ninf => show Dbl.signedInf (-1) = Dbl.ninf; simp [Dbl.signedInf]
  | nan => rfl

/-- One side of the overlap of a footprint of half-width `h ≤ 1/2` centred at
the integer `X` with the cell `x`. -/
theorem overlap_aligned (X x : Int) (h : ℚ) (h0 : 0 < h) (h1 : h ≤ 1 / 2) :
    max 0 (min ((X : ℚ) + h) ((x : ℚ) + 1 / 2) - max ((X : ℚ) - h) ((x : ℚ) - 1 / 2))
      = if x = X then 2 * h else 0 := by
  by_cases hx : x = X
  · have e1 : min ((X : ℚ) + h) ((X : ℚ) + 1 / 2) = (X : ℚ) + h := min_eq_left (by linarith)
    have e2 : max ((X : ℚ) - h) ((X : ℚ) - 1 / 2) = (X : ℚ) - h := max_eq_left (by linarith)
    rw [if_pos hx, hx, e1, e2, max_eq_right (by linarith)]
    ring
  · rw [if_neg hx]
    apply max_eq_left
    rcases lt_or_gt_of_ne hx with hlt | hgt
    · have : (x : ℚ) + 1 ≤ (X : ℚ) := by exact_mod_cast hlt
      have := min_le_right ((X : ℚ) + h) ((x : ℚ) + 1 / 2)
      have := le_max_left ((X : ℚ) - h) ((x : ℚ) - 1 / 2)
      linarith
    · have : (X : ℚ) + 1 ≤ (x : ℚ) := by exact_mod_cast hgt
      have := min_le_left ((X : ℚ) + h) ((x : ℚ) + 1 / 2)
      have := le_max_right ((X : ℚ) - h) ((x : ℚ) - 1 / 2)
      linarith

theorem over_aligned (X Y x y : Int) (h : ℚ) (h0 : 0 < h) (h1 : h ≤ 1 / 2) :
    over x y (Dbl.fin ((X : ℚ) - h)) (Dbl.fin ((X : ℚ) + h)) (Dbl.fin ((Y : ℚ) - h))
        (Dbl.fin ((Y : ℚ) + h))
      = if x = X ∧ y = Y then Dbl.fin (2 * h * (2 * h)) else Dbl.fin 0 := by
  rw [over_fin, overlap_aligned X x h h0 h1, overlap_aligned Y y h h0 h1]
  by_cases hx : x = X <;> by_cases hy : y = Y <;> simp [hx, hy]

theorem round_below_aligned (X : Int) (h : ℚ) (h0 : 0 < h) (h1 : h ≤ 1 / 2) :
    fortran_round (Dbl.fin ((X : ℚ) - h)) ≤ X ∧ X ≤ fortran_round (Dbl.fin ((X : ℚ) + h)) := by
  have a := fortran_round_bounds ((X : ℚ) - h)
  have b := fortran_round_bounds ((X : ℚ) + h)
  constructor
  · have : ((fortran_round (Dbl.fin ((X : ℚ) - h)) : Int) : ℚ) < (X : ℚ) + 1 := by linarith
    have : fortran_round (Dbl.fin ((X : ℚ) - h)) < X + 1 := by exact_mod_cast this
    omega
  · have : (X : ℚ) - 1 < ((fortran_round (Dbl.fin ((X : ℚ) + h)) : Int) : ℚ) := by linarith
    have : X - 1 < fortran_round (Dbl.fin ((X : ℚ) + h)) := by exact_mod_cast this
    omega

/-- The cells of the turbo kernel for a source pixel mapped to the integer
position `(X, Y)` inside the image, with a footprint of half-width
`h ≤ 1/2`: the one cell `(X, Y)`, with `dover·scale²·ac = 1`. -/
theorem turbo_cells_aligned (q : driz_param_t) (i j X Y : Int) (h s2 a : ℚ)
    (h0 : 0 < h) (h1 : h ≤ 1 / 2) (hone : 2 * h * (2 * h) * (s2 * a) = 1)
    (hp : q.pixmap i j = (Dbl.fin (X : ℚ), Dbl.fin (Y : ℚ)))
    (hX : 0 ≤ X ∧ X < (q.output_data.nx : Int)) (hY : 0 ≤ Y ∧ Y < (q.output_data.ny : Int))
    (x y : Int) :
    turbo_cells (Dbl.fin h) (Dbl.fin s2) (Dbl.fin a) (get_dimensions q.output_data) q j i x y
      = if x = X ∧ y = Y then some (get_pixel q.data i j * Dbl.fin s2, pixel_weight q i j)
        else none := by
  unfold turbo_cells map_pixel
  simp only [hp, Dbl.isFinite, Bool.and_self, if_true, Dbl.fin_sub_fin, Dbl.fin_add_fin,
    get_dimensions]
  rw [over_aligned X Y x y h h0 h1]
  by_cases hxy : x = X ∧ y = Y
  · obtain ⟨rfl, rfl⟩ := hxy
    have rx := round_below_aligned x h h0 h1
    have ry := round_below_aligned y h h0 h1
    have hr : max (fortran_round (Dbl.fin ((y : ℚ) - h))) 0 ≤ y ∧
        y ≤ min (fortran_round (Dbl.fin ((y : ℚ) + h))) ((q.output_data.ny : Int) - 1) ∧
        max (fortran_round (Dbl.fin ((x : ℚ) - h))) 0 ≤ x ∧
        x ≤ min (fortran_round (Dbl.fin ((x : ℚ) + h))) ((q.output_data.nx : Int) - 1) :=
      ⟨max_le ry.1 hY.1, le_min ry.2 (by omega), max_le rx.1 hX.1, le_min rx.2 (by omega)⟩
    have hpos : (0 : ℚ) < 2 * h * (2 * h) := by positivity
    rw [if_pos hr]
    simp only [and_self, if_true, Dbl.gt_fin_fin, hpos, decide_True, Dbl.fin_mul_fin,
      hone, one_mul_dbl]
  · simp only [hxy, if_false, Dbl.gt_fin_fin, lt_irrefl, decide_False, Bool.false_eq_true,
      ite_self]

theorem turbo_params (p : driz_param_t) (pf sc : ℚ)
    (hpf : p.pixel_fraction = Dbl.fin pf) (hsc : p.scale = Dbl.fin sc)
    (h0 : 0 < pf / sc) (h1 : pf / sc ≤ 1) :
    p.pixel_fraction / p.scale / Dbl.fin 2 = Dbl.fin (pf / sc / 2) ∧
    p.scale * p.scale = Dbl.fin (sc * sc) ∧
    Dbl.fin 1 / (p.pixel_fraction * p.pixel_fraction) = Dbl.fin (1 / (pf * pf)) ∧
    0 < pf / sc / 2 ∧ pf / sc / 2 ≤ 1 / 2 ∧
    2 * (pf / sc / 2) * (2 * (pf / sc / 2)) * (sc * sc * (1 / (pf * pf))) = 1 := by
  have hsc0 : sc ≠ 0 := by
    rintro rfl
    simp at h0
  have hpf0 : pf ≠ 0 := by
    rintro rfl
    simp at h0
  refine ⟨?_, ?_, ?_, by linarith, by linarith, ?_⟩
  · rw [hpf, hsc, Dbl.fin_div_fin _ _ hsc0, Dbl.fin_div_fin _ _ (by norm_num)]
  · rw [hsc, Dbl.fin_mul_fin]
  · rw [hpf, Dbl.fin_mul_fin, Dbl.fin_div_fin _ _ (mul_ne_zero hpf0 hpf0)]
  · field_simp
    ring

theorem point_cells_aligned (q : driz_param_t) (i j X Y : Int) (scale2 : Dbl)
    (hp : q.pixmap i j = (Dbl.fin (X : ℚ), Dbl.fin (Y : ℚ)))
    (hX : 0 ≤ X ∧ X < (q.output_data.nx : Int)) (hY : 0 ≤ Y ∧ Y < (q.output_data.ny : Int))
    (x y : Int) :
    point_cells scale2 (get_dimensions q.output_data) q j i x y
      = if x = X ∧ y = Y then some (get_pixel q.data i j * scale2, pixel_weight q i j)
        else none := by
  unfold point_cells map_pixel
  simp only [hp, Dbl.isFinite, Bool.and_self, if_true, fortran_round_int, get_dimensions]
  rw [if_neg (by omega)]

theorem pixel_result_hit (q : driz_param_t) (bv : Nat) (G G1 : Int → Int → Option (Dbl × Dbl))
    (n n1 : Int) (h : ∀ x y, G x y = G1 x y) (hn : n = 0 ↔ ∀ x y, G x y = none)
    (hn1 : n1 = 0 ↔ ∀ x y, G1 x y = none) :
    pixel_result q bv G n = pixel_result q bv G1 n1 := by
  have e : G = G1 := by funext x y; exact h x y
  subst e
  unfold pixel_result
  by_cases h0 : n = 0
  · rw [if_pos h0, if_pos (hn1.mpr (hn.mp h0))]
  · rw [if_neg h0, if_neg (fun h1 => h0 (hn.mpr (hn1.mp h1)))]

/-- A source pixel that the turbo kernel maps to an integer position inside
the image, with a footprint no wider than a pixel, is treated as by the point
kernel. -/
theorem turbo_pixel_aligned (q : driz_param_t) (i j X Y : Int) (h s2 a : ℚ) (bv : Nat)
    (h0 : 0 < h) (h1 : h ≤ 1 / 2) (hone : 2 * h * (2 * h) * (s2 * a) = 1)
    (hp : q.pixmap i j = (Dbl.fin (X : ℚ), Dbl.fin (Y : ℚ)))
    (hX : 0 ≤ X ∧ X < (q.output_data.nx : Int)) (hY : 0 ≤ Y ∧ Y < (q.output_data.ny : Int))
    (hc : q.output_counts.nx = q.output_data.nx ∧ q.output_counts.ny = q.output_data.ny) :
    turbo_pixel (Dbl.fin h) (Dbl.fin s2) (Dbl.fin a) bv (get_dimensions q.output_data) j i q
      = point_pixel (Dbl.fin s2) bv (get_dimensions q.output_data) j i q := by
  obtain ⟨n, e, _, hn⟩ := turbo_pixel_cells (Dbl.fin h) (Dbl.fin s2) (Dbl.fin a) bv
    (get_dimensions q.output_data) j i q rfl hc
  obtain ⟨n1, e1, _, hn1⟩ := point_pixel_cells (Dbl.fin s2) bv
    (get_dimensions q.output_data) j i q rfl hc
  rw [e, e1]
  congr 1
  apply pixel_result_hit q bv _ _ n n1 _ hn hn1
  intro x y
  rw [turbo_cells_aligned q i j X Y h s2 a h0 h1 hone hp hX hY,
    point_cells_aligned q i j X Y (Dbl.fin s2) hp hX hY]

/-- C13: the turbo kernel on integer-aligned pixels.  With
`0 < pixel_fraction/scale ≤ 1`, for a source pixel mapped to an integer
position `(X, Y)` inside the image: `over·scale²·(1/pixel_fraction²) = 1` at
`(X, Y)`, the only destination pixel that receives a contribution is
`(X, Y)`, with `dow = w`, and the step of the turbo driver is that of the
point driver.  For the identity pixmap, no weights, zeroed counts and
processed pixels inside the image, the output planes of the turbo run are
those of the point run: counts 1 and `data·scale²`, that is `data` for
`scale = 1`. -/
theorem turbo_aligned (E : Extern) (p : driz_param_t) (pf sc : ℚ)
    (hpf : p.pixel_fraction = Dbl.fin pf) (hsc : p.scale = Dbl.fin sc)
    (h0 : 0 < pf / sc) (h1 : pf / sc ≤ 1) :
    (∀ (q : driz_param_t) (i j X Y : Int),
      q.pixmap i j = (Dbl.fin (X : ℚ), Dbl.fin (Y : ℚ)) →
      0 ≤ X → X < (q.output_data.nx : Int) → 0 ≤ Y → Y < (q.output_data.ny : Int) →
      over X Y (Dbl.ofInt X - p.pixel_fraction / p.scale / Dbl.fin 2)
          (Dbl.ofInt X + p.pixel_fraction / p.scale / Dbl.fin 2)
          (Dbl.ofInt Y - p.pixel_fraction / p.scale / Dbl.fin 2)
          (Dbl.ofInt Y + p.pixel_fraction / p.scale / Dbl.fin 2)
        * (p.scale * p.scale * (Dbl.fin 1 / (p.pixel_fraction * p.pixel_fraction))) = Dbl.fin 1 ∧
      (∀ x y, turbo_cells (p.pixel_fraction / p.scale / Dbl.fin 2) (p.scale * p.scale)
          (Dbl.fin 1 / (p.pixel_fraction * p.pixel_fraction)) (get_dimensions q.output_data)
          q j i x y
        = if x = X ∧ y = Y then
            some (get_pixel q.data i j * (p.scale * p.scale), pixel_weight q i j)
          else none) ∧
      (q.output_counts.nx = q.output_data.nx ∧ q.output_counts.ny = q.output_data.ny →
        ∀ bv, turbo_pixel (p.pixel_fraction / p.scale / Dbl.fin 2) (p.scale * p.scale)
            (Dbl.fin 1 / (p.pixel_fraction * p.pixel_fraction)) bv
            (get_dimensions q.output_data) j i q
          = point_pixel (p.scale * p.scale) bv (get_dimensions q.output_data) j i q)) ∧
    ((∀ i j, p.pixmap i j = (Dbl.fin (i : ℚ), Dbl.fin (j : ℚ))) → p.weights = none →
      (∀ x y, p.output_counts.val x y = Dbl.fin 0) →
      (p.output_counts.nx = p.output_data.nx ∧ p.output_counts.ny = p.output_data.ny) →
      (∀ i j, processed (E.init_image_scanner p) i j = true →
        0 ≤ i ∧ i < (p.output_data.nx : Int) ∧ 0 ≤ j ∧ j < (p.output_data.ny : Int)) →
      (do_kernel_turbo E p).2.output_counts = (do_kernel_point E p).2.output_counts ∧
      (do_kernel_turbo E p).2.output_data = (do_kernel_point E p).2.output_data ∧
      (∀ x y, processed (E.init_image_scanner p) x y = true →
        (do_kernel_turbo E p).2.output_counts.val x y = Dbl.fin 1 ∧
        (do_kernel_turbo E p).2.output_data.val x y = p.data.val x y * (p.scale * p.scale) ∧
        (sc = 1 → (do_kernel_turbo E p).2.output_data.val x y = p.data.val x y))) := by
  obtain ⟨e1, e2, e3, g0, g1, g2⟩ := turbo_params p pf sc hpf hsc h0 h1
  refine ⟨?_, ?_⟩
  · intro q i j X Y hp hX1 hX2 hY1 hY2
    rw [e1, e2, e3]
    refine ⟨?_, ?_, ?_⟩
    · simp only [Dbl.ofInt_eq, Dbl.fin_sub_fin, Dbl.fin_add_fin]
      rw [over_aligned X Y X Y _ g0 g1]
      simp only [and_self, if_true, Dbl.fin_mul_fin, g2]
    · intro x y
      exact turbo_cells_aligned q i j X Y _ _ _ g0 g1 g2 hp ⟨hX1, hX2⟩ ⟨hY1, hY2⟩ x y
    · intro hc bv
      exact turbo_pixel_aligned q i j X Y _ _ _ bv g0 g1 g2 hp ⟨hX1, hX2⟩ ⟨hY1, hY2⟩ hc
  · intro hid hw hz hdim hfit
    have hdist : ∀ i j i1 j1 x y, processed (E.init_image_scanner p) i j = true →
        processed (E.init_image_scanner p) i1 j1 = true →
        point_dest p i j = some (x, y) → point_dest p i1 j1 = some (x, y) → i = i1 ∧ j = j1 := by
      intro i j i1 j1 x y _ _ a b
      have a1 := (point_dest_identity p i j x y (hid i j)).mp a
      have b1 := (point_dest_identity p i1 j1 x y (hid i1 j1)).mp b
      exact ⟨by omega, by omega⟩
    obtain ⟨pf1, pa, pb⟩ := point_run E p hw hz hdim hdist
    have hturbo : Frame p (do_kernel_turbo E p).2 ∧
        (∀ i j x y, processed (E.init_image_scanner p) i j = true →
          point_dest p i j = some (x, y) →
          (do_kernel_turbo E p).2.output_counts.val x y = Dbl.fin 1 ∧
          (do_kernel_turbo E p).2.output_data.val x y = p.data.val i j * (p.scale * p.scale)) ∧
        (∀ x y, (∀ i j, processed (E.init_image_scanner p) i j = true →
            point_dest p i j ≠ some (x, y)) →
          (do_kernel_turbo E p).2.output_counts.val x y = p.output_counts.val x y ∧
          (do_kernel_turbo E p).2.output_data.val x y = p.output_data.val x y) := by
      unfold do_kernel_turbo
      by_cases hret : (E.init_image_scanner p).ret = 0
      · simp only [hret, ne_eq, not_true_eq_false, if_false]
        obtain ⟨q, e, hf, k1, k2⟩ := placement_run p (E.init_image_scanner p)
          (compute_bit_value p.uuid)
          (turbo_pixel (p.pixel_fraction / p.scale / Dbl.fin 2) (p.scale * p.scale)
            (Dbl.fin 1 / (p.pixel_fraction * p.pixel_fraction)) (compute_bit_value p.uuid)
            (get_dimensions p.output_data))
          (point_dest p) (fun i j => p.data.val i j * (p.scale * p.scale)) hret hz hdist
          (by
            intro j i q hq hproc
            have hqc := Frame_counts p q hq hdim
            have hos := Frame_osize p q hq
            have hqp : q.pixmap = p.pixmap := hq.2.2.2.2.2.2.2.2.2.2.2.1
            obtain ⟨f1, f2, f3, f4⟩ := hfit i j hproc
            have hnx : q.output_data.nx = p.output_data.nx := hq.2.2.2.2.2.2.2.2.2.2.2.2.1
            have hny : q.output_data.ny = p.output_data.ny := hq.2.2.2.2.2.2.2.2.2.2.2.2.2.1
            have hosq : get_dimensions p.output_data = get_dimensions q.output_data := hos
            rw [hosq, e1, e2, e3]
            rw [turbo_pixel_aligned q i j i j _ _ _ _ g0 g1 g2 (by rw [hqp]; exact hid i j)
              ⟨f1, by rw [hnx]; exact f2⟩ ⟨f3, by rw [hny]; exact f4⟩ hqc]
            obtain ⟨n, e, _⟩ := point_pixel_cells (Dbl.fin (sc * sc)) (compute_bit_value p.uuid)
              (get_dimensions q.output_data) j i q rfl hqc
            refine ⟨n, ?_⟩
            rw [e]
            congr 1
            apply pixel_result_congr
            intro x y
            rw [← hosq, (cells_frame E p q hq _ j i x y).1, point_cells_dest p hw])
        have e9 : forLoop (E.init_image_scanner p).ymin (E.init_image_scanner p).ymax
            (scan_row (E.init_image_scanner p) fun j xmin xmax q =>
              forLoop xmin xmax
                (turbo_pixel (p.pixel_fraction / p.scale / Dbl.fin 2) (p.scale * p.scale)
                  (Dbl.fin 1 / (p.pixel_fraction * p.pixel_fraction))
                  (compute_bit_value p.uuid)
                  (get_dimensions (init_counters p (E.init_image_scanner p)).output_data) j) q)
            (init_counters p (E.init_image_scanner p)) = Ctl.next q := e
        rw [e9]
        exact ⟨hf, k1, k2⟩
      · simp only [hret, ne_eq, not_false_eq_true, if_true]
        refine ⟨⟨rfl, rfl, rfl, rfl, rfl, rfl, rfl, rfl, rfl, rfl, rfl, rfl, rfl, rfl, rfl, rfl⟩,
          ?_, fun _ _ _ => ⟨trivial, trivial⟩⟩
        intro i j x y h
        have := ((row_processed_iff _ j).mp ((processed_iff _ i j).mp h).1).1
        exact absurd this hret
    obtain ⟨tf, ta, tb⟩ := hturbo
    have hval : ∀ x y,
        (do_kernel_turbo E p).2.output_counts.val x y
          = (do_kernel_point E p).2.output_counts.val x y ∧
        (do_kernel_turbo E p).2.output_data.val x y
          = (do_kernel_point E p).2.output_data.val x y := by
      intro x y
      by_cases hh : ∃ i j, processed (E.init_image_scanner p) i j = true ∧
          point_dest p i j = some (x, y)
      · obtain ⟨i, j, hp1, hp2⟩ := hh
        rw [(ta i j x y hp1 hp2).1, (ta i j x y hp1 hp2).2, (pa i j x y hp1 hp2).1,
          (pa i j x y hp1 hp2).2]
        exact ⟨rfl, rfl⟩
      · have hno : ∀ i j, processed (E.init_image_scanner p) i j = true →
            point_dest p i j ≠ some (x, y) := fun i j hp1 hp2 => hh ⟨i, j, hp1, hp2⟩
        rw [(tb x y hno).1, (tb x y hno).2, (pb x y hno).1, (pb x y hno).2]
        exact ⟨rfl, rfl⟩
    refine ⟨?_, ?_, ?_⟩
    · apply plane_ext
      · rw [tf.2.2.2.2.2.2.2.2.2.2.2.2.2.2.1, pf1.2.2.2.2.2.2.2.2.2.2.2.2.2.2.1]
      · rw [tf.2.2.2.2.2.2.2.2.2.2.2.2.2.2.2, pf1.2.2.2.2.2.2.2.2.2.2.2.2.2.2.2]
      · exact fun x y => (hval x y).1
    · apply plane_ext
      · rw [tf.2.2.2.2.2.2.2.2.2.2.2.2.1, pf1.2.2.2.2.2.2.2.2.2.2.2.2.1]
      · rw [tf.2.2.2.2.2.2.2.2.2.2.2.2.2.1, pf1.2.2.2.2.2.2.2.2.2.2.2.2.2.1]
      · exact fun x y => (hval x y).2
    · intro x y hproc
      obtain ⟨f1, f2, f3, f4⟩ := hfit x y hproc
      have := ta x y x y hproc
        ((point_dest_identity p x y x y (hid x y)).mpr ⟨rfl, rfl, f1, f2, f3, f4⟩)
      refine ⟨this.1, this.2, ?_⟩
      intro hs1
      rw [this.2, hsc, hs1, Dbl.fin_mul_fin, mul_one, Dbl.mul_one']

/-- C13 at a concrete input: the 3×3 image `1..9`, identity pixmap,
`scale = 1`, `pixel_fraction = 0.5`. -/
theorem turbo_aligned_witness :
    (do_kernel_turbo demo_env turbo_param).2.output_counts
      = (do_kernel_point demo_env turbo_param).2.output_counts ∧
    (do_kernel_turbo demo_env turbo_param).2.output_data
      = (do_kernel_point demo_env turbo_param).2.output_data ∧
    (do_kernel_turbo demo_env turbo_param).2.output_counts.val 1 1 = Dbl.fin 1 ∧
    (do_kernel_turbo demo_env turbo_param).2.output_data.val 1 1 = Dbl.fin 5 := by
  have h := (turbo_aligned demo_env turbo_param (1 / 2) 1 rfl rfl (by norm_num)
    (by norm_num)).2 (fun _ _ => rfl) rfl (fun _ _ => rfl) ⟨rfl, rfl⟩
    (fun i j hp => demo_env_fits i j hp)
  refine ⟨h.1, h.2.1, (h.2.2 1 1 (by decide)).1, ?_⟩
  rw [(h.2.2 1 1 (by decide)).2.2 rfl]
  show Dbl.fin _ = Dbl.fin 5
  norm_num

/-! ## The scanner policy and the miss counter -/

/-- What the row loop of every driver adds to `nmiss` on status 0, before the
column loop: one less than `(xmax − xmin + 1) − (x2 − x1 + 1)`. -/
theorem scan_row_status0 (s : Scanner)
    (row : Int → Int → Int → driz_param_t → Ctl driz_param_t) (j : Int) (p : driz_param_t)
    (h : (s.rows j).status = 0) :
    scan_row s row j p = row j (s.rows j).x1 (s.rows j).x2
      { p with nmiss := p.nmiss +
        ((p.xmax - p.xmin + 1) - ((s.rows j).x2 - (s.rows j).x1 + 1) - 1) } := by
  unfold scan_row
  have h1 : ¬ (s.rows j).status = 1 := by omega
  have h2 : ¬ ((s.rows j).status = 2 ∨ (s.rows j).status = 3) := by omega
  simp only [h1, h2, if_false]
  congr 2
  ring

/-- What the row loop of every driver does on status 2 or 3: `nskip` is
incremented and `nmiss` grows by one less than the row width
`xmax − xmin + 1`. -/
theorem scan_row_status23 (s : Scanner)
    (row : Int → Int → Int → driz_param_t → Ctl driz_param_t) (j : Int) (p : driz_param_t)
    (h : (s.rows j).status = 2 ∨ (s.rows j).status = 3) :
    scan_row s row j p = Ctl.next
      { p with nmiss := p.nmiss + ((p.xmax - p.xmin + 1) - 1), nskip := p.nskip + 1 } := by
  unfold scan_row
  have h1 : ¬ (s.rows j).status = 1 := by omega
  simp only [h1, h, if_false, if_true]
  congr 2
  ring

set_option maxRecDepth 100000 in
theorem demo_runs_nmiss :
    (do_kernel_point demo_env demo_param).2.nmiss = -3 ∧
    (do_kernel_turbo demo_env demo_param).2.nmiss = -3 ∧
    (do_kernel_square demo_env demo_param).2.nmiss = -3 ∧
    (do_kernel_gaussian demo_env demo_param).2.nmiss = -3 ∧
    (do_kernel_lanczos demo_env demo_param).2.nmiss = -3 := by
  decide!

theorem mixed_row_policy :
    ((mixed_env.init_image_scanner demo_param).rows 0).status = 2 ∧
    (scan_row (mixed_env.init_image_scanner demo_param) (fun _ _ _ q => Ctl.next q) 0
      demo_param).state.nmiss = demo_param.nmiss + 2 ∧
    (scan_row (mixed_env.init_image_scanner demo_param) (fun _ _ _ q => Ctl.next q) 0
      demo_param).state.nskip = demo_param.nskip + 1 := by
  have h : ((mixed_env.init_image_scanner demo_param).rows 0).status = 2 := rfl
  refine ⟨h, ?_, ?_⟩
  · rw [scan_row_status23 _ _ _ _ (Or.inl h)]
    rfl
  · rw [scan_row_status23 _ _ _ _ (Or.inl h)]
    rfl

/-- C21 at a failing input: the 3×3 region `[0, 2] × [0, 2]`, row width 3.
On status 0 with the limits `[0, 2]` (the whole row) the stated amount
`(xmax − xmin + 1) − (x2 − x1 + 1)` is `3 − 3 = 0`, the row loop adds `−1` to
`nmiss`; on status 2 the row width is 3, the row loop adds 2 (and increments
`nskip`).  A run of each of the five drivers in which every source pixel is
hit ends with `nmiss = −3`. -/
theorem scan_policy_row_width :
    ((demo_env.init_image_scanner demo_param).rows 0).status = 0 ∧
    ((demo_env.init_image_scanner demo_param).rows 0).x1 = demo_param.xmin ∧
    ((demo_env.init_image_scanner demo_param).rows 0).x2 = demo_param.xmax ∧
    (demo_param.xmax - demo_param.xmin + 1)
      - (((demo_env.init_image_scanner demo_param).rows 0).x2
        - ((demo_env.init_image_scanner demo_param).rows 0).x1 + 1) = 0 ∧
    (scan_row (demo_env.init_image_scanner demo_param) (fun _ _ _ q => Ctl.next q) 0
      demo_param).state.nmiss = demo_param.nmiss - 1 ∧
    demo_param.xmax - demo_param.xmin + 1 = 3 ∧
    ((mixed_env.init_image_scanner demo_param).rows 0).status = 2 ∧
    (scan_row (mixed_env.init_image_scanner demo_param) (fun _ _ _ q => Ctl.next q) 0
      demo_param).state.nmiss = demo_param.nmiss + 2 ∧
    (scan_row (mixed_env.init_image_scanner demo_param) (fun _ _ _ q => Ctl.next q) 0
      demo_param).state.nskip = demo_param.nskip + 1 ∧
    (do_kernel_point demo_env demo_param).2.nmiss = -3 ∧
    (do_kernel_turbo demo_env demo_param).2.nmiss = -3 ∧
    (do_kernel_square demo_env demo_param).2.nmiss = -3 ∧
    (do_kernel_gaussian demo_env demo_param).2.nmiss = -3 ∧
    (do_kernel_lanczos demo_env demo_param).2.nmiss = -3 := by
  refine ⟨rfl, rfl, rfl, rfl, ?_, rfl, mixed_row_policy.1, mixed_row_policy.2.1,
    mixed_row_policy.2.2, demo_runs_nmiss⟩
  rw [scan_row_status0 _ _ _ _ rfl]
  rfl

/-! ## Source pixels that all miss the output image -/

theorem point_pixel_miss (scale2 : Dbl) (bv : Nat) (p q : driz_param_t) (j i : Int)
    (hq : Frame p q) (h : point_dest p i j = none) :
    point_pixel scale2 bv (get_dimensions p.output_data) j i q
      = Ctl.next { q with nmiss := q.nmiss + 1 } := by
  have hpm : q.pixmap = p.pixmap := hq.2.2.2.2.2.2.2.2.2.2.2.1
  unfold point_dest at h
  unfold point_pixel
  rw [hpm]
  cases hm : map_pixel p.pixmap i j with
  | none => rfl
  | some xy =>
    obtain ⟨ox, oy⟩ := xy
    rw [hm] at h
    simp only [] at h ⊢
    split_ifs at h with hout
    rw [if_pos hout]

/-- The column loop of `do_kernel_point` on a row whose pixels all miss the
output image: each of the `x2 + 1 − x1` pixels increments `nmiss`. -/
theorem point_row_miss (scale2 : Dbl) (bv : Nat) (p : driz_param_t) (j x1 x2 : Int)
    (hlim : x1 ≤ x2 + 1) (h : ∀ i, x1 ≤ i → i ≤ x2 → point_dest p i j = none)
    (q : driz_param_t) (hq : Frame p q) :
    ∃ q1, forLoop x1 x2 (point_pixel scale2 bv (get_dimensions p.output_data) j) q = Ctl.next q1 ∧
      Frame p q1 ∧ q1.nskip = q.nskip ∧ q1.nmiss = q.nmiss + (x2 + 1 - x1) := by
  apply forLoop_rule _
    (fun i t => Frame p t ∧ t.nskip = q.nskip ∧ t.nmiss = q.nmiss + (i - x1))
    (fun t => Frame p t ∧ t.nskip = q.nskip ∧ t.nmiss = q.nmiss + (x2 + 1 - x1)) x1 x2 q
    ⟨hq, rfl, by ring⟩
  · intro i t hi1 hi2 ⟨ht, hs, hn⟩
    left
    refine ⟨_, point_pixel_miss scale2 bv p t j i ht (h i hi1 hi2), ht, hs, ?_⟩
    show t.nmiss + 1 = _
    rw [hn]; ring
  · intro t ⟨ht, hs, hn⟩
    rw [max_eq_right hlim] at hn
    exact ⟨ht, hs, hn⟩

/-- The miss counter of `do_kernel_point` when every source pixel the scanner
admits maps outside the output image: whatever the statuses, each row of the
region `[ymin, ymax]` adds `xmax − xmin`, one less than the number
`xmax − xmin + 1` of its pixels. -/
theorem point_outside_count (E : Extern) (p : driz_param_t)
    (hret : (E.init_image_scanner p).ret = 0)
    (hrange : (E.init_image_scanner p).ymin ≤ (E.init_image_scanner p).ymax + 1)
    (hlim : ∀ j, ((E.init_image_scanner p).rows j).x1 ≤ ((E.init_image_scanner p).rows j).x2 + 1)
    (hout : ∀ i j, point_dest p i j = none) :
    (do_kernel_point E p).1 = 0 ∧
      (do_kernel_point E p).2.nmiss = (p.ymax - p.ymin + 1) * (p.xmax - p.xmin) := by
  unfold do_kernel_point
  simp only [hret, ne_eq, not_true_eq_false, if_false]
  generalize hs : E.init_image_scanner p = s at hrange hlim
  have hF : Frame p (init_counters p s) := Frame_init p s
  obtain ⟨q1, e, hq1⟩ := forLoop_rule
    (scan_row s (fun j xmin xmax q => forLoop xmin xmax
      (point_pixel (p.scale * p.scale) (compute_bit_value p.uuid)
        (get_dimensions (init_counters p s).output_data) j) q))
    (fun k t => Frame p t ∧
      t.nmiss = ((p.ymax - p.ymin) - (s.ymax - s.ymin) + (k - s.ymin)) * (p.xmax - p.xmin))
    (fun t => t.nmiss = (p.ymax - p.ymin + 1) * (p.xmax - p.xmin))
    s.ymin s.ymax (init_counters p s)
    ⟨hF, by show _ * _ = _; ring⟩
    (by
      intro k t hk1 hk2 ⟨ht, hn⟩
      have hx1 : t.xmax = p.xmax := ht.2.2.2.2.2.2.1
      have hx0 : t.xmin = p.xmin := ht.2.2.2.2.2.1
      unfold scan_row
      by_cases h1 : (s.rows k).status = 1
      · right
        simp only [h1, if_true]
        refine ⟨_, rfl, ?_⟩
        show t.nmiss + (s.ymax + 1 - k) * (t.xmax - t.xmin) = _
        rw [hn, hx1, hx0]; ring
      · by_cases h23 : (s.rows k).status = 2 ∨ (s.rows k).status = 3
        · left
          simp only [h1, if_false, h23, if_true]
          refine ⟨_, rfl, ht, ?_⟩
          show t.nmiss + (t.xmax - t.xmin) = _
          rw [hn, hx1, hx0]; ring
        · left
          simp only [h1, h23, if_false]
          obtain ⟨q2, e2, hq2, _, hm2⟩ := point_row_miss (p.scale * p.scale)
            (compute_bit_value p.uuid) p k (s.rows k).x1 (s.rows k).x2 (hlim k)
            (fun i _ _ => hout i k)
            { t with nmiss := t.nmiss + (t.xmax - t.xmin - ((s.rows k).x2 + 1 - (s.rows k).x1)) }
            ht
          refine ⟨q2, e2, hq2, ?_⟩
          rw [hm2]
          show t.nmiss + (t.xmax - t.xmin - ((s.rows k).x2 + 1 - (s.rows k).x1)) + _ = _
          rw [hn, hx1, hx0]; ring)
    (by
      intro t ⟨_, hn⟩
      rw [max_eq_right hrange] at hn
      rw [hn]; ring)
  rw [e]
  exact ⟨rfl, hq1⟩

theorem outside_param_dest (i j : Int) : point_dest outside_param i j = none := by
  have hr : fortran_round (Dbl.fin (-1)) = -1 := by
    unfold fortran_round
    norm_num
  unfold point_dest map_pixel outside_param
  simp [Dbl.isFinite, hr]

/-- C22 at a failing input: the 3×3 region with the pixmap `≡ (−1, −1)` and a
scanner that admits every row in full.  The run succeeds and every one of the
9 source pixels misses the output image, but `nmiss` ends at 6: each of the 3
rows adds `xmax − xmin = 2`. -/
theorem all_missed_count :
    (∀ i j, point_dest outside_param i j = none) ∧
    (do_kernel_point demo_env outside_param).1 = 0 ∧
    (do_kernel_point demo_env outside_param).2.nmiss = 6 ∧
    (outside_param.ymax - outside_param.ymin + 1) * (outside_param.xmax - outside_param.xmin + 1)
      = 9 := by
  have h := point_outside_count demo_env outside_param rfl (by decide)
    (fun _ => show (0 : Int) ≤ 2 + 1 by decide) outside_param_dest
  exact ⟨outside_param_dest, h.1, h.2, rfl⟩

/-! ## Counting missed source pixels -/

/-- The miss counter after one source pixel with footprint `G` and hit count
`n`, when `n = 0` exactly for an empty footprint. -/
theorem pixel_result_miss (q : driz_param_t) (bv : Nat) (G : Int → Int → Option (Dbl × Dbl))
    (n : Int) (h : n = 0 ↔ ∀ x y, G x y = none) :
    ((∀ x y, G x y = none) → pixel_result q bv G n = { q with nmiss := q.nmiss + 1 }) ∧
    ((∃ x y c, G x y = some c) → (pixel_result q bv G n).nmiss = q.nmiss) := by
  constructor
  · intro hG
    have hGf : G = fun _ _ => none := by
      funext x y
      exact hG x y
    unfold pixel_result
    rw [if_pos (h.mpr hG), hGf, apply_cells_none]
  · rintro ⟨x, y, c, hc⟩
    have hn : n ≠ 0 := by
      intro h0
      have := h.mp h0 x y
      rw [hc] at this
      exact Option.noConfusion this
    unfold pixel_result
    rw [if_neg hn]
    rfl

set_option maxRecDepth 100000 in
theorem zero_weight_pixel : pixel_weight zero_weight_param 1 1 = Dbl.fin 0 := by
  decide!

theorem zero_weight_point :
    point_pixel (zero_weight_param.scale * zero_weight_param.scale)
      (compute_bit_value zero_weight_param.uuid) (get_dimensions zero_weight_param.output_data)
      1 1 zero_weight_param = Ctl.next zero_weight_param ∧
    ∀ x y c, point_cells (zero_weight_param.scale * zero_weight_param.scale)
      (get_dimensions zero_weight_param.output_data) zero_weight_param 1 1 x y = some c →
      c.2 = Dbl.fin 0 := by
  have hm : map_pixel zero_weight_param.pixmap 1 1 = some (Dbl.fin 1, Dbl.fin 1) := by decide!
  have hr : fortran_round (Dbl.fin 1) = 1 := by decide!
  have hw : pixel_weight zero_weight_param 1 1 = Dbl.fin 0 := zero_weight_pixel
  have hd : get_dimensions zero_weight_param.output_data = (3, 3) := rfl
  constructor
  · unfold point_pixel
    rw [hm]
    simp only [hr, hw, hd]
    rw [if_neg (by decide)]
    have hu : update_context zero_weight_param 1 1 (compute_bit_value zero_weight_param.uuid)
        (Dbl.fin 0) = zero_weight_param := rfl
    rw [hu, update_data_skip _ _ _ _ _ _ (by decide)]
    rfl
  · intro x y c h
    unfold point_cells at h
    rw [hm] at h
    simp only [hr, hw, hd] at h
    rw [if_neg (by decide)] at h
    split_ifs at h
    rw [← Option.some.inj h]

/-- C23 as stated fails: source pixel `(1, 1)` of the 3×3 image with a weights
plane of zeros maps inside the output image, so `dow = 0` and no destination
pixel can receive a non-zero weight; yet `do_kernel_point` leaves the bundle
as it was, `nmiss` included. -/
theorem zero_weight_not_missed :
    pixel_weight zero_weight_param 1 1 = Dbl.fin 0 ∧
    (∀ x y c, point_cells (zero_weight_param.scale * zero_weight_param.scale)
      (get_dimensions zero_weight_param.output_data) zero_weight_param 1 1 x y = some c →
      c.2 = Dbl.fin 0) ∧
    point_pixel (zero_weight_param.scale * zero_weight_param.scale)
      (compute_bit_value zero_weight_param.uuid) (get_dimensions zero_weight_param.output_data)
      1 1 zero_weight_param = Ctl.next zero_weight_param :=
  ⟨zero_weight_pixel, zero_weight_point.2, zero_weight_point.1⟩

/-- C23 (amended): per-source-pixel miss counting.  With `output_counts` of
the shape of `output_data`, in each of the five drivers the body of the column
loop for source pixel `(i, j)` goes on to the next pixel, and `nmiss` is
incremented by one exactly when `update_data` was called for no destination
pixel (the footprint `*_cells` is empty) — then the bundle is otherwise
unchanged — and keeps its value as soon as one destination pixel was handed
to `update_data`, whatever its weight `dow`.  An unmappable pixel has an empty
footprint. -/
theorem miss_counting (E : Extern) (lut : Int → Dbl) (pfo efac es sdp ac dh scale2 : Dbl)
    (bv : Nat) (j i : Int) (q : driz_param_t)
    (hc : q.output_counts.nx = q.output_data.nx ∧ q.output_counts.ny = q.output_data.ny) :
    (∃ q1, point_pixel scale2 bv (get_dimensions q.output_data) j i q = Ctl.next q1 ∧
      ((∀ x y, point_cells scale2 (get_dimensions q.output_data) q j i x y = none) →
        q1 = { q with nmiss := q.nmiss + 1 }) ∧
      ((∃ x y c, point_cells scale2 (get_dimensions q.output_data) q j i x y = some c) →
        q1.nmiss = q.nmiss)) ∧
    (∃ q1, gaussian_pixel E pfo efac es scale2 bv (get_dimensions q.output_data) j i q
        = Ctl.next q1 ∧
      ((∀ x y, gaussian_cells E pfo efac es scale2 (get_dimensions q.output_data) q j i x y
          = none) → q1 = { q with nmiss := q.nmiss + 1 }) ∧
      ((∃ x y c, gaussian_cells E pfo efac es scale2 (get_dimensions q.output_data) q j i x y
          = some c) → q1.nmiss = q.nmiss)) ∧
    (∃ q1, lanczos_pixel lut sdp pfo scale2 bv (get_dimensions q.output_data) j i q
        = Ctl.next q1 ∧
      ((∀ x y, lanczos_cells lut sdp pfo scale2 (get_dimensions q.output_data) q j i x y
          = none) → q1 = { q with nmiss := q.nmiss + 1 }) ∧
      ((∃ x y c, lanczos_cells lut sdp pfo scale2 (get_dimensions q.output_data) q j i x y
          = some c) → q1.nmiss = q.nmiss)) ∧
    (∃ q1, turbo_pixel pfo scale2 ac bv (get_dimensions q.output_data) j i q = Ctl.next q1 ∧
      ((∀ x y, turbo_cells pfo scale2 ac (get_dimensions q.output_data) q j i x y = none) →
        q1 = { q with nmiss := q.nmiss + 1 }) ∧
      ((∃ x y c, turbo_cells pfo scale2 ac (get_dimensions q.output_data) q j i x y = some c) →
        q1.nmiss = q.nmiss)) ∧
    (∃ q1, square_pixel E dh scale2 bv (get_dimensions q.output_data) j i q = Ctl.next q1 ∧
      ((∀ x y, square_cells E dh scale2 (get_dimensions q.output_data) q j i x y = none) →
        q1 = { q with nmiss := q.nmiss + 1 }) ∧
      ((∃ x y c, square_cells E dh scale2 (get_dimensions q.output_data) q j i x y = some c) →
        q1.nmiss = q.nmiss)) ∧
    (map_pixel q.pixmap i j = none → ∀ x y,
      point_cells scale2 (get_dimensions q.output_data) q j i x y = none ∧
      gaussian_cells E pfo efac es scale2 (get_dimensions q.output_data) q j i x y = none ∧
      lanczos_cells lut sdp pfo scale2 (get_dimensions q.output_data) q j i x y = none ∧
      turbo_cells pfo scale2 ac (get_dimensions q.output_data) q j i x y = none) ∧
    (interpolate_corners E q (corner_xin dh i) (corner_yin dh j) = none → ∀ x y,
      square_cells E dh scale2 (get_dimensions q.output_data) q j i x y = none) := by
  refine ⟨?_, ?_, ?_, ?_, ?_, ?_, ?_⟩
  · obtain ⟨n, e, _, hn⟩ := point_pixel_cells scale2 bv (get_dimensions q.output_data) j i q rfl hc
    exact ⟨_, e, pixel_result_miss q bv _ n hn⟩
  · obtain ⟨n, e, _, hn⟩ := gaussian_pixel_cells E pfo efac es scale2 bv
      (get_dimensions q.output_data) j i q rfl hc
    exact ⟨_, e, pixel_result_miss q bv _ n hn⟩
  · obtain ⟨n, e, _, hn⟩ := lanczos_pixel_cells lut sdp pfo scale2 bv
      (get_dimensions q.output_data) j i q rfl hc
    exact ⟨_, e, pixel_result_miss q bv _ n hn⟩
  · obtain ⟨n, e, _, hn⟩ := turbo_pixel_cells pfo scale2 ac bv (get_dimensions q.output_data) j i q
      rfl hc
    exact ⟨_, e, pixel_result_miss q bv _ n hn⟩
  · obtain ⟨n, e, _, hn⟩ := square_pixel_cells E dh scale2 bv (get_dimensions q.output_data) j i q
      rfl hc
    exact ⟨_, e, pixel_result_miss q bv _ n hn⟩
  · intro hm x y
    unfold point_cells gaussian_cells lanczos_cells turbo_cells
    rw [hm]
    exact ⟨rfl, rfl, rfl, rfl⟩
  · intro hm x y
    unfold square_cells
    rw [hm]

/-- C23 (amended) at a concrete input: source pixel `(1, 1)` of the 3×3 image
with a weights plane of zeros, in `do_kernel_point`. -/
theorem miss_counting_witness :
    (zero_weight_param.output_counts.nx = zero_weight_param.output_data.nx ∧
      zero_weight_param.output_counts.ny = zero_weight_param.output_data.ny) ∧
    ∃ q1, point_pixel (Dbl.fin 1) 1 (get_dimensions zero_weight_param.output_data) 1 1
        zero_weight_param = Ctl.next q1 ∧
      ((∀ x y, point_cells (Dbl.fin 1) (get_dimensions zero_weight_param.output_data)
          zero_weight_param 1 1 x y = none) →
        q1 = { zero_weight_param with nmiss := zero_weight_param.nmiss + 1 }) ∧
      ((∃ x y c, point_cells (Dbl.fin 1) (get_dimensions zero_weight_param.output_data)
          zero_weight_param 1 1 x y = some c) → q1.nmiss = zero_weight_param.nmiss) :=
  ⟨⟨rfl, rfl⟩, (miss_counting demo_env (fun _ => Dbl.fin 0) (Dbl.fin 1) (Dbl.fin 1) (Dbl.fin 1)
    (Dbl.fin 1) (Dbl.fin 1) (Dbl.fin (1 / 2)) (Dbl.fin 1) 1 1 1 zero_weight_param ⟨rfl, rfl⟩).1⟩

/-! ## The Jacobian of the square kernel -/

/-- C24: the Jacobian and the orientation of the square kernel.  For four
mapped corners with finite coordinates, with
`S = (x1−x3)(y0−y2) − (x0−x2)(y1−y3)`: the swap of vertices 1 and 3 is made
exactly when `S < 0`; the value of `jaco` after lines 804-816 is `½·|S|`,
which is not negative; on the stored corners the signed quantity is `2·jaco`
and not negative, and the half of it as the code computes it (the shoelace
area in the clockwise convention) is `jaco`; and these are the corners and
the `jaco` the body of the column loop of `do_kernel_square` hands to its
footprint loops. -/
theorem square_jaco_orientation (X Y : Fin 4 → ℚ) :
    (Dbl.lt (signed_jaco (quad X) (quad Y)) (Dbl.fin 0) = true ↔
      (X 1 - X 3) * (Y 0 - Y 2) - (X 0 - X 2) * (Y 1 - Y 3) < 0) ∧
    (if Dbl.lt (signed_jaco (quad X) (quad Y)) (Dbl.fin 0) then
        signed_jaco (quad X) (quad Y) * Dbl.fin (-1) else signed_jaco (quad X) (quad Y))
      = Dbl.fin (1 / 2 * |(X 1 - X 3) * (Y 0 - Y 2) - (X 0 - X 2) * (Y 1 - Y 3)|) ∧
    0 ≤ 1 / 2 * |(X 1 - X 3) * (Y 0 - Y 2) - (X 0 - X 2) * (Y 1 - Y 3)| ∧
    ∃ X1 Y1 : Fin 4 → ℚ,
      swap13 (Dbl.lt (signed_jaco (quad X) (quad Y)) (Dbl.fin 0)) (quad X) = quad X1 ∧
      swap13 (Dbl.lt (signed_jaco (quad X) (quad Y)) (Dbl.fin 0)) (quad Y) = quad Y1 ∧
      0 ≤ (X1 1 - X1 3) * (Y1 0 - Y1 2) - (X1 0 - X1 2) * (Y1 1 - Y1 3) ∧
      (X1 1 - X1 3) * (Y1 0 - Y1 2) - (X1 0 - X1 2) * (Y1 1 - Y1 3)
        = 2 * (1 / 2 * |(X 1 - X 3) * (Y 0 - Y 2) - (X 0 - X 2) * (Y 1 - Y 3)|) ∧
      signed_jaco (quad X1) (quad Y1)
        = Dbl.fin (1 / 2 * |(X 1 - X 3) * (Y 0 - Y 2) - (X 0 - X 2) * (Y 1 - Y 3)|) ∧
      shoelace X1 Y1 = 1 / 2 * |(X 1 - X 3) * (Y 0 - Y 2) - (X 0 - X 2) * (Y 1 - Y 3)| ∧
      ∀ (E : Extern) (dh scale2 : Dbl) (bv : Nat) (osize : Int × Int) (j i : Int)
        (p : driz_param_t),
        interpolate_corners E p (corner_xin dh i) (corner_yin dh j) = some (quad X, quad Y) →
        square_pixel E dh scale2 bv osize j i p
          = count_miss (square_footprint (quad X1) (quad Y1)
              (Dbl.fin (1 / 2 * |(X 1 - X 3) * (Y 0 - Y 2) - (X 0 - X 2) * (Y 1 - Y 3)|))
              (get_pixel p.data i j * scale2) (pixel_weight p i j) bv osize p) := by
  have hj := signed_jaco_quad X Y
  generalize hS : (X 1 - X 3) * (Y 0 - Y 2) - (X 0 - X 2) * (Y 1 - Y 3) = S at hj ⊢
  have hlt : Dbl.lt (signed_jaco (quad X) (quad Y)) (Dbl.fin 0) = decide (S < 0) := by
    rw [hj, Dbl.lt_fin_fin]
    congr 1
    apply propext
    constructor <;> intro h <;> linarith
  have habs : (0 : ℚ) ≤ 1 / 2 * |S| := by positivity
  by_cases hneg : S < 0
  · have hb : Dbl.lt (signed_jaco (quad X) (quad Y)) (Dbl.fin 0) = true := by
      rw [hlt]; exact decide_eq_true hneg
    have ha : |S| = -S := abs_of_neg hneg
    have hjaco : signed_jaco (quad X) (quad Y) * Dbl.fin (-1) = Dbl.fin (1 / 2 * |S|) := by
      rw [hj, Dbl.fin_mul_fin, ha]
      congr 1
      ring
    refine ⟨⟨fun _ => hneg, fun _ => hb⟩, ?_, habs, ![X 0, X 3, X 2, X 1], ![Y 0, Y 3, Y 2, Y 1],
      ?_, ?_, ?_, ?_, ?_, ?_, ?_⟩
    · rw [hb, if_pos rfl, hjaco]
    · rw [hb, swap13_quad]; rfl
    · rw [hb, swap13_quad]; rfl
    · simp only [Matrix.cons_val_zero, Matrix.cons_val_one, Matrix.head_cons,
        Matrix.cons_val_two, Matrix.tail_cons, Matrix.cons_val_three]
      linarith
    · simp only [Matrix.cons_val_zero, Matrix.cons_val_one, Matrix.head_cons,
        Matrix.cons_val_two, Matrix.tail_cons, Matrix.cons_val_three]
      rw [ha]; linarith
    · rw [signed_jaco_quad]
      simp only [Matrix.cons_val_zero, Matrix.cons_val_one, Matrix.head_cons,
        Matrix.cons_val_two, Matrix.tail_cons, Matrix.cons_val_three]
      rw [ha]
      congr 1
      linarith
    · have h1 := signed_jaco_shoelace ![X 0, X 3, X 2, X 1] ![Y 0, Y 3, Y 2, Y 1]
      rw [signed_jaco_quad] at h1
      simp only [Matrix.cons_val_zero, Matrix.cons_val_one, Matrix.head_cons,
        Matrix.cons_val_two, Matrix.tail_cons, Matrix.cons_val_three] at h1
      rw [← Dbl.fin.inj h1, ha]
      linarith
    · intro E dh scale2 bv osize j i p hmap
      unfold square_pixel
      simp only [hmap, hb, if_true]
      rw [hjaco, swap13_quad, swap13_quad]
      rfl
  · have hb : Dbl.lt (signed_jaco (quad X) (quad Y)) (Dbl.fin 0) = false := by
      rw [hlt]; exact decide_eq_false hneg
    have ha : |S| = S := abs_of_nonneg (not_lt.mp hneg)
    have hjaco : signed_jaco (quad X) (quad Y) = Dbl.fin (1 / 2 * |S|) := by
      rw [hj, ha]
    refine ⟨⟨fun h => by rw [hb] at h; exact absurd h Bool.false_ne_true, fun h => absurd h hneg⟩,
      ?_, habs, X, Y, ?_, ?_, ?_, ?_, ?_, ?_, ?_⟩
    · rw [hb, if_neg Bool.false_ne_true, hjaco]
    · rw [hb]; rfl
    · rw [hb]; rfl
    · rw [hS]; exact not_lt.mp hneg
    · rw [hS, ha]; ring
    · exact hjaco
    · have h1 := signed_jaco_shoelace X Y
      rw [hj] at h1
      rw [← Dbl.fin.inj h1, ha]
    · intro E dh scale2 bv osize j i p hmap
      unfold square_pixel
      simp only [hmap, hb, Bool.false_eq_true, if_false, swap13]
      rw [hjaco]

/-- C24 at a concrete input: source pixel `(0, 0)` of the 3×3 image under the
identity map. -/
theorem square_jaco_orientation_witness :
    interpolate_corners demo_env demo_param (corner_xin (Dbl.fin (1 / 2)) 0)
        (corner_yin (Dbl.fin (1 / 2)) 0) = some (quad (unit_pixel_x 0), quad (unit_pixel_y 0)) ∧
    ∃ X1 Y1 : Fin 4 → ℚ,
      square_pixel demo_env (Dbl.fin (1 / 2)) (Dbl.fin 1) 1 (3, 3) 0 0 demo_param
        = count_miss (square_footprint (quad X1) (quad Y1)
            (Dbl.fin (1 / 2 * |(unit_pixel_x 0 1 - unit_pixel_x 0 3) *
                (unit_pixel_y 0 0 - unit_pixel_y 0 2)
              - (unit_pixel_x 0 0 - unit_pixel_x 0 2) * (unit_pixel_y 0 1 - unit_pixel_y 0 3)|))
            (get_pixel demo_param.data 0 0 * Dbl.fin 1) (pixel_weight demo_param 0 0) 1 (3, 3)
            demo_param) := by
  have hc := interpolate_corners_identity demo_env demo_param 0 0 (fun _ _ _ => rfl)
  obtain ⟨X1, Y1, _, _, _, _, _, _, h⟩ :=
    (square_jaco_orientation (unit_pixel_x 0) (unit_pixel_y 0)).2.2.2
  exact ⟨hc, X1, Y1, h demo_env _ _ _ _ _ _ demo_param hc⟩

/-! ## The lookup indices of the Lanczos kernel -/

/-- The lookup index of the Lanczos kernel for a destination column `ii` of
the footprint window `[round(xx − 1 − pfo), round(xx − 1 + pfo)]`,
`pfo = order·pixel_fraction/scale`: it is at least 1 and at most
`100·order + 150·scale/pixel_fraction + 3/2`. -/
theorem lanczos_index_bound (order : Int) (pf sc xx : ℚ) (hpf : 0 < pf) (hsc : 0 < sc) (ii : Int)
    (hlo : fortran_round (Dbl.fin xx - Dbl.fin 1 - Dbl.ofInt order * Dbl.fin pf / Dbl.fin sc) ≤ ii)
    (hhi : ii ≤ fortran_round (Dbl.fin xx - Dbl.fin 1 + Dbl.ofInt order * Dbl.fin pf / Dbl.fin sc)) :
    1 ≤ fortran_round (Dbl.abs (Dbl.fin xx - Dbl.ofInt ii) *
        (Dbl.fin sc / Dbl.fin (1 / 100) / Dbl.fin pf)) + 1 ∧
    ((fortran_round (Dbl.abs (Dbl.fin xx - Dbl.ofInt ii) *
        (Dbl.fin sc / Dbl.fin (1 / 100) / Dbl.fin pf)) + 1 : Int) : ℚ)
      ≤ 100 * (order : ℚ) + 150 * (sc / pf) + 3 / 2 := by
  have hsc1 : sc ≠ 0 := ne_of_gt hsc
  have hpf1 : pf ≠ 0 := ne_of_gt hpf
  have e1 : Dbl.ofInt order * Dbl.fin pf / Dbl.fin sc = Dbl.fin ((order : ℚ) * pf / sc) := by
    rw [Dbl.ofInt_eq, Dbl.fin_mul_fin, Dbl.fin_div_fin _ _ hsc1]
  have e2 : Dbl.fin sc / Dbl.fin (1 / 100) / Dbl.fin pf = Dbl.fin (sc / (1 / 100) / pf) := by
    rw [Dbl.fin_div_fin _ _ (by norm_num), Dbl.fin_div_fin _ _ hpf1]
  rw [e1, Dbl.fin_sub_fin, Dbl.fin_sub_fin] at hlo
  rw [e1, Dbl.fin_sub_fin, Dbl.fin_add_fin] at hhi
  rw [e2, Dbl.ofInt_eq, Dbl.fin_sub_fin]
  have hA : Dbl.abs (Dbl.fin (xx - (ii : ℚ))) * Dbl.fin (sc / (1 / 100) / pf)
      = Dbl.fin (|xx - (ii : ℚ)| * (sc / (1 / 100) / pf)) := rfl
  rw [hA]
  have ra := fortran_round_bounds (xx - 1 - (order : ℚ) * pf / sc)
  have rb := fortran_round_bounds (xx - 1 + (order : ℚ) * pf / sc)
  have hlo1 : ((fortran_round (Dbl.fin (xx - 1 - (order : ℚ) * pf / sc)) : Int) : ℚ) ≤ (ii : ℚ) := by
    exact_mod_cast hlo
  have hhi1 : (ii : ℚ) ≤ ((fortran_round (Dbl.fin (xx - 1 + (order : ℚ) * pf / sc)) : Int) : ℚ) := by
    exact_mod_cast hhi
  have habs : |xx - (ii : ℚ)| ≤ (order : ℚ) * pf / sc + 3 / 2 := by
    rw [abs_le]
    constructor <;> linarith
  have hs : 0 < sc / (1 / 100) / pf := by positivity
  have hq : 0 ≤ |xx - (ii : ℚ)| * (sc / (1 / 100) / pf) := mul_nonneg (abs_nonneg _) hs.le
  have rq := fortran_round_bounds (|xx - (ii : ℚ)| * (sc / (1 / 100) / pf))
  have hprod : |xx - (ii : ℚ)| * (sc / (1 / 100) / pf)
      ≤ ((order : ℚ) * pf / sc + 3 / 2) * (sc / (1 / 100) / pf) :=
    mul_le_mul_of_nonneg_right habs hs.le
  have hval : ((order : ℚ) * pf / sc + 3 / 2) * (sc / (1 / 100) / pf)
      = 100 * (order : ℚ) + 150 * (sc / pf) := by
    field_simp
    ring
  constructor
  · have h0 : (-1 : ℚ) < ((fortran_round (Dbl.fin (|xx - (ii : ℚ)| * (sc / (1 / 100) / pf))) : Int) : ℚ) := by
      linarith [rq.2]
    have h1 : (-1 : Int) < fortran_round (Dbl.fin (|xx - (ii : ℚ)| * (sc / (1 / 100) / pf))) := by
      exact_mod_cast h0
    omega
  · push_cast
    linarith [rq.1]

set_option maxRecDepth 100000 in
theorem lanczos_param_run :
    Dbl.ofInt 3 * lanczos_param.pixel_fraction / lanczos_param.scale = Dbl.fin (3 / 2) ∧
    lanczos_param.scale / Dbl.fin (1 / 100) / lanczos_param.pixel_fraction = Dbl.fin 200 ∧
    max (fortran_round (Dbl.fin (59 / 10) - Dbl.fin 1 - Dbl.fin (3 / 2))) 0 = 3 ∧
    min (fortran_round (Dbl.fin (59 / 10) - Dbl.fin 1 + Dbl.fin (3 / 2))) (8 - 1) = 6 ∧
    fortran_round (Dbl.abs (Dbl.fin (59 / 10) - Dbl.ofInt 3) * Dbl.fin 200) + 1 = 581 ∧
    lanczos_cells (table_env.lanczos_lut 3) (Dbl.fin 200) (Dbl.fin (3 / 2))
      (lanczos_param.scale * lanczos_param.scale) (8, 8) lanczos_param 0 0 3 3
      = some (Dbl.fin 7, table_env.lanczos_lut 3 581 * table_env.lanczos_lut 3 581 * Dbl.fin 1) ∧
    (do_kernel_lanczos table_env lanczos_param).1 = 0 ∧
    (do_kernel_lanczos table_env lanczos_param).2.output_counts.val 3 3 = Dbl.fin 1 ∧
    (do_kernel_lanczos table_env lanczos_param).2.output_data.val 3 3 = Dbl.fin 7 := by
  decide!

/-- C25 at a failing input: the kernel `lanczos3` with `pixel_fraction = 0.5`
and `scale = 1` (`pfo = 1.5`, `sdp = 200`), a source pixel mapped to
`(5.9, 5.9)` in an 8×8 output image.  The footprint loops run over
`3..6 × 3..6`; at the destination pixel `(3, 3)` both lookup indices are
`round(2.9·200) + 1 = 581 > 511`.  With a table that is zero on `0..511`, the
run stores the weight 1 at `(3, 3)`: the value read at index 581. -/
theorem lanczos_index_overrun :
    Dbl.ofInt 3 * lanczos_param.pixel_fraction / lanczos_param.scale = Dbl.fin (3 / 2) ∧
    lanczos_param.scale / Dbl.fin (1 / 100) / lanczos_param.pixel_fraction = Dbl.fin 200 ∧
    max (fortran_round (Dbl.fin (59 / 10) - Dbl.fin 1 - Dbl.fin (3 / 2))) 0 = 3 ∧
    min (fortran_round (Dbl.fin (59 / 10) - Dbl.fin 1 + Dbl.fin (3 / 2))) (8 - 1) = 6 ∧
    fortran_round (Dbl.abs (Dbl.fin (59 / 10) - Dbl.ofInt 3) * Dbl.fin 200) + 1 = 581 ∧
    (512 : Int) - 1 < 581 ∧
    lanczos_cells (table_env.lanczos_lut 3) (Dbl.fin 200) (Dbl.fin (3 / 2))
      (lanczos_param.scale * lanczos_param.scale) (8, 8) lanczos_param 0 0 3 3
      = some (Dbl.fin 7, table_env.lanczos_lut 3 581 * table_env.lanczos_lut 3 581 * Dbl.fin 1) ∧
    (∀ k : Int, 0 ≤ k → k ≤ 511 → table_env.lanczos_lut 3 k = Dbl.fin 0) ∧
    (do_kernel_lanczos table_env lanczos_param).1 = 0 ∧
    (do_kernel_lanczos table_env lanczos_param).2.output_counts.val 3 3 = Dbl.fin 1 ∧
    (do_kernel_lanczos table_env lanczos_param).2.output_data.val 3 3 = Dbl.fin 7 := by
  obtain ⟨h1, h2, h3, h4, h5, h6, h7, h8, h9⟩ := lanczos_param_run
  refine ⟨h1, h2, h3, h4, h5, by decide, h6, ?_, h7, h8, h9⟩
  intro k hk0 hk1
  show (if 0 ≤ k ∧ k ≤ 511 then Dbl.fin 0 else Dbl.fin 1) = Dbl.fin 0
  rw [if_pos ⟨hk0, hk1⟩]

/-! ## Conservation of weight by the turbo kernel -/

/-- The length of the overlap of `[l, r]` with `[lo, hi]` is the difference of
the end points clamped to `[l, r]`. -/
theorem overlap_clamp (l r lo hi : ℚ) (hlr : l ≤ r) (hlh : lo ≤ hi) :
    max 0 (min r hi - max l lo) = min r (max l hi) - min r (max l lo) := by
  simp only [max_def, min_def]
  split_ifs <;> linarith

/-- The overlaps of an interval `[a, b]` with the cells `0, …, n − 1` add up to
its overlap with `[−1/2, n − 1/2]`. -/
theorem overlap_sum (a b : ℚ) (hab : a ≤ b) (n : Nat) :
    ((List.range n).map (fun x : Nat =>
        max 0 (min b ((((x : Nat) : Int) : ℚ) + 1 / 2) - max a ((((x : Nat) : Int) : ℚ) - 1 / 2)))).sum
      = min b (max a ((n : ℚ) - 1 / 2)) - min b (max a (-1 / 2)) := by
  induction n with
  | zero =>
    simp only [List.range_zero, List.map_nil, List.sum_nil, Nat.cast_zero]
    have e : (0 : ℚ) - 1 / 2 = -1 / 2 := by ring
    rw [e, sub_self]
  | succ n ih =>
    rw [List.range_succ, List.map_append, List.sum_append, ih]
    simp only [List.map_cons, List.map_nil, List.sum_cons, List.sum_nil, add_zero]
    rw [overlap_clamp a b _ _ hab (by linarith)]
    push_cast
    have e : (n : ℚ) + 1 - 1 / 2 = (n : ℚ) + 1 / 2 := by ring
    rw [e]
    ring

/-- The overlaps of an interval `[a, b]` inside `[−1/2, n − 1/2]` with the
cells `0, …, n − 1` add up to its length. -/
theorem overlap_sum_inside (a b : ℚ) (hab : a ≤ b) (n : Nat) (h0 : -1 / 2 ≤ a)
    (h1 : b ≤ (n : ℚ) - 1 / 2) :
    ((List.range n).map (fun x : Nat =>
        max 0 (min b ((((x : Nat) : Int) : ℚ) + 1 / 2) - max a ((((x : Nat) : Int) : ℚ) - 1 / 2)))).sum
      = b - a := by
  rw [overlap_sum a b hab n, max_eq_left h0, min_eq_right hab,
    max_eq_right (by linarith : a ≤ (n : ℚ) - 1 / 2), min_eq_left h1]

theorem foldl_add_fin (g : Nat → ℚ) :
    ∀ (l : List Nat) (a0 : ℚ),
      l.foldl (fun acc x => acc + Dbl.fin (g x)) (Dbl.fin a0) = Dbl.fin (a0 + (l.map g).sum) := by
  intro l
  induction l with
  | nil => intro a0; simp
  | cons x l ih =>
    intro a0
    rw [List.foldl_cons, Dbl.fin_add_fin, ih, List.map_cons, List.sum_cons, add_assoc]

theorem cast_range (n : Nat) :
    (do let a ← List.range n; pure (a : Int) : List Int)
      = (List.range n).map (fun a : Nat => (a : Int)) := by
  generalize List.range n = l
  induction l with
  | nil => rfl
  | cons a l ih =>
    simp only [List.bind_eq_flatMap, List.pure_def, List.flatMap_cons, List.map_cons,
      List.singleton_append, List.cons.injEq, true_and] at ih ⊢
    exact ih

/-- The sum over a plane of finite values. -/
theorem plane_sum_fin (nx ny : Nat) (f : Int → Int → Dbl) (g : Nat → Nat → ℚ)
    (h : ∀ x y : Nat, x < nx → y < ny → f (x : Int) (y : Int) = Dbl.fin (g x y)) :
    plane_sum nx ny f
      = Dbl.fin (((List.range nx).map (fun x => ((List.range ny).map (g x)).sum)).sum) := by
  unfold plane_sum
  rw [cast_range nx, cast_range ny, List.foldl_map]
  have hin : ∀ x : Nat, x < nx →
      ((List.range ny).map (fun a : Nat => (a : Int))).foldl
        (fun acc1 y => acc1 + f (x : Int) y) (Dbl.fin 0)
        = Dbl.fin (((List.range ny).map (g x)).sum) := by
    intro x hx
    rw [List.foldl_map, List.foldl_ext (fun acc1 (y : Nat) => acc1 + f (x : Int) (y : Int))
      (fun acc1 (y : Nat) => acc1 + Dbl.fin (g x y)) (Dbl.fin 0)
      (fun acc y hy => by beta_reduce; rw [h x y hx (List.mem_range.mp hy)])]
    rw [foldl_add_fin (g x) _ 0, zero_add]
  rw [List.foldl_ext
    (fun acc (x : Nat) => acc + ((List.range ny).map (fun a : Nat => (a : Int))).foldl
      (fun acc1 y => acc1 + f (x : Int) y) (Dbl.fin 0))
    (fun acc (x : Nat) => acc + Dbl.fin (((List.range ny).map (g x)).sum)) (Dbl.fin 0)
    (fun acc x hx => by beta_reduce; rw [hin x (List.mem_range.mp hx)])]
  rw [foldl_add_fin _ _ 0, zero_add]

theorem sum_product (u v : Nat → ℚ) (k : ℚ) (l1 l2 : List Nat) :
    (l1.map (fun x => (l2.map (fun y => u x * v y * k)).sum)).sum
      = (l1.map u).sum * (l2.map v).sum * k := by
  have hin : ∀ x, (l2.map (fun y => u x * v y * k)).sum = u x * ((l2.map v).sum * k) := by
    intro x
    induction l2 with
    | nil => simp
    | cons y l2 ih =>
      simp only [List.map_cons, List.sum_cons, ih]
      ring
  simp only [hin]
  induction l1 with
  | nil => simp
  | cons x l1 ih =>
    simp only [List.map_cons, List.sum_cons, ih]
    ring

/-- A cell with a positive overlap with `[a, b] ⊆ [−1/2, n − 1/2]` lies in the
index range the turbo kernel enumerates. -/
theorem overlap_window (a b : ℚ) (n : Nat) (h0 : -1 / 2 ≤ a) (h1 : b ≤ (n : ℚ) - 1 / 2) (x : Int)
    (hpos : 0 < max 0 (min b ((x : ℚ) + 1 / 2) - max a ((x : ℚ) - 1 / 2))) :
    max (fortran_round (Dbl.fin a)) 0 ≤ x ∧ x ≤ min (fortran_round (Dbl.fin b)) ((n : Int) - 1) := by
  have hlt : max a ((x : ℚ) - 1 / 2) < min b ((x : ℚ) + 1 / 2) := by
    by_contra hcon
    rw [not_lt] at hcon
    rw [max_eq_left (by linarith)] at hpos
    exact lt_irrefl _ hpos
  have h2 : a < (x : ℚ) + 1 / 2 := lt_of_le_of_lt (le_max_left _ _) (lt_of_lt_of_le hlt (min_le_right _ _))
  have h3 : (x : ℚ) - 1 / 2 < b := lt_of_le_of_lt (le_max_right _ _) (lt_of_lt_of_le hlt (min_le_left _ _))
  have ra := fortran_round_bounds a
  have rb := fortran_round_bounds b
  have e1 : ((fortran_round (Dbl.fin a) : Int) : ℚ) < (x : ℚ) + 1 := by linarith
  have e2 : (-1 : ℚ) < (x : ℚ) := by linarith
  have e3 : (x : ℚ) < ((fortran_round (Dbl.fin b) : Int) : ℚ) + 1 := by linarith
  have e4 : (x : ℚ) < (n : ℚ) := by linarith
  have f1 : fortran_round (Dbl.fin a) < x + 1 := by exact_mod_cast e1
  have f2 : (-1 : Int) < x := by exact_mod_cast e2
  have f3 : x < fortran_round (Dbl.fin b) + 1 := by exact_mod_cast e3
  have f4 : x < (n : Int) := by exact_mod_cast e4
  constructor
  · apply max_le <;> omega
  · apply le_min <;> omega

/-- The cells of the turbo kernel for a source pixel whose footprint square
of half-width `h` about the finite position `(ox, oy)` lies inside the output
image area: exactly the pixels with a positive overlap. -/
theorem turbo_cells_inside (q : driz_param_t) (i j : Int) (ox oy h s2 a : ℚ)
    (hp : q.pixmap i j = (Dbl.fin ox, Dbl.fin oy))
    (hx0 : -1 / 2 ≤ ox - h) (hx1 : ox + h ≤ (q.output_data.nx : ℚ) - 1 / 2)
    (hy0 : -1 / 2 ≤ oy - h) (hy1 : oy + h ≤ (q.output_data.ny : ℚ) - 1 / 2) (x y : Int) :
    turbo_cells (Dbl.fin h) (Dbl.fin s2) (Dbl.fin a) (get_dimensions q.output_data) q j i x y
      = if 0 < max 0 (min (ox + h) ((x : ℚ) + 1 / 2) - max (ox - h) ((x : ℚ) - 1 / 2)) *
            max 0 (min (oy + h) ((y : ℚ) + 1 / 2) - max (oy - h) ((y : ℚ) - 1 / 2)) then
          some (get_pixel q.data i j * Dbl.fin s2,
            Dbl.fin (max 0 (min (ox + h) ((x : ℚ) + 1 / 2) - max (ox - h) ((x : ℚ) - 1 / 2)) *
              max 0 (min (oy + h) ((y : ℚ) + 1 / 2) - max (oy - h) ((y : ℚ) - 1 / 2)) * (s2 * a))
              * pixel_weight q i j)
        else none := by
  unfold turbo_cells map_pixel
  simp only [hp, Dbl.isFinite, Bool.and_self, if_true, Dbl.fin_sub_fin, Dbl.fin_add_fin,
    get_dimensions, over_fin, Dbl.gt_fin_fin, Dbl.fin_mul_fin, decide_eq_true_eq]
  by_cases hpos : 0 < max 0 (min (ox + h) ((x : ℚ) + 1 / 2) - max (ox - h) ((x : ℚ) - 1 / 2)) *
      max 0 (min (oy + h) ((y : ℚ) + 1 / 2) - max (oy - h) ((y : ℚ) - 1 / 2))
  · have hxp : 0 < max 0 (min (ox + h) ((x : ℚ) + 1 / 2) - max (ox - h) ((x : ℚ) - 1 / 2)) := by
      rcases lt_or_eq_of_le (le_max_left 0
        (min (ox + h) ((x : ℚ) + 1 / 2) - max (ox - h) ((x : ℚ) - 1 / 2))) with h1 | h1
      · exact h1
      · rw [← h1, zero_mul] at hpos
        exact absurd hpos (lt_irrefl _)
    have hyp : 0 < max 0 (min (oy + h) ((y : ℚ) + 1 / 2) - max (oy - h) ((y : ℚ) - 1 / 2)) := by
      rcases lt_or_eq_of_le (le_max_left 0
        (min (oy + h) ((y : ℚ) + 1 / 2) - max (oy - h) ((y : ℚ) - 1 / 2))) with h1 | h1
      · exact h1
      · rw [← h1, mul_zero] at hpos
        exact absurd hpos (lt_irrefl _)
    have wx := overlap_window (ox - h) (ox + h) q.output_data.nx hx0 hx1 x hxp
    have wy := overlap_window (oy - h) (oy + h) q.output_data.ny hy0 hy1 y hyp
    rw [if_pos ⟨wy.1, wy.2, wx.1, wx.2⟩, if_pos hpos]
  · rw [if_neg hpos]
    split_ifs <;> rfl

/-- C26: conservation of weight by the turbo kernel.  For `scale > 0`,
`pixel_fraction > 0` and a source pixel mapped to the finite position
`(ox, oy)` whose footprint square `[ox − pfo, ox + pfo] × [oy − pfo, oy + pfo]`,
`pfo = pixel_fraction/(2·scale)`, lies inside the image area
`[−0.5, W − 0.5] × [−0.5, H − 0.5]`: the sum over the destination pixels
enumerated by `do_kernel_turbo` of `over·scale²·ac` is exactly 1; the sum of
the weights `dow` handed to `update_data` is the weight `w` of the pixel when
that is finite; and every integer cell with a positive overlap is enumerated. -/
theorem turbo_weight_conservation (p : driz_param_t) (pf sc ox oy : ℚ) (i j : Int)
    (hpf : p.pixel_fraction = Dbl.fin pf) (hsc : p.scale = Dbl.fin sc)
    (hpf0 : 0 < pf) (hsc0 : 0 < sc)
    (hmap : p.pixmap i j = (Dbl.fin ox, Dbl.fin oy))
    (hx0 : -1 / 2 ≤ ox - pf / (2 * sc)) (hx1 : ox + pf / (2 * sc) ≤ (p.output_data.nx : ℚ) - 1 / 2)
    (hy0 : -1 / 2 ≤ oy - pf / (2 * sc))
    (hy1 : oy + pf / (2 * sc) ≤ (p.output_data.ny : ℚ) - 1 / 2) :
    p.pixel_fraction / p.scale / Dbl.fin 2 = Dbl.fin (pf / (2 * sc)) ∧
    sum_over_cells p.output_data.nx p.output_data.ny
      (turbo_cells (p.pixel_fraction / p.scale / Dbl.fin 2) (p.scale * p.scale)
        (Dbl.fin 1 / (p.pixel_fraction * p.pixel_fraction)) (get_dimensions p.output_data) p j i)
      (fun x y _ => over x y
          (Dbl.fin ox - p.pixel_fraction / p.scale / Dbl.fin 2)
          (Dbl.fin ox + p.pixel_fraction / p.scale / Dbl.fin 2)
          (Dbl.fin oy - p.pixel_fraction / p.scale / Dbl.fin 2)
          (Dbl.fin oy + p.pixel_fraction / p.scale / Dbl.fin 2)
        * (p.scale * p.scale * (Dbl.fin 1 / (p.pixel_fraction * p.pixel_fraction))))
      = Dbl.fin 1 ∧
    (∀ w : ℚ, pixel_weight p i j = Dbl.fin w →
      sum_over_cells p.output_data.nx p.output_data.ny
        (turbo_cells (p.pixel_fraction / p.scale / Dbl.fin 2) (p.scale * p.scale)
          (Dbl.fin 1 / (p.pixel_fraction * p.pixel_fraction)) (get_dimensions p.output_data) p j i)
        (fun _ _ c => c.2) = Dbl.fin w) ∧
    (∀ x y : Int, Dbl.gt (over x y
          (Dbl.fin ox - p.pixel_fraction / p.scale / Dbl.fin 2)
          (Dbl.fin ox + p.pixel_fraction / p.scale / Dbl.fin 2)
          (Dbl.fin oy - p.pixel_fraction / p.scale / Dbl.fin 2)
          (Dbl.fin oy + p.pixel_fraction / p.scale / Dbl.fin 2)) (Dbl.fin 0) = true →
      ∃ c, turbo_cells (p.pixel_fraction / p.scale / Dbl.fin 2) (p.scale * p.scale)
        (Dbl.fin 1 / (p.pixel_fraction * p.pixel_fraction)) (get_dimensions p.output_data) p j i x y
          = some c) := by
  have hsc1 : sc ≠ 0 := ne_of_gt hsc0
  have hpf1 : pf ≠ 0 := ne_of_gt hpf0
  have e1 : p.pixel_fraction / p.scale / Dbl.fin 2 = Dbl.fin (pf / (2 * sc)) := by
    rw [hpf, hsc, Dbl.fin_div_fin _ _ hsc1, Dbl.fin_div_fin _ _ (by norm_num)]
    congr 1
    rw [div_div, mul_comm sc 2]
  have e2 : p.scale * p.scale = Dbl.fin (sc * sc) := by rw [hsc]; rfl
  have e3 : Dbl.fin 1 / (p.pixel_fraction * p.pixel_fraction) = Dbl.fin (1 / (pf * pf)) := by
    rw [hpf, Dbl.fin_mul_fin, Dbl.fin_div_fin _ _ (mul_ne_zero hpf1 hpf1)]
  have hone : (ox + pf / (2 * sc) - (ox - pf / (2 * sc))) *
      (oy + pf / (2 * sc) - (oy - pf / (2 * sc))) * (sc * sc * (1 / (pf * pf))) = 1 := by
    field_simp
    ring
  have hh : 0 < pf / (2 * sc) := by positivity
  rw [e1, e2, e3]
  have hcell := turbo_cells_inside p i j ox oy (pf / (2 * sc)) (sc * sc) (1 / (pf * pf)) hmap
    hx0 hx1 hy0 hy1
  have hsumx := overlap_sum_inside (ox - pf / (2 * sc)) (ox + pf / (2 * sc)) (by linarith)
    p.output_data.nx hx0 hx1
  have hsumy := overlap_sum_inside (oy - pf / (2 * sc)) (oy + pf / (2 * sc)) (by linarith)
    p.output_data.ny hy0 hy1
  have hnn : ∀ x y : Int, ¬ 0 < max 0 (min (ox + pf / (2 * sc)) ((x : ℚ) + 1 / 2)
        - max (ox - pf / (2 * sc)) ((x : ℚ) - 1 / 2)) *
      max 0 (min (oy + pf / (2 * sc)) ((y : ℚ) + 1 / 2)
        - max (oy - pf / (2 * sc)) ((y : ℚ) - 1 / 2)) →
      max 0 (min (ox + pf / (2 * sc)) ((x : ℚ) + 1 / 2)
        - max (ox - pf / (2 * sc)) ((x : ℚ) - 1 / 2)) *
      max 0 (min (oy + pf / (2 * sc)) ((y : ℚ) + 1 / 2)
        - max (oy - pf / (2 * sc)) ((y : ℚ) - 1 / 2)) = 0 := by
    intro x y hn
    exact le_antisymm (not_lt.mp hn) (mul_nonneg (le_max_left _ _) (le_max_left _ _))
  refine ⟨rfl, ?_, ?_, ?_⟩
  · unfold sum_over_cells
    rw [plane_sum_fin _ _ _ (fun x y : Nat =>
      max 0 (min (ox + pf / (2 * sc)) ((((x : Nat) : Int) : ℚ) + 1 / 2)
        - max (ox - pf / (2 * sc)) ((((x : Nat) : Int) : ℚ) - 1 / 2)) *
      max 0 (min (oy + pf / (2 * sc)) ((((y : Nat) : Int) : ℚ) + 1 / 2)
        - max (oy - pf / (2 * sc)) ((((y : Nat) : Int) : ℚ) - 1 / 2)) *
      (sc * sc * (1 / (pf * pf))))]
    · rw [sum_product, hsumx, hsumy, hone]
    · intro x y _ _
      beta_reduce
      rw [hcell]
      by_cases hpos : 0 < max 0 (min (ox + pf / (2 * sc)) ((((x : Nat) : Int) : ℚ) + 1 / 2)
          - max (ox - pf / (2 * sc)) ((((x : Nat) : Int) : ℚ) - 1 / 2)) *
        max 0 (min (oy + pf / (2 * sc)) ((((y : Nat) : Int) : ℚ) + 1 / 2)
          - max (oy - pf / (2 * sc)) ((((y : Nat) : Int) : ℚ) - 1 / 2))
      · rw [if_pos hpos]
        simp only [Dbl.fin_sub_fin, Dbl.fin_add_fin, over_fin, Dbl.fin_mul_fin]
      · rw [if_neg hpos, hnn _ _ hpos, zero_mul]
  · intro w hw
    unfold sum_over_cells
    rw [plane_sum_fin _ _ _ (fun x y : Nat =>
      max 0 (min (ox + pf / (2 * sc)) ((((x : Nat) : Int) : ℚ) + 1 / 2)
        - max (ox - pf / (2 * sc)) ((((x : Nat) : Int) : ℚ) - 1 / 2)) *
      max 0 (min (oy + pf / (2 * sc)) ((((y : Nat) : Int) : ℚ) + 1 / 2)
        - max (oy - pf / (2 * sc)) ((((y : Nat) : Int) : ℚ) - 1 / 2)) *
      (sc * sc * (1 / (pf * pf)) * w))]
    · rw [sum_product, hsumx, hsumy, ← mul_assoc, hone, one_mul]
    · intro x y _ _
      beta_reduce
      rw [hcell]
      by_cases hpos : 0 < max 0 (min (ox + pf / (2 * sc)) ((((x : Nat) : Int) : ℚ) + 1 / 2)
          - max (ox - pf / (2 * sc)) ((((x : Nat) : Int) : ℚ) - 1 / 2)) *
        max 0 (min (oy + pf / (2 * sc)) ((((y : Nat) : Int) : ℚ) + 1 / 2)
          - max (oy - pf / (2 * sc)) ((((y : Nat) : Int) : ℚ) - 1 / 2))
      · rw [if_pos hpos]
        simp only [hw, Dbl.fin_mul_fin]
        congr 1
        ring
      · rw [if_neg hpos, hnn _ _ hpos, zero_mul]
  · intro x y hgt
    rw [hcell]
    simp only [Dbl.fin_sub_fin, Dbl.fin_add_fin, over_fin, Dbl.gt_fin_fin,
      decide_eq_true_eq] at hgt
    rw [if_pos hgt]
    exact ⟨_, rfl⟩

/-- C26 at a concrete input: source pixel `(1, 1)` of the 3×3 image under the
identity map with `pixel_fraction = 0.5` and `scale = 1`. -/
theorem turbo_weight_conservation_witness :
    sum_over_cells turbo_param.output_data.nx turbo_param.output_data.ny
      (turbo_cells (turbo_param.pixel_fraction / turbo_param.scale / Dbl.fin 2)
        (turbo_param.scale * turbo_param.scale)
        (Dbl.fin 1 / (turbo_param.pixel_fraction * turbo_param.pixel_fraction))
        (get_dimensions turbo_param.output_data) turbo_param 1 1)
      (fun _ _ c => c.2) = Dbl.fin 1 := by
  have e : ((turbo_param.output_data.nx : Nat) : ℚ) = 3 ∧
      ((turbo_param.output_data.ny : Nat) : ℚ) = 3 := ⟨by norm_num [turbo_param, demo_param, zero_plane],
        by norm_num [turbo_param, demo_param, zero_plane]⟩
  exact (turbo_weight_conservation turbo_param (1 / 2) 1 ((1 : Int) : ℚ) ((1 : Int) : ℚ) 1 1
    rfl rfl (by norm_num) (by norm_num) rfl (by norm_num) (by rw [e.1]; norm_num)
    (by norm_num) (by rw [e.2]; norm_num)).2.2.1 1 rfl

/-! ## Bounds on `sgarea` -/

theorem clip_primitive_step (u v : ℚ) (h : u ≤ v) :
    0 ≤ clip_primitive v - clip_primitive u ∧ clip_primitive v - clip_primitive u ≤ v - u := by
  unfold clip_primitive
  rcases le_total u 0 with hu0 | hu0 <;> rcases le_total v 0 with hv0 | hv0 <;>
    rcases le_total (u - 1) 0 with hu1 | hu1 <;> rcases le_total (v - 1) 0 with hv1 | hv1 <;>
    simp only [max_eq_left, max_eq_right, hu0, hv0, hu1, hv1] <;>
    constructor <;> nlinarith

/-- The area `sgarea` accumulates under one edge lies between 0 and the width
of the clipped x-range. -/
theorem strip_area_bounds (xlo0 xhi0 c m im : ℚ) (hlt : xlo0 < xhi0)
    (h : ¬ (1 ≤ xlo0 ∨ xhi0 ≤ 0)) (him0 : im ≠ 0) (him : m ≠ 0 → im = 1 / m) :
    0 ≤ strip_area xlo0 xhi0 c m im ∧
      strip_area xlo0 xhi0 c m im ≤ min xhi0 1 - max xlo0 0 := by
  rw [strip_area_closed xlo0 xhi0 c m im h him0 him]
  rw [not_or, not_le, not_le] at h
  have hw : max xlo0 0 ≤ min xhi0 1 := by
    apply max_le
    · exact le_min hlt.le h.1.le
    · exact le_min h.2.le zero_le_one
  by_cases hm : m = 0
  · rw [if_pos hm]
    have h1 : 0 ≤ clip01 c := by unfold clip01; exact le_min (le_max_right _ _) zero_le_one
    have h2 : clip01 c ≤ 1 := by unfold clip01; exact min_le_right _ _
    constructor
    · exact mul_nonneg h1 (by linarith)
    · nlinarith
  · rw [if_neg hm]
    rcases lt_or_gt_of_ne hm with hneg | hpos
    · have hs := clip_primitive_step (m * min xhi0 1 + c) (m * max xlo0 0 + c) (by nlinarith)
      constructor
      · apply div_nonneg_of_nonpos _ hneg.le
        linarith [hs.1]
      · rw [div_le_iff_of_neg hneg]
        nlinarith [hs.2]
    · have hs := clip_primitive_step (m * max xlo0 0 + c) (m * min xhi0 1 + c) (by nlinarith)
      constructor
      · exact div_nonneg hs.1 hpos.le
      · rw [div_le_iff₀ hpos]
        nlinarith [hs.2]

/-- Where `sgarea` computes `xtop`, it lies between the trimmed `xlo` and
`xhi`. -/
theorem sgarea_xtop_between (x1 y1 x2 : ℚ) (sgn_dx : Int) (m : ℚ)
    (hlt : (if sgn_dx < 0 then x2 else x1) < (if sgn_dx < 0 then x1 else x2))
    (a ya b yb t : ℚ) (h : sgarea_xtop x1 y1 x2 sgn_dx m (1 / m) = some (a, ya, b, yb, t)) :
    a ≤ t ∧ t ≤ b := by
  unfold sgarea_xtop at h
  generalize (if sgn_dx < 0 then x2 else x1) = xlo0 at h hlt
  generalize (if sgn_dx < 0 then x1 else x2) = xhi0 at h hlt
  simp only [] at h
  generalize hc : y1 - m * x1 = c at h
  by_cases hm0 : m = 0
  · subst hm0
    simp at h
  have htop : m * ((1 - c) * (1 / m)) + c = 1 := by field_simp
  have hzero : m * ((-c) * (1 / m)) + c = 0 := by field_simp; ring
  generalize (1 - c) * (1 / m) = T at h htop
  generalize (-c) * (1 / m) = Z at h hzero
  have him : ¬ (1 / m = 0) := by
    intro h0
    exact hm0 (by simpa using h0)
  rw [if_neg him] at h
  by_cases h2 : 1 ≤ xlo0 ∨ xhi0 ≤ 0
  · rw [if_pos h2] at h
    exact Option.noConfusion h
  rw [if_neg h2] at h
  rw [not_or, not_le, not_le] at h2
  have hw : max xlo0 0 < min xhi0 1 := by
    apply max_lt
    · exact lt_min hlt h2.1
    · exact lt_min h2.2 zero_lt_one
  generalize max xlo0 0 = A at h hw
  generalize min xhi0 1 = B at h hw
  by_cases h3 : m * A + c ≤ 0 ∧ m * B + c ≤ 0
  · rw [if_pos h3] at h
    exact Option.noConfusion h
  rw [if_neg h3] at h
  by_cases h4 : 1 ≤ m * A + c ∧ 1 ≤ m * B + c
  · rw [if_pos h4] at h
    exact Option.noConfusion h
  rw [if_neg h4] at h
  rw [not_and_or, not_le, not_le] at h3 h4
  have key : ∀ u v : ℚ, m * u + c < m * v + c → (0 < m → u < v) ∧ (m < 0 → v < u) := by
    intro u v huv
    constructor
    · intro hm
      by_contra hcon
      rw [not_lt] at hcon
      nlinarith [mul_le_mul_of_nonneg_left hcon hm.le]
    · intro hm
      by_contra hcon
      rw [not_lt] at hcon
      nlinarith [mul_le_mul_of_nonpos_left hcon hm.le]
  have key1 : ∀ u v : ℚ, m * u + c ≤ m * v + c → (0 < m → u ≤ v) ∧ (m < 0 → v ≤ u) := by
    intro u v huv
    constructor
    · intro hm
      by_contra hcon
      rw [not_le] at hcon
      nlinarith [mul_lt_mul_of_pos_left hcon hm]
    · intro hm
      by_contra hcon
      rw [not_le] at hcon
      nlinarith [mul_lt_mul_of_neg_left hcon hm]
  by_cases hl : m * A + c < 0 <;> by_cases hh : m * B + c < 0
  · exfalso
    rcases h3 with h3 | h3 <;> linarith
  · simp only [hl, hh, if_true, if_false] at h
    rw [if_pos zero_le_one] at h
    have hpos : 0 < m := by
      rcases lt_or_gt_of_ne hm0 with hneg | hpos
      · have := (key A B (by linarith [not_lt.mp hh])).2 hneg
        linarith
      · exact hpos
    split_ifs at h with h5
    obtain ⟨rfl, _, rfl, _, rfl⟩ : Z = a ∧ _ = ya ∧ B = b ∧ _ = yb ∧ T = t := by
      have := Option.some.inj h
      simp only [Prod.mk.injEq] at this
      exact this
    rw [not_le] at h5
    exact ⟨(key1 Z T (by linarith)).1 hpos, (key1 T B (by linarith)).1 hpos⟩
  · simp only [hl, hh, if_true, if_false] at h
    rw [if_pos zero_le_one] at h
    have hneg : m < 0 := by
      rcases lt_or_gt_of_ne hm0 with hneg | hpos
      · exact hneg
      · have := (key B A (by linarith [not_lt.mp hl])).1 hpos
        linarith
    split_ifs at h with h5
    · obtain ⟨rfl, _, rfl, _, rfl⟩ : A = a ∧ _ = ya ∧ Z = b ∧ _ = yb ∧ T = t := by
        have := Option.some.inj h
        simp only [Prod.mk.injEq] at this
        exact this
      rw [not_le] at h5
      exact ⟨(key1 T A (by linarith)).2 hneg, (key1 Z T (by linarith)).2 hneg⟩
  · simp only [hl, hh, if_false] at h
    rw [not_lt] at hl hh
    split_ifs at h with h5 h6
    · obtain ⟨rfl, _, rfl, _, rfl⟩ : A = a ∧ _ = ya ∧ B = b ∧ _ = yb ∧ T = t := by
        have := Option.some.inj h
        simp only [Prod.mk.injEq] at this
        exact this
      rw [not_le] at h6
      have hpos : 0 < m := by
        rcases lt_or_gt_of_ne hm0 with hneg | hpos
        · have := (key A B (by linarith)).2 hneg
          linarith
        · exact hpos
      exact ⟨(key1 A T (by linarith)).1 hpos, (key1 T B (by linarith)).1 hpos⟩
    · obtain ⟨rfl, _, rfl, _, rfl⟩ : A = a ∧ _ = ya ∧ B = b ∧ _ = yb ∧ T = t := by
        have := Option.some.inj h
        simp only [Prod.mk.injEq] at this
        exact this
      rw [not_le] at h5
      have hB : m * B + c < 1 := by
        rcases h4 with h4 | h4
        · linarith
        · exact h4
      have hneg : m < 0 := by
        rcases lt_or_gt_of_ne hm0 with hneg | hpos
        · exact hneg
        · have := (key B A (by linarith)).1 hpos
          linarith
      exact ⟨(key1 T A (by linarith)).2 hneg, (key1 B T (by linarith)).2 hneg⟩

/-- The value of `sgarea` at the statements that use `xtop` (lines 151 and
155), in terms of the values `sgarea_xtop` records. -/
theorem sgareaQ_of_xtop (x1 y1 x2 : ℚ) (sgn_dx : Int) (m im : ℚ) (a ya b yb t : ℚ)
    (h : sgarea_xtop x1 y1 x2 sgn_dx m im = some (a, ya, b, yb, t)) :
    sgareaQ x1 y1 x2 sgn_dx m im = (sgn_dx : ℚ) *
      (if ya ≤ 1 then 1 / 2 * (t - a) * (1 + ya) + b - t
        else 1 / 2 * (b - t) * (1 + yb) + t - a) := by
  unfold sgarea_xtop at h
  unfold sgareaQ
  simp only [] at h ⊢
  by_cases h1 : im = 0
  · rw [if_pos h1] at h
    exact Option.noConfusion h
  rw [if_neg h1] at h ⊢
  generalize (if sgn_dx < 0 then x2 else x1) = xlo0 at h ⊢
  generalize (if sgn_dx < 0 then x1 else x2) = xhi0 at h ⊢
  by_cases h2 : 1 ≤ xlo0 ∨ xhi0 ≤ 0
  · rw [if_pos h2] at h
    exact Option.noConfusion h
  rw [if_neg h2] at h ⊢
  generalize max xlo0 0 = A at h ⊢
  generalize min xhi0 1 = B at h ⊢
  generalize y1 - m * x1 = c at h ⊢
  by_cases h3 : m * A + c ≤ 0 ∧ m * B + c ≤ 0
  · rw [if_pos h3] at h
    exact Option.noConfusion h
  rw [if_neg h3] at h ⊢
  by_cases h4 : 1 ≤ m * A + c ∧ 1 ≤ m * B + c
  · rw [if_pos h4] at h
    exact Option.noConfusion h
  rw [if_neg h4] at h ⊢
  generalize (if m * A + c < 0 then -c * im else A) = xlo1 at h ⊢
  generalize (if m * A + c < 0 then 0 else m * A + c) = ylo1 at h ⊢
  generalize (if m * B + c < 0 then -c * im else B) = xhi1 at h ⊢
  generalize (if m * B + c < 0 then 0 else m * B + c) = yhi1 at h ⊢
  by_cases h5 : ylo1 ≤ 1
  · rw [if_pos h5] at h ⊢
    by_cases h6 : yhi1 ≤ 1
    · rw [if_pos h6] at h
      exact Option.noConfusion h
    · rw [if_neg h6] at h ⊢
      obtain ⟨rfl, rfl, rfl, rfl, rfl⟩ : xlo1 = a ∧ ylo1 = ya ∧ xhi1 = b ∧ yhi1 = yb ∧ _ = t := by
        have := Option.some.inj h
        simp only [Prod.mk.injEq] at this
        exact this
      rw [if_pos h5]
  · rw [if_neg h5] at h ⊢
    obtain ⟨rfl, rfl, rfl, rfl, rfl⟩ : xlo1 = a ∧ ylo1 = ya ∧ xhi1 = b ∧ yhi1 = yb ∧ _ = t := by
      have := Option.some.inj h
      simp only [Prod.mk.injEq] at this
      exact this
    rw [if_neg h5]

/-- C27: `sgarea` is a bounded, correctly signed sub-area.  For an edge with
finite end points, `x1 ≠ x2`, `sgn_dx` the sign of `x2 − x1`,
`slope = (y2 − y1)/(x2 − x1)`, and `inv_slope ≠ 0` with `inv_slope = 1/slope`
when `slope ≠ 0`: the result is finite; when the x-extent of the edge meets
`(0, 1)`, `0 ≤ sgn_dx·sgarea ≤ min(max(x1,x2), 1) − max(min(x1,x2), 0) ≤ 1`;
otherwise `sgarea = 0`; and wherever `sgarea` computes `xtop`, after the
trimming steps `xlo ≤ xtop ≤ xhi`. -/
theorem sgarea_bounded (x1 y1 x2 y2 : ℚ) (sgn_dx : Int) (inv_slope : Dbl)
    (hx : x1 ≠ x2) (hs : sgn_dx = if x1 < x2 then 1 else -1)
    (h0 : Dbl.feq inv_slope (Dbl.fin 0) = false)
    (hinv : (y2 - y1) / (x2 - x1) ≠ 0 → inv_slope = Dbl.fin (1 / ((y2 - y1) / (x2 - x1)))) :
    ∃ r : ℚ,
      sgarea (Dbl.fin x1) (Dbl.fin y1) (Dbl.fin x2) (Dbl.fin y2) sgn_dx
        (Dbl.fin ((y2 - y1) / (x2 - x1))) inv_slope = Dbl.fin r ∧
      (min x1 x2 < 1 ∧ 0 < max x1 x2 →
        0 ≤ (sgn_dx : ℚ) * r ∧ (sgn_dx : ℚ) * r ≤ min (max x1 x2) 1 - max (min x1 x2) 0 ∧
        min (max x1 x2) 1 - max (min x1 x2) 0 ≤ 1) ∧
      (¬ (min x1 x2 < 1 ∧ 0 < max x1 x2) → r = 0) ∧
      (∀ a ya b yb t : ℚ,
        sgarea_xtop x1 y1 x2 sgn_dx ((y2 - y1) / (x2 - x1)) (1 / ((y2 - y1) / (x2 - x1)))
          = some (a, ya, b, yb, t) → a ≤ t ∧ t ≤ b) := by
  generalize hm : (y2 - y1) / (x2 - x1) = m at hinv ⊢
  have hends : (if sgn_dx < 0 then x2 else x1) = min x1 x2 ∧
      (if sgn_dx < 0 then x1 else x2) = max x1 x2 ∧ (sgn_dx : ℚ) * (sgn_dx : ℚ) = 1 := by
    by_cases h : x1 < x2
    · rw [if_pos h] at hs
      subst hs
      rw [if_neg (by decide), if_neg (by decide), min_eq_left h.le, max_eq_right h.le]
      exact ⟨rfl, rfl, by norm_num⟩
    · rw [if_neg h] at hs
      subst hs
      rw [if_pos (by decide), if_pos (by decide), min_eq_right (not_lt.mp h),
        max_eq_left (not_lt.mp h)]
      exact ⟨rfl, rfl, by norm_num⟩
  have hlt : min x1 x2 < max x1 x2 := by
    rcases lt_or_gt_of_ne hx with h | h
    · rw [min_eq_left h.le, max_eq_right h.le]; exact h
    · rw [min_eq_right h.le, max_eq_left h.le]; exact h
  have main : ∀ im : ℚ, im ≠ 0 → (m ≠ 0 → im = 1 / m) →
      (min x1 x2 < 1 ∧ 0 < max x1 x2 →
        0 ≤ (sgn_dx : ℚ) * sgareaQ x1 y1 x2 sgn_dx m im ∧
        (sgn_dx : ℚ) * sgareaQ x1 y1 x2 sgn_dx m im ≤ min (max x1 x2) 1 - max (min x1 x2) 0 ∧
        min (max x1 x2) 1 - max (min x1 x2) 0 ≤ 1) ∧
      (¬ (min x1 x2 < 1 ∧ 0 < max x1 x2) → sgareaQ x1 y1 x2 sgn_dx m im = 0) := by
    intro im him0 him
    rw [sgareaQ_eq_strip, hends.1, hends.2.1, ← mul_assoc, hends.2.2, one_mul]
    constructor
    · intro hmeet
      have hn : ¬ (1 ≤ min x1 x2 ∨ max x1 x2 ≤ 0) := by
        rw [not_or, not_le, not_le]; exact hmeet
      have hb := strip_area_bounds (min x1 x2) (max x1 x2) (y1 - m * x1) m im hlt hn him0 him
      refine ⟨hb.1, hb.2, ?_⟩
      have := min_le_right (max x1 x2) 1
      have := le_max_right (min x1 x2) 0
      linarith
    · intro hmeet
      have hn : 1 ≤ min x1 x2 ∨ max x1 x2 ≤ 0 := by
        by_contra hcon
        rw [not_or, not_le, not_le] at hcon
        exact hmeet hcon
      unfold strip_area
      rw [if_neg him0, if_pos hn, mul_zero]
  have hxt : ∀ a ya b yb t : ℚ,
      sgarea_xtop x1 y1 x2 sgn_dx m (1 / m) = some (a, ya, b, yb, t) → a ≤ t ∧ t ≤ b := by
    intro a ya b yb t h
    exact sgarea_xtop_between x1 y1 x2 sgn_dx m (by rw [hends.1, hends.2.1]; exact hlt)
      a ya b yb t h
  by_cases hm0 : m = 0
  · subst hm0
    refine ⟨sgareaQ x1 y1 x2 sgn_dx 0 1, sgarea_flat x1 y1 x2 y2 sgn_dx inv_slope h0, ?_, ?_, hxt⟩
    · exact (main 1 one_ne_zero (fun h => absurd rfl h)).1
    · exact (main 1 one_ne_zero (fun h => absurd rfl h)).2
  · rw [hinv hm0]
    have him0 : (1 : ℚ) / m ≠ 0 := one_div_ne_zero hm0
    refine ⟨sgareaQ x1 y1 x2 sgn_dx m (1 / m), sgarea_fin x1 y1 x2 y2 sgn_dx m (1 / m), ?_, ?_, hxt⟩
    · exact (main (1 / m) him0 (fun _ => rfl)).1
    · exact (main (1 / m) him0 (fun _ => rfl)).2

/-- C27 at a concrete input: the diagonal edge `(0, 0) → (1, 1)` of the unit
square. -/
theorem sgarea_bounded_witness :
    ∃ r : ℚ,
      sgarea (Dbl.fin 0) (Dbl.fin 0) (Dbl.fin 1) (Dbl.fin 1) 1 (Dbl.fin ((1 - 0) / (1 - 0)))
        (Dbl.fin 1) = Dbl.fin r ∧
      0 ≤ ((1 : Int) : ℚ) * r ∧
      ((1 : Int) : ℚ) * r ≤ min (max (0 : ℚ) 1) 1 - max (min (0 : ℚ) 1) 0 := by
  obtain ⟨r, h1, h2, _, _⟩ := sgarea_bounded 0 0 1 1 1 (Dbl.fin 1) (by norm_num) (by norm_num)
    (by simp) (fun _ => by congr 1; norm_num)
  exact ⟨r, h1, (h2 (by norm_num)).1, (h2 (by norm_num)).2.1⟩

/-! ## The assertion of `sgarea` -/

/-- The assertion of `sgarea` holds for every edge that is not horizontal:
with the quantities `do_kernel_square` precomputes, a vertical edge is trapped
by `inv_slope == 0` and any other edge with `dy ≠ 0` has `slope ≠ 0`. -/
theorem sgarea_assert_sloped (x1 x2 : Dbl) (sgn_dx : Int) (dx dy : ℚ) (hdy : dy ≠ 0) :
    sgarea_assert_ok x1 x2 sgn_dx (Dbl.fin dy / Dbl.fin dx) (Dbl.fin dx / Dbl.fin dy) = true := by
  unfold sgarea_assert_ok
  rw [Dbl.fin_div_fin dx dy hdy]
  by_cases hdx : dx = 0
  · subst hdx
    simp
  · rw [Dbl.fin_div_fin dy dx hdx]
    have : dy / dx ≠ 0 := div_ne_zero hdy hdx
    simp [this, hdx, hdy]

set_option maxRecDepth 100000 in
theorem unit_pixel_edge0 :
    edge_sgn_dx (quad (unit_pixel_x 0)) 0 = 1 ∧
    edge_slope (quad (unit_pixel_x 0)) (quad (unit_pixel_y 0)) 0 = Dbl.fin 0 ∧
    edge_inv_slope (quad (unit_pixel_x 0)) (quad (unit_pixel_y 0)) 0 = Dbl.pinf ∧
    quad (unit_pixel_x 0) 0 - (Dbl.ofInt 0 - Dbl.fin (1 / 2)) = Dbl.fin 0 ∧
    quad (unit_pixel_x 0) 1 - (Dbl.ofInt 0 - Dbl.fin (1 / 2)) = Dbl.fin 1 ∧
    sgarea_assert_ok (Dbl.fin 0) (Dbl.fin 1) 1 (Dbl.fin 0) Dbl.pinf = false ∧
    boxer_assert_ok (Dbl.ofInt 0) (quad (unit_pixel_x 0)) (edge_sgn_dx (quad (unit_pixel_x 0)))
      (edge_slope (quad (unit_pixel_x 0)) (quad (unit_pixel_y 0)))
      (edge_inv_slope (quad (unit_pixel_x 0)) (quad (unit_pixel_y 0))) = false ∧
    square_cells demo_env (Dbl.fin (1 / 2) * demo_param.pixel_fraction)
      (demo_param.scale * demo_param.scale) (get_dimensions demo_param.output_data)
      demo_param 0 0 0 0 = some (Dbl.fin 1, Dbl.fin 1) := by
  decide!

set_option maxRecDepth 100000 in
theorem unit_pixel_corners :
    interpolate_corners demo_env demo_param
      (corner_xin (Dbl.fin (1 / 2) * demo_param.pixel_fraction) 0)
      (corner_yin (Dbl.fin (1 / 2) * demo_param.pixel_fraction) 0)
      = some (quad (unit_pixel_x 0), quad (unit_pixel_y 0)) ∧
    Dbl.lt (signed_jaco (quad (unit_pixel_x 0)) (quad (unit_pixel_y 0))) (Dbl.fin 0) = false := by
  have e : Dbl.fin (1 / 2) * demo_param.pixel_fraction = Dbl.fin (1 / 2) := by decide!
  rw [e]
  exact ⟨interpolate_corners_identity demo_env demo_param 0 0 (fun _ _ _ => rfl), by decide!⟩

/-- C28 at a failing input: source pixel `(0, 0)` of the 3×3 image under the
identity map with `pixel_fraction = 1`.  `do_kernel_square` maps its corners
to the unit square about `(0, 0)`, makes no swap, and calls `boxer` for the
destination pixel `(0, 0)`.  The first edge, `(−0.5, 0.5) → (0.5, 0.5)`, is
horizontal: `slope = 0/1 = 0` and `inv_slope = 1/0 = +inf`, which is not 0, so
`sgarea` does not return at line 97; the translated x-range `[0, 1]` meets
`(0, 1)`, so it reaches `assert(slope != 0.0)` with `slope = 0`. -/
theorem sgarea_assert_horizontal :
    interpolate_corners demo_env demo_param
      (corner_xin (Dbl.fin (1 / 2) * demo_param.pixel_fraction) 0)
      (corner_yin (Dbl.fin (1 / 2) * demo_param.pixel_fraction) 0)
      = some (quad (unit_pixel_x 0), quad (unit_pixel_y 0)) ∧
    Dbl.lt (signed_jaco (quad (unit_pixel_x 0)) (quad (unit_pixel_y 0))) (Dbl.fin 0) = false ∧
    square_cells demo_env (Dbl.fin (1 / 2) * demo_param.pixel_fraction)
      (demo_param.scale * demo_param.scale) (get_dimensions demo_param.output_data)
      demo_param 0 0 0 0 = some (Dbl.fin 1, Dbl.fin 1) ∧
    edge_sgn_dx (quad (unit_pixel_x 0)) 0 = 1 ∧
    edge_slope (quad (unit_pixel_x 0)) (quad (unit_pixel_y 0)) 0 = Dbl.fin 0 ∧
    edge_inv_slope (quad (unit_pixel_x 0)) (quad (unit_pixel_y 0)) 0 = Dbl.pinf ∧
    quad (unit_pixel_x 0) 0 - (Dbl.ofInt 0 - Dbl.fin (1 / 2)) = Dbl.fin 0 ∧
    quad (unit_pixel_x 0) 1 - (Dbl.ofInt 0 - Dbl.fin (1 / 2)) = Dbl.fin 1 ∧
    sgarea_assert_ok (Dbl.fin 0) (Dbl.fin 1) 1 (Dbl.fin 0) Dbl.pinf = false ∧
    boxer_assert_ok (Dbl.ofInt 0) (quad (unit_pixel_x 0)) (edge_sgn_dx (quad (unit_pixel_x 0)))
      (edge_slope (quad (unit_pixel_x 0)) (quad (unit_pixel_y 0)))
      (edge_inv_slope (quad (unit_pixel_x 0)) (quad (unit_pixel_y 0))) = false := by
  obtain ⟨a1, a2, a3, a4, a5, a6, a7, a8⟩ := unit_pixel_edge0
  exact ⟨unit_pixel_corners.1, unit_pixel_corners.2, a8, a1, a2, a3, a4, a5, a6, a7⟩
